import Mathlib

/-!
# ASCII celestial visualizer: embedding of the time, projection and drawing code

C `double` values are modelled by exact numbers of an ordered field (`ℚ` where the
code only uses field operations, `ℝ` where the value of a trigonometric function
matters), C `int` values by `Int`; where the ranges considered keep an `int`
computation inside 32 bits no wrap-around occurs, and where they do not the conversion
to 32 bits is written out (`to_int32`). The functions of the C library (`<math.h>`,
`mktime`, `qsort`, curses) are not part of the repository: `<math.h>` and `qsort` are
parameters, `mktime` is modelled after its documentation with the time zone of the
process as a parameter, and the curses calls are modelled after their documentation.
-/

namespace Celestial

/-! ## C arithmetic -/

/-- C's conversion `(int)x` of a double: the fractional part is discarded
(truncation toward zero). -/
def c_int {α : Type} [LinearOrderedField α] [FloorRing α] (x : α) : Int :=
  if 0 ≤ x then ⌊x⌋ else ⌈x⌉

/-- C's `floor`, as an integer. -/
def c_floor {α : Type} [LinearOrderedField α] [FloorRing α] (x : α) : Int :=
  ⌊x⌋

/-- C's `round`: nearest integer, halfway cases away from zero. -/
def c_round {α : Type} [LinearOrderedField α] [FloorRing α] (x : α) : Int :=
  if 0 ≤ x then ⌊x + 1 / 2⌋ else ⌈x - 1 / 2⌉

/-- C's `fmod x y`: `x - n * y` with `n` the quotient `x / y` truncated toward zero. -/
def c_fmod {α : Type} [LinearOrderedField α] [FloorRing α] (x y : α) : α :=
  x - (c_int (x / y) : α) * y

/-- Conversion of an integer to `int32_t`. -/
def to_int32 (x : Int) : Int :=
  (x + 2 ^ 31) % 2 ^ 32 - 2 ^ 31

/-! ## astro.c: Julian dates -/

/-- The fields of the ISO C `struct tm` that the code reads and writes. -/
structure tm where
  tm_sec : Int
  tm_min : Int
  tm_hour : Int
  tm_mday : Int
  tm_mon : Int
  tm_year : Int
  deriving DecidableEq, Repr

/-- The integer Julian day number of `datetime_to_julian_date` (eq 436, 437), with
C's truncating integer division. -/
def julian_day_num_of (year month day : Int) : Int :=
  let a := Int.tdiv (month - 14) 12
  let b := 1461 * (year + 4800 + a)
  let c := 367 * (month - 2 - 12 * a)
  let e := Int.tdiv (year + 4900 + a) 100
  Int.tdiv b 4 + Int.tdiv c 12 - Int.tdiv (3 * e) 4 + day - 32075

/-- Embedding of `datetime_to_julian_date`. -/
def datetime_to_julian_date (time : tm) : ℚ :=
  let second := time.tm_sec
  let minute := time.tm_min
  let hour := time.tm_hour
  let day := time.tm_mday
  let month := time.tm_mon + 1
  let year := time.tm_year + 1900
  let julian_day_num := julian_day_num_of year month day
  let julian_day_frac : ℚ :=
    ((hour - 12 : Int) : ℚ) / 24 + (minute : ℚ) / (24 * 60) + (second : ℚ) / (24 * 60 * 60)
  (julian_day_num : ℚ) + julian_day_frac

/-- The calendar date `(year, month, day)` that `julian_date_to_datetime` computes
from the integer day number, with C's truncating integer division. -/
def gregorian_of_day_num (julian_day_num : Int) : Int × Int × Int :=
  let l := julian_day_num + 68569
  let n := Int.tdiv (4 * l) 146097
  let l := l - Int.tdiv (146097 * n + 3) 4
  let i := Int.tdiv (4000 * (l + 1)) 1461001
  let l := l - Int.tdiv (1461 * i) 4 + 31
  let j := Int.tdiv (80 * l) 2447
  let day := l - Int.tdiv (2447 * j) 80
  let l := Int.tdiv j 11
  let month := j + 2 - 12 * l
  let year := 100 * (n - 49) + i + l
  (year, month, day)

/-- Embedding of `julian_date_to_datetime` up to (and excluding) its final call of
`mktime`: the fields as the code stores them in the `struct tm`, computed in exact
arithmetic. In `double` arithmetic the value handed to `floor` can fall just below the
whole number, and the second then comes out one lower; where the day fraction is a
multiple of 1/8 (noon, 15:00, 18:00, midnight, ...) the `double` operations are exact. -/
def julian_date_fields (julian_date : ℚ) : tm :=
  let julian_day_num := c_int julian_date
  let ymd := gregorian_of_day_num julian_day_num
  let julian_day_frac := julian_date - (julian_day_num : ℚ)
  let hour_d := julian_day_frac * 24 + 12
  let minute_d := (hour_d - (c_floor hour_d : ℚ)) * 60
  let second_d := (minute_d - (c_floor minute_d : ℚ)) * 60
  { tm_sec := c_floor second_d
    tm_min := c_floor minute_d
    tm_hour := c_floor hour_d
    tm_mday := ymd.2.2
    tm_mon := ymd.2.1 - 1
    tm_year := ymd.1 - 1900 }

/-- Gregorian leap-year rule. -/
def is_leap_year (year : Int) : Bool :=
  (year % 4 = 0 ∧ year % 100 ≠ 0) ∨ year % 400 = 0

/-- Number of days of month `mon` (0 = January, as in `tm_mon`) of `year`. -/
def days_in_month (year mon : Int) : Int :=
  if mon = 1 then (if is_leap_year year then 29 else 28)
  else if mon = 3 ∨ mon = 5 ∨ mon = 8 ∨ mon = 10 then 30
  else 31

/-- The day-of-month carry of `mktime`: whole months are moved out of (or into) an
out-of-range `tm_mday`, the month index staying in `0..11`. -/
def carry_days : Nat → Int → Int → Int → Int × Int × Int
  | 0, year, mon, mday => (year, mon, mday)
  | fuel + 1, year, mon, mday =>
    if mday > days_in_month year mon then
      if mon = 11 then carry_days fuel (year + 1) 0 (mday - days_in_month year mon)
      else carry_days fuel year (mon + 1) (mday - days_in_month year mon)
    else if mday < 1 then
      if mon = 0 then carry_days fuel (year - 1) 11 (mday + days_in_month (year - 1) 11)
      else carry_days fuel year (mon - 1) (mday + days_in_month year (mon - 1))
    else (year, mon, mday)

/-- The field normalisation performed by the C library's `mktime` ("adjust all
fields to usual range"): seconds carry into minutes, minutes into hours, hours into
days, months into years, and days into months. -/
def normalise_fields (t : tm) : tm :=
  let min := t.tm_min + t.tm_sec / 60
  let hour := t.tm_hour + min / 60
  let mday := t.tm_mday + hour / 24
  let year := t.tm_year + 1900 + t.tm_mon / 12
  let ymd := carry_days (mday.natAbs + 1) year (t.tm_mon % 12) mday
  { tm_sec := t.tm_sec % 60
    tm_min := min % 60
    tm_hour := hour % 24
    tm_mday := ymd.2.2
    tm_mon := ymd.2.1
    tm_year := ymd.1 - 1900 }

/-- What `mktime` takes from the time zone of the process: whether daylight saving time
(one hour ahead of standard time) is in effect at an instant, given by its normalised
fields in local standard time, and whether the instant can be represented as a
`time_t`. -/
structure TimeZone where
  daylight : tm → Bool
  representable : tm → Bool

/-- The C library's `mktime`, called on a `struct tm` whose `tm_isdst` is 0 (the
initialiser of `julian_date_to_datetime` names six fields and leaves `tm_isdst` zero):
the fields are read as local standard time and normalised; where daylight saving time
is in effect at that instant, the fields become those of the same instant in daylight
saving time, one hour later; an instant that cannot be represented leaves every field
as it was. -/
def mktime (zone : TimeZone) (t : tm) : tm :=
  let standard := normalise_fields t
  if zone.representable standard then
    (if zone.daylight standard then
      normalise_fields { standard with tm_hour := standard.tm_hour + 1 }
    else standard)
  else t

/-- Embedding of `julian_date_to_datetime`: the computed fields, handed to `mktime` in
the time zone of the process. -/
def julian_date_to_datetime (zone : TimeZone) (julian_date : ℚ) : tm :=
  mktime zone (julian_date_fields julian_date)

/-- A time zone without daylight saving time, such as UTC. -/
def zone_without_daylight : TimeZone where
  daylight := fun _ => false
  representable := fun _ => true

/-- A time zone that keeps daylight saving time from April to September at least, as
every zone of Central European Time does. -/
def zone_with_summer_time : TimeZone where
  daylight := fun t => decide (3 ≤ t.tm_mon ∧ t.tm_mon ≤ 8)
  representable := fun _ => true

/-- A calendar instant with every field in its usual range: a real day of the
Gregorian calendar and a time of day below 24:00:00. -/
def valid_instant (t : tm) : Prop :=
  0 ≤ t.tm_sec ∧ t.tm_sec ≤ 59 ∧ 0 ≤ t.tm_min ∧ t.tm_min ≤ 59 ∧
  0 ≤ t.tm_hour ∧ t.tm_hour ≤ 23 ∧ 0 ≤ t.tm_mon ∧ t.tm_mon ≤ 11 ∧
  1 ≤ t.tm_mday ∧ t.tm_mday ≤ days_in_month (t.tm_year + 1900) t.tm_mon

/-! ## `<math.h>` -/

/-- The constant `M_PI` and the functions of `<math.h>` that the code calls, over the
number type `α` that stands for `double`. -/
structure Libm (α : Type) where
  M_PI : α
  sin : α → α
  cos : α → α
  tan : α → α
  asin : α → α
  atan2 : α → α → α
  sqrt : α → α

/-- The real-number reading of `<math.h>`: `M_PI` is π and every function is the
mathematical one (`atan2 y x` is the argument of `x + y i`). -/
noncomputable def real_libm : Libm ℝ where
  M_PI := Real.pi
  sin := Real.sin
  cos := Real.cos
  tan := Real.tan
  asin := Real.arcsin
  atan2 := fun y x => Complex.arg ⟨x, y⟩
  sqrt := Real.sqrt

section Astro

variable {α : Type} [LinearOrderedField α] [FloorRing α]

/-- The macro `TO_RAD` of macros.h: `M_PI / 180.0`. -/
def TO_RAD (lib : Libm α) : α :=
  lib.M_PI / 180

/-! ## astro.c: Earth orientation -/

/-- Embedding of `norm_rad`. -/
def norm_rad (lib : Libm α) (rad : α) : α :=
  let rem := c_fmod rad (2 * lib.M_PI)
  rem + (if rem < 0 then 2 * lib.M_PI else 0)

/-- Embedding of `earth_rotation_angle_rad`. -/
def earth_rotation_angle_rad (lib : Libm α) (jd : α) : α :=
  let t := jd - 2451545.0
  let d := jd - (c_floor jd : α)
  let theta := 2.0 * lib.M_PI * (d + 0.7790572732640 + 0.00273781191135448 * t)
  norm_rad lib theta

/-- Embedding of `greenwich_mean_sidereal_time_rad`. -/
def greenwich_mean_sidereal_time_rad (lib : Libm α) (jd : α) : α :=
  let t := (jd - 2451545.0) / 36525.0
  let acc_precession_sec := -0.014506 - 4612.156534 * t - 1.3915817 * t ^ 2 + 0.00000044 * t ^ 3 +
    0.000029956 * t ^ 4 + 0.0000000368 * t ^ 5
  let acc_precession_rad := acc_precession_sec / 3600.0 * lib.M_PI / 180.0
  let gmst := earth_rotation_angle_rad lib jd - acc_precession_rad
  norm_rad lib gmst

/-! ## astro.c: Kepler's equation -/

/-- Embedding of `solve_kepler`: one Newton correction `dE`. -/
def solve_kepler (lib : Libm α) (M e E : α) : α :=
  let dM := M - (E - e / TO_RAD lib * lib.sin (E * TO_RAD lib))
  let dE := dM / (1.0 - e * lib.cos (E * TO_RAD lib))
  dE

/-- The loop `while (fabs(dE) > 1E-6 && n < 10) { dE = solve_kepler(M, e, E); E += dE; n++; }`
shared by `calc_planet_helio_ICRF` and `calc_moon_geo_ICRF`, from the state `(dE, E, n)`;
it returns the state in which the loop is left. -/
def kepler_loop (lib : Libm α) (M e : α) (dE E : α) (n : Nat) : α × α × Nat :=
  if 1e-6 < |dE| ∧ n < 10 then
    kepler_loop lib M e (solve_kepler lib M e E) (E + solve_kepler lib M e E) (n + 1)
  else (dE, E, n)
termination_by 10 - n
decreasing_by omega

/-- The eccentric-anomaly computation of `calc_planet_helio_ICRF` (the seed `E` and
the Newton loop started with `dE = 1.0`, `n = 0`): the final `E` and the number `n`
of correction steps performed. -/
def planet_eccentric_anomaly (lib : Libm α) (M e : α) : α × Nat :=
  let e_star := 180.0 / lib.M_PI * e
  let E := M + e_star * lib.sin (M * TO_RAD lib)
  let s := kepler_loop lib M e 1.0 E 0
  (s.2.1, s.2.2)

/-- The eccentric-anomaly computation of `calc_moon_geo_ICRF`: as for a planet, with
the extra factor `(1.0 + e * cos M)` in the seed. -/
def moon_eccentric_anomaly (lib : Libm α) (M e : α) : α × Nat :=
  let e_star := 180.0 / lib.M_PI * e
  let E := M + e_star * lib.sin (M * TO_RAD lib) * (1.0 + e * lib.cos (M * TO_RAD lib))
  let s := kepler_loop lib M e 1.0 E 0
  (s.2.1, s.2.2)

/-! ## coord.c -/

/-- Embedding of `horizontal_to_spherical`: `(point_theta, point_phi)`. -/
def horizontal_to_spherical (lib : Libm α) (azimuth altitude : α) : α × α :=
  (lib.M_PI / 2 - azimuth, lib.M_PI / 2 - altitude)

/-- Embedding of `project_stereographic`: `(radius_polar, theta_polar)`. -/
def project_stereographic (lib : Libm α) (sphere_radius point_theta point_phi center_theta
    center_phi : α) : α × α :=
  let c := |center_phi - point_phi|
  (sphere_radius * lib.tan (c / 2.0), point_theta - center_theta)

/-- Embedding of `project_stereographic_north`: `(radius_polar, theta_polar)`. -/
def project_stereographic_north (lib : Libm α) (sphere_radius theta_point point_phi : α) :
    α × α :=
  let c := |0.0 - point_phi|
  (sphere_radius * lib.tan (c / 2.0), lib.M_PI - theta_point)

/-- Embedding of `polar_to_win`: `(row, col)`. -/
def polar_to_win (lib : Libm α) (r theta : α) (win_height win_width : Int) : Int × Int :=
  let maxy := win_height - 1
  let maxx := win_width - 1
  let rad_y : α := (maxy : α) / 2.0
  let rad_x : α := (maxx : α) / 2.0
  let row_d := r * -rad_y * lib.sin theta + rad_y
  let col_d := r * rad_x * lib.cos theta + rad_x
  (c_round row_d, c_round col_d)

/-- Embedding of `horizontal_to_polar` (core_render.c): `(radius, theta)`. -/
def horizontal_to_polar (lib : Libm α) (azimuth altitude : α) : α × α :=
  let sph := horizontal_to_spherical lib azimuth altitude
  project_stereographic_north lib 1.0 sph.1 sph.2

end Astro

/-! ## The curses window

A window is its size, the colour pair switched on at the moment, and the list of the
character cells written so far, the most recent first. A cell that was never written
is blank. -/

/-- One written character cell. -/
structure Cell where
  row : Int
  col : Int
  ch : Char
  color_pair : Int
  deriving DecidableEq, Repr

/-- The state of a curses `WINDOW`. -/
structure WINDOW where
  height : Int
  width : Int
  color_pair : Int
  cells : List Cell
  deriving DecidableEq, Repr

/-- A blank window of the given size (`newwin`). -/
def newwin (height width : Int) : WINDOW :=
  { height := height, width := width, color_pair := 0, cells := [] }

/-- The cell `(y, x)` lies inside the window. -/
def in_window (win : WINDOW) (y x : Int) : Bool :=
  decide (0 ≤ y ∧ y < win.height ∧ 0 ≤ x ∧ x < win.width)

/-- Store a character in a cell, with the colour pair that is switched on. -/
def put_cell (win : WINDOW) (y x : Int) (ch : Char) : WINDOW :=
  { win with cells := { row := y, col := x, ch := ch, color_pair := win.color_pair } :: win.cells }

/-- The curses call `mvwaddch`: a position outside the window is an error and nothing
is written. -/
def mvwaddch (win : WINDOW) (y x : Int) (ch : Char) : WINDOW :=
  if in_window win y x then put_cell win y x ch else win

/-- The characters of a string written from the cursor `(y, x)` on, wrapping at the
right margin and stopping at the end of the window (`waddstr`). -/
def waddstr_chars : List Char → WINDOW → Int → Int → WINDOW
  | [], win, _, _ => win
  | ch :: rest, win, y, x =>
    if in_window win y x then
      if x + 1 < win.width then waddstr_chars rest (put_cell win y x ch) y (x + 1)
      else waddstr_chars rest (put_cell win y x ch) (y + 1) 0
    else win

/-- The curses call `mvwaddstr`: one cell per character of the string. -/
def mvwaddstr (win : WINDOW) (y x : Int) (str : String) : WINDOW :=
  if in_window win y x then waddstr_chars str.toList win y x else win

/-- The curses calls `wattron(win, COLOR_PAIR(n))` and `wattroff(win, COLOR_PAIR(n))`. -/
def wattron_color (win : WINDOW) (pair : Int) : WINDOW :=
  { win with color_pair := pair }

/-- See `wattron_color`. -/
def wattroff_color (win : WINDOW) (_pair : Int) : WINDOW :=
  { win with color_pair := 0 }

/-- The character shown in cell `(y, x)`: the most recent one written there, `none`
for a cell that was never written. -/
def glyph_at (win : WINDOW) (y x : Int) : Option Char :=
  (win.cells.find? (fun c => decide (c.row = y ∧ c.col = x))).map Cell.ch

/-- The positions of the cells that were written. -/
def written_cells (win : WINDOW) : Finset (Int × Int) :=
  (win.cells.map (fun c => (c.row, c.col))).toFinset

/-- Embedding of `mvwaddstr_truncate` (term.c): the string cut to the space left on
the line. -/
def mvwaddstr_truncate (win : WINDOW) (y x : Int) (str : String) : WINDOW :=
  let max_x := win.width
  let space_left := max_x - x
  if space_left > 0 then mvwaddstr win y x (str.take space_left.toNat) else win

/-! ## drawing.c -/

/-- The loop of `draw_line_ASCII` for `abs(dy) >= abs(dx)`, from the loop state
`(y, x)`; `none` when `fuel` iterations do not reach the end of the loop. -/
def draw_line_ASCII_rows (ya xa dy sy : Int) (sx : ℚ) (slope : Char) :
    Nat → Int → ℚ → WINDOW → Option WINDOW
  | 0, _, _, _ => none
  | fuel + 1, y, x, w =>
    if |y| ≤ |dy| then
      let curr_y := ya + y
      let curr_x := xa + c_round x
      let next_x := xa + c_round (x + sx)
      let w := mvwaddch w curr_y curr_x '|'
      let w := if next_x ≠ curr_x then mvwaddch w curr_y curr_x slope else w
      draw_line_ASCII_rows ya xa dy sy sx slope fuel (y + sy) (x + sx) w
    else some w

/-- The loop of `draw_line_ASCII` for `abs(dy) < abs(dx)`, from the loop state
`(y, x)`. -/
def draw_line_ASCII_cols (ya xa yb dy dx : Int) (sy : ℚ) (sx : Int) (slope : Char) :
    Nat → ℚ → Int → WINDOW → Option WINDOW
  | 0, _, _, _ => none
  | fuel + 1, y, x, w =>
    if |x| ≤ |dx| then
      let curr_y := ya + c_round y
      let curr_x := xa + x
      let next_y := ya + c_round (y + sy)
      let next_x := xa + x + sx
      let horizontal : Char := if ya = yb then '-' else '_'
      let w := mvwaddch w curr_y curr_x horizontal
      if next_y ≠ curr_y then
        if dy > 0 then
          if curr_y ≠ yb then
            draw_line_ASCII_cols ya xa yb dy dx sy sx slope fuel (y + sy + sy) (x + sx + sx)
              (mvwaddch w next_y next_x slope)
          else draw_line_ASCII_cols ya xa yb dy dx sy sx slope fuel (y + sy) (x + sx) w
        else
          draw_line_ASCII_cols ya xa yb dy dx sy sx slope fuel (y + sy) (x + sx)
            (mvwaddch w curr_y curr_x slope)
      else draw_line_ASCII_cols ya xa yb dy dx sy sx slope fuel (y + sy) (x + sx) w
    else some w

/-- Embedding of `draw_line_ASCII`; `fuel` bounds the number of loop iterations, and the
result is `none` when the loop has not ended within it. The step `(double)dx / abs(dy)`
of two identical endpoints divides by zero in C; it is `0` here. -/
def draw_line_ASCII (fuel : Nat) (win : WINDOW) (ya xa yb xb : Int) : Option WINDOW :=
  let dy := yb - ya
  let dx := xb - xa
  let slope : Char :=
    if dx > 0 then (if dy > 0 then '\\' else '/') else (if dy > 0 then '/' else '\\')
  if |dy| ≥ |dx| then
    let sy : Int := if dy > 0 then 1 else -1
    let sx : ℚ := (dx : ℚ) / ((|dy| : Int) : ℚ)
    draw_line_ASCII_rows ya xa dy sy sx slope fuel 0 0 win
  else
    let sy : ℚ := (dy : ℚ) / ((|dx| : Int) : ℚ)
    let sx : Int := if dx > 0 then 1 else -1
    draw_line_ASCII_cols ya xa yb dy dx sy sx slope fuel 0 0 win

/-- The loop of `draw_line_smooth` for `abs(dy) > abs(dx)`. -/
def draw_line_smooth_rows (ya xa xb dy sy : Int) (sx : ℚ) (joint_a joint_b : String) :
    Nat → Int → ℚ → WINDOW → Option WINDOW
  | 0, _, _, _ => none
  | fuel + 1, y, x, w =>
    if |y| ≤ |dy| then
      let curr_y := ya + y
      let curr_x := xa + c_round x
      let next_x := xa + c_round (x + sx)
      let w := mvwaddstr w curr_y curr_x "│"
      let w :=
        if curr_x ≠ next_x ∧ curr_x ≠ xb then
          mvwaddstr (mvwaddstr w curr_y curr_x joint_a) curr_y next_x joint_b
        else w
      draw_line_smooth_rows ya xa xb dy sy sx joint_a joint_b fuel (y + sy) (x + sx) w
    else some w

/-- The loop of `draw_line_smooth` for `abs(dy) <= abs(dx)`. -/
def draw_line_smooth_cols (ya xa yb dx : Int) (sy : ℚ) (sx : Int) (joint_a joint_b : String) :
    Nat → ℚ → Int → WINDOW → Option WINDOW
  | 0, _, _, _ => none
  | fuel + 1, y, x, w =>
    if |x| ≤ |dx| then
      let curr_y := ya + c_round y
      let curr_x := xa + x
      let next_y := ya + c_round (y + sy)
      let w := mvwaddstr w curr_y curr_x "─"
      let w :=
        if curr_y ≠ next_y ∧ curr_y ≠ yb then
          mvwaddstr (mvwaddstr w curr_y curr_x joint_a) next_y curr_x joint_b
        else w
      draw_line_smooth_cols ya xa yb dx sy sx joint_a joint_b fuel (y + sy) (x + sx) w
    else some w

/-- Embedding of `draw_line_smooth`; `fuel` as in `draw_line_ASCII`. -/
def draw_line_smooth (fuel : Nat) (win : WINDOW) (ya xa yb xb : Int) : Option WINDOW :=
  let dy := yb - ya
  let dx := xb - xa
  if |dy| > |dx| then
    let joint_a : String :=
      if dx > 0 then (if dy > 0 then "╰" else "╭") else (if dy > 0 then "╯" else "╮")
    let joint_b : String :=
      if dx > 0 then (if dy > 0 then "╮" else "╯") else (if dy > 0 then "╭" else "╰")
    let sy : Int := if dy > 0 then 1 else -1
    let sx : ℚ := (dx : ℚ) / ((|dy| : Int) : ℚ)
    draw_line_smooth_rows ya xa xb dy sy sx joint_a joint_b fuel 0 0 win
  else
    let joint_a : String :=
      if dy > 0 then (if dx > 0 then "╮" else "╭") else (if dx > 0 then "╯" else "╰")
    let joint_b : String :=
      if dy > 0 then (if dx > 0 then "╰" else "╯") else (if dx > 0 then "╭" else "╮")
    let sy : ℚ := (dy : ℚ) / ((|dx| : Int) : ℚ)
    let sx : Int := if dx > 0 then 1 else -1
    draw_line_smooth_cols ya xa yb dx sy sx joint_a joint_b fuel 0 0 win

/-! ## core.h, core_render.c, core.c -/

/-- The `struct Conf` of core.h (without the date string). -/
structure Conf (α : Type) where
  longitude : α
  latitude : α
  threshold : α
  label_thresh : α
  fps : Int
  speed : α
  julian_date : α
  aspect_ratio : α
  quit_on_any : Bool
  unicode : Bool
  color : Bool
  grid : Bool
  constell : Bool
  metadata : Bool

/-- The `struct ObjectBase` of core.h; a `NULL` label is `none`. -/
structure ObjectBase (α : Type) where
  azimuth : α
  altitude : α
  color_pair : Int
  symbol_ASCII : Char
  symbol_unicode : String
  label : Option String

/-- The `struct Star` of core.h. -/
structure Star (α : Type) where
  base : ObjectBase α
  catalog_number : Int
  right_ascension : α
  declination : α
  ra_motion : α
  dec_motion : α
  magnitude : α

section Core

variable {α : Type} [LinearOrderedField α] [FloorRing α]

/-- Embedding of `render_object_stereo`; `getmaxyx` reads the size of the window. -/
def render_object_stereo (lib : Libm α) (win : WINDOW) (object : ObjectBase α)
    (config : Conf α) : WINDOW :=
  let polar := horizontal_to_polar lib object.azimuth object.altitude
  let radius_polar := polar.1
  let theta_polar := polar.2
  let height := win.height
  let width := win.width
  let yx := polar_to_win lib radius_polar theta_polar height width
  let y := yx.1
  let x := yx.2
  if |radius_polar| > 1 then win
  else
    let use_color := config.color && decide (object.color_pair ≠ 0)
    let win := if use_color then wattron_color win object.color_pair else win
    let win :=
      if config.unicode then mvwaddstr win y x object.symbol_unicode
      else mvwaddch win y x object.symbol_ASCII
    let win :=
      match object.label with
      | some label => mvwaddstr_truncate win (y - 1) (x + 1) label
      | none => win
    let win := if use_color then wattroff_color win object.color_pair else win
    win

/-- Embedding of `star_magnitude_comparator`. -/
def star_magnitude_comparator (p1 p2 : Star α) : Int :=
  if p1.magnitude < p2.magnitude then 1
  else if p1.magnitude > p2.magnitude then -1
  else 0

/-- What ISO C asks of a comparison function handed to `qsort`: the same objects
always compare the same way and the results define a total ordering. -/
def consistent_comparator {β : Type} (compar : β → β → Int) : Prop :=
  (∀ a b, 0 < compar a b ↔ compar b a < 0) ∧
  (∀ a b c, compar a b ≤ 0 → compar b c ≤ 0 → compar a c ≤ 0)

/-- What ISO C promises of the library function `qsort`, the array being a list: with
a consistent comparison function the result is a rearrangement of the array in
ascending order according to that function. Nothing is promised about the order of
elements that compare as equal. -/
def qsort_contract {β : Type} (qsort : (β → β → Int) → List β → List β) : Prop :=
  ∀ (compar : β → β → Int) (base : List β), consistent_comparator compar →
    (qsort compar base).Perm base ∧ (qsort compar base).Pairwise (fun a b => compar a b ≤ 0)

/-- Embedding of `star_numbers_by_magnitude`. The library's `qsort` is a parameter, and
so is the outcome of each of the two calls of `malloc` (`true`: memory was obtained);
the result is `none` where the code returns `false`, the filled array otherwise. -/
def star_numbers_by_magnitude (qsort : (Star α → Star α → Int) → List (Star α) → List (Star α))
    (table_copy_allocated num_by_mag_allocated : Bool) (star_table : List (Star α)) :
    Option (List Int) :=
  if !table_copy_allocated then none
  else
    let table_copy := qsort star_magnitude_comparator star_table
    if !num_by_mag_allocated then none
    else some (table_copy.map (fun s => s.catalog_number))

end Core

/-! ## Sample inputs -/

/-- An object 45° below the horizon (altitude `-π/4`), due north. -/
noncomputable def sample_object_below_horizon : ObjectBase ℝ where
  azimuth := 0
  altitude := -(Real.pi / 4)
  color_pair := 3
  symbol_ASCII := 'O'
  symbol_unicode := "●"
  label := some "Sirius"

/-- A rendering configuration with colour and Unicode glyphs switched on. -/
noncomputable def sample_conf : Conf ℝ where
  longitude := 0
  latitude := 0
  threshold := 5
  label_thresh := 2
  fps := 24
  speed := 1
  julian_date := 2451545
  aspect_ratio := 2
  quit_on_any := false
  unicode := true
  color := true
  grid := false
  constell := false
  metadata := false

/-- A library `qsort` that sorts by insertion: one function that meets `qsort_contract`. -/
def insertion_qsort {β : Type} (compar : β → β → Int) (base : List β) : List β :=
  base.insertionSort (fun a b => compar a b ≤ 0)

/-- A star of the given catalog number and magnitude, its other fields zero. -/
def sample_star (catalog_number : Int) (magnitude : ℚ) : Star ℚ where
  base := { azimuth := 0, altitude := 0, color_pair := 0, symbol_ASCII := '.',
            symbol_unicode := "⋅", label := none }
  catalog_number := catalog_number
  right_ascension := 0
  declination := 0
  ra_motion := 0
  dec_motion := 0
  magnitude := magnitude

/-- A star table of four stars, two of them of equal magnitude. -/
def sample_star_table : List (Star ℚ) :=
  [sample_star 1 (67 / 10), sample_star 2 (-146 / 100), sample_star 3 (67 / 10),
    sample_star 4 (3 / 100)]

/-! ## astro.c: lunar phase and the calendar date of a Julian date -/

/-- The `enum MoonPhase` of astro.h. -/
inductive MoonPhase where
  | NEW_MOON
  | WAXING_CRESCENT
  | FIRST_QUARTER
  | WAXING_GIBBOUS
  | FULL_MOON
  | WANING_GIBBOUS
  | LAST_QUARTER
  | WANING_CRESCENT
  deriving DecidableEq, Repr

/-- Embedding of `moon_age_to_phase`. -/
def moon_age_to_phase {α : Type} [LinearOrderedField α] (age : α) : MoonPhase :=
  if age < 0.03 ∨ age > 0.97 then MoonPhase.NEW_MOON
  else if age < 0.25 then MoonPhase.WAXING_CRESCENT
  else if age < 0.27 then MoonPhase.FIRST_QUARTER
  else if age < 0.50 then MoonPhase.WAXING_GIBBOUS
  else if age < 0.53 then MoonPhase.FULL_MOON
  else if age < 0.75 then MoonPhase.WANING_GIBBOUS
  else if age < 0.77 then MoonPhase.LAST_QUARTER
  else MoonPhase.WANING_CRESCENT

/-- Embedding of `julian_to_gregorian`: `(year, month, day)`. The `int` division
`j_alpha / 4` truncates; every other quotient is a `double` cut by `(int)`. -/
def julian_to_gregorian (jd : ℚ) : Int × Int × Int :=
  let J : Int := c_int (jd + 0.5)
  let j_alpha : Int := c_int (((J : ℚ) - 1867216.25) / 36524.25)
  let b : Int := J + 1 + j_alpha - Int.tdiv j_alpha 4
  let c : Int := b + 1524
  let d : Int := c_int (((c : ℚ) - 122.1) / 365.25)
  let e : Int := c_int (365.25 * (d : ℚ))
  let g : Int := c_int (((c - e : Int) : ℚ) / 30.6001)
  let day := c - e - c_int (30.6001 * (g : ℚ))
  let month := if (g : ℚ) < 13.5 then g - 1 else g - 13
  let year := if month > 2 then d - 4716 else d - 4715
  (year, month, day)

/-! ## coord.c: horizontal coordinates -/

section Coord

variable {α : Type} [LinearOrderedField α] [FloorRing α]

/-- The hour angle that `equatorial_to_horizontal` computes and normalises before it
enters the altitude and azimuth formulas. -/
def local_hour_angle (lib : Libm α) (right_ascension gmst longitude : α) : α :=
  let local_sidereal_time := c_fmod (gmst + longitude) (2.0 * lib.M_PI)
  let hour_angle := local_sidereal_time - right_ascension
  let hour_angle := if hour_angle < 0.0 then hour_angle + 2.0 * lib.M_PI else hour_angle
  let hour_angle := if hour_angle > lib.M_PI then hour_angle - 2.0 * lib.M_PI else hour_angle
  hour_angle

/-- The value that `equatorial_to_horizontal` passes to `asin`. -/
def altitude_asin_argument (lib : Libm α) (latitude declination hour_angle : α) : α :=
  lib.sin latitude * lib.sin declination +
    lib.cos latitude * lib.cos declination * lib.cos hour_angle

/-- Embedding of `equatorial_to_horizontal`: `(azimuth, altitude)`. -/
def equatorial_to_horizontal (lib : Libm α) (right_ascension declination gmst latitude
    longitude : α) : α × α :=
  let hour_angle := local_hour_angle lib right_ascension gmst longitude
  let altitude := lib.asin (altitude_asin_argument lib latitude declination hour_angle)
  let azimuth := lib.atan2 (lib.sin hour_angle)
    (lib.cos hour_angle * lib.sin latitude - lib.tan declination * lib.cos latitude)
  let azimuth := azimuth - lib.M_PI
  let azimuth := if azimuth < 0.0 then azimuth + 2.0 * lib.M_PI else azimuth
  (azimuth, altitude)

end Coord

/-! ## drawing.c: the dotted line and the step divisors -/

/-- The loop of `draw_line_dotted` for `abs(dy) >= abs(dx)`. -/
def draw_line_dotted_rows (ya xa dy sy : Int) (sx : ℚ) :
    Nat → Int → ℚ → WINDOW → Option WINDOW
  | 0, _, _, _ => none
  | fuel + 1, y, x, w =>
    if |y| ≤ |dy| then
      let curr_y := ya + y
      let curr_x := xa + c_round x
      draw_line_dotted_rows ya xa dy sy sx fuel (y + sy) (x + sx) (mvwaddstr w curr_y curr_x "•")
    else some w

/-- The loop of `draw_line_dotted` for `abs(dy) < abs(dx)`. -/
def draw_line_dotted_cols (ya xa dx : Int) (sy : ℚ) (sx : Int) :
    Nat → ℚ → Int → WINDOW → Option WINDOW
  | 0, _, _, _ => none
  | fuel + 1, y, x, w =>
    if |x| ≤ |dx| then
      let curr_y := ya + c_round y
      let curr_x := xa + x
      draw_line_dotted_cols ya xa dx sy sx fuel (y + sy) (x + sx) (mvwaddstr w curr_y curr_x "•")
    else some w

/-- Embedding of `draw_line_dotted`; `fuel` as in `draw_line_ASCII`. -/
def draw_line_dotted (fuel : Nat) (win : WINDOW) (ya xa yb xb : Int) : Option WINDOW :=
  let dy := yb - ya
  let dx := xb - xa
  if |dy| ≥ |dx| then
    let sy : Int := if dy > 0 then 1 else -1
    let sx : ℚ := (dx : ℚ) / ((|dy| : Int) : ℚ)
    draw_line_dotted_rows ya xa dy sy sx fuel 0 0 win
  else
    let sy : ℚ := (dy : ℚ) / ((|dx| : Int) : ℚ)
    let sx : Int := if dx > 0 then 1 else -1
    draw_line_dotted_cols ya xa dx sy sx fuel 0 0 win

/-- The divisor of the minor-axis step of `draw_line_ASCII`: `abs(dy)` in
`double sx = (double)dx / abs(dy)` when `abs(dy) >= abs(dx)`, `abs(dx)` in
`double sy = (double)dy / abs(dx)` otherwise. -/
def draw_line_ASCII_step_divisor (ya xa yb xb : Int) : Int :=
  let dy := yb - ya
  let dx := xb - xa
  if |dy| ≥ |dx| then |dy| else |dx|

/-- The divisor of the minor-axis step of `draw_line_smooth`: `abs(dy)` when
`abs(dy) > abs(dx)`, `abs(dx)` otherwise. -/
def draw_line_smooth_step_divisor (ya xa yb xb : Int) : Int :=
  let dy := yb - ya
  let dx := xb - xa
  if |dy| > |dx| then |dy| else |dx|

/-- The divisor of the minor-axis step of `draw_line_dotted`: as in `draw_line_ASCII`. -/
def draw_line_dotted_step_divisor (ya xa yb xb : Int) : Int :=
  let dy := yb - ya
  let dx := xb - xa
  if |dy| ≥ |dx| then |dy| else |dx|

/-- The ages that the phase table assigns to each phase: New Moon below 0.03 or above
0.97, then Waxing Crescent [0.03, 0.25), First Quarter [0.25, 0.27), Waxing Gibbous
[0.27, 0.50), Full Moon [0.50, 0.53), Waning Gibbous [0.53, 0.75), Last Quarter
[0.75, 0.77) and Waning Crescent [0.77, 0.97]. -/
def moon_phase_range {α : Type} [LinearOrderedField α] (phase : MoonPhase) (age : α) : Prop :=
  match phase with
  | MoonPhase.NEW_MOON => age < 0.03 ∨ 0.97 < age
  | MoonPhase.WAXING_CRESCENT => 0.03 ≤ age ∧ age < 0.25
  | MoonPhase.FIRST_QUARTER => 0.25 ≤ age ∧ age < 0.27
  | MoonPhase.WAXING_GIBBOUS => 0.27 ≤ age ∧ age < 0.50
  | MoonPhase.FULL_MOON => 0.50 ≤ age ∧ age < 0.53
  | MoonPhase.WANING_GIBBOUS => 0.53 ≤ age ∧ age < 0.75
  | MoonPhase.LAST_QUARTER => 0.75 ≤ age ∧ age < 0.77
  | MoonPhase.WANING_CRESCENT => 0.77 ≤ age ∧ age ≤ 0.97

/-! ## core.c: the star table -/

/-- The `struct Entry` of parse_BSC5.h. -/
structure Entry (α : Type) where
  XNO : α
  SRA0 : α
  SDEC0 : α
  IS : Char × Char
  MAG : α
  XRPM : α
  XDPM : α

section Core2

variable {α : Type} [LinearOrderedField α] [FloorRing α]

/-- Embedding of `map_float_to_int_range`. The `int` operations are kept to 32 bits in
two's complement: the difference `max_int - min_int` and the final sum wrap (C leaves
their overflow undefined; this is what the usual hardware does), and so does the
conversion `(int)round(...)`, which is exact whenever `percent` lies in [0, 1], the
product then lying between 0 and the wrapped difference. -/
def map_float_to_int_range (min_float max_float : α) (min_int max_int : Int) (input : α) :
    Int :=
  let percent := (input - min_float) / (max_float - min_float)
  to_int32 (min_int + to_int32 (c_round (((to_int32 (max_int - min_int) : Int) : α) * percent)))

/-- The table `mag_map_unicode_round` of `generate_star_table`. -/
def mag_map_unicode_round : List String :=
  ["⬤", "●", "⦁", "•", "•", "∙", "⋅", "⋅", "⋅", "⋅"]

/-- The table `mag_map_round_ASCII` of `generate_star_table`. -/
def mag_map_round_ASCII : List Char :=
  ['0', '0', 'O', 'O', 'o', 'o', '.', '.', '.', '.']

/-- The body of the loop of `generate_star_table`: the star made from entry `i` and
name `i`. A symbol index outside `0..9` reads outside the symbol tables: `none`. -/
def star_of_entry (entry : Entry α) (name : Option String) : Option (Star α) :=
  let magnitude := entry.MAG / 100.0
  let min_magnitude : α := -1.46
  let max_magnitude : α := 7.96
  let symbol_index := map_float_to_int_range min_magnitude max_magnitude 0 9 magnitude
  if 0 ≤ symbol_index then
    match mag_map_round_ASCII[symbol_index.toNat]?, mag_map_unicode_round[symbol_index.toNat]? with
    | some symbol_ASCII, some symbol_unicode =>
      some
        { base := { azimuth := 0, altitude := 0, color_pair := 0, symbol_ASCII := symbol_ASCII,
                    symbol_unicode := symbol_unicode, label := name }
          catalog_number := c_int entry.XNO
          right_ascension := entry.SRA0
          declination := entry.SDEC0
          ra_motion := entry.XRPM
          dec_motion := entry.XDPM
          magnitude := magnitude }
    | _, _ => none
  else none

/-- The loop of `generate_star_table` from index `i` on, `remaining` entries to go:
entry `i` and name `i` make the star stored at index `i`. Reading past the end of
`entries` or `name_table` gives `none`. -/
def generate_star_table_from (entries : List (Entry α)) (name_table : List (Option String)) :
    Nat → Nat → Option (List (Star α))
  | 0, _ => some []
  | remaining + 1, i =>
    match entries[i]?, name_table[i]? with
    | some entry, some name =>
      match star_of_entry entry name, generate_star_table_from entries name_table remaining (i + 1) with
      | some star, some rest => some (star :: rest)
      | _, _ => none
    | _, _ => none

/-- Embedding of `generate_star_table`: the table, or `none` where the code returns
`false` (the allocation failed) or reads outside an array. The azimuth and altitude of
a new star are not set by the code; they are 0 here. -/
def generate_star_table (star_table_allocated : Bool) (entries : List (Entry α))
    (name_table : List (Option String)) (num_stars : Nat) : Option (List (Star α)) :=
  if !star_table_allocated then none
  else generate_star_table_from entries name_table num_stars 0

end Core2

/-! ## core_render.c: constellations -/

/-- The `struct Constell` of core.h. -/
structure Constell where
  num_segments : Nat
  star_numbers : List Int

section Render2

variable {α : Type} [LinearOrderedField α] [FloorRing α]

/-- The array read `star_table[catalog_num - 1]`; `none` outside the table. -/
def star_at (star_table : List (Star α)) (catalog_num : Int) : Option (Star α) :=
  let table_index := catalog_num - 1
  if 0 ≤ table_index then star_table[table_index.toNat]? else none

/-- The first loop of `render_constellation` ("only render if all stars are visible")
from index `i` on, `remaining` star numbers to go: `some false` where the code returns
early, `some true` where the loop runs to its end, `none` for a read outside an array. -/
def all_stars_visible_from (config : Conf α) (constellation : Constell)
    (star_table : List (Star α)) : Nat → Nat → Option Bool
  | 0, _ => some true
  | remaining + 1, i =>
    match constellation.star_numbers[i]? with
    | none => none
    | some catalog_num =>
      match star_at star_table catalog_num with
      | none => none
      | some star =>
        if star.magnitude > config.threshold then some false
        else all_stars_visible_from config constellation star_table remaining (i + 1)

/-- The body of the second loop of `render_constellation`: one segment, between
`star_a` and `star_b`, clipped and drawn. -/
def render_constellation_segment (fuel : Nat) (lib : Libm α) (win : WINDOW) (config : Conf α)
    (star_a star_b : Star α) : Option WINDOW :=
  let polar_a := horizontal_to_polar lib star_a.base.azimuth star_a.base.altitude
  let polar_b := horizontal_to_polar lib star_b.base.azimuth star_b.base.altitude
  let radius_a := polar_a.1
  let theta_a := polar_a.2
  let radius_b := polar_b.1
  let theta_b := polar_b.2
  if |radius_a| > 1 ∧ |radius_b| > 1 then some win
  else
    let a_clipped : Bool := decide (|radius_a| > 1)
    let b_clipped : Bool := !a_clipped && decide (|radius_b| > 1)
    let radius_a := if a_clipped then 1.0 else radius_a
    let radius_b := if b_clipped then 1.0 else radius_b
    let height := win.height
    let width := win.width
    let pa := polar_to_win lib radius_a theta_a height width
    let pb := polar_to_win lib radius_b theta_b height width
    let ya := pa.1
    let xa := pa.2
    let yb := pb.1
    let xb := pb.2
    if config.unicode then
      match draw_line_smooth fuel win ya xa yb xb with
      | none => none
      | some w =>
        let w := if !a_clipped then mvwaddstr w ya xa "○" else w
        let w := if !b_clipped then mvwaddstr w yb xb "○" else w
        some w
    else
      match draw_line_ASCII fuel win ya xa yb xb with
      | none => none
      | some w =>
        let w := if !a_clipped then mvwaddch w ya xa '+' else w
        let w := if !b_clipped then mvwaddch w yb xb '+' else w
        some w

/-- The second loop of `render_constellation` from index `i` on, `remaining` segments
to go. -/
def render_constellation_segments (fuel : Nat) (lib : Libm α) (config : Conf α)
    (constellation : Constell) (star_table : List (Star α)) : Nat → Nat → WINDOW → Option WINDOW
  | 0, _, win => some win
  | remaining + 1, i, win =>
    match constellation.star_numbers[i]?, constellation.star_numbers[i + 1]? with
    | some catalog_num_a, some catalog_num_b =>
      match star_at star_table catalog_num_a, star_at star_table catalog_num_b with
      | some star_a, some star_b =>
        match render_constellation_segment fuel lib win config star_a star_b with
        | none => none
        | some w =>
          render_constellation_segments fuel lib config constellation star_table remaining
            (i + 2) w
      | _, _ => none
    | _, _ => none

/-- Embedding of `render_constellation`; `fuel` bounds the loop of each line drawn. The
result is `none` for a read outside an array or a line loop that outlasts `fuel`. -/
def render_constellation (fuel : Nat) (lib : Libm α) (win : WINDOW) (config : Conf α)
    (constellation : Constell) (star_table : List (Star α)) : Option WINDOW :=
  match all_stars_visible_from config constellation star_table
      (constellation.num_segments * 2) 0 with
  | none => none
  | some false => some win
  | some true =>
    render_constellation_segments fuel lib config constellation star_table
      constellation.num_segments 0 win

end Render2

/-! ## More sample inputs -/

/-- A library `qsort` that meets the ISO C contract and is not stable: insertion sort of
the reversed array. -/
def reversing_qsort {β : Type} (compar : β → β → Int) (base : List β) : List β :=
  insertion_qsort compar base.reverse

/-- What a stable sort adds to the ISO C contract: two elements in ascending (or equal)
order of which the first comes earlier in the array keep that order. -/
def stable_qsort {β : Type} (qsort : (β → β → Int) → List β → List β) : Prop :=
  ∀ (compar : β → β → Int) (base : List β) (a b : β), consistent_comparator compar →
    compar a b ≤ 0 → List.Sublist [a, b] base → List.Sublist [a, b] (qsort compar base)

/-- The order of ties in the result of `star_numbers_by_magnitude`: for any two stars of
equal magnitude of which `a` comes before `b` in the star table, the number of `a`
comes before the number of `b` in the returned array. -/
def ties_keep_table_order {α : Type} [LinearOrderedField α]
    (qsort : (Star α → Star α → Int) → List (Star α) → List (Star α))
    (star_table : List (Star α)) : Prop :=
  ∀ a b : Star α, a.magnitude = b.magnitude → List.Sublist [a, b] star_table →
    ∃ num_by_mag, star_numbers_by_magnitude qsort true true star_table = some num_by_mag ∧
      List.Sublist [a.catalog_number, b.catalog_number] num_by_mag

/-- A star table of two stars of equal magnitude. -/
def tie_star_table : List (Star ℚ) :=
  [sample_star 1 5, sample_star 2 5]

/-- A catalogue entry of the given number and magnitude (in hundredths), its other
fields zero. -/
def sample_entry (XNO MAG : ℚ) : Entry ℚ where
  XNO := XNO
  SRA0 := 0
  SDEC0 := 0
  IS := (' ', ' ')
  MAG := MAG
  XRPM := 0
  XDPM := 0

/-- Two catalogue entries that are not in the order of their numbers. -/
def swapped_entries : List (Entry ℚ) :=
  [sample_entry 2 450, sample_entry 1 670]

/-- Two catalogue entries in the order of their numbers. -/
def ordered_entries : List (Entry ℚ) :=
  [sample_entry 1 450, sample_entry 2 670]

/-- The double 0.13968646713080884, as an exact number. -/
def sample_latitude : ℚ :=
  2516367685276047 / 18014398509481984

/-- A `<math.h>` with correctly rounded results, at the arguments used below: `sin` and
`cos` return the doubles nearest to the sine and cosine of 0.13968646713080884, which
are 0.13923264252816797 and 0.9902596988944988, and `cos 0` is 1. The other functions
are not used and return 0. -/
def rounded_libm : Libm ℚ where
  M_PI := 3.14159265358979323846
  sin := fun _ => 2508192308030667 / 18014398509481984
  cos := fun x => if x = 0 then 1 else 8919466421882569 / 9007199254740992
  tan := fun _ => 0
  asin := fun _ => 0
  atan2 := fun _ _ => 0
  sqrt := fun _ => 0

section ClippingSpec

variable {α : Type} [LinearOrderedField α] [FloorRing α]

/-- The window cell of a segment endpoint after clipping against the unit disk: a point
of polar radius above 1 (in absolute value) is replaced by the point of radius 1 in the
same direction `theta`. -/
def clipped_endpoint (lib : Libm α) (win : WINDOW) (radius theta : α) : Int × Int :=
  polar_to_win lib (if |radius| > 1 then 1 else radius) theta win.height win.width

/-- The endpoint marker of a segment, `○` in Unicode mode and `+` otherwise, written at
cell `p` only for an endpoint whose own polar radius is at most 1 (in absolute value). -/
def endpoint_marker (config : Conf α) (radius : α) (p : Int × Int) (w : WINDOW) : WINDOW :=
  if |radius| ≤ 1 then
    (if config.unicode then mvwaddstr w p.1 p.2 "○" else mvwaddch w p.1 p.2 '+')
  else w

/-- The line of a segment between two cells: `draw_line_smooth` in Unicode mode,
`draw_line_ASCII` otherwise. -/
def segment_line (fuel : Nat) (config : Conf α) (win : WINDOW) (pa pb : Int × Int) :
    Option WINDOW :=
  if config.unicode then draw_line_smooth fuel win pa.1 pa.2 pb.1 pb.2
  else draw_line_ASCII fuel win pa.1 pa.2 pb.1 pb.2

end ClippingSpec

/-- A rendering configuration over exact numbers: threshold 5, plain glyphs. -/
def sample_conf_plain : Conf ℚ where
  longitude := 0
  latitude := 0
  threshold := 5
  label_thresh := 2
  fps := 24
  speed := 1
  julian_date := 2451545
  aspect_ratio := 2
  quit_on_any := false
  unicode := false
  color := false
  grid := false
  constell := true
  metadata := false

/-- A constellation of one segment, from star 2 to star 1. -/
def sample_constellation : Constell where
  num_segments := 1
  star_numbers := [2, 1]

/-- A star 45° below the horizon. -/
noncomputable def sample_star_below_horizon : Star ℝ where
  base := sample_object_below_horizon
  catalog_number := 1
  right_ascension := 0
  declination := 0
  ra_motion := 0
  dec_motion := 0
  magnitude := 1

/-! ## astro.c: zodiac signs, degrees-minutes-seconds, the mean anomaly -/

/-- The table `zodiac_start_days` of `date_to_zodiac` (the first entry is Aries). -/
def zodiac_start_days : List Int :=
  [21, 20, 21, 21, 23, 23, 23, 23, 22, 22, 20, 19]

/-- Embedding of `date_to_zodiac`: the index of the sign, counted from Aries. An
index outside the table of start days is a read outside the array: `none`. -/
def date_to_zodiac (month day : Int) : Option Int :=
  let index := month - 3
  let index := if index < 0 then index + 12 else index
  if 0 ≤ index then
    match zodiac_start_days[index.toNat]? with
    | some start_day =>
      if day < start_day then some (if index = 0 then 11 else index - 1) else some index
    | none => none
  else none

/-- The table `zodiac_signs` of `get_zodiac_sign`. -/
def zodiac_signs : List String :=
  ["Aries", "Taurus", "Gemini", "Cancer", "Leo", "Virgo",
   "Libra", "Scorpio", "Sagittarius", "Capricorn", "Aquarius", "Pisces"]

/-- Embedding of `get_zodiac_sign`. -/
def get_zodiac_sign (month day : Int) : Option String :=
  match date_to_zodiac month day with
  | some zodiac => if 0 ≤ zodiac then zodiac_signs[zodiac.toNat]? else none
  | none => none

/-- The sign that starts in a month of the year and the day of the month on which it
starts, as the calendar of signs is usually written: Aquarius on 20 January, Pisces on
19 February, Aries on 21 March, Taurus on 20 April, Gemini on 21 May, Cancer on 21 June,
Leo on 23 July, Virgo on 23 August, Libra on 23 September, Scorpio on 23 October,
Sagittarius on 22 November, Capricorn on 22 December. -/
def zodiac_calendar (month : Int) : String × Int :=
  if month = 1 then ("Aquarius", 20)
  else if month = 2 then ("Pisces", 19)
  else if month = 3 then ("Aries", 21)
  else if month = 4 then ("Taurus", 20)
  else if month = 5 then ("Gemini", 21)
  else if month = 6 then ("Cancer", 21)
  else if month = 7 then ("Leo", 23)
  else if month = 8 then ("Virgo", 23)
  else if month = 9 then ("Libra", 23)
  else if month = 10 then ("Scorpio", 23)
  else if month = 11 then ("Sagittarius", 22)
  else ("Capricorn", 22)

/-- The month before a month of the year, December before January. -/
def preceding_month (month : Int) : Int :=
  if month = 1 then 12 else month - 1

section Astro3

variable {α : Type} [LinearOrderedField α] [FloorRing α]

/-- Embedding of `decimal_to_dms`: `(degrees, minutes, seconds)`. -/
def decimal_to_dms (decimal_value : α) : Int × Int × α :=
  let degrees : Int := c_int decimal_value
  let fractional_part : α := |decimal_value - (degrees : α)|
  let total_minutes : α := fractional_part * 60
  let minutes : Int := c_int total_minutes
  let seconds : α := (total_minutes - (minutes : α)) * 60
  let degrees : Int :=
    if decimal_value < 0 then (if degrees < 0 then degrees else -degrees) else degrees
  (degrees, minutes, seconds)

/-- The `struct KepElems` of astro.h. -/
structure KepElems (α : Type) where
  a : α
  e : α
  I : α
  M : α
  w : α
  O : α

/-- The `struct KepRates` of astro.h. -/
structure KepRates (α : Type) where
  da : α
  de : α
  dI : α
  dM : α
  dw : α
  dO : α

/-- The `struct KepExtra` of astro.h. -/
structure KepExtra (α : Type) where
  b : α
  c : α
  s : α
  f : α

/-- The loop `while (M > 180.0) { M -= 360.0; }` of `calc_planet_helio_ICRF` and
`calc_moon_geo_ICRF`; `none` when `fuel` iterations do not reach the end of the loop. -/
def reduce_mean_anomaly : Nat → α → Option α
  | 0, _ => none
  | fuel + 1, M => if M > 180.0 then reduce_mean_anomaly fuel (M - 360.0) else some M

/-- Steps 1 to 3 of `calc_planet_helio_ICRF`: the mean anomaly `M` with which the
eccentric anomaly is then computed. `extras` is `none` for the null pointer. -/
def planet_mean_anomaly (lib : Libm α) (fuel : Nat) (elements : KepElems α)
    (rates : KepRates α) (extras : Option (KepExtra α)) (julian_date : α) : Option α :=
  let t := (julian_date - 2451545.0) / 36525.0
  let M := elements.M + rates.dM * t
  let w := elements.w + rates.dw * t
  let O := elements.O + rates.dO * t
  let L := M + w + O
  let w_bar := w + O
  let M :=
    match extras with
    | some x =>
      L - w_bar + x.b * t * t + x.c * lib.cos (x.f * t * TO_RAD lib) +
        x.s * lib.sin (x.f * t * TO_RAD lib)
    | none => M
  reduce_mean_anomaly fuel M

/-- The first steps of `calc_moon_geo_ICRF`: the mean anomaly `M` with which the
eccentric anomaly is then computed. -/
def moon_mean_anomaly (fuel : Nat) (moon_elements : KepElems α) (moon_rates : KepRates α)
    (julian_date : α) : Option α :=
  let d := julian_date - 2451543.5
  let M := moon_elements.M + moon_rates.dM * d
  reduce_mean_anomaly fuel M

end Astro3

/-- An element set with mean anomaly -2.47311027° at the epoch J2000. -/
def sample_elements : KepElems ℚ :=
  { a := 1.00000261, e := 0.01671123, I := -0.00001531, M := -2.47311027,
    w := 102.93768193, O := 0 }

/-- A rate set with the mean anomaly growing by 35999.04917617° per century. -/
def sample_rates : KepRates ℚ :=
  { da := 0.00000562, de := -0.00004392, dI := -0.01294668, dM := 35999.04917617,
    dw := 0.32327364, dO := 0 }

/-! ## bit.c: little-endian decoding

A byte (`uint8_t`) is a number below 256. A value of a fixed-width integer type is the
`Int` it denotes; storing a wider `int` result into the type keeps its low bits, read
in two's complement for a signed type. `x << k` of a non-negative `x` that does not
overflow is `x * 2 ^ k`. -/

/-- Conversion of an integer to `int16_t`. -/
def to_int16 (x : Int) : Int :=
  (x + 2 ^ 15) % 2 ^ 16 - 2 ^ 15

/-- Conversion of an integer to `uint16_t`. -/
def to_uint16 (x : Int) : Int :=
  x % 2 ^ 16

/-- Conversion of an integer to `uint32_t`. -/
def to_uint32 (x : Int) : Int :=
  x % 2 ^ 32

/-- The loop of `bytes_to_int16_LE` from index `i`, with `remaining` bytes to go:
`result = result | (int16_t)buffer[i] << (8 * i)`. The byte is promoted to `int`
before the shift and the `int` result of `|` is stored into an `int16_t`. A read past
the end of the buffer gives `none`. -/
def bytes_to_int16_LE_loop (buffer : List (Fin 256)) : Nat → Nat → Int → Option Int
  | 0, _, result => some result
  | remaining + 1, i, result =>
    match buffer[i]? with
    | some byte =>
      bytes_to_int16_LE_loop buffer remaining (i + 1)
        (to_int16 (Int.lor result ((byte.val : Int) * 2 ^ (8 * i))))
    | none => none

/-- Embedding of `bytes_to_int16_LE` (`sizeof(int16_t)` is 2). -/
def bytes_to_int16_LE (buffer : List (Fin 256)) : Option Int :=
  bytes_to_int16_LE_loop buffer 2 0 0

/-- The loop shared by `bytes_to_int32_LE` and `bytes_to_uint32_LE`:
`result = result | (uint32_t)buffer[i] << (8 * i)` on a `uint32_t result`. -/
def bytes_to_uint32_LE_loop (buffer : List (Fin 256)) : Nat → Nat → Int → Option Int
  | 0, _, result => some result
  | remaining + 1, i, result =>
    match buffer[i]? with
    | some byte =>
      bytes_to_uint32_LE_loop buffer remaining (i + 1)
        (Int.lor result (to_uint32 ((byte.val : Int) * 2 ^ (8 * i))))
    | none => none

/-- Embedding of `bytes_to_int32_LE`: the `uint32_t` result is returned as an
`int32_t`. -/
def bytes_to_int32_LE (buffer : List (Fin 256)) : Option Int :=
  (bytes_to_uint32_LE_loop buffer 4 0 0).map to_int32

/-- The loop of `bytes_to_uint16_LE`: `result = result | (uint16_t)buffer[i] << (8 * i)`
on a `uint16_t result`; the operands are promoted to `int`. -/
def bytes_to_uint16_LE_loop (buffer : List (Fin 256)) : Nat → Nat → Int → Option Int
  | 0, _, result => some result
  | remaining + 1, i, result =>
    match buffer[i]? with
    | some byte =>
      bytes_to_uint16_LE_loop buffer remaining (i + 1)
        (to_uint16 (Int.lor result ((byte.val : Int) * 2 ^ (8 * i))))
    | none => none

/-- Embedding of `bytes_to_uint16_LE`. -/
def bytes_to_uint16_LE (buffer : List (Fin 256)) : Option Int :=
  bytes_to_uint16_LE_loop buffer 2 0 0

/-- Embedding of `bytes_to_uint32_LE`. -/
def bytes_to_uint32_LE (buffer : List (Fin 256)) : Option Int :=
  bytes_to_uint32_LE_loop buffer 4 0 0

/-- The value of an unsigned `bits`-bit pattern read in two's complement. -/
def twos_complement (bits : Nat) (value : Int) : Int :=
  if value < 2 ^ (bits - 1) then value else value - 2 ^ bits

/-! ## core.c: the constellation table

The text is a list of characters, one per byte. `strtok`, `atoi`, `memcpy` and the
allocator belong to the C library: `strtok` and `atoi` are modelled after the ISO C
text, and one flag says whether the allocations succeed. -/

/-- What a call leaves behind: it wrote outside a buffer (the behaviour is undefined),
it returned `false`, or it returned `true` with its output. -/
inductive Outcome (β : Type) where
  | overrun : Outcome β
  | returned_false : Outcome β
  | returned_true : β → Outcome β
  deriving DecidableEq, Repr

/-- The size `MAX_BUF_SIZE` of the line buffer of `parse_line`. -/
def MAX_BUF_SIZE : Nat := 2048

/-- The characters of a C string: those before the first null character. -/
def c_string (buffer : List Char) : List Char :=
  buffer.takeWhile (fun c => c ≠ Char.ofNat 0)

/-- The tokens that successive calls of `strtok` with one delimiter return: the
non-empty runs of characters between delimiters. -/
def strtok_tokens (delimiter : Char) (buffer : List Char) : List (List Char) :=
  ((c_string buffer).splitOn delimiter).filter (fun token => token ≠ [])

/-- The white space that `atoi` skips (`isspace`). -/
def isspace (c : Char) : Bool :=
  c = ' ' || c = '\t' || c = '\n' || c = Char.ofNat 11 || c = Char.ofNat 12 || c = '\r'

/-- The decimal digits at the head of a string, read onto `value`. -/
def atoi_digits : List Char → Int → Int
  | [], value => value
  | c :: rest, value =>
    if c.isDigit then atoi_digits rest (10 * value + ((c.toNat : Int) - 48)) else value

/-- The C library's `atoi`: white space, an optional sign, then digits up to the first
character that is not one; 0 when there is no digit. -/
def atoi (s : List Char) : Int :=
  match s.dropWhile isspace with
  | '-' :: rest => -atoi_digits rest 0
  | '+' :: rest => atoi_digits rest 0
  | rest => atoi_digits rest 0

/-- Embedding of `parse_line`. The line `data[line_start .. line_end]` is copied to a
buffer of `MAX_BUF_SIZE` characters and a null character is stored behind it, which
lies outside the buffer for a line of `MAX_BUF_SIZE` characters or more. The table
is the list of the entries stored so far; the entry of the line is stored at index
`line_number`. -/
def parse_line (allocated : Bool) (data : List Char) (constell_table : List Constell)
    (line_start line_end line_number : Nat) : Outcome (List Constell) :=
  if line_end ≤ line_start then Outcome.returned_false
  else
    let line_length := line_end - line_start + 1
    if MAX_BUF_SIZE ≤ line_length then Outcome.overrun
    else
      let buffer := (data.drop line_start).take line_length ++ [Char.ofNat 0]
      match strtok_tokens ' ' buffer with
      | [] => Outcome.returned_false
      | [_] => Outcome.returned_false
      | _ :: num_segments_str :: tokens =>
        let num_segments : Nat := (atoi num_segments_str % 2 ^ 32).toNat
        if num_segments = 0 then Outcome.returned_false
        else if !allocated then Outcome.returned_false
        else
          let star_numbers := (tokens.take (num_segments * 2 % 2 ^ 32)).map atoi
          if star_numbers.length ≠ num_segments * 2 % 2 ^ 32 then Outcome.returned_false
          else
            Outcome.returned_true (constell_table.take line_number ++
              [{ num_segments := num_segments, star_numbers := star_numbers }])

/-- The second loop of `generate_constell_table` from index `i`, with `remaining`
characters to go. -/
def generate_constell_table_loop (allocated : Bool) (data : List Char) :
    Nat → Nat → Nat → Nat → List Constell → Outcome (List Constell)
  | 0, _, _, _, constell_table => Outcome.returned_true constell_table
  | remaining + 1, i, line_start, line_number, constell_table =>
    let line_start := if i = 0 ∨ data[i - 1]? = some '\n' then i else line_start
    if i = data.length - 1 ∨ data[i]? = some '\n' then
      match parse_line allocated data constell_table line_start i line_number with
      | Outcome.returned_true table =>
        generate_constell_table_loop allocated data remaining (i + 1) line_start
          (line_number + 1) table
      | Outcome.returned_false => Outcome.returned_false
      | Outcome.overrun => Outcome.overrun
    else
      generate_constell_table_loop allocated data remaining (i + 1) line_start line_number
        constell_table

/-- Embedding of `generate_constell_table`: the table and the number of
constellations reported, which is the number of newline characters. -/
def generate_constell_table (allocated : Bool) (data : List Char) :
    Outcome (List Constell × Nat) :=
  if data.length = 0 then Outcome.returned_false
  else
    let num_constells := data.count '\n'
    if !allocated then Outcome.returned_false
    else
      match generate_constell_table_loop allocated data data.length 0 0 0 [] with
      | Outcome.returned_true table => Outcome.returned_true (table, num_constells)
      | Outcome.returned_false => Outcome.returned_false
      | Outcome.overrun => Outcome.overrun

/-- A line of 2054 characters: the name `A`, 512 segments and 1024 star numbers `1`. -/
def long_constell_line : List Char :=
  "A 512".toList ++ (List.replicate 1024 [' ', '1']).flatten ++ ['\n']

/-- The line of the constellation CVn in the comment of `parse_line`, and a second
line. -/
def short_constell_text : List Char :=
  "CVn 1 4915 4785\nTri 2 544 622 622 664\n".toList

/-! ## drawing.c: the cells of a line

The three rasterizers step one cell at a time along the axis with the larger span
(the major axis, `n` steps) and round the position on the other axis (the minor axis,
with span `d`). -/

/-- A sequence of `mvwaddch` calls, each a cell and a character. -/
def mvwaddch_list (win : WINDOW) (writes : List ((Int × Int) × Char)) : WINDOW :=
  writes.foldl (fun w t => mvwaddch w t.1.1 t.1.2 t.2) win

/-- The rounded minor-axis offset at step `j` of a line with `n` major steps and minor
span `d`: `round (j * (d / n))`, the value of `(int)round(x)` after `j` additions of the
step `d / n` to `x = 0.0`. -/
def line_minor (d : Int) (n j : Nat) : Int :=
  c_round ((j : ℚ) * ((d : ℚ) / (n : ℚ)))

/-- The cell at major offset `p.1` and minor offset `p.2` from `(ya, xa)`, for a line
whose major axis is the rows (`major_is_row`) or the columns. -/
def line_cell (major_is_row : Bool) (ya xa : Int) (p : Int × Int) : Int × Int :=
  if major_is_row then (ya + p.1, xa + p.2) else (ya + p.2, xa + p.1)

/-- The offsets (major, minor) of the stepped cells of a line, in the order of the
steps: step `j` is `s * j` along the major axis, `s` being the direction `1` or `-1`. -/
def stepped_offsets (s d : Int) (n : Nat) : List (Int × Int) :=
  (List.range (n + 1)).map (fun j : Nat => (s * (j : Int), line_minor d n j))

/-- The offsets of the cells of a smooth line, in the order of the steps: the stepped
cell of step `j` and, when the rounded minor offset changes with the next step, the
cell beside it on the minor axis that holds the second joint. -/
def smooth_offsets (s d : Int) (n : Nat) : List (Int × Int) :=
  (List.range (n + 1)).flatMap (fun j : Nat =>
    (s * (j : Int), line_minor d n j) ::
      (if line_minor d n j ≠ line_minor d n (j + 1) ∧ line_minor d n j ≠ d
        then [(s * (j : Int), line_minor d n (j + 1))] else []))

/-- Two cells share an edge: they are neighbours in a row or in a column. -/
def edge_adjacent (p q : Int × Int) : Prop :=
  |p.1 - q.1| + |p.2 - q.2| = 1

/-- The shape of the line from `(ya, xa)` to `(yb, xb)` as the rasterizers see it: the
major axis is the rows (`major_is_row`) when the row span is the larger one, also when
the spans are equal if `tie_is_row`; `n ≥ 1` is the span on the major axis, `s` the
direction on it and `d` the span on the minor axis. -/
def is_line_branch (tie_is_row major_is_row : Bool) (ya xa yb xb s d : Int) (n : Nat) : Prop :=
  1 ≤ n ∧ (s = 1 ∨ s = -1) ∧ |d| ≤ n ∧
    (major_is_row = true ↔
      (if tie_is_row then |yb - ya| ≥ |xb - xa| else |yb - ya| > |xb - xa|)) ∧
    (major_is_row = true → yb - ya = s * n ∧ xb - xa = d) ∧
    (major_is_row = false → xb - xa = s * n ∧ yb - ya = d)

/-! ## drawing.c: ellipses -/

/-- The `enum FillType` of drawing.c. -/
inductive FillType where
  | HORIZONTAL : FillType
  | VERTICAL : FillType
  | CORNER : FillType
  deriving DecidableEq, Repr

/-- Embedding of `print_chars_ellipse_ASCII`: one glyph in each quadrant. -/
def print_chars_ellipse_ASCII (win : WINDOW) (center_y center_x y x : Int) (fill : FillType) :
    WINDOW :=
  match fill with
  | FillType.CORNER =>
    let win := mvwaddch win (center_y - y) (center_x + x) '\\'
    let win := mvwaddch win (center_y - y) (center_x - x) '/'
    let win := mvwaddch win (center_y + y) (center_x - x) '\\'
    mvwaddch win (center_y + y) (center_x + x) '/'
  | FillType.VERTICAL =>
    let win := mvwaddch win (center_y - y) (center_x + x) '|'
    let win := mvwaddch win (center_y - y) (center_x - x) '|'
    let win := mvwaddch win (center_y + y) (center_x - x) '|'
    mvwaddch win (center_y + y) (center_x + x) '|'
  | FillType.HORIZONTAL =>
    let win := mvwaddch win (center_y - y) (center_x + x) '-'
    let win := mvwaddch win (center_y - y) (center_x - x) '-'
    let win := mvwaddch win (center_y + y) (center_x - x) '-'
    mvwaddch win (center_y + y) (center_x + x) '-'

/-- Embedding of `print_chars_ellipse_unicode`. -/
def print_chars_ellipse_unicode (win : WINDOW) (center_y center_x y x : Int) (fill : FillType) :
    WINDOW :=
  match fill with
  | FillType.CORNER =>
    let win := mvwaddstr win (center_y - y - 1) (center_x + x) "╮"
    let win := mvwaddstr win (center_y - y) (center_x + x) "╰"
    let win := mvwaddstr win (center_y - y - 1) (center_x - x) "╭"
    let win := mvwaddstr win (center_y - y) (center_x - x) "╯"
    let win := mvwaddstr win (center_y + y - 1) (center_x - x) "╮"
    let win := mvwaddstr win (center_y + y) (center_x - x) "╰"
    let win := mvwaddstr win (center_y + y - 1) (center_x + x) "╭"
    mvwaddstr win (center_y + y) (center_x + x) "╯"
  | FillType.VERTICAL =>
    let win := mvwaddstr win (center_y - y) (center_x + x) "│"
    let win := mvwaddstr win (center_y - y) (center_x - x) "│"
    let win := mvwaddstr win (center_y + y) (center_x - x) "│"
    mvwaddstr win (center_y + y) (center_x + x) "│"
  | FillType.HORIZONTAL =>
    let win := mvwaddstr win (center_y - y) (center_x + x) "─"
    let win := mvwaddstr win (center_y - y) (center_x - x) "─"
    let win := mvwaddstr win (center_y + y) (center_x - x) "─"
    mvwaddstr win (center_y + y) (center_x + x) "─"

/-- Embedding of `ellipse_error`. -/
def ellipse_error (y x rad_y rad_x : Int) : Int :=
  (rad_x * rad_x + x * x) + (rad_y * rad_y + y * y) - (rad_x * rad_x * rad_y * rad_y)

/-- The implicit function of the ellipse with half-axes `rad_x` (columns) and `rad_y`
(rows), cleared of denominators: `rad_y² x² + rad_x² y² - rad_x² rad_y²`. It is zero on
the ellipse, negative inside and positive outside. -/
def implicit_ellipse (y x rad_y rad_x : Int) : Int :=
  rad_y * rad_y * (x * x) + rad_x * rad_x * (y * y) - rad_x * rad_x * (rad_y * rad_y)

/-- The value `(int)sqrt(q)` for an exact `q ≥ 0`: the integer part of the square root,
which is the integer square root of the integer part of `q`. -/
def c_int_sqrt (q : ℚ) : Int :=
  (Nat.sqrt ⌊q⌋.toNat : Int)

/-- The choice of `fill` in both loops of `draw_ellipse`. -/
def ellipse_fill (y x y_next x_next : Int) : FillType :=
  let corner : Bool := decide (y_next > y ∧ x_next < x)
  let vertical : Bool := decide (y_next > y ∧ x_next = x)
  if corner then FillType.CORNER else if vertical then FillType.VERTICAL
  else FillType.HORIZONTAL

/-- The glyphs of one step of `draw_ellipse`, in the mode chosen by `no_unicode`. -/
def print_chars_ellipse (no_unicode : Bool) (win : WINDOW) (center_y center_x y x : Int)
    (fill : FillType) : WINDOW :=
  if no_unicode then print_chars_ellipse_ASCII win center_y center_x y x fill
  else print_chars_ellipse_unicode win center_y center_x y x fill

/-- The first loop of `draw_ellipse` (`while (y_next > magicY)`), from the state
`(y, x, y_next, x_next)`; it returns the state in which the loop is left, `none` when
`fuel` iterations do not reach the end of the loop. -/
def draw_ellipse_first (center_y center_x rad_y rad_x magicY : Int) (no_unicode : Bool) :
    Nat → Int → Int → Int → Int → WINDOW → Option (Int × Int × Int × Int × WINDOW)
  | 0, _, _, _, _, _ => none
  | fuel + 1, y, x, y_next, x_next, win =>
    if y_next > magicY then
      let y_next := y + 1
      let x_next := if ellipse_error y_next x_next rad_y rad_x > 0 then x - 1 else x
      let fill := ellipse_fill y x y_next x_next
      let win := print_chars_ellipse no_unicode win center_y center_x y x fill
      draw_ellipse_first center_y center_x rad_y rad_x magicY no_unicode fuel y_next x_next
        y_next x_next win
    else some (y, x, y_next, x_next, win)

/-- The second loop of `draw_ellipse` (`while (x_next > 0)`). -/
def draw_ellipse_second (center_y center_x rad_y rad_x : Int) (no_unicode : Bool) :
    Nat → Int → Int → Int → Int → WINDOW → Option WINDOW
  | 0, _, _, _, _, _ => none
  | fuel + 1, y, x, y_next, x_next, win =>
    if x_next > 0 then
      let y_next := if ellipse_error y_next x_next rad_y rad_x < 0 then y + 1 else y
      let x_next := x - 1
      let fill := ellipse_fill y x y_next x_next
      let win := print_chars_ellipse no_unicode win center_y center_x y x fill
      draw_ellipse_second center_y center_x rad_y rad_x no_unicode fuel y_next x_next
        y_next x_next win
    else some win

/-- Embedding of `draw_ellipse`; `fuel` bounds the number of iterations of each loop, and
the result is `none` when a loop has not ended within it. `pow((double)rad_y, 4.0)` is
the exact fourth power and the quotient is exact. -/
def draw_ellipse (fuel : Nat) (win : WINDOW) (center_y center_x rad_y rad_x : Int)
    (no_unicode : Bool) : Option WINDOW :=
  let y := 0
  let x := rad_x
  let y_next := y
  let x_next := x
  let magicY := c_int_sqrt (((rad_y : ℚ) ^ 4) / ((rad_x * rad_x + rad_y * rad_y : Int) : ℚ))
  match draw_ellipse_first center_y center_x rad_y rad_x magicY no_unicode fuel y x y_next
      x_next win with
  | none => none
  | some (y, x, y_next, x_next, win) =>
    draw_ellipse_second center_y center_x rad_y rad_x no_unicode fuel y x y_next x_next win

/-! ## core_render.c: stars, the azimuthal grid, the cardinal directions -/

section Render3

variable {α : Type} [LinearOrderedField α] [FloorRing α]

/-- The star with its label removed (`star->base.label = NULL`). -/
def Star.without_label (star : Star α) : Star α :=
  { star with base := { star.base with label := none } }

/-- The loop of `render_stars_stereo` from index `i`, with `remaining` stars to go. The
pointer `star` points into the table, so the assignment to the label changes the table:
the result is the window and the table after the loop, `none` for a read outside an
array. -/
def render_stars_stereo_loop (lib : Libm α) (config : Conf α) (num_by_mag : List Int) :
    Nat → Nat → WINDOW → List (Star α) → Option (WINDOW × List (Star α))
  | 0, _, win, star_table => some (win, star_table)
  | remaining + 1, i, win, star_table =>
    match num_by_mag[i]? with
    | none => none
    | some catalog_num =>
      let table_index := catalog_num - 1
      match star_at star_table catalog_num with
      | none => none
      | some star =>
        if star.magnitude > config.threshold then
          render_stars_stereo_loop lib config num_by_mag remaining (i + 1) win star_table
        else
          let star_table :=
            if star.magnitude > config.label_thresh then
              star_table.set table_index.toNat star.without_label
            else star_table
          let star := if star.magnitude > config.label_thresh then star.without_label else star
          let win := render_object_stereo lib win star.base config
          render_stars_stereo_loop lib config num_by_mag remaining (i + 1) win star_table

/-- Embedding of `render_stars_stereo`: the window and the star table that the call
leaves behind. -/
def render_stars_stereo (lib : Libm α) (win : WINDOW) (config : Conf α)
    (star_table : List (Star α)) (num_stars : Int) (num_by_mag : List Int) :
    Option (WINDOW × List (Star α)) :=
  render_stars_stereo_loop lib config num_by_mag num_stars.toNat 0 win star_table

/-- The array `step_sizes` of `render_azimuthal_grid`. -/
def step_sizes : List Int :=
  [10, 15, 30, 45, 90]

/-- The array read `step_sizes[i]`; `none` outside the array. -/
def step_sizes_at (i : Int) : Option Int :=
  if 0 ≤ i then step_sizes[i.toNat]? else none

/-- The loop of `render_azimuthal_grid` that sets the step size, the loop variable `i`
being one less than the first argument, with the value of `inc`: the `inc` with which
the loop is left, `none` for a read outside `step_sizes`. -/
def grid_increment_loop (lib : Libm α) (rad_vertical : Int) : Nat → Int → Option Int
  | 0, inc => some inc
  | i + 1, _ =>
    match step_sizes_at i with
    | none => none
    | some inc =>
      let min_height : Int := 10
      let to_rad : α := lib.M_PI / 180.0
      if c_round ((rad_vertical : α) * lib.sin ((inc : α) * to_rad)) < min_height then
        step_sizes_at ((i : Int) - 1)
      else grid_increment_loop lib rad_vertical i inc

/-- The first part of `render_azimuthal_grid`, up to the choice of the step size `inc`
(which is not initialised before the loop; the loop body sets it). -/
def grid_increment (lib : Libm α) (win : WINDOW) : Option Int :=
  let height := win.height
  let maxy := height - 1
  let rad_vertical := c_round ((maxy : α) / 2.0)
  let length := step_sizes.length
  grid_increment_loop lib rad_vertical length 0

/-- Embedding of `calc_planet_helio_ICRF`: `(xh, yh, zh)`; `none` when `fuel` iterations
do not end the reduction of the mean anomaly. -/
def calc_planet_helio_ICRF (lib : Libm α) (fuel : Nat) (elements : KepElems α)
    (rates : KepRates α) (extras : Option (KepExtra α)) (julian_date : α) :
    Option (α × α × α) :=
  let t := (julian_date - 2451545.0) / 36525.0
  let a := elements.a + rates.da * t
  let e := elements.e + rates.de * t
  let I := elements.I + rates.dI * t
  let w := elements.w + rates.dw * t
  let O := elements.O + rates.dO * t
  match planet_mean_anomaly lib fuel elements rates extras julian_date with
  | none => none
  | some M =>
    let E := (planet_eccentric_anomaly lib M e).1
    let xp := a * (lib.cos (E * TO_RAD lib) - e)
    let yp := a * lib.sqrt (1.0 - e * e) * lib.sin (E * TO_RAD lib)
    let I := I * TO_RAD lib
    let w := w * TO_RAD lib
    let O := O * TO_RAD lib
    let xecl := (lib.cos w * lib.cos O - lib.sin w * lib.sin O * lib.cos I) * xp +
      (-lib.sin w * lib.cos O - lib.cos w * lib.sin O * lib.cos I) * yp
    let yecl := (lib.cos w * lib.sin O + lib.sin w * lib.cos O * lib.cos I) * xp +
      (-lib.sin w * lib.sin O + lib.cos w * lib.cos O * lib.cos I) * yp
    let zecl := (lib.sin w * lib.sin I) * xp + (lib.cos w * lib.sin I) * yp
    let eps := 84381.448 / (60.0 * 60.0) * TO_RAD lib
    some (xecl, lib.cos eps * yecl - lib.sin eps * zecl, lib.sin eps * yecl + lib.cos eps * zecl)

/-- The values that the projection of the four horizon points takes from `<math.h>` are
within `eps` of the mathematical ones: the polar radius `tan (M_PI / 4)` of a body of
altitude 0 is within `eps` of 1, and the sine and cosine of the polar angle are within
`eps` of 1 and 0 for the azimuth 0, of 0 and -1 for `M_PI / 2`, of -1 and 0 for `M_PI`,
and of 0 and 1 for `3 * M_PI / 2`. -/
def horizon_values_within (lib : Libm α) (eps : α) : Prop :=
  |(horizontal_to_polar lib 0 0).1 - 1| ≤ eps ∧
  |lib.sin (horizontal_to_polar lib 0 0).2 - 1| ≤ eps ∧
  |lib.cos (horizontal_to_polar lib 0 0).2 - 0| ≤ eps ∧
  |lib.sin (horizontal_to_polar lib (lib.M_PI / 2) 0).2 - 0| ≤ eps ∧
  |lib.cos (horizontal_to_polar lib (lib.M_PI / 2) 0).2 - -1| ≤ eps ∧
  |lib.sin (horizontal_to_polar lib lib.M_PI 0).2 - -1| ≤ eps ∧
  |lib.cos (horizontal_to_polar lib lib.M_PI 0).2 - 0| ≤ eps ∧
  |lib.sin (horizontal_to_polar lib (3 * lib.M_PI / 2) 0).2 - 0| ≤ eps ∧
  |lib.cos (horizontal_to_polar lib (3 * lib.M_PI / 2) 0).2 - 1| ≤ eps

end Render3

/-! ## The calendar -/

/-- The calendar day after `(year, month, day)`, the month counted from 1. -/
def next_calendar_day (year month day : Int) : Int × Int × Int :=
  if day < days_in_month year (month - 1) then (year, month, day + 1)
  else if month < 12 then (year, month + 1, 1)
  else (year + 1, 1, 1)

/-- One calendar instant lies before another: the order of year, month, day, hour,
minute and second, compared in that order. -/
def earlier_instant (s t : tm) : Prop :=
  s.tm_year < t.tm_year ∨ (s.tm_year = t.tm_year ∧ (s.tm_mon < t.tm_mon ∨ (s.tm_mon = t.tm_mon ∧
    (s.tm_mday < t.tm_mday ∨ (s.tm_mday = t.tm_mday ∧ (s.tm_hour < t.tm_hour ∨
      (s.tm_hour = t.tm_hour ∧ (s.tm_min < t.tm_min ∨
        (s.tm_min = t.tm_min ∧ s.tm_sec < t.tm_sec)))))))))

/-! ## Sample inputs over the real numbers -/

/-- The element set `sample_elements` over the real numbers. -/
noncomputable def sample_elements_real : KepElems ℝ :=
  { a := 1.00000261, e := 0.01671123, I := -0.00001531, M := -2.47311027,
    w := 102.93768193, O := 0 }

/-- The rate set `sample_rates` over the real numbers. -/
noncomputable def sample_rates_real : KepRates ℝ :=
  { da := 0.00000562, de := -0.00004392, dI := -0.01294668, dM := 35999.04917617,
    dw := 0.32327364, dO := 0 }

/-- An object on the horizon (altitude 0), due north, without a label. -/
noncomputable def sample_object_on_horizon : ObjectBase ℝ where
  azimuth := 0
  altitude := 0
  color_pair := 3
  symbol_ASCII := 'O'
  symbol_unicode := "●"
  label := none

/-- A star of magnitude 3 with a label. -/
def sample_labelled_star : Star ℚ where
  base := { azimuth := 0, altitude := 0, color_pair := 0, symbol_ASCII := '.',
            symbol_unicode := "⋅", label := some "Sirius" }
  catalog_number := 1
  right_ascension := 0
  declination := 0
  ra_motion := 0
  dec_motion := 0
  magnitude := 3

/-- C's truncating division is the floor division on non-negative operands. -/
theorem tdiv_of_nonneg {a b : Int} (ha : 0 ≤ a) (hb : 0 ≤ b) : a.tdiv b = a / b :=
  Int.tdiv_eq_ediv ha hb

/-- The inverse conversion, on a day number written as centuries `C`, year of the
century `r`, March-based month `mm` and day `d`. -/
theorem gregorian_of_day_num_eq (J C r mm d : Int)
    (hJ : J + 68569 = 36524 * C + (C + 3) / 4 + 1461 * r / 4 + 367 * mm / 12 + d - 31)
    (hC : 0 ≤ C) (hr0 : 0 ≤ r) (hr1 : r ≤ 99) (hm0 : 1 ≤ mm) (hm1 : mm ≤ 12)
    (hd0 : 1 ≤ d) (hd1 : d ≤ 31)
    (h30 : mm = 2 ∨ mm = 4 ∨ mm = 7 ∨ mm = 9 → d ≤ 30)
    (hfeb : mm = 12 → d ≤ 29)
    (hleap : mm = 12 → d = 29 → r % 4 = 3 ∧ (r ≠ 99 ∨ C % 4 = 0)) :
    gregorian_of_day_num J = (100 * (C - 49) + r + mm / 11, mm + 2 - 12 * (mm / 11), d) := by
  have hn : (4 * (J + 68569)) / 146097 = C := by
    rcases (by omega : mm = 1 ∨ mm = 2 ∨ mm = 3 ∨ mm = 4 ∨ mm = 5 ∨ mm = 6 ∨ mm = 7 ∨ mm = 8 ∨
      mm = 9 ∨ mm = 10 ∨ mm = 11 ∨ mm = 12) with h | h | h | h | h | h | h | h | h | h | h | h <;>
    subst h <;> omega
  have hl1 : J + 68569 - (146097 * C + 3) / 4 = 1461 * r / 4 + 367 * mm / 12 + d - 31 := by omega
  have hi : (4000 * (1461 * r / 4 + 367 * mm / 12 + d - 31 + 1)) / 1461001 = r := by
    rcases (by omega : mm = 1 ∨ mm = 2 ∨ mm = 3 ∨ mm = 4 ∨ mm = 5 ∨ mm = 6 ∨ mm = 7 ∨ mm = 8 ∨
      mm = 9 ∨ mm = 10 ∨ mm = 11 ∨ mm = 12) with h | h | h | h | h | h | h | h | h | h | h | h <;>
    subst h <;> omega
  have hj : (80 * (367 * mm / 12 + d)) / 2447 = mm := by
    rcases (by omega : mm = 1 ∨ mm = 2 ∨ mm = 3 ∨ mm = 4 ∨ mm = 5 ∨ mm = 6 ∨ mm = 7 ∨ mm = 8 ∨
      mm = 9 ∨ mm = 10 ∨ mm = 11 ∨ mm = 12) with h | h | h | h | h | h | h | h | h | h | h | h <;>
    subst h <;> omega
  have hday : 367 * mm / 12 + d - (2447 * mm) / 80 = d := by omega
  have p1 : 0 ≤ 4 * (J + 68569) := by omega
  have p2 : 0 ≤ 146097 * C + 3 := by omega
  have p3 : 0 ≤ 4000 * (1461 * r / 4 + 367 * mm / 12 + d - 31 + 1) := by omega
  have p4 : 0 ≤ 1461 * r := by omega
  have p5 : 0 ≤ 80 * (367 * mm / 12 + d) := by omega
  have p6 : 0 ≤ 2447 * mm := by omega
  have p7 : 0 ≤ mm := by omega
  have hl2 : 1461 * r / 4 + 367 * mm / 12 + d - 31 - 1461 * r / 4 + 31 = 367 * mm / 12 + d := by
    omega
  unfold gregorian_of_day_num
  simp only []
  rw [tdiv_of_nonneg p1 (by norm_num), hn, tdiv_of_nonneg p2 (by norm_num), hl1,
    tdiv_of_nonneg p3 (by norm_num), hi, tdiv_of_nonneg p4 (by norm_num), hl2,
    tdiv_of_nonneg p5 (by norm_num), hj, tdiv_of_nonneg p6 (by norm_num), hday,
    tdiv_of_nonneg p7 (by norm_num)]


/-- The four cases of `days_in_month`. -/
theorem days_in_month_cases (y mon : Int) :
    (mon = 1 ∧ ((y % 4 = 0 ∧ y % 100 ≠ 0) ∨ y % 400 = 0) ∧ days_in_month y mon = 29) ∨
    (mon = 1 ∧ ¬ ((y % 4 = 0 ∧ y % 100 ≠ 0) ∨ y % 400 = 0) ∧ days_in_month y mon = 28) ∨
    ((mon = 3 ∨ mon = 5 ∨ mon = 8 ∨ mon = 10) ∧ days_in_month y mon = 30) ∨
    (mon ≠ 1 ∧ ¬ (mon = 3 ∨ mon = 5 ∨ mon = 8 ∨ mon = 10) ∧ days_in_month y mon = 31) := by
  unfold days_in_month is_leap_year
  by_cases h1 : mon = 1
  · by_cases h2 : (y % 4 = 0 ∧ y % 100 ≠ 0) ∨ y % 400 = 0
    · left
      refine ⟨h1, h2, ?_⟩
      rw [if_pos h1, if_pos (by simpa using h2)]
    · right; left
      refine ⟨h1, h2, ?_⟩
      rw [if_pos h1, if_neg (by simpa using h2)]
  · by_cases h3 : mon = 3 ∨ mon = 5 ∨ mon = 8 ∨ mon = 10
    · right; right; left
      refine ⟨h3, ?_⟩
      rw [if_neg h1, if_pos h3]
    · right; right; right
      refine ⟨h1, h3, ?_⟩
      rw [if_neg h1, if_neg h3]

/-- The day number in terms of the century and the year of the century of the
March-based year; `a` is the month correction `(month - 14) / 12` of the code. -/
theorem julian_day_num_of_eq (y m d a : Int) (hy : -4799 ≤ y) (hm0 : 1 ≤ m) (hm1 : m ≤ 12)
    (ha : (m ≤ 2 ∧ a = -1) ∨ (3 ≤ m ∧ a = 0)) :
    julian_day_num_of y m d + 68569 =
      36524 * ((y + 4900 + a) / 100) + ((y + 4900 + a) / 100 + 3) / 4 +
      1461 * ((y + 4900 + a) % 100) / 4 + 367 * (m - 2 - 12 * a) / 12 + d - 31 := by
  have hta : Int.tdiv (m - 14) 12 = a := by
    rcases (by omega : m = 1 ∨ m = 2 ∨ m = 3 ∨ m = 4 ∨ m = 5 ∨ m = 6 ∨ m = 7 ∨ m = 8 ∨
      m = 9 ∨ m = 10 ∨ m = 11 ∨ m = 12) with h | h | h | h | h | h | h | h | h | h | h | h <;>
    subst h <;> rcases ha with ⟨h1, h2⟩ | ⟨h1, h2⟩ <;> first | omega | (subst h2; decide)
  unfold julian_day_num_of
  simp only []
  rw [hta]
  have q1 : 0 ≤ 1461 * (y + 4800 + a) := by omega
  have q2 : 0 ≤ 367 * (m - 2 - 12 * a) := by omega
  have q3 : 0 ≤ y + 4900 + a := by omega
  have q4 : 0 ≤ 3 * ((y + 4900 + a) / 100) := by omega
  rw [tdiv_of_nonneg q1 (by norm_num), tdiv_of_nonneg q2 (by norm_num),
    tdiv_of_nonneg q3 (by norm_num), tdiv_of_nonneg q4 (by norm_num)]
  have e1 : 1461 * (y + 4800 + a) / 4 =
      36525 * ((y + 4900 + a) / 100) - 36525 + 1461 * ((y + 4900 + a) % 100) / 4 := by omega
  have e2 : 3 * ((y + 4900 + a) / 100) / 4 =
      (y + 4900 + a) / 100 - ((y + 4900 + a) / 100 + 3) / 4 := by omega
  rw [e1, e2]
  ring

/-- The calendar date is recovered from its day number, for every valid date from
year -4799 on. -/
theorem gregorian_of_julian_day_num (y m d : Int) (hy : -4799 ≤ y) (hm0 : 1 ≤ m) (hm1 : m ≤ 12)
    (hd0 : 1 ≤ d) (hd1 : d ≤ days_in_month y (m - 1)) :
    gregorian_of_day_num (julian_day_num_of y m d) = (y, m, d) := by
  obtain ⟨a, ha⟩ : ∃ a : Int, (m ≤ 2 ∧ a = -1) ∨ (3 ≤ m ∧ a = 0) := by
    by_cases h : m ≤ 2
    · exact ⟨-1, Or.inl ⟨h, rfl⟩⟩
    · exact ⟨0, Or.inr ⟨by omega, rfl⟩⟩
  have hJ := julian_day_num_of_eq y m d a hy hm0 hm1 ha
  have hdim := days_in_month_cases y (m - 1)
  rw [gregorian_of_day_num_eq _ _ _ _ d hJ (by omega) (by omega) (by omega) (by omega) (by omega)
    hd0 (by omega) (by omega) (by omega) (by omega)]
  simp only [Prod.mk.injEq, and_true]
  constructor <;> omega
theorem floor_int_add_frac (z : Int) (q : ℚ) (h0 : 0 ≤ q) (h1 : q < 1) : ⌊(z : ℚ) + q⌋ = z := by
  rw [Int.floor_eq_iff]
  constructor <;> linarith

/-- The fields that `julian_date_to_datetime` stores before `mktime`: the date of day
number `K` and hour `H`, where `K = J`, `H = h` from noon on and `K = J - 1`,
`H = h + 24` before noon. -/
theorem julian_date_fields_eq (J h mi s K H : Int) (hJ : 1 ≤ J)
    (hs0 : 0 ≤ s) (hs1 : s ≤ 59) (hm0 : 0 ≤ mi) (hm1 : mi ≤ 59) (hh0 : 0 ≤ h) (hh1 : h ≤ 23)
    (hcase : (12 ≤ h ∧ K = J ∧ H = h) ∨ (h < 12 ∧ K = J - 1 ∧ H = h + 24)) :
    julian_date_fields ((J : ℚ) + (((h - 12 : Int) : ℚ) / 24 + (mi : ℚ) / (24 * 60) +
        (s : ℚ) / (24 * 60 * 60))) =
      { tm_sec := s, tm_min := mi, tm_hour := H,
        tm_mday := (gregorian_of_day_num K).2.2,
        tm_mon := (gregorian_of_day_num K).2.1 - 1,
        tm_year := (gregorian_of_day_num K).1 - 1900 } := by
  have cs0 : (0 : ℚ) ≤ s := by exact_mod_cast hs0
  have cs1 : (s : ℚ) ≤ 59 := by exact_mod_cast hs1
  have cm0 : (0 : ℚ) ≤ mi := by exact_mod_cast hm0
  have cm1 : (mi : ℚ) ≤ 59 := by exact_mod_cast hm1
  have ch0 : (0 : ℚ) ≤ h := by exact_mod_cast hh0
  have ch1 : (h : ℚ) ≤ 23 := by exact_mod_cast hh1
  have cJ : (1 : ℚ) ≤ J := by exact_mod_cast hJ
  have hK : c_int ((J : ℚ) + (((h - 12 : Int) : ℚ) / 24 + (mi : ℚ) / (24 * 60) +
        (s : ℚ) / (24 * 60 * 60))) = K := by
    have hpos : (0 : ℚ) ≤ (J : ℚ) + (((h - 12 : Int) : ℚ) / 24 + (mi : ℚ) / (24 * 60) +
        (s : ℚ) / (24 * 60 * 60)) := by
      push_cast
      linarith
    unfold c_int
    rw [if_pos hpos, Int.floor_eq_iff]
    rcases hcase with ⟨h12, hK, _⟩ | ⟨h12, hK, _⟩
    · have c12 : (12 : ℚ) ≤ h := by exact_mod_cast h12
      subst hK
      push_cast
      constructor <;> linarith
    · have c12 : (h : ℚ) ≤ 11 := by exact_mod_cast (by omega : h ≤ 11)
      subst hK
      push_cast
      constructor <;> linarith
  have hHd : ((J : ℚ) + (((h - 12 : Int) : ℚ) / 24 + (mi : ℚ) / (24 * 60) +
        (s : ℚ) / (24 * 60 * 60)) - (K : ℚ)) * 24 + 12 = (H : ℚ) + ((mi : ℚ) / 60 + (s : ℚ) / 3600) := by
    rcases hcase with ⟨_, hK, hH⟩ | ⟨_, hK, hH⟩ <;> subst hK <;> subst hH <;> push_cast <;> ring
  have hfH : c_floor ((H : ℚ) + ((mi : ℚ) / 60 + (s : ℚ) / 3600)) = H := by
    unfold c_floor
    apply floor_int_add_frac <;> linarith
  have hMd : ((H : ℚ) + ((mi : ℚ) / 60 + (s : ℚ) / 3600) - (H : ℚ)) * 60 = (mi : ℚ) + (s : ℚ) / 60 := by
    ring
  have hfM : c_floor ((mi : ℚ) + (s : ℚ) / 60) = mi := by
    unfold c_floor
    apply floor_int_add_frac <;> linarith
  have hSd : ((mi : ℚ) + (s : ℚ) / 60 - (mi : ℚ)) * 60 = (s : ℚ) + 0 := by ring
  have hfS : c_floor ((s : ℚ) + 0) = s := by
    unfold c_floor
    apply floor_int_add_frac <;> norm_num
  unfold julian_date_fields
  simp only []
  rw [hK, hHd, hfH, hMd, hfM, hSd, hfS]

theorem days_in_month_pos (y mon : Int) : 28 ≤ days_in_month y mon := by
  have h := days_in_month_cases y mon
  omega

theorem carry_days_in_range (fuel : Nat) (y mon d : Int) (h1 : 1 ≤ d)
    (h2 : d ≤ days_in_month y mon) : carry_days (fuel + 1) y mon d = (y, mon, d) := by
  rw [carry_days, if_neg (by omega), if_neg (by omega)]

theorem carry_days_next (fuel : Nat) (y mon : Int) :
    carry_days (fuel + 2) y mon (days_in_month y mon + 1) =
      if mon = 11 then (y + 1, 0, 1) else (y, mon + 1, 1) := by
  rw [carry_days, if_pos (by omega)]
  have e : days_in_month y mon + 1 - days_in_month y mon = 1 := by omega
  rw [e]
  by_cases h : mon = 11
  · rw [if_pos h, if_pos h]
    exact carry_days_in_range fuel _ _ _ (by omega) (by have := days_in_month_pos (y + 1) 0; omega)
  · rw [if_neg h, if_neg h]
    exact carry_days_in_range fuel _ _ _ (by omega) (by have := days_in_month_pos y (mon + 1); omega)

/-- Day numbers are positive from year -4712 on. -/
theorem julian_day_num_of_ge (y m d : Int) (hy : -4712 ≤ y) (hm0 : 1 ≤ m) (hm1 : m ≤ 12)
    (hd0 : 1 ≤ d) : 38 ≤ julian_day_num_of y m d := by
  obtain ⟨a, ha⟩ : ∃ a : Int, (m ≤ 2 ∧ a = -1) ∨ (3 ≤ m ∧ a = 0) := by
    by_cases h : m ≤ 2
    · exact ⟨-1, Or.inl ⟨h, rfl⟩⟩
    · exact ⟨0, Or.inr ⟨by omega, rfl⟩⟩
  have hJ := julian_day_num_of_eq y m d a (by omega) hm0 hm1 ha
  rcases (by omega : m = 1 ∨ m = 2 ∨ m = 3 ∨ m = 4 ∨ m = 5 ∨ m = 6 ∨ m = 7 ∨ m = 8 ∨
      m = 9 ∨ m = 10 ∨ m = 11 ∨ m = 12) with h | h | h | h | h | h | h | h | h | h | h | h <;>
    subst h <;> omega

/-- The day before 1 March is the last day of February, leap years included. -/
theorem march_first_aux (y D J1 J2 : Int)
  (h1 : J1 + 68569 =
      36524 * ((y + 4900 + 0) / 100) + ((y + 4900 + 0) / 100 + 3) / 4 +
      1461 * ((y + 4900 + 0) % 100) / 4 + 367 * (3 - 2 - 12 * 0) / 12 + 1 - 31)
  (h2 : J2 + 68569 =
      36524 * ((y + 4900 + -1) / 100) + ((y + 4900 + -1) / 100 + 3) / 4 +
      1461 * ((y + 4900 + -1) % 100) / 4 + 367 * (3 - 1 - 2 - 12 * -1) / 12 + D - 31)
  (hdim : (((y % 4 = 0 ∧ y % 100 ≠ 0) ∨ y % 400 = 0) ∧ D = 29) ∨
    (¬ ((y % 4 = 0 ∧ y % 100 ≠ 0) ∨ y % 400 = 0) ∧ D = 28)) : J1 - 1 = J2 := by
  obtain ⟨C, r, hW, hr0, hr1⟩ : ∃ C r : Int, y + 4900 = 100 * C + r ∧ 0 ≤ r ∧ r ≤ 99 :=
    ⟨(y + 4900) / 100, (y + 4900) % 100, by omega, by omega, by omega⟩
  have a1 : (y + 4900 + 0) / 100 = C := by omega
  have a2 : (y + 4900 + 0) % 100 = r := by omega
  rw [a1, a2] at h1
  have y4 : y % 4 = r % 4 := by omega
  have y100 : (y % 100 = 0 ↔ r = 0) := by omega
  have y400 : (y % 400 = 0 ↔ (r = 0 ∧ C % 4 = 1)) := by omega
  simp only [ne_eq, y4, y100, y400] at hdim
  clear y4 y100 y400 a1 a2
  by_cases hr : r = 0
  · have e1 : (y + 4900 + -1) % 100 = 99 := by omega
    have e2 : (y + 4900 + -1) / 100 = C - 1 := by omega
    rw [e1, e2] at h2
    subst hr
    clear hW e1 e2
    omega
  · have e1 : (y + 4900 + -1) % 100 = r - 1 := by omega
    have e2 : (y + 4900 + -1) / 100 = C := by omega
    rw [e1, e2] at h2
    clear hW e1 e2
    obtain ⟨v, w, hv, hw0, hw1⟩ : ∃ v w : Int, r = 4 * v + w ∧ 0 ≤ w ∧ w ≤ 3 :=
      ⟨r / 4, r % 4, by omega, by omega, by omega⟩
    subst hv
    have f1 : 1461 * (4 * v + w) / 4 = 1461 * v + 1461 * w / 4 := by omega
    have f2 : 1461 * (4 * v + w - 1) / 4 = 1461 * v + (1461 * w - 1461) / 4 := by omega
    have f3 : (4 * v + w) % 4 = w := by omega
    rw [f1] at h1
    rw [f2] at h2
    rw [f3] at hdim
    rcases (by omega : w = 0 ∨ w = 1 ∨ w = 2 ∨ w = 3) with h | h | h | h <;> subst h <;> omega

/-- The day before a valid date, as the inverse conversion finds it, and the carry
that leads back from "that day plus one" to the date. -/
theorem previous_day (y m d : Int) (hy : -4712 ≤ y) (hm0 : 1 ≤ m) (hm1 : m ≤ 12)
    (hd0 : 1 ≤ d) (hd1 : d ≤ days_in_month y (m - 1)) :
    ∃ y' m' d' : Int, gregorian_of_day_num (julian_day_num_of y m d - 1) = (y', m', d') ∧
      1 ≤ d' ∧ 0 ≤ m' - 1 ∧ m' - 1 ≤ 11 ∧
      ∀ fuel : Nat, carry_days (fuel + 2) y' (m' - 1) (d' + 1) = (y, m - 1, d) := by
  by_cases hd : 2 ≤ d
  · refine ⟨y, m, d - 1, ?_, by omega, by omega, by omega, ?_⟩
    · have e : julian_day_num_of y m d - 1 = julian_day_num_of y m (d - 1) := by
        unfold julian_day_num_of
        simp only []
        ring
      rw [e]
      exact gregorian_of_julian_day_num y m (d - 1) (by omega) hm0 hm1 (by omega) (by omega)
    · intro fuel
      have e : d - 1 + 1 = d := by ring
      rw [e]
      exact carry_days_in_range _ _ _ _ hd0 hd1
  · have hd' : d = 1 := by omega
    subst hd'
    by_cases hm : 2 ≤ m
    · refine ⟨y, m - 1, days_in_month y (m - 2), ?_, ?_, by omega, by omega, ?_⟩
      · have hp := days_in_month_pos y (m - 2)
        have hdim := days_in_month_cases y (m - 2)
        have e : julian_day_num_of y m 1 - 1 =
            julian_day_num_of y (m - 1) (days_in_month y (m - 2)) := by
          obtain ⟨a, ha⟩ : ∃ a : Int, (m ≤ 2 ∧ a = -1) ∨ (3 ≤ m ∧ a = 0) := by
            by_cases h : m ≤ 2
            · exact ⟨-1, Or.inl ⟨h, rfl⟩⟩
            · exact ⟨0, Or.inr ⟨by omega, rfl⟩⟩
          obtain ⟨b, hb⟩ : ∃ b : Int, (m - 1 ≤ 2 ∧ b = -1) ∨ (3 ≤ m - 1 ∧ b = 0) := by
            by_cases h : m - 1 ≤ 2
            · exact ⟨-1, Or.inl ⟨h, rfl⟩⟩
            · exact ⟨0, Or.inr ⟨by omega, rfl⟩⟩
          have h1 := julian_day_num_of_eq y m 1 a (by omega) hm0 hm1 ha
          have h2 := julian_day_num_of_eq y (m - 1) (days_in_month y (m - 2)) b (by omega)
            (by omega) (by omega) hb
          rcases (by omega : m = 2 ∨ m = 3 ∨ m = 4 ∨ m = 5 ∨ m = 6 ∨ m = 7 ∨ m = 8 ∨
            m = 9 ∨ m = 10 ∨ m = 11 ∨ m = 12) with h | h | h | h | h | h | h | h | h | h | h <;>
          subst h <;> rcases ha with ⟨ha1, rfl⟩ | ⟨ha1, rfl⟩ <;>
          rcases hb with ⟨hb1, rfl⟩ | ⟨hb1, rfl⟩ <;>
          first
          | omega
          | exact march_first_aux y _ _ _ h1 h2 (by
              rcases hdim with ⟨_, hl, hD⟩ | ⟨_, hl, hD⟩ | ⟨hc, _⟩ | ⟨hc, _⟩
              · exact Or.inl ⟨hl, hD⟩
              · exact Or.inr ⟨hl, hD⟩
              · omega
              · omega)
        rw [e]
        exact gregorian_of_julian_day_num y (m - 1) _ (by omega) (by omega) (by omega)
          (by omega) (by rw [show m - 1 - 1 = m - 2 by ring])
      · have hp := days_in_month_pos y (m - 2)
        omega
      · intro fuel
        rw [show m - 1 - 1 = m - 2 by ring, carry_days_next, if_neg (by omega)]
        rw [show m - 2 + 1 = m - 1 by ring]
    · have hm' : m = 1 := by omega
      subst hm'
      refine ⟨y - 1, 12, 31, ?_, by omega, by omega, by omega, ?_⟩
      · have e : julian_day_num_of y 1 1 - 1 = julian_day_num_of (y - 1) 12 31 := by
          have h1 := julian_day_num_of_eq y 1 1 (-1) (by omega) (by omega) (by omega)
            (Or.inl ⟨by omega, rfl⟩)
          have h2 := julian_day_num_of_eq (y - 1) 12 31 0 (by omega) (by omega) (by omega)
            (Or.inr ⟨by omega, rfl⟩)
          rw [show y - 1 + 4900 + 0 = y + 4900 + -1 by ring] at h2
          omega
        rw [e]
        have hdim := days_in_month_cases (y - 1) (12 - 1)
        exact gregorian_of_julian_day_num (y - 1) 12 31 (by omega) (by omega) (by omega)
          (by omega) (by omega)
      · intro fuel
        have hdim := days_in_month_cases (y - 1) 11
        have e : (31 : Int) + 1 = days_in_month (y - 1) 11 + 1 := by omega
        rw [show (12 : Int) - 1 = 11 by norm_num, e, carry_days_next, if_pos rfl]
        simp

/-- The field normalisation on in-range seconds, minutes and month and an hour of
`h + 24 * c`. -/
theorem normalise_fields_of_fields (s mi H h c y mon d y' mon' d' : Int)
    (hs0 : 0 ≤ s) (hs1 : s ≤ 59) (hm0 : 0 ≤ mi) (hm1 : mi ≤ 59) (hh0 : 0 ≤ h) (hh1 : h ≤ 23)
    (hH : H = h + 24 * c) (hmon0 : 0 ≤ mon') (hmon1 : mon' ≤ 11)
    (hcarry : carry_days ((d' + c).natAbs + 1) y' mon' (d' + c) = (y, mon, d)) :
    normalise_fields
        { tm_sec := s, tm_min := mi, tm_hour := H, tm_mday := d', tm_mon := mon',
          tm_year := y' - 1900 } =
      { tm_sec := s, tm_min := mi, tm_hour := h, tm_mday := d, tm_mon := mon,
        tm_year := y - 1900 } := by
  have e1 : s / 60 = 0 := by omega
  have e2 : s % 60 = s := by omega
  have e3 : (mi + 0) / 60 = 0 := by omega
  have e4 : (mi + 0) % 60 = mi := by omega
  have e5 : (H + 0) / 24 = c := by omega
  have e6 : (H + 0) % 24 = h := by omega
  have e7 : mon' / 12 = 0 := by omega
  have e8 : mon' % 12 = mon' := by omega
  have e9 : y' - 1900 + 1900 + 0 = y' := by ring
  unfold normalise_fields
  simp only []
  rw [e1, e2, e3, e4, e5, e6, e7, e8, e9, hcarry]

/-- In exact arithmetic the fields that `julian_date_to_datetime` computes from the
Julian date of a valid calendar instant `t` normalise to `t` itself, for every instant
from year -4712 (where Julian dates are positive) to year 1000000 (where the `int`
arithmetic stays inside 32 bits); the hour of 24 or more that arises before noon is
carried into the next day. -/
theorem julian_date_fields_normalise (t : tm) (hv : valid_instant t)
    (hlo : -4712 ≤ t.tm_year + 1900) (hhi : t.tm_year + 1900 ≤ 1000000) :
    normalise_fields (julian_date_fields (datetime_to_julian_date t)) = t := by
  obtain ⟨s, mi, h, d, mon, yr⟩ := t
  obtain ⟨hs0, hs1, hm0, hm1, hh0, hh1, hmon0, hmon1, hd0, hd1⟩ := hv
  simp only [] at hs0 hs1 hm0 hm1 hh0 hh1 hmon0 hmon1 hd0 hd1 hlo hhi
  have hd1' : d ≤ days_in_month (yr + 1900) (mon + 1 - 1) := by
    rw [show mon + 1 - 1 = mon by ring]; exact hd1
  have hJ := julian_day_num_of_ge (yr + 1900) (mon + 1) d hlo (by omega) (by omega) hd0
  unfold datetime_to_julian_date
  simp only []
  by_cases h12 : 12 ≤ h
  · rw [julian_date_fields_eq _ h mi s _ h (by omega) hs0 hs1 hm0 hm1 hh0 hh1
      (Or.inl ⟨h12, rfl, rfl⟩),
      gregorian_of_julian_day_num (yr + 1900) (mon + 1) d (by omega) (by omega) (by omega) hd0 hd1']
    simp only []
    have r := normalise_fields_of_fields s mi h h 0 (yr + 1900) mon d (yr + 1900) (mon + 1 - 1) d
      hs0 hs1 hm0 hm1 hh0 hh1 (by ring) (by omega) (by omega) (by
        rw [show mon + 1 - 1 = mon by ring, show d + 0 = d by ring]
        exact carry_days_in_range _ _ _ _ hd0 hd1)
    rw [show yr + 1900 - 1900 = yr by ring] at r ⊢
    exact r
  · obtain ⟨y', m', d', hg, hd'0, hm'0, hm'1, hc⟩ :=
      previous_day (yr + 1900) (mon + 1) d hlo (by omega) (by omega) hd0 hd1'
    rw [julian_date_fields_eq _ h mi s _ (h + 24) (by omega) hs0 hs1 hm0 hm1 hh0 hh1
      (Or.inr ⟨by omega, rfl, rfl⟩), hg]
    simp only []
    obtain ⟨k, hk⟩ : ∃ k : Nat, (d' + 1).natAbs + 1 = k + 2 := ⟨(d' + 1).natAbs - 1, by omega⟩
    have r := normalise_fields_of_fields s mi (h + 24) h 1 (yr + 1900) mon d y' (m' - 1) d'
      hs0 hs1 hm0 hm1 hh0 hh1 (by ring) hm'0 hm'1 (by
        rw [hk, hc k, show mon + 1 - 1 = mon by ring])
    rw [show yr + 1900 - 1900 = yr by ring] at r
    exact r

/-- The round trip of the Julian-date conversions in exact arithmetic, by the time zone
of the process: for a valid calendar instant `t` that the zone can represent,
`julian_date_to_datetime (datetime_to_julian_date t)` is `t` itself when daylight saving
time is not in effect at `t`, and the instant one hour later when it is. -/
theorem julian_date_round_trip (zone : TimeZone) (t : tm) (hv : valid_instant t)
    (hlo : -4712 ≤ t.tm_year + 1900) (hhi : t.tm_year + 1900 ≤ 1000000)
    (hrep : zone.representable t = true) :
    julian_date_to_datetime zone (datetime_to_julian_date t) =
      if zone.daylight t then normalise_fields { t with tm_hour := t.tm_hour + 1 } else t := by
  unfold julian_date_to_datetime mktime
  simp only []
  rw [julian_date_fields_normalise t hv hlo hhi, if_pos hrep]

/-- C1, the code at the failing input: 2000-07-01 12:00:00 in a time zone that keeps
daylight saving time in July. The Julian date of the instant is exactly 2451727 (at
noon the day fraction is 0, so every `double` operation is exact), the fields computed
from it are those of the instant, and `mktime`, called with `tm_isdst` 0, returns the
fields of 13:00:00: one hour, not one second, from the instant. In a zone without
daylight saving time the same call returns the instant. -/
theorem julian_date_round_trip_summer_time :
    valid_instant
      { tm_sec := 0, tm_min := 0, tm_hour := 12, tm_mday := 1, tm_mon := 6, tm_year := 100 } ∧
    datetime_to_julian_date
      { tm_sec := 0, tm_min := 0, tm_hour := 12, tm_mday := 1, tm_mon := 6, tm_year := 100 } =
        2451727 ∧
    julian_date_fields 2451727 =
      { tm_sec := 0, tm_min := 0, tm_hour := 12, tm_mday := 1, tm_mon := 6, tm_year := 100 } ∧
    julian_date_to_datetime zone_with_summer_time (datetime_to_julian_date
      { tm_sec := 0, tm_min := 0, tm_hour := 12, tm_mday := 1, tm_mon := 6, tm_year := 100 }) =
      { tm_sec := 0, tm_min := 0, tm_hour := 13, tm_mday := 1, tm_mon := 6, tm_year := 100 } ∧
    julian_date_to_datetime zone_without_daylight (datetime_to_julian_date
      { tm_sec := 0, tm_min := 0, tm_hour := 12, tm_mday := 1, tm_mon := 6, tm_year := 100 }) =
      { tm_sec := 0, tm_min := 0, tm_hour := 12, tm_mday := 1, tm_mon := 6, tm_year := 100 } := by
  have hv : valid_instant
      { tm_sec := 0, tm_min := 0, tm_hour := 12, tm_mday := 1, tm_mon := 6, tm_year := 100 } := by
    unfold valid_instant
    decide
  have hjd : datetime_to_julian_date
      { tm_sec := 0, tm_min := 0, tm_hour := 12, tm_mday := 1, tm_mon := 6, tm_year := 100 } =
        2451727 := by
    have h1 : julian_day_num_of (100 + 1900) (6 + 1) 1 = 2451727 := by decide
    unfold datetime_to_julian_date
    simp only []
    rw [h1]
    norm_num
  have hfields : julian_date_fields 2451727 =
      { tm_sec := 0, tm_min := 0, tm_hour := 12, tm_mday := 1, tm_mon := 6, tm_year := 100 } := by
    have h := julian_date_fields_eq 2451727 12 0 0 2451727 12 (by norm_num) (by norm_num)
      (by norm_num) (by norm_num) (by norm_num) (by norm_num) (by norm_num)
      (Or.inl ⟨by norm_num, rfl, rfl⟩)
    have e : ((2451727 : Int) : ℚ) + ((((12 : Int) - 12 : Int) : ℚ) / 24 + ((0 : Int) : ℚ) / (24 * 60) +
        ((0 : Int) : ℚ) / (24 * 60 * 60)) = 2451727 := by norm_num
    rw [e] at h
    rw [h]
    have g : gregorian_of_day_num 2451727 = (2000, 7, 1) := by decide
    rw [g]
    rfl
  refine ⟨hv, hjd, hfields, ?_, ?_⟩
  · rw [julian_date_round_trip zone_with_summer_time _ hv (by decide) (by decide) rfl]
    decide
  · rw [julian_date_round_trip zone_without_daylight _ hv (by decide) (by decide) rfl]
    decide

/-- C2 (the J2000 epoch). For 2000-01-01 12:00:00 the integer day number is 2451545,
the day fraction is 0 and `datetime_to_julian_date` returns exactly 2451545.0; for
1999-12-31 00:00:00 it returns exactly 2451543.5. -/
theorem datetime_to_julian_date_j2000 :
    julian_day_num_of 2000 1 1 = 2451545 ∧
    datetime_to_julian_date
      { tm_sec := 0, tm_min := 0, tm_hour := 12, tm_mday := 1, tm_mon := 0, tm_year := 100 } -
        (julian_day_num_of 2000 1 1 : ℚ) = 0 ∧
    datetime_to_julian_date
      { tm_sec := 0, tm_min := 0, tm_hour := 12, tm_mday := 1, tm_mon := 0, tm_year := 100 } =
        2451545.0 ∧
    datetime_to_julian_date
      { tm_sec := 0, tm_min := 0, tm_hour := 0, tm_mday := 31, tm_mon := 11, tm_year := 99 } =
        2451543.5 := by
  have h1 : julian_day_num_of 2000 1 1 = 2451545 := by decide
  have h1' : julian_day_num_of (100 + 1900) (0 + 1) 1 = 2451545 := by decide
  have h2 : julian_day_num_of (99 + 1900) (11 + 1) 31 = 2451544 := by decide
  refine ⟨h1, ?_, ?_, ?_⟩
  · unfold datetime_to_julian_date
    simp only []
    rw [h1', h1]
    norm_num
  · unfold datetime_to_julian_date
    simp only []
    rw [h1']
    norm_num
  · unfold datetime_to_julian_date
    simp only []
    rw [h2]
    norm_num

section AstroTheorems

variable {α : Type} [LinearOrderedField α] [FloorRing α]

theorem c_fmod_of_nonneg_quot (x y : α) (hy : 0 < y) (hq : 0 ≤ x / y) :
    0 ≤ c_fmod x y ∧ c_fmod x y < y := by
  unfold c_fmod c_int
  rw [if_pos hq]
  have h1 : (⌊x / y⌋ : α) ≤ x / y := Int.floor_le _
  have h2 : x / y < (⌊x / y⌋ : α) + 1 := Int.lt_floor_add_one _
  have e : x = x / y * y := by field_simp
  constructor
  · have : (⌊x / y⌋ : α) * y ≤ x / y * y := mul_le_mul_of_nonneg_right h1 hy.le
    linarith
  · have : x / y * y < ((⌊x / y⌋ : α) + 1) * y := mul_lt_mul_of_pos_right h2 hy
    linarith

theorem c_fmod_of_neg_quot (x y : α) (hy : 0 < y) (hq : ¬ 0 ≤ x / y) :
    -y < c_fmod x y ∧ c_fmod x y ≤ 0 := by
  unfold c_fmod c_int
  rw [if_neg hq]
  have h1 : x / y ≤ (⌈x / y⌉ : α) := Int.le_ceil _
  have h2 : (⌈x / y⌉ : α) < x / y + 1 := Int.ceil_lt_add_one _
  have e : x = x / y * y := by field_simp
  constructor
  · have : (⌈x / y⌉ : α) * y < (x / y + 1) * y := mul_lt_mul_of_pos_right h2 hy
    linarith
  · have : x / y * y ≤ (⌈x / y⌉ : α) * y := mul_le_mul_of_nonneg_right h1 hy.le
    linarith

/-- With a positive `M_PI`, `norm_rad` maps every number into `[0, 2 * M_PI)`. -/
theorem norm_rad_range (lib : Libm α) (hpi : 0 < lib.M_PI) (rad : α) :
    0 ≤ norm_rad lib rad ∧ norm_rad lib rad < 2 * lib.M_PI := by
  have hy : 0 < 2 * lib.M_PI := by linarith
  unfold norm_rad
  simp only []
  by_cases hq : 0 ≤ rad / (2 * lib.M_PI)
  · obtain ⟨h1, h2⟩ := c_fmod_of_nonneg_quot rad _ hy hq
    rw [if_neg (not_lt.mpr h1)]
    constructor <;> linarith
  · obtain ⟨h1, h2⟩ := c_fmod_of_neg_quot rad _ hy hq
    by_cases h0 : c_fmod rad (2 * lib.M_PI) < 0
    · rw [if_pos h0]
      constructor <;> linarith
    · rw [if_neg h0]
      have : c_fmod rad (2 * lib.M_PI) = 0 := le_antisymm h2 (not_lt.mp h0)
      constructor <;> linarith

end AstroTheorems

/-- C3 (angles in range). In exact real arithmetic, for every Julian date `jd` both
`earth_rotation_angle_rad jd` and `greenwich_mean_sidereal_time_rad jd` are at least 0
and strictly below 2π, and so is `norm_rad rad` for every real `rad`. -/
theorem sidereal_angles_in_range (jd : ℝ) :
    (0 ≤ earth_rotation_angle_rad real_libm jd ∧
      earth_rotation_angle_rad real_libm jd < 2 * Real.pi) ∧
    (0 ≤ greenwich_mean_sidereal_time_rad real_libm jd ∧
      greenwich_mean_sidereal_time_rad real_libm jd < 2 * Real.pi) ∧
    ∀ rad : ℝ, 0 ≤ norm_rad real_libm rad ∧ norm_rad real_libm rad < 2 * Real.pi := by
  have hpi : 0 < real_libm.M_PI := Real.pi_pos
  unfold earth_rotation_angle_rad greenwich_mean_sidereal_time_rad
  simp only []
  exact ⟨norm_rad_range real_libm hpi _, norm_rad_range real_libm hpi _,
    fun rad => norm_rad_range real_libm hpi rad⟩

theorem kepler_loop_steps {α : Type} [LinearOrderedField α] (lib : Libm α) (M e : α) (k : Nat) :
    ∀ (dE E : α) (n : Nat), 10 - n = k → n ≤ 10 →
      n ≤ (kepler_loop lib M e dE E n).2.2 ∧ (kepler_loop lib M e dE E n).2.2 ≤ 10 := by
  induction k with
  | zero =>
    intro dE E n hk hn
    rw [kepler_loop, if_neg (by omega)]
    exact ⟨le_refl _, hn⟩
  | succ k ih =>
    intro dE E n hk hn
    rw [kepler_loop]
    by_cases hc : 1e-6 < |dE| ∧ n < 10
    · rw [if_pos hc]
      have := ih (solve_kepler lib M e E) (E + solve_kepler lib M e E) (n + 1) (by omega)
        (by omega)
      omega
    · rw [if_neg hc]
      exact ⟨le_refl _, hn⟩

theorem kepler_loop_first_step {α : Type} [LinearOrderedField α] (lib : Libm α) (M e E : α) :
    kepler_loop lib M e 1.0 E 0 =
      kepler_loop lib M e (solve_kepler lib M e E) (E + solve_kepler lib M e E) 1 := by
  rw [kepler_loop, if_pos]
  constructor
  · rw [abs_of_pos (by norm_num)]
    norm_num
  · norm_num

/-- C4 (the Kepler iteration is bounded). For every mean anomaly `M` and eccentricity
`e`, every number type and every `sin` and `cos`, the Newton loop of
`calc_planet_helio_ICRF` and that of `calc_moon_geo_ICRF` end after at least 1 and at
most 10 correction steps. -/
theorem kepler_iteration_bounded {α : Type} [LinearOrderedField α]
    (lib : Libm α) (M e : α) :
    1 ≤ (planet_eccentric_anomaly lib M e).2 ∧ (planet_eccentric_anomaly lib M e).2 ≤ 10 ∧
    1 ≤ (moon_eccentric_anomaly lib M e).2 ∧ (moon_eccentric_anomaly lib M e).2 ≤ 10 := by
  unfold planet_eccentric_anomaly moon_eccentric_anomaly
  simp only []
  rw [kepler_loop_first_step, kepler_loop_first_step]
  refine ⟨?_, ?_, ?_, ?_⟩
  · exact (kepler_loop_steps lib M e 9 _ _ 1 (by norm_num) (by norm_num)).1
  · exact (kepler_loop_steps lib M e 9 _ _ 1 (by norm_num) (by norm_num)).2
  · exact (kepler_loop_steps lib M e 9 _ _ 1 (by norm_num) (by norm_num)).1
  · exact (kepler_loop_steps lib M e 9 _ _ 1 (by norm_num) (by norm_num)).2

/-- C5 (clipping of rendered objects). Whatever the window size and the configuration,
`render_object_stereo` leaves the window as it was (no glyph, no label, no attribute
change) for an object whose stereographic polar radius has absolute value above 1. -/
theorem render_object_stereo_outside_disk {α : Type} [LinearOrderedField α] [FloorRing α]
    (lib : Libm α) (win : WINDOW) (object : ObjectBase α) (config : Conf α)
    (h : 1 < |(horizontal_to_polar lib object.azimuth object.altitude).1|) :
    render_object_stereo lib win object config = win := by
  unfold render_object_stereo
  simp only []
  rw [if_pos h]

theorem sample_object_radius :
    (horizontal_to_polar real_libm sample_object_below_horizon.azimuth
      sample_object_below_horizon.altitude).1 = Real.tan (3 * Real.pi / 8) := by
  have hpos : 0 ≤ Real.pi := Real.pi_pos.le
  have e : |(0.0 : ℝ) - (Real.pi / 2 - -(Real.pi / 4))| / 2.0 = 3 * Real.pi / 8 := by
    rw [abs_of_nonpos (by norm_num; linarith)]
    norm_num
    ring
  simp only [horizontal_to_polar, horizontal_to_spherical, project_stereographic_north,
    sample_object_below_horizon, real_libm]
  rw [e]
  norm_num

theorem one_lt_tan_three_pi_div_eight : 1 < Real.tan (3 * Real.pi / 8) := by
  have hpi : 0 < Real.pi := Real.pi_pos
  have h := Real.tan_lt_tan_of_lt_of_lt_pi_div_two (x := Real.pi / 4) (y := 3 * Real.pi / 8)
    (by linarith) (by linarith) (by linarith)
  rwa [Real.tan_pi_div_four] at h

/-- Witness for `render_object_stereo_outside_disk`: an object at altitude `-π/4` has
polar radius `tan (3π/8) > 1`, and an 80 × 24 window stays blank. -/
theorem render_object_stereo_outside_disk_witness :
    1 < |(horizontal_to_polar real_libm sample_object_below_horizon.azimuth
      sample_object_below_horizon.altitude).1| ∧
    render_object_stereo real_libm (newwin 24 80) sample_object_below_horizon sample_conf =
      newwin 24 80 :=
  have h : 1 < |(horizontal_to_polar real_libm sample_object_below_horizon.azimuth
      sample_object_below_horizon.altitude).1| := by
    rw [sample_object_radius]
    exact lt_of_lt_of_le one_lt_tan_three_pi_div_eight (le_abs_self _)
  ⟨h, render_object_stereo_outside_disk real_libm (newwin 24 80) sample_object_below_horizon
    sample_conf h⟩

/-- C6 (stereographic projection at the centre and at a quarter turn). In exact real
arithmetic, for every sphere radius and every centre: the centre itself is projected to
polar radius 0, every point whose `φ` is `π/2` away from the centre's to polar radius
exactly `sphere_radius`, and the returned angle is always `θ - center_θ`. -/
theorem project_stereographic_centre_and_quarter (sphere_radius point_theta point_phi
    center_theta center_phi : ℝ) :
    (project_stereographic real_libm sphere_radius point_theta center_phi center_theta
      center_phi).1 = 0 ∧
    (|center_phi - point_phi| = Real.pi / 2 →
      (project_stereographic real_libm sphere_radius point_theta point_phi center_theta
        center_phi).1 = sphere_radius) ∧
    (project_stereographic real_libm sphere_radius point_theta point_phi center_theta
      center_phi).2 = point_theta - center_theta := by
  refine ⟨?_, ?_, rfl⟩
  · simp [project_stereographic, real_libm]
  · intro h
    simp only [project_stereographic, real_libm]
    rw [h, show Real.pi / 2 / (2.0 : ℝ) = Real.pi / 4 by norm_num; ring, Real.tan_pi_div_four,
      mul_one]

/-- Witness for `project_stereographic_centre_and_quarter`: the point `φ = π/2` on the
equator of a sphere of radius 7 centred on the pole `φ = 0` lands at polar radius 7. -/
theorem project_stereographic_centre_and_quarter_witness :
    |(0 : ℝ) - Real.pi / 2| = Real.pi / 2 ∧
    (project_stereographic real_libm 7 Real.pi (Real.pi / 2) 0 0).1 = 7 :=
  have h : |(0 : ℝ) - Real.pi / 2| = Real.pi / 2 := by
    rw [zero_sub, abs_neg, abs_of_pos (by positivity)]
  ⟨h, (project_stereographic_centre_and_quarter 7 Real.pi (Real.pi / 2) 0 0).2.1 h⟩

theorem c_round_half_of_int {α : Type} [LinearOrderedField α] [FloorRing α] (h : Int)
    (hh : 1 ≤ h) : c_round (((h - 1 : Int) : α) / 2) = h / 2 := by
  have h0 : (0 : α) ≤ ((h - 1 : Int) : α) / 2 := by
    have : (0 : α) ≤ ((h - 1 : Int) : α) := by exact_mod_cast (by omega : 0 ≤ h - 1)
    positivity
  unfold c_round
  rw [if_pos h0, Int.floor_eq_iff]
  obtain ⟨k, hk | hk⟩ : ∃ k : Int, h = 2 * k ∨ h = 2 * k + 1 := ⟨h / 2, by omega⟩
  · have e : h / 2 = k := by omega
    rw [e, hk]
    push_cast
    constructor <;> linarith
  · have e : h / 2 = k := by omega
    rw [e, hk]
    push_cast
    constructor <;> linarith

theorem c_round_int {α : Type} [LinearOrderedField α] [FloorRing α] (z : Int) :
    c_round (z : α) = z := by
  unfold c_round
  by_cases h : (0 : α) ≤ (z : α)
  · rw [if_pos h, Int.floor_eq_iff]
    constructor <;> linarith
  · rw [if_neg h, Int.ceil_eq_iff]
    constructor <;> linarith

/-- C7 (screen mapping of the disk's centre, top and bottom). In exact real arithmetic,
for a window of height `h ≥ 1` and width `w ≥ 1` and every angle `θ`,
`polar_to_win 0 θ h w` is `(round ((h-1)/2), round ((w-1)/2))`, halves rounded away from
zero, which is `(h / 2, w / 2)` in integer division; `polar_to_win 1 (π/2) h w` is in
row 0 and `polar_to_win 1 (-π/2) h w` in row `h - 1`. -/
theorem polar_to_win_centre_top_bottom (h w : Int) (hh : 1 ≤ h) (hw : 1 ≤ w) (theta : ℝ) :
    polar_to_win real_libm 0 theta h w =
      (c_round (((h - 1 : Int) : ℝ) / 2), c_round (((w - 1 : Int) : ℝ) / 2)) ∧
    polar_to_win real_libm 0 theta h w = (h / 2, w / 2) ∧
    (polar_to_win real_libm 1 (Real.pi / 2) h w).1 = 0 ∧
    (polar_to_win real_libm 1 (-(Real.pi / 2)) h w).1 = h - 1 := by
  have e0 : polar_to_win real_libm 0 theta h w =
      (c_round (((h - 1 : Int) : ℝ) / 2), c_round (((w - 1 : Int) : ℝ) / 2)) := by
    simp only [polar_to_win, real_libm]
    norm_num
  refine ⟨e0, ?_, ?_, ?_⟩
  · rw [e0, c_round_half_of_int h hh, c_round_half_of_int w hw]
  · simp only [polar_to_win, real_libm, Real.sin_pi_div_two]
    have e : (1 : ℝ) * -(((h - 1 : Int) : ℝ) / 2.0) * 1 + ((h - 1 : Int) : ℝ) / 2.0 = ((0 : Int) : ℝ) := by
      push_cast
      ring
    rw [e, c_round_int]
  · simp only [polar_to_win, real_libm, Real.sin_neg, Real.sin_pi_div_two]
    have e : (1 : ℝ) * -(((h - 1 : Int) : ℝ) / 2.0) * -1 + ((h - 1 : Int) : ℝ) / 2.0 =
        ((h - 1 : Int) : ℝ) := by
      norm_num
    rw [e, c_round_int]

/-- Witness for `polar_to_win_centre_top_bottom`: the centre of a 100 × 100 window is
cell `(50, 50)`, the top of the disk is in row 0 and its bottom in row 99. -/
theorem polar_to_win_centre_top_bottom_witness :
    polar_to_win real_libm 0 0 100 100 = (50, 50) ∧
    (polar_to_win real_libm 1 (Real.pi / 2) 100 100).1 = 0 ∧
    (polar_to_win real_libm 1 (-(Real.pi / 2)) 100 100).1 = 99 :=
  ⟨(polar_to_win_centre_top_bottom 100 100 (by decide) (by decide) 0).2.1,
    (polar_to_win_centre_top_bottom 100 100 (by decide) (by decide) 0).2.2.1,
    (polar_to_win_centre_top_bottom 100 100 (by decide) (by decide) 0).2.2.2⟩

/-! ### The window model -/

theorem glyph_at_put_cell (w : WINDOW) (y x : Int) (ch : Char) (r c : Int) :
    glyph_at (put_cell w y x ch) r c = if r = y ∧ c = x then some ch else glyph_at w r c := by
  unfold glyph_at put_cell
  simp only [List.find?_cons]
  by_cases h : r = y ∧ c = x
  · obtain ⟨h1, h2⟩ := h
    subst h1 h2
    simp
  · rw [if_neg h]
    have : decide (y = r ∧ x = c) = false := by
      rw [decide_eq_false_iff_not]
      intro h'
      exact h ⟨h'.1.symm, h'.2.symm⟩
    simp only [this]

theorem mvwaddch_of_fits (w : WINDOW) (y x : Int) (ch : Char)
    (h : 0 ≤ y ∧ y < w.height ∧ 0 ≤ x ∧ x < w.width) : mvwaddch w y x ch = put_cell w y x ch := by
  unfold mvwaddch in_window
  rw [if_pos (by simpa using h)]

theorem mvwaddstr_singleton (w : WINDOW) (y x : Int) (ch : Char) :
    mvwaddstr w y x (String.singleton ch) = mvwaddch w y x ch := by
  unfold mvwaddstr mvwaddch
  have e : (String.singleton ch).toList = [ch] := rfl
  rw [e]
  by_cases h : in_window w y x = true
  · rw [if_pos h, if_pos h]
    simp only [waddstr_chars, if_pos h]
    split <;> rfl
  · rw [if_neg h, if_neg h]

theorem put_cell_height (w : WINDOW) (y x : Int) (ch : Char) :
    (put_cell w y x ch).height = w.height := rfl

theorem put_cell_width (w : WINDOW) (y x : Int) (ch : Char) :
    (put_cell w y x ch).width = w.width := rfl

theorem mem_written_cells (w : WINDOW) (r c : Int) :
    (r, c) ∈ written_cells w ↔ glyph_at w r c ≠ none := by
  unfold written_cells glyph_at
  simp only [List.mem_toFinset, List.mem_map, Prod.mk.injEq, ne_eq, Option.map_eq_none',
    List.find?_eq_none, decide_eq_true_eq, not_forall, Classical.not_imp, not_not]
  constructor
  · rintro ⟨a, ha, h1, h2⟩
    exact ⟨a, ha, h1, h2⟩
  · rintro ⟨a, ha, h1, h2⟩
    exact ⟨a, ha, h1, h2⟩

theorem natAbs_literal_mul (s : Int) (hs : s = 1 ∨ s = -1) (k : Int) : |s * k| = |k| := by
  rcases hs with rfl | rfl
  · rw [one_mul]
  · rw [neg_one_mul, abs_neg]

/-! ### `draw_line_ASCII` on a diagonal -/

theorem draw_line_ASCII_rows_diagonal (ya xa sr sc : Int) (n : Nat) (slope : Char)
    (hsr : sr = 1 ∨ sr = -1) (hsc : sc = 1 ∨ sc = -1) (m : Nat) :
    ∀ (k fuel : Nat) (w : WINDOW), n + 1 - k = m → k ≤ n + 1 → n + 2 - k ≤ fuel →
      (∀ j : Int, k ≤ j → j ≤ n →
        0 ≤ ya + sr * j ∧ ya + sr * j < w.height ∧ 0 ≤ xa + sc * j ∧ xa + sc * j < w.width) →
      ∃ w', draw_line_ASCII_rows ya xa (sr * n) sr (sc : ℚ) slope fuel (sr * k)
            ((sc * k : Int) : ℚ) w = some w' ∧
        w'.height = w.height ∧ w'.width = w.width ∧
        ∀ r c, glyph_at w' r c =
          if (k : Int) ≤ sr * (r - ya) ∧ sr * (r - ya) ≤ n ∧ c = xa + sc * (sr * (r - ya))
          then some slope else glyph_at w r c := by
  induction m with
  | zero =>
    intro k fuel w hm hk hfuel _
    have hk' : k = n + 1 := by omega
    subst hk'
    obtain ⟨f, rfl⟩ : ∃ f, fuel = f + 1 := ⟨fuel - 1, by omega⟩
    refine ⟨w, ?_, rfl, rfl, ?_⟩
    · rw [draw_line_ASCII_rows, if_neg]
      rw [natAbs_literal_mul sr hsr, natAbs_literal_mul sr hsr]
      rw [abs_of_nonneg (by positivity), abs_of_nonneg (by positivity)]
      push_cast
      omega
    · intro r c
      rw [if_neg]
      push_cast
      omega
  | succ m ih =>
    intro k fuel w hm hk hfuel hfit
    obtain ⟨f, rfl⟩ : ∃ f, fuel = f + 1 := ⟨fuel - 1, by omega⟩
    have hkn : k ≤ n := by omega
    have hcond : |sr * (k : Int)| ≤ |sr * (n : Int)| := by
      rw [natAbs_literal_mul sr hsr, natAbs_literal_mul sr hsr]
      rw [abs_of_nonneg (by positivity), abs_of_nonneg (by positivity)]
      exact_mod_cast hkn
    have hx : c_round (((sc * k : Int) : ℚ)) = sc * k := c_round_int _
    have hx' : c_round (((sc * k : Int) : ℚ) + (sc : ℚ)) = sc * (k + 1 : Nat) := by
      have : ((sc * k : Int) : ℚ) + (sc : ℚ) = ((sc * (k + 1 : Nat) : Int) : ℚ) := by
        push_cast
        ring
      rw [this, c_round_int]
    have hne : xa + sc * (k + 1 : Nat) ≠ xa + sc * k := by
      rcases hsc with rfl | rfl <;> push_cast <;> omega
    have hfit_k := hfit k (le_refl _) (by exact_mod_cast hkn)
    obtain ⟨w', hrun, hh, hw, hg⟩ := ih (k + 1) f
      (put_cell (put_cell w (ya + sr * k) (xa + sc * k) '|') (ya + sr * k) (xa + sc * k) slope)
      (by omega) (by omega) (by omega) (by
        intro j hj1 hj2
        simp only [put_cell_height, put_cell_width]
        exact hfit j (by push_cast at hj1; omega) hj2)
    refine ⟨w', ?_, by rw [hh]; rfl, by rw [hw]; rfl, ?_⟩
    · rw [draw_line_ASCII_rows, if_pos hcond]
      simp only []
      rw [hx, hx', if_pos hne, mvwaddch_of_fits w _ _ _ hfit_k,
        mvwaddch_of_fits _ _ _ _ (by simpa only [put_cell_height, put_cell_width] using hfit_k)]
      have e1 : sr * (k : Int) + sr = sr * ((k + 1 : Nat) : Int) := by push_cast; ring
      have e2 : ((sc * k : Int) : ℚ) + (sc : ℚ) = ((sc * ((k + 1 : Nat) : Int) : Int) : ℚ) := by
        push_cast
        ring
      rw [e1, e2]
      exact hrun
    · intro r c
      rw [hg r c, glyph_at_put_cell, glyph_at_put_cell]
      have hA : ((k : Int) ≤ sr * (r - ya) ∧ sr * (r - ya) ≤ n ∧ c = xa + sc * (sr * (r - ya))) ↔
          ((((k + 1 : Nat) : Int) ≤ sr * (r - ya) ∧ sr * (r - ya) ≤ n ∧
              c = xa + sc * (sr * (r - ya))) ∨
            (r = ya + sr * k ∧ c = xa + sc * k)) := by
        rcases hsr with rfl | rfl <;> rcases hsc with rfl | rfl <;> push_cast <;> omega
      by_cases hP : r = ya + sr * k ∧ c = xa + sc * k
      · rw [if_pos hP, if_pos (hA.mpr (Or.inr hP))]
        split <;> rfl
      · rw [if_neg hP, if_neg hP]
        by_cases hQ : ((k + 1 : Nat) : Int) ≤ sr * (r - ya) ∧ sr * (r - ya) ≤ n ∧
            c = xa + sc * (sr * (r - ya))
        · rw [if_pos hQ, if_pos (hA.mpr (Or.inl hQ))]
        · rw [if_neg hQ, if_neg (fun h => (hA.mp h).elim hQ hP)]

theorem diagonal_cell_iff (ya xa sr sc : Int) (n : Nat) (hsr : sr = 1 ∨ sr = -1)
    (hsc : sc = 1 ∨ sc = -1) (r c : Int) :
    (((0 : Nat) : Int) ≤ sr * (r - ya) ∧ sr * (r - ya) ≤ n ∧ c = xa + sc * (sr * (r - ya))) ↔
      ∃ j : Nat, j ≤ n ∧ r = ya + sr * j ∧ c = xa + sc * j := by
  constructor
  · rintro ⟨h1, h2, h3⟩
    refine ⟨(sr * (r - ya)).toNat, ?_, ?_, ?_⟩
    · omega
    · rcases hsr with rfl | rfl <;> omega
    · rw [h3, Int.toNat_of_nonneg (by omega)]
  · rintro ⟨j, hj, rfl, rfl⟩
    rcases hsr with rfl | rfl <;> rcases hsc with rfl | rfl <;> push_cast <;> omega

/-- C8 (plain diagonal). On a blank window that holds both end cells, `draw_line_ASCII`
along an exact diagonal of `n ≥ 1` steps (row direction `sr`, column direction `sc`)
ends, and the window then shows the joint glyph in the `n + 1` cells
`(ya + sr * j, xa + sc * j)`, `0 ≤ j ≤ n` (one per row and per column) and nothing
anywhere else: the glyph is `\` when rows and columns move the same way and `/` when
they move opposite ways. -/
theorem draw_line_ASCII_diagonal (h w ya xa sr sc : Int) (n fuel : Nat) (hn : 1 ≤ n)
    (hsr : sr = 1 ∨ sr = -1) (hsc : sc = 1 ∨ sc = -1)
    (hstart : 0 ≤ ya ∧ ya < h ∧ 0 ≤ xa ∧ xa < w)
    (hend : 0 ≤ ya + sr * n ∧ ya + sr * n < h ∧ 0 ≤ xa + sc * n ∧ xa + sc * n < w)
    (hfuel : n + 2 ≤ fuel) :
    ∃ win, draw_line_ASCII fuel (newwin h w) ya xa (ya + sr * n) (xa + sc * n) = some win ∧
      (∀ r c, glyph_at win r c =
        if ∃ j : Nat, j ≤ n ∧ r = ya + sr * j ∧ c = xa + sc * j
        then some (if sr = sc then '\\' else '/') else none) ∧
      (written_cells win).card = n + 1 := by
  have hnpos : (0 : Int) < n := by exact_mod_cast hn
  have habs : ∀ s : Int, s = 1 ∨ s = -1 → |s * (n : Int)| = n := by
    intro s hs
    rw [natAbs_literal_mul s hs, abs_of_nonneg hnpos.le]
  have hdy : ya + sr * n - ya = sr * n := by ring
  have hdx : xa + sc * n - xa = sc * n := by ring
  have hsy : (if sr * (n : Int) > 0 then (1 : Int) else -1) = sr := by
    rcases hsr with rfl | rfl
    · rw [if_pos (by omega)]
    · rw [if_neg (by omega)]
  have hsx : ((sc * n : Int) : ℚ) / (((|sr * (n : Int)|) : Int) : ℚ) = (sc : ℚ) := by
    rw [habs sr hsr]
    have : ((n : Int) : ℚ) ≠ 0 := by exact_mod_cast hnpos.ne'
    push_cast
    field_simp
  have hslope : (if sc * (n : Int) > 0 then (if sr * (n : Int) > 0 then '\\' else '/')
      else (if sr * (n : Int) > 0 then '/' else '\\')) = (if sr = sc then '\\' else '/') := by
    rcases hsr with rfl | rfl <;> rcases hsc with rfl | rfl
    · rw [if_pos (by omega), if_pos (by omega), if_pos rfl]
    · rw [if_neg (by omega), if_pos (by omega), if_neg (by decide)]
    · rw [if_pos (by omega), if_neg (by omega), if_neg (by decide)]
    · rw [if_neg (by omega), if_neg (by omega), if_pos rfl]
  obtain ⟨win, hrun, _, _, hg⟩ := draw_line_ASCII_rows_diagonal ya xa sr sc n
    (if sr = sc then '\\' else '/') hsr hsc (n + 1) 0 fuel (newwin h w) (by omega) (by omega)
    (by omega) (by
      intro j hj0 hjn
      show 0 ≤ ya + sr * j ∧ ya + sr * j < h ∧ 0 ≤ xa + sc * j ∧ xa + sc * j < w
      rcases hsr with rfl | rfl <;> rcases hsc with rfl | rfl <;> push_cast at hj0 <;> omega)
  have hglyph : ∀ r c, glyph_at win r c =
      if ∃ j : Nat, j ≤ n ∧ r = ya + sr * j ∧ c = xa + sc * j
      then some (if sr = sc then '\\' else '/') else none := by
    intro r c
    rw [hg r c]
    by_cases hc : ∃ j : Nat, j ≤ n ∧ r = ya + sr * j ∧ c = xa + sc * j
    · rw [if_pos hc, if_pos ((diagonal_cell_iff ya xa sr sc n hsr hsc r c).mpr hc)]
    · rw [if_neg hc, if_neg (fun h' => hc ((diagonal_cell_iff ya xa sr sc n hsr hsc r c).mp h'))]
      rfl
  refine ⟨win, ?_, hglyph, ?_⟩
  · unfold draw_line_ASCII
    simp only []
    rw [hdy, hdx, if_pos (by rw [habs sr hsr, habs sc hsc]), hsy, hsx, hslope]
    have e : ((sc * ((0 : Nat) : Int) : Int) : ℚ) = 0 := by norm_num
    have e' : sr * ((0 : Nat) : Int) = 0 := by norm_num
    rw [e, e'] at hrun
    exact hrun
  · have himg : written_cells win =
        Finset.image (fun j : Nat => (ya + sr * (j : Int), xa + sc * (j : Int)))
          (Finset.range (n + 1)) := by
      ext ⟨r, c⟩
      rw [mem_written_cells, hglyph r c]
      simp only [Finset.mem_image, Finset.mem_range, Prod.mk.injEq]
      constructor
      · intro hne
        by_cases hc : ∃ j : Nat, j ≤ n ∧ r = ya + sr * j ∧ c = xa + sc * j
        · obtain ⟨j, hj, h1, h2⟩ := hc
          exact ⟨j, by omega, h1.symm, h2.symm⟩
        · rw [if_neg hc] at hne
          exact absurd rfl hne
      · rintro ⟨j, hj, h1, h2⟩
        rw [if_pos ⟨j, by omega, h1.symm, h2.symm⟩]
        exact Option.some_ne_none _
    rw [himg, Finset.card_image_of_injective, Finset.card_range]
    intro a b hab
    simp only [Prod.mk.injEq] at hab
    rcases hsr with rfl | rfl <;> omega

/-- Witness for `draw_line_ASCII_diagonal`: the two diagonals of a 10 × 10 window,
`(0,0)` to `(9,9)` drawn with `\` and `(9,0)` to `(0,9)` drawn with `/`. -/
theorem draw_line_ASCII_diagonal_witness :
    (∃ win, draw_line_ASCII 11 (newwin 10 10) 0 0 (0 + 1 * (9 : Nat)) (0 + 1 * (9 : Nat)) =
        some win ∧
      (∀ r c, glyph_at win r c =
        if ∃ j : Nat, j ≤ 9 ∧ r = 0 + 1 * j ∧ c = 0 + 1 * j
        then some (if (1 : Int) = 1 then '\\' else '/') else none) ∧
      (written_cells win).card = 9 + 1) ∧
    (∃ win, draw_line_ASCII 11 (newwin 10 10) 9 0 (9 + -1 * (9 : Nat)) (0 + 1 * (9 : Nat)) =
        some win ∧
      (∀ r c, glyph_at win r c =
        if ∃ j : Nat, j ≤ 9 ∧ r = 9 + -1 * j ∧ c = 0 + 1 * j
        then some (if (-1 : Int) = 1 then '\\' else '/') else none) ∧
      (written_cells win).card = 9 + 1) :=
  ⟨draw_line_ASCII_diagonal 10 10 0 0 1 1 9 11 (by decide) (by decide) (by decide) (by decide)
      (by decide) (by decide),
    draw_line_ASCII_diagonal 10 10 9 0 (-1) 1 9 11 (by decide) (by decide) (by decide)
      (by decide) (by decide) (by decide)⟩

/-! ### `draw_line_smooth` on a diagonal -/

theorem draw_line_smooth_cols_diagonal (ya xa sr : Int) (n : Nat) (ca cb : Char)
    (hsr : sr = 1 ∨ sr = -1) (m : Nat) :
    ∀ (k fuel : Nat) (w : WINDOW), n + 1 - k = m → k ≤ n + 1 → n + 2 - k ≤ fuel →
      (∀ j : Int, k ≤ j → j ≤ n →
        0 ≤ ya + sr * j ∧ ya + sr * j < w.height ∧ 0 ≤ xa + j ∧ xa + j < w.width) →
      ∃ w', draw_line_smooth_cols ya xa (ya + sr * n) n (sr : ℚ) 1 (String.singleton ca)
            (String.singleton cb) fuel ((sr * k : Int) : ℚ) k w = some w' ∧
        w'.height = w.height ∧ w'.width = w.width ∧
        ∀ r c, glyph_at w' r c =
          if (k : Int) ≤ c - xa ∧ c - xa < n ∧ r = ya + sr * (c - xa) then some ca
          else if (k : Int) ≤ c - xa ∧ c - xa < n ∧ r = ya + sr * (c - xa + 1) then some cb
          else if k ≤ n ∧ c = xa + n ∧ r = ya + sr * n then some '─'
          else glyph_at w r c := by
  induction m with
  | zero =>
    intro k fuel w hm hk hfuel _
    have hk' : k = n + 1 := by omega
    subst hk'
    obtain ⟨f, rfl⟩ : ∃ f, fuel = f + 1 := ⟨fuel - 1, by omega⟩
    refine ⟨w, ?_, rfl, rfl, ?_⟩
    · rw [draw_line_smooth_cols, if_neg]
      rw [abs_of_nonneg (by positivity), abs_of_nonneg (by positivity)]
      push_cast
      omega
    · intro r c
      rw [if_neg (by push_cast; omega), if_neg (by push_cast; omega), if_neg (by omega)]
  | succ m ih =>
    intro k fuel w hm hk hfuel hfit
    obtain ⟨f, rfl⟩ : ∃ f, fuel = f + 1 := ⟨fuel - 1, by omega⟩
    have hkn : k ≤ n := by omega
    have hcond : |(k : Int)| ≤ |(n : Int)| := by
      rw [abs_of_nonneg (by positivity), abs_of_nonneg (by positivity)]
      exact_mod_cast hkn
    have hy : c_round (((sr * k : Int) : ℚ)) = sr * k := c_round_int _
    have hy' : c_round (((sr * k : Int) : ℚ) + (sr : ℚ)) = sr * (k + 1 : Nat) := by
      have : ((sr * k : Int) : ℚ) + (sr : ℚ) = ((sr * (k + 1 : Nat) : Int) : ℚ) := by
        push_cast
        ring
      rw [this, c_round_int]
    have hne : ya + sr * k ≠ ya + sr * (k + 1 : Nat) := by
      rcases hsr with rfl | rfl <;> push_cast <;> omega
    have hfit_k := hfit k (le_refl _) (by exact_mod_cast hkn)
    have e1 : ((sr * k : Int) : ℚ) + (sr : ℚ) = ((sr * ((k + 1 : Nat) : Int) : Int) : ℚ) := by
      push_cast
      ring
    have e2 : (k : Int) + 1 = ((k + 1 : Nat) : Int) := by push_cast; ring
    by_cases hlast : k = n
    · -- the last cell: only the horizontal glyph
      obtain ⟨w', hrun, hh, hw, hg⟩ := ih (k + 1) f
        (put_cell w (ya + sr * k) (xa + k) '─') (by omega) (by omega) (by omega) (by
          intro j hj1 hj2
          simp only [put_cell_height, put_cell_width]
          exact hfit j (by push_cast at hj1; omega) hj2)
      refine ⟨w', ?_, by rw [hh]; rfl, by rw [hw]; rfl, ?_⟩
      · rw [draw_line_smooth_cols, if_pos hcond]
        simp only []
        rw [hy, hy', if_neg (by rw [hlast]; exact fun h' => h'.2 rfl),
          show "─" = String.singleton '─' from rfl, mvwaddstr_singleton,
          mvwaddch_of_fits w _ _ _ hfit_k, e1, e2]
        exact hrun
      · intro r c
        rw [hg r c, glyph_at_put_cell]
        subst hlast
        have nA' : ¬ (((k + 1 : Nat) : Int) ≤ c - xa ∧ c - xa < (k : Int) ∧
            r = ya + sr * (c - xa)) := by push_cast; omega
        have nB' : ¬ (((k + 1 : Nat) : Int) ≤ c - xa ∧ c - xa < (k : Int) ∧
            r = ya + sr * (c - xa + 1)) := by push_cast; omega
        have nE' : ¬ (k + 1 ≤ k ∧ c = xa + (k : Int) ∧ r = ya + sr * (k : Int)) := by omega
        have nA : ¬ ((k : Int) ≤ c - xa ∧ c - xa < (k : Int) ∧ r = ya + sr * (c - xa)) := by
          omega
        have nB : ¬ ((k : Int) ≤ c - xa ∧ c - xa < (k : Int) ∧ r = ya + sr * (c - xa + 1)) := by
          omega
        rw [if_neg nA', if_neg nB', if_neg nE', if_neg nA, if_neg nB]
        by_cases hP : r = ya + sr * (k : Int) ∧ c = xa + (k : Int)
        · rw [if_pos hP, if_pos ⟨le_refl _, hP.2, hP.1⟩]
        · rw [if_neg hP, if_neg (fun h' => hP ⟨h'.2.2, h'.2.1⟩)]
    · have hlt : k < n := by omega
      have hfit_k1 := hfit (k + 1) (by omega) (by exact_mod_cast hlt)
      have hfit_next : 0 ≤ ya + sr * ((k + 1 : Nat) : Int) ∧
          ya + sr * ((k + 1 : Nat) : Int) < w.height ∧ 0 ≤ xa + (k : Int) ∧
          xa + (k : Int) < w.width := by
        push_cast
        exact ⟨hfit_k1.1, hfit_k1.2.1, hfit_k.2.2.1, hfit_k.2.2.2⟩
      obtain ⟨w', hrun, hh, hw, hg⟩ := ih (k + 1) f
        (put_cell (put_cell (put_cell w (ya + sr * k) (xa + k) '─') (ya + sr * k) (xa + k) ca)
          (ya + sr * ((k + 1 : Nat) : Int)) (xa + k) cb)
        (by omega) (by omega) (by omega) (by
          intro j hj1 hj2
          simp only [put_cell_height, put_cell_width]
          exact hfit j (by push_cast at hj1; omega) hj2)
      refine ⟨w', ?_, by rw [hh]; rfl, by rw [hw]; rfl, ?_⟩
      · rw [draw_line_smooth_cols, if_pos hcond]
        simp only []
        rw [hy, hy', if_pos ⟨hne, by
            rcases hsr with rfl | rfl <;> omega⟩,
          show "─" = String.singleton '─' from rfl, mvwaddstr_singleton, mvwaddstr_singleton,
          mvwaddstr_singleton, mvwaddch_of_fits w _ _ _ hfit_k,
          mvwaddch_of_fits (put_cell w (ya + sr * k) (xa + k) '─') _ _ ca
            (by simpa only [put_cell_height, put_cell_width] using hfit_k),
          mvwaddch_of_fits
            (put_cell (put_cell w (ya + sr * k) (xa + k) '─') (ya + sr * k) (xa + k) ca) _ _ cb
            (by simpa only [put_cell_height, put_cell_width] using hfit_next),
          e1, e2]
        exact hrun
      · intro r c
        rw [hg r c, glyph_at_put_cell, glyph_at_put_cell, glyph_at_put_cell]
        have tA : ((k : Int) ≤ c - xa ∧ c - xa < (n : Int) ∧ r = ya + sr * (c - xa)) ↔
            ((((k + 1 : Nat) : Int) ≤ c - xa ∧ c - xa < (n : Int) ∧ r = ya + sr * (c - xa)) ∨
              (r = ya + sr * (k : Int) ∧ c = xa + (k : Int))) := by
          rcases hsr with rfl | rfl <;> push_cast <;> omega
        have tB : ((k : Int) ≤ c - xa ∧ c - xa < (n : Int) ∧ r = ya + sr * (c - xa + 1)) ↔
            ((((k + 1 : Nat) : Int) ≤ c - xa ∧ c - xa < (n : Int) ∧
                r = ya + sr * (c - xa + 1)) ∨
              (r = ya + sr * ((k + 1 : Nat) : Int) ∧ c = xa + (k : Int))) := by
          rcases hsr with rfl | rfl <;> push_cast <;> omega
        have tE : (k ≤ n ∧ c = xa + (n : Int) ∧ r = ya + sr * (n : Int)) ↔
            (k + 1 ≤ n ∧ c = xa + (n : Int) ∧ r = ya + sr * (n : Int)) := by omega
        have xP : (r = ya + sr * (k : Int) ∧ c = xa + (k : Int)) →
            ¬ (((k + 1 : Nat) : Int) ≤ c - xa ∧ c - xa < (n : Int) ∧ r = ya + sr * (c - xa)) ∧
            ¬ (((k + 1 : Nat) : Int) ≤ c - xa ∧ c - xa < (n : Int) ∧
                r = ya + sr * (c - xa + 1)) ∧
            ¬ (k + 1 ≤ n ∧ c = xa + (n : Int) ∧ r = ya + sr * (n : Int)) ∧
            ¬ (r = ya + sr * ((k + 1 : Nat) : Int) ∧ c = xa + (k : Int)) := by
          rcases hsr with rfl | rfl <;> push_cast <;> omega
        have xQ : (r = ya + sr * ((k + 1 : Nat) : Int) ∧ c = xa + (k : Int)) →
            ¬ (((k + 1 : Nat) : Int) ≤ c - xa ∧ c - xa < (n : Int) ∧ r = ya + sr * (c - xa)) ∧
            ¬ (((k + 1 : Nat) : Int) ≤ c - xa ∧ c - xa < (n : Int) ∧
                r = ya + sr * (c - xa + 1)) ∧
            ¬ (k + 1 ≤ n ∧ c = xa + (n : Int) ∧ r = ya + sr * (n : Int)) ∧
            ¬ ((k : Int) ≤ c - xa ∧ c - xa < (n : Int) ∧ r = ya + sr * (c - xa)) := by
          rcases hsr with rfl | rfl <;> push_cast <;> omega
        by_cases hP : r = ya + sr * (k : Int) ∧ c = xa + (k : Int)
        · obtain ⟨n1, n2, n3, n4⟩ := xP hP
          rw [if_neg n1, if_neg n2, if_neg n3, if_neg n4, if_pos hP,
            if_pos (tA.mpr (Or.inr hP))]
        · by_cases hQ : r = ya + sr * ((k + 1 : Nat) : Int) ∧ c = xa + (k : Int)
          · obtain ⟨n1, n2, n3, n4⟩ := xQ hQ
            rw [if_neg n1, if_neg n2, if_neg n3, if_pos hQ, if_neg n4,
              if_pos (tB.mpr (Or.inr hQ))]
          · rw [if_neg hQ, if_neg hP, if_neg hP]
            have eA : ((k : Int) ≤ c - xa ∧ c - xa < (n : Int) ∧ r = ya + sr * (c - xa)) ↔
                (((k + 1 : Nat) : Int) ≤ c - xa ∧ c - xa < (n : Int) ∧
                  r = ya + sr * (c - xa)) :=
              ⟨fun h' => (tA.mp h').elim id (fun h'' => absurd h'' hP),
                fun h' => tA.mpr (Or.inl h')⟩
            have eB : ((k : Int) ≤ c - xa ∧ c - xa < (n : Int) ∧
                  r = ya + sr * (c - xa + 1)) ↔
                (((k + 1 : Nat) : Int) ≤ c - xa ∧ c - xa < (n : Int) ∧
                  r = ya + sr * (c - xa + 1)) :=
              ⟨fun h' => (tB.mp h').elim id (fun h'' => absurd h'' hQ),
                fun h' => tB.mpr (Or.inl h')⟩
            simp only [eA, eB, tE]

theorem draw_line_smooth_diagonal_general (h w ya xa sr : Int) (n fuel : Nat) (hn : 1 ≤ n)
    (hsr : sr = 1 ∨ sr = -1)
    (hstart : 0 ≤ ya ∧ ya < h ∧ 0 ≤ xa ∧ xa < w)
    (hend : 0 ≤ ya + sr * n ∧ ya + sr * n < h ∧ 0 ≤ xa + n ∧ xa + n < w)
    (hfuel : n + 2 ≤ fuel) :
    ∃ win, draw_line_smooth fuel (newwin h w) ya xa (ya + sr * n) (xa + n) = some win ∧
      ∀ r c, glyph_at win r c =
        if 0 ≤ c - xa ∧ c - xa < n ∧ r = ya + sr * (c - xa)
          then some (if sr = 1 then '╮' else '╯')
        else if 0 ≤ c - xa ∧ c - xa < n ∧ r = ya + sr * (c - xa + 1)
          then some (if sr = 1 then '╰' else '╭')
        else if c = xa + n ∧ r = ya + sr * n then some '─'
        else none := by
  have hnpos : (0 : Int) < n := by exact_mod_cast hn
  have hdy : ya + sr * n - ya = sr * n := by ring
  have hdx : xa + (n : Int) - xa = n := by ring
  have habs : |sr * (n : Int)| = n := by
    rw [natAbs_literal_mul sr hsr, abs_of_nonneg hnpos.le]
  have habs' : |(n : Int)| = n := abs_of_nonneg hnpos.le
  have hsy : ((sr * n : Int) : ℚ) / (((|(n : Int)|) : Int) : ℚ) = (sr : ℚ) := by
    rw [habs']
    have : ((n : Int) : ℚ) ≠ 0 := by exact_mod_cast hnpos.ne'
    push_cast
    field_simp
  have hja : (if sr * (n : Int) > 0 then (if (n : Int) > 0 then "╮" else "╭")
      else (if (n : Int) > 0 then "╯" else "╰")) =
      String.singleton (if sr = 1 then '╮' else '╯') := by
    rcases hsr with rfl | rfl
    · rw [if_pos (by omega), if_pos (by omega), if_pos rfl]; rfl
    · rw [if_neg (by omega), if_pos (by omega), if_neg (by decide)]; rfl
  have hjb : (if sr * (n : Int) > 0 then (if (n : Int) > 0 then "╰" else "╯")
      else (if (n : Int) > 0 then "╭" else "╮")) =
      String.singleton (if sr = 1 then '╰' else '╭') := by
    rcases hsr with rfl | rfl
    · rw [if_pos (by omega), if_pos (by omega), if_pos rfl]; rfl
    · rw [if_neg (by omega), if_pos (by omega), if_neg (by decide)]; rfl
  obtain ⟨win, hrun, _, _, hg⟩ := draw_line_smooth_cols_diagonal ya xa sr n
    (if sr = 1 then '╮' else '╯') (if sr = 1 then '╰' else '╭') hsr (n + 1) 0 fuel (newwin h w)
    (by omega) (by omega) (by omega) (by
      intro j hj0 hjn
      show 0 ≤ ya + sr * j ∧ ya + sr * j < h ∧ 0 ≤ xa + j ∧ xa + j < w
      rcases hsr with rfl | rfl <;> push_cast at hj0 <;> omega)
  refine ⟨win, ?_, ?_⟩
  · unfold draw_line_smooth
    simp only []
    rw [hdy, hdx, if_neg (by rw [habs, habs']; exact lt_irrefl _), hsy, hja, hjb,
      if_pos (by omega)]
    have e : ((sr * ((0 : Nat) : Int) : Int) : ℚ) = 0 := by norm_num
    have e' : (((0 : Nat) : Int)) = 0 := by norm_num
    rw [e, e'] at hrun
    exact hrun
  · intro r c
    rw [hg r c]
    have e' : (((0 : Nat) : Int)) = 0 := by norm_num
    rw [e']
    have hz : (0 : Nat) ≤ n := Nat.zero_le _
    simp only [hz, true_and]
    rfl

/-- C9 (smooth diagonal). On a blank window with more than `n` rows and columns, for
every `n ≥ 1`: `draw_line_smooth` from `(0,0)` to `(n,n)` ends and leaves `╮` at `(i,i)`
and `╰` at `(i+1,i)` for `0 ≤ i < n`, `─` at `(n,n)` and nothing else; from `(n,0)` to
`(0,n)` it ends and leaves `╯` at `(n-i,i)` and `╭` at `(n-i-1,i)` for `0 ≤ i < n`, `─` at
`(0,n)` and nothing else. In both, every row `0..n` holds a written cell. -/
theorem draw_line_smooth_diagonal (h w : Int) (n fuel : Nat) (hn : 1 ≤ n) (hh : n < h)
    (hw : n < w) (hfuel : n + 2 ≤ fuel) :
    (∃ win, draw_line_smooth fuel (newwin h w) 0 0 n n = some win ∧
      (∀ r c, glyph_at win r c =
        if 0 ≤ c ∧ c < n ∧ r = c then some '╮'
        else if 0 ≤ c ∧ c < n ∧ r = c + 1 then some '╰'
        else if c = n ∧ r = n then some '─'
        else none) ∧
      ∀ r : Int, 0 ≤ r → r ≤ n → ∃ c, glyph_at win r c ≠ none) ∧
    (∃ win, draw_line_smooth fuel (newwin h w) n 0 0 n = some win ∧
      (∀ r c, glyph_at win r c =
        if 0 ≤ c ∧ c < n ∧ r = n - c then some '╯'
        else if 0 ≤ c ∧ c < n ∧ r = n - c - 1 then some '╭'
        else if c = n ∧ r = 0 then some '─'
        else none) ∧
      ∀ r : Int, 0 ≤ r → r ≤ n → ∃ c, glyph_at win r c ≠ none) := by
  have hnpos : (0 : Int) < n := by exact_mod_cast hn
  constructor
  · obtain ⟨win, hrun, hg⟩ := draw_line_smooth_diagonal_general h w 0 0 1 n fuel hn
      (Or.inl rfl) (by omega) (by omega) hfuel
    rw [show (0 : Int) + 1 * (n : Int) = n by ring, show (0 : Int) + (n : Int) = n by ring]
      at hrun
    have hg' : ∀ r c, glyph_at win r c =
        if 0 ≤ c ∧ c < n ∧ r = c then some '╮'
        else if 0 ≤ c ∧ c < n ∧ r = c + 1 then some '╰'
        else if c = n ∧ r = n then some '─'
        else none := by
      intro r c
      rw [hg r c]
      simp only [sub_zero, zero_add, one_mul, if_true]
    refine ⟨win, hrun, hg', ?_⟩
    intro r hr0 hrn
    by_cases hlast : r = n
    · refine ⟨n, ?_⟩
      rw [hg', if_neg (by omega), if_neg (by omega), if_pos ⟨rfl, hlast⟩]
      exact Option.some_ne_none _
    · refine ⟨r, ?_⟩
      rw [hg', if_pos ⟨hr0, by omega, rfl⟩]
      exact Option.some_ne_none _
  · obtain ⟨win, hrun, hg⟩ := draw_line_smooth_diagonal_general h w n 0 (-1) n fuel hn
      (Or.inr rfl) (by omega) (by omega) hfuel
    rw [show (n : Int) + -1 * (n : Int) = 0 by ring, show (0 : Int) + (n : Int) = n by ring]
      at hrun
    have hg' : ∀ r c, glyph_at win r c =
        if 0 ≤ c ∧ c < n ∧ r = n - c then some '╯'
        else if 0 ≤ c ∧ c < n ∧ r = n - c - 1 then some '╭'
        else if c = n ∧ r = 0 then some '─'
        else none := by
      intro r c
      rw [hg r c]
      have e1 : (n : Int) + -1 * c = n - c := by ring
      have e2 : (n : Int) + -1 * (c + 1) = n - c - 1 := by ring
      have e3 : (n : Int) + -1 * (n : Int) = 0 := by ring
      have e4 : ((-1 : Int) = 1) = False := by simp
      simp only [sub_zero, zero_add, e1, e2, e3, e4, if_false]
    refine ⟨win, hrun, hg', ?_⟩
    intro r hr0 hrn
    by_cases hlast : r = 0
    · refine ⟨n, ?_⟩
      rw [hg', if_neg (by omega), if_neg (by omega), if_pos ⟨rfl, hlast⟩]
      exact Option.some_ne_none _
    · refine ⟨n - r, ?_⟩
      rw [hg', if_pos ⟨by omega, by omega, by ring⟩]
      exact Option.some_ne_none _

/-- Witness for `draw_line_smooth_diagonal`: the two diagonals of a 10 × 10 window. -/
theorem draw_line_smooth_diagonal_witness :
    (∃ win, draw_line_smooth 11 (newwin 10 10) 0 0 (9 : Nat) (9 : Nat) = some win ∧
      (∀ r c, glyph_at win r c =
        if 0 ≤ c ∧ c < (9 : Nat) ∧ r = c then some '╮'
        else if 0 ≤ c ∧ c < (9 : Nat) ∧ r = c + 1 then some '╰'
        else if c = (9 : Nat) ∧ r = (9 : Nat) then some '─'
        else none) ∧
      ∀ r : Int, 0 ≤ r → r ≤ (9 : Nat) → ∃ c, glyph_at win r c ≠ none) ∧
    (∃ win, draw_line_smooth 11 (newwin 10 10) (9 : Nat) 0 0 (9 : Nat) = some win ∧
      (∀ r c, glyph_at win r c =
        if 0 ≤ c ∧ c < (9 : Nat) ∧ r = (9 : Nat) - c then some '╯'
        else if 0 ≤ c ∧ c < (9 : Nat) ∧ r = (9 : Nat) - c - 1 then some '╭'
        else if c = (9 : Nat) ∧ r = 0 then some '─'
        else none) ∧
      ∀ r : Int, 0 ≤ r → r ≤ (9 : Nat) → ∃ c, glyph_at win r c ≠ none) :=
  draw_line_smooth_diagonal 10 10 9 11 (by decide) (by decide) (by decide) (by decide)

/-! ### `star_numbers_by_magnitude` -/

theorem star_magnitude_comparator_le_zero {α : Type} [LinearOrderedField α]
    (a b : Star α) : star_magnitude_comparator a b ≤ 0 ↔ b.magnitude ≤ a.magnitude := by
  unfold star_magnitude_comparator
  by_cases h1 : a.magnitude < b.magnitude
  · rw [if_pos h1]
    constructor
    · intro h; exact absurd h (by decide)
    · intro h; exact absurd h (not_le.mpr h1)
  · rw [if_neg h1]
    by_cases h2 : a.magnitude > b.magnitude
    · rw [if_pos h2]
      exact ⟨fun _ => not_lt.mp h1, fun _ => by decide⟩
    · rw [if_neg h2]
      exact ⟨fun _ => not_lt.mp h1, fun _ => le_refl _⟩

theorem star_magnitude_comparator_consistent {α : Type} [LinearOrderedField α] :
    consistent_comparator (star_magnitude_comparator : Star α → Star α → Int) := by
  constructor
  · intro a b
    unfold star_magnitude_comparator
    by_cases h1 : a.magnitude < b.magnitude
    · rw [if_pos h1, if_neg (not_lt.mpr h1.le), if_pos h1]
      exact ⟨fun _ => by decide, fun _ => by decide⟩
    · rw [if_neg h1]
      by_cases h2 : a.magnitude > b.magnitude
      · rw [if_pos h2, if_pos h2]
        exact ⟨fun h => absurd h (by decide), fun h => absurd h (by decide)⟩
      · rw [if_neg h2, if_neg h2, if_neg h1]
  · intro a b c hab hbc
    rw [star_magnitude_comparator_le_zero] at hab hbc ⊢
    exact le_trans hbc hab

/-- C10 (stars ordered dimmest first). With any library `qsort` that meets the ISO C
contract and both allocations successful, `star_numbers_by_magnitude` returns, for every
star table, the catalog numbers of a rearrangement `table_copy` of the table (so a
permutation of the table's catalog numbers) in which magnitudes never increase: each
star's magnitude is at least that of the next one, and the last star is the brightest
of the table. -/
theorem star_numbers_by_magnitude_dimmest_first {α : Type} [LinearOrderedField α]
    (qsort : (Star α → Star α → Int) → List (Star α) → List (Star α))
    (hq : qsort_contract qsort) (star_table : List (Star α)) :
    ∃ table_copy : List (Star α),
      star_numbers_by_magnitude qsort true true star_table =
        some (table_copy.map (fun s => s.catalog_number)) ∧
      table_copy.Perm star_table ∧
      (table_copy.map (fun s => s.catalog_number)).Perm
        (star_table.map (fun s => s.catalog_number)) ∧
      (∀ i (hi : i + 1 < table_copy.length),
        table_copy[i + 1].magnitude ≤ table_copy[i].magnitude) ∧
      table_copy.Pairwise (fun a b => b.magnitude ≤ a.magnitude) ∧
      ∀ last ∈ table_copy.getLast?, ∀ s ∈ star_table, last.magnitude ≤ s.magnitude := by
  obtain ⟨hperm, hsorted⟩ := hq star_magnitude_comparator star_table
    star_magnitude_comparator_consistent
  have hpw : (qsort star_magnitude_comparator star_table).Pairwise
      (fun a b => b.magnitude ≤ a.magnitude) :=
    hsorted.imp (fun h => (star_magnitude_comparator_le_zero _ _).mp h)
  refine ⟨qsort star_magnitude_comparator star_table, rfl, hperm, hperm.map _, ?_, hpw, ?_⟩
  · intro i hi
    exact List.pairwise_iff_getElem.mp hpw i (i + 1) (by omega) hi (by omega)
  · intro last hlast s hs
    have hs' : s ∈ qsort star_magnitude_comparator star_table := hperm.mem_iff.mpr hs
    obtain ⟨init, hinit⟩ : ∃ init, qsort star_magnitude_comparator star_table = init ++ [last] := by
      rw [Option.mem_def] at hlast
      obtain ⟨ys, hys⟩ := List.getLast?_eq_some_iff.mp hlast
      exact ⟨ys, hys⟩
    rw [hinit] at hpw hs'
    rcases List.mem_append.mp hs' with hmem | hmem
    · exact (List.pairwise_append.mp hpw).2.2 s hmem last (List.mem_singleton.mpr rfl)
    · rw [List.mem_singleton.mp hmem]

theorem insertion_qsort_contract {β : Type} :
    qsort_contract (insertion_qsort : (β → β → Int) → List β → List β) := by
  intro compar base hc
  unfold insertion_qsort
  refine ⟨List.perm_insertionSort _ _, ?_⟩
  haveI : IsTotal β (fun a b => compar a b ≤ 0) := ⟨fun a b => by
    by_cases h : compar a b ≤ 0
    · exact Or.inl h
    · exact Or.inr (le_of_lt ((hc.1 a b).mp (not_le.mp h)))⟩
  haveI : IsTrans β (fun a b => compar a b ≤ 0) := ⟨fun a b c => hc.2 a b c⟩
  exact List.sorted_insertionSort _ _

/-- Witness for `star_numbers_by_magnitude_dimmest_first`: insertion sort meets the
contract, and the theorem applies to a table of four stars. -/
theorem star_numbers_by_magnitude_dimmest_first_witness :
    qsort_contract (insertion_qsort : (Star ℚ → Star ℚ → Int) → List (Star ℚ) → List (Star ℚ)) ∧
    ∃ table_copy : List (Star ℚ),
      star_numbers_by_magnitude insertion_qsort true true sample_star_table =
        some (table_copy.map (fun s => s.catalog_number)) ∧
      table_copy.Perm sample_star_table ∧
      (table_copy.map (fun s => s.catalog_number)).Perm
        (sample_star_table.map (fun s => s.catalog_number)) ∧
      (∀ i (hi : i + 1 < table_copy.length),
        table_copy[i + 1].magnitude ≤ table_copy[i].magnitude) ∧
      table_copy.Pairwise (fun a b => b.magnitude ≤ a.magnitude) ∧
      ∀ last ∈ table_copy.getLast?, ∀ s ∈ sample_star_table, last.magnitude ≤ s.magnitude :=
  ⟨insertion_qsort_contract,
    star_numbers_by_magnitude_dimmest_first insertion_qsort insertion_qsort_contract
      sample_star_table⟩

/-! ### `moon_age_to_phase` -/

/-- Every age lies in the range of the phase that `moon_age_to_phase` returns. -/
theorem moon_age_in_range_of_phase {α : Type} [LinearOrderedField α] (age : α) :
    moon_phase_range (moon_age_to_phase age) age := by
  unfold moon_age_to_phase
  by_cases h1 : age < 0.03 ∨ age > 0.97
  · rw [if_pos h1]; exact h1
  · rw [if_neg h1]
    have l1 : (0.03 : α) ≤ age := not_lt.mp (fun h => h1 (Or.inl h))
    have u1 : age ≤ (0.97 : α) := not_lt.mp (fun h => h1 (Or.inr h))
    by_cases h2 : age < 0.25
    · rw [if_pos h2]; exact ⟨l1, h2⟩
    · rw [if_neg h2]
      by_cases h3 : age < 0.27
      · rw [if_pos h3]; exact ⟨not_lt.mp h2, h3⟩
      · rw [if_neg h3]
        by_cases h4 : age < 0.50
        · rw [if_pos h4]; exact ⟨not_lt.mp h3, h4⟩
        · rw [if_neg h4]
          by_cases h5 : age < 0.53
          · rw [if_pos h5]; exact ⟨not_lt.mp h4, h5⟩
          · rw [if_neg h5]
            by_cases h6 : age < 0.75
            · rw [if_pos h6]; exact ⟨not_lt.mp h5, h6⟩
            · rw [if_neg h6]
              by_cases h7 : age < 0.77
              · rw [if_pos h7]; exact ⟨not_lt.mp h6, h7⟩
              · rw [if_neg h7]; exact ⟨not_lt.mp h7, u1⟩

/-- The start of the range of a phase other than New Moon, and the end of it. -/
theorem moon_phase_range_bounds {α : Type} [LinearOrderedField α] (phase : MoonPhase)
    (age : α) (h : moon_phase_range phase age) (hn : phase ≠ MoonPhase.NEW_MOON) :
    (0.03 : α) ≤ age ∧ age ≤ 0.97 := by
  cases phase
  · exact absurd rfl hn
  all_goals
    obtain ⟨ha, hb⟩ := h
    constructor <;> linarith

/-- No age lies in the ranges of two phases. -/
theorem moon_phase_range_disjoint {α : Type} [LinearOrderedField α] (p q : MoonPhase)
    (age : α) (hp : moon_phase_range p age) (hq : moon_phase_range q age) : p = q := by
  by_cases hpn : p = MoonPhase.NEW_MOON
  · by_cases hqn : q = MoonPhase.NEW_MOON
    · rw [hpn, hqn]
    · exfalso
      have hb := moon_phase_range_bounds q age hq hqn
      rw [hpn] at hp
      rcases hp with hp | hp <;> linarith [hb.1, hb.2]
  · by_cases hqn : q = MoonPhase.NEW_MOON
    · exfalso
      have hb := moon_phase_range_bounds p age hp hpn
      rw [hqn] at hq
      rcases hq with hq | hq <;> linarith [hb.1, hb.2]
    · cases p <;> cases q <;>
        first
          | rfl
          | exact absurd rfl hpn
          | exact absurd rfl hqn
          | (exfalso; obtain ⟨a1, a2⟩ := hp; obtain ⟨b1, b2⟩ := hq; linarith only [a1, a2, b1, b2])

/-- C12 (lunar phase buckets). `moon_age_to_phase` gives New Moon at age 0.0, First
Quarter at 0.25, Full Moon at 0.5 and Last Quarter at 0.75, and New Moon at every age
below 0.03 or above 0.97; for every age and phase, the phase is returned exactly when
the age is in that phase's range: New Moon below 0.03 or above 0.97, Waxing Crescent
[0.03, 0.25), First Quarter [0.25, 0.27), Waxing Gibbous [0.27, 0.50), Full Moon
[0.50, 0.53), Waning Gibbous [0.53, 0.75), Last Quarter [0.75, 0.77), Waning Crescent
[0.77, 0.97]. -/
theorem moon_age_to_phase_buckets {α : Type} [LinearOrderedField α] :
    moon_age_to_phase (0.0 : α) = MoonPhase.NEW_MOON ∧
    moon_age_to_phase (0.25 : α) = MoonPhase.FIRST_QUARTER ∧
    moon_age_to_phase (0.5 : α) = MoonPhase.FULL_MOON ∧
    moon_age_to_phase (0.75 : α) = MoonPhase.LAST_QUARTER ∧
    (∀ age : α, age < 0.03 ∨ 0.97 < age → moon_age_to_phase age = MoonPhase.NEW_MOON) ∧
    ∀ (age : α) (phase : MoonPhase),
      moon_age_to_phase age = phase ↔ moon_phase_range phase age := by
  have key : ∀ (age : α) (phase : MoonPhase),
      moon_age_to_phase age = phase ↔ moon_phase_range phase age := by
    intro age phase
    constructor
    · intro h
      rw [← h]
      exact moon_age_in_range_of_phase age
    · intro h
      exact moon_phase_range_disjoint _ _ age (moon_age_in_range_of_phase age) h
  refine ⟨?_, ?_, ?_, ?_, ?_, key⟩
  · exact (key _ _).mpr (Or.inl (by norm_num))
  · exact (key _ _).mpr ⟨by norm_num, by norm_num⟩
  · exact (key _ _).mpr ⟨by norm_num, by norm_num⟩
  · exact (key _ _).mpr ⟨by norm_num, by norm_num⟩
  · intro age h
    exact (key _ _).mpr h

/-! ### Ties in `star_numbers_by_magnitude` -/

theorem consistent_comparator_total {β : Type} (compar : β → β → Int)
    (hc : consistent_comparator compar) (a b : β) : compar a b ≤ 0 ∨ compar b a ≤ 0 := by
  by_cases h : compar a b ≤ 0
  · exact Or.inl h
  · exact Or.inr (le_of_lt ((hc.1 a b).mp (not_le.mp h)))

/-- Sorting the reversed array by insertion meets the ISO C contract of `qsort`. -/
theorem reversing_qsort_contract {β : Type} :
    qsort_contract (reversing_qsort : (β → β → Int) → List β → List β) := by
  intro compar base hc
  obtain ⟨hperm, hsorted⟩ := insertion_qsort_contract compar base.reverse hc
  exact ⟨hperm.trans (List.reverse_perm base), hsorted⟩

/-- Insertion sort is a stable `qsort`. -/
theorem insertion_qsort_stable {β : Type} :
    stable_qsort (insertion_qsort : (β → β → Int) → List β → List β) := by
  intro compar base a b _ hab hsub
  unfold insertion_qsort
  exact List.pair_sublist_insertionSort hab hsub

theorem tie_star_table_reversed :
    star_numbers_by_magnitude reversing_qsort true true tie_star_table = some [2, 1] := by
  have h : star_magnitude_comparator (sample_star 1 5) (sample_star 2 5) ≤ 0 := by
    rw [star_magnitude_comparator_le_zero]
    exact le_refl (5 : ℚ)
  simp only [star_numbers_by_magnitude, reversing_qsort, insertion_qsort, tie_star_table,
    Bool.not_true, Bool.false_eq_true, if_false, List.reverse_cons, List.reverse_nil,
    List.nil_append, List.singleton_append, List.insertionSort, List.orderedInsert, h, if_true,
    List.map_cons, List.map_nil]
  rfl

/-- C11, counterexample: a `qsort` that meets the ISO C contract returns the two stars of
`tie_star_table`, which have equal magnitude, in the order 2, 1 although star 1 comes
first in the table. -/
theorem ties_keep_table_order_fails :
    qsort_contract (reversing_qsort : (Star ℚ → Star ℚ → Int) → List (Star ℚ) → List (Star ℚ)) ∧
    ¬ ties_keep_table_order reversing_qsort tie_star_table := by
  refine ⟨reversing_qsort_contract, ?_⟩
  intro h
  obtain ⟨r, hr, hsub⟩ := h (sample_star 1 5) (sample_star 2 5) rfl (List.Sublist.refl _)
  rw [tie_star_table_reversed] at hr
  have hr' : r = [2, 1] := (Option.some.inj hr).symm
  rw [hr'] at hsub
  have e1 : (sample_star 1 5).catalog_number = 1 := rfl
  have e2 : (sample_star 2 5).catalog_number = 2 := rfl
  rw [e1, e2] at hsub
  revert hsub
  decide

/-- C11, amended (ties with a stable sort). When the library's `qsort` is stable, in
addition to meeting the ISO C contract, `star_numbers_by_magnitude` keeps the table
order of ties: of two stars of equal magnitude, the one that comes first in the star
table also comes first in the returned array. -/
theorem ties_keep_table_order_of_stable {α : Type} [LinearOrderedField α]
    (qsort : (Star α → Star α → Int) → List (Star α) → List (Star α))
    (hstable : stable_qsort qsort) (star_table : List (Star α)) :
    ties_keep_table_order qsort star_table := by
  intro a b hmag hsub
  refine ⟨(qsort star_magnitude_comparator star_table).map
    (fun s : Star α => s.catalog_number), rfl, ?_⟩
  have hab : star_magnitude_comparator a b ≤ 0 := by
    rw [star_magnitude_comparator_le_zero, hmag]
  have h := hstable star_magnitude_comparator star_table a b
    star_magnitude_comparator_consistent hab hsub
  exact h.map (fun s : Star α => s.catalog_number)

/-- Witness for `ties_keep_table_order_of_stable`: insertion sort is stable, and it keeps
the two stars of `tie_star_table` in table order. -/
theorem ties_keep_table_order_of_stable_witness :
    stable_qsort (insertion_qsort : (Star ℚ → Star ℚ → Int) → List (Star ℚ) → List (Star ℚ)) ∧
    ties_keep_table_order insertion_qsort tie_star_table :=
  ⟨insertion_qsort_stable,
    ties_keep_table_order_of_stable insertion_qsort insertion_qsort_stable tie_star_table⟩

/-! ### `generate_star_table` -/

/-- The catalog numbers of the table are the numbers of the entries, in the order of
the entries: entry `i` lands at index `i` whatever its number is. -/
theorem generate_star_table_from_numbers {α : Type} [LinearOrderedField α] [FloorRing α]
    (entries : List (Entry α)) (name_table : List (Option String)) (remaining : Nat) :
    ∀ (i : Nat) (table : List (Star α)),
      generate_star_table_from entries name_table remaining i = some table →
      table.map (fun s => s.catalog_number) =
        ((entries.drop i).take remaining).map (fun e => c_int e.XNO) := by
  induction remaining with
  | zero =>
    intro i table h
    rw [generate_star_table_from] at h
    rw [← Option.some.inj h]
    rfl
  | succ remaining ih =>
    intro i table h
    rw [generate_star_table_from] at h
    cases he : entries[i]? with
    | none => rw [he] at h; exact absurd h (by simp)
    | some entry =>
      cases hn : name_table[i]? with
      | none => rw [he, hn] at h; exact absurd h (by simp)
      | some name =>
        rw [he, hn] at h
        simp only [] at h
        cases hs : star_of_entry entry name with
        | none => rw [hs] at h; exact absurd h (by simp)
        | some star =>
          cases hr : generate_star_table_from entries name_table remaining (i + 1) with
          | none => rw [hs, hr] at h; exact absurd h (by simp)
          | some rest =>
            rw [hs, hr] at h
            simp only [Option.some.injEq] at h
            rw [← h]
            have hcn : star.catalog_number = c_int entry.XNO := by
              unfold star_of_entry at hs
              simp only [] at hs
              split at hs
              · split at hs
                · rw [← Option.some.inj hs]
                · exact absurd hs (by simp)
              · exact absurd hs (by simp)
            have hi : i < entries.length := by
              by_contra hlt
              rw [List.getElem?_eq_none (not_lt.mp hlt)] at he
              exact absurd he (by simp)
            have hdrop : entries.drop i = entry :: entries.drop (i + 1) := by
              rw [List.drop_eq_getElem_cons hi]
              congr 1
              rw [List.getElem?_eq_getElem hi] at he
              exact Option.some.inj he
            rw [hdrop, List.take_succ_cons, List.map_cons, List.map_cons, hcn, ih (i + 1) rest hr]

/-- Counterexample to C13 as stated: two entries numbered 2 and 1, in that order, give
a table whose index 0 holds catalog number 2 and whose index 1 holds catalog number 1,
so the lookup `table[catalog_number - 1]` reaches the other star. -/
theorem generate_star_table_swapped_entries :
    ∃ table : List (Star ℚ),
      generate_star_table true swapped_entries [none, none] 2 = some table ∧
      table.map (fun s => s.catalog_number) = [2, 1] := by
  have h1 : star_of_entry (sample_entry 2 450) none = some
      { base := { azimuth := 0, altitude := 0, color_pair := 0, symbol_ASCII := '.',
                  symbol_unicode := "⋅", label := none }
        catalog_number := 2, right_ascension := 0, declination := 0, ra_motion := 0,
        dec_motion := 0, magnitude := 450 / 100.0 } := by
    have hidx : map_float_to_int_range (-1.46 : ℚ) 7.96 0 9 (450 / 100.0) = 6 := by
      unfold map_float_to_int_range to_int32 c_round
      norm_num
    have hno : c_int (2 : ℚ) = 2 := by
      unfold c_int
      rw [if_pos (by norm_num)]
      exact Int.floor_intCast 2
    unfold star_of_entry
    simp only [sample_entry, hidx, hno]
    rfl
  have h2 : star_of_entry (sample_entry 1 670) none = some
      { base := { azimuth := 0, altitude := 0, color_pair := 0, symbol_ASCII := '.',
                  symbol_unicode := "⋅", label := none }
        catalog_number := 1, right_ascension := 0, declination := 0, ra_motion := 0,
        dec_motion := 0, magnitude := 670 / 100.0 } := by
    have hidx : map_float_to_int_range (-1.46 : ℚ) 7.96 0 9 (670 / 100.0) = 8 := by
      unfold map_float_to_int_range to_int32 c_round
      norm_num
    have hno : c_int (1 : ℚ) = 1 := by
      unfold c_int
      rw [if_pos (by norm_num)]
      exact Int.floor_intCast 1
    unfold star_of_entry
    simp only [sample_entry, hidx, hno]
    rfl
  obtain ⟨s1, hs1, hc1⟩ : ∃ s, star_of_entry (sample_entry 2 450) none = some s ∧
      s.catalog_number = 2 := ⟨_, h1, rfl⟩
  obtain ⟨s2, hs2, hc2⟩ : ∃ s, star_of_entry (sample_entry 1 670) none = some s ∧
      s.catalog_number = 1 := ⟨_, h2, rfl⟩
  refine ⟨[s1, s2], ?_, ?_⟩
  · unfold generate_star_table
    simp only [Bool.not_true, Bool.false_eq_true, if_false, generate_star_table_from,
      swapped_entries, List.getElem?_cons_zero, List.getElem?_cons_succ, hs1, hs2]
  · simp only [List.map_cons, List.map_nil, hc1, hc2]

/-! ### The step divisors of the line drawing functions -/

/-- The three step divisors are zero exactly for two identical endpoints. -/
theorem draw_line_step_divisor_eq_zero_iff (ya xa yb xb : Int) :
    (draw_line_ASCII_step_divisor ya xa yb xb = 0 ↔ ya = yb ∧ xa = xb) ∧
    (draw_line_smooth_step_divisor ya xa yb xb = 0 ↔ ya = yb ∧ xa = xb) ∧
    (draw_line_dotted_step_divisor ya xa yb xb = 0 ↔ ya = yb ∧ xa = xb) := by
  have key : ∀ p q : Int, (if |p| ≥ |q| then |p| else |q|) = 0 ↔ p = 0 ∧ q = 0 := by
    intro p q
    have hp := abs_nonneg p
    have hq := abs_nonneg q
    by_cases h : |p| ≥ |q|
    · rw [if_pos h]
      constructor
      · intro h0
        rw [h0] at h
        exact ⟨abs_eq_zero.mp h0, abs_eq_zero.mp (le_antisymm h hq)⟩
      · intro h0
        rw [h0.1, abs_zero]
    · rw [if_neg h]
      constructor
      · intro h0
        rw [h0] at h
        exact absurd hp h
      · intro h0
        rw [h0.2, abs_zero]
  have key' : ∀ p q : Int, (if |p| > |q| then |p| else |q|) = 0 ↔ p = 0 ∧ q = 0 := by
    intro p q
    have hp := abs_nonneg p
    have hq := abs_nonneg q
    by_cases h : |p| > |q|
    · rw [if_pos h]
      constructor
      · intro h0
        rw [h0] at h
        exact absurd h (not_lt.mpr hq)
      · intro h0
        rw [h0.1, abs_zero]
    · rw [if_neg h]
      constructor
      · intro h0
        rw [h0] at h
        exact ⟨abs_eq_zero.mp (le_antisymm (not_lt.mp h) hp), abs_eq_zero.mp h0⟩
      · intro h0
        rw [h0.2, abs_zero]
  have e : ∀ a b : Int, b - a = 0 ↔ a = b := fun a b => by omega
  unfold draw_line_ASCII_step_divisor draw_line_smooth_step_divisor draw_line_dotted_step_divisor
  simp only []
  rw [key, key', e, e]
  exact ⟨Iff.rfl, Iff.rfl, Iff.rfl⟩

/-- C14, the code at the failing input: for the zero-length segment from cell `(5, 5)` to
cell `(5, 5)` the divisor of the minor-axis step is 0 in `draw_line_ASCII`, in
`draw_line_smooth` and in `draw_line_dotted`. -/
theorem draw_line_step_divisor_zero_length :
    draw_line_ASCII_step_divisor 5 5 5 5 = 0 ∧
    draw_line_smooth_step_divisor 5 5 5 5 = 0 ∧
    draw_line_dotted_step_divisor 5 5 5 5 = 0 := by
  decide

/-! ### `equatorial_to_horizontal` -/

/-- The remainder `c_fmod x y` is `x` less a whole multiple of `y`. -/
theorem c_fmod_eq_sub_mul {α : Type} [LinearOrderedField α] [FloorRing α] (x y : α) :
    ∃ k : Int, c_fmod x y = x - (k : α) * y :=
  ⟨c_int (x / y), rfl⟩

/-- The local sidereal time `fmod(gmst + longitude, 2π)` lies in `[-π, 2π)` when
`gmst + longitude` is at least `-π`. -/
theorem local_sidereal_time_range {α : Type} [LinearOrderedField α] [FloorRing α]
    (M_PI : α) (hpi : 0 < M_PI) (s : α) (h0 : -M_PI ≤ s) :
    -M_PI ≤ c_fmod s (2 * M_PI) ∧ c_fmod s (2 * M_PI) < 2 * M_PI := by
  have hy : 0 < 2 * M_PI := by linarith
  by_cases hq : 0 ≤ s / (2 * M_PI)
  · obtain ⟨a, b⟩ := c_fmod_of_nonneg_quot s _ hy hq
    constructor <;> linarith
  · have hs : s < 0 := by
      by_contra hs
      exact hq (div_nonneg (not_lt.mp hs) hy.le)
    have hq1 : -1 < s / (2 * M_PI) := by
      rw [lt_div_iff₀ hy]
      linarith
    have hceil : ⌈s / (2 * M_PI)⌉ = 0 := by
      rw [Int.ceil_eq_iff]
      constructor
      · simpa using hq1
      · simpa using le_of_lt (not_le.mp hq)
    have e : c_fmod s (2 * M_PI) = s := by
      unfold c_fmod c_int
      rw [if_neg hq, hceil]
      simp
    rw [e]
    constructor <;> linarith

/-- C15 (hour angle). For a positive `M_PI`, every sidereal time in `[0, 2π)`, longitude
in `[-π, π]` and right ascension in `(-π, 2π)`, the hour angle that
`equatorial_to_horizontal` uses lies in `(-π, π]` and differs from
`gmst + longitude - right_ascension` by a whole multiple of `2π`. -/
theorem local_hour_angle_normalised {α : Type} [LinearOrderedField α] [FloorRing α]
    (lib : Libm α) (hpi : 0 < lib.M_PI) (right_ascension gmst longitude : α)
    (hg0 : 0 ≤ gmst) (hg1 : gmst < 2 * lib.M_PI)
    (hl0 : -lib.M_PI ≤ longitude) (hl1 : longitude ≤ lib.M_PI)
    (hr0 : -lib.M_PI < right_ascension) (hr1 : right_ascension < 2 * lib.M_PI) :
    (-lib.M_PI < local_hour_angle lib right_ascension gmst longitude ∧
      local_hour_angle lib right_ascension gmst longitude ≤ lib.M_PI) ∧
    ∃ k : Int, local_hour_angle lib right_ascension gmst longitude =
      gmst + longitude - right_ascension + (k : α) * (2 * lib.M_PI) := by
  have two : (2.0 : α) = 2 := by norm_num
  have zero : (0.0 : α) = 0 := by norm_num
  obtain ⟨m, hm⟩ := c_fmod_eq_sub_mul (gmst + longitude) (2 * lib.M_PI)
  obtain ⟨a0, a1⟩ := local_sidereal_time_range lib.M_PI hpi (gmst + longitude) (by linarith)
  unfold local_hour_angle
  simp only [two, zero]
  by_cases h1 : c_fmod (gmst + longitude) (2 * lib.M_PI) - right_ascension < 0
  · rw [if_pos h1]
    by_cases h2 : c_fmod (gmst + longitude) (2 * lib.M_PI) - right_ascension + 2 * lib.M_PI >
        lib.M_PI
    · rw [if_pos h2]
      refine ⟨⟨by linarith, by linarith⟩, -m, ?_⟩
      rw [hm]
      push_cast
      ring
    · rw [if_neg h2]
      refine ⟨⟨by linarith, by linarith⟩, -m + 1, ?_⟩
      rw [hm]
      push_cast
      ring
  · rw [if_neg h1]
    by_cases h2 : c_fmod (gmst + longitude) (2 * lib.M_PI) - right_ascension > lib.M_PI
    · rw [if_pos h2]
      refine ⟨⟨by linarith, by linarith⟩, -m - 1, ?_⟩
      rw [hm]
      push_cast
      ring
    · rw [if_neg h2]
      refine ⟨⟨by linarith, by linarith⟩, -m, ?_⟩
      rw [hm]
      push_cast
      ring

/-- Witness for `local_hour_angle_normalised`: over the reals, sidereal time 0, longitude 0
and right ascension 0. -/
theorem local_hour_angle_normalised_witness :
    (-Real.pi < local_hour_angle real_libm 0 0 0 ∧
      local_hour_angle real_libm 0 0 0 ≤ Real.pi) ∧
    ∃ k : Int, local_hour_angle real_libm 0 0 0 =
      0 + 0 - 0 + (k : ℝ) * (2 * Real.pi) :=
  have hpi : (0 : ℝ) < Real.pi := Real.pi_pos
  local_hour_angle_normalised real_libm hpi 0 0 0 (le_refl 0) (by
    show (0 : ℝ) < 2 * Real.pi
    linarith) (by
    show -Real.pi ≤ (0 : ℝ)
    linarith) hpi.le (by
    show -Real.pi < (0 : ℝ)
    linarith) (by
    show (0 : ℝ) < 2 * Real.pi
    linarith)

/-- C16 (azimuth in range). In exact real arithmetic, for all inputs, with `a` the
value of `atan2` that `equatorial_to_horizontal` computes from the hour angle, the
latitude and the declination: `a` lies in `(-π, π]`; the azimuth returned is `a` re-based
by `π` and wrapped once, that is `a - π + 2π = a + π` when `a - π` is negative and
`a - π = 0` for `a = π`; and this one wrap puts it in `[0, 2π)`. -/
theorem equatorial_to_horizontal_azimuth_range (right_ascension declination gmst latitude
    longitude : ℝ) :
    -Real.pi < real_libm.atan2
        (real_libm.sin (local_hour_angle real_libm right_ascension gmst longitude))
        (real_libm.cos (local_hour_angle real_libm right_ascension gmst longitude) *
          real_libm.sin latitude - real_libm.tan declination * real_libm.cos latitude) ∧
    real_libm.atan2
        (real_libm.sin (local_hour_angle real_libm right_ascension gmst longitude))
        (real_libm.cos (local_hour_angle real_libm right_ascension gmst longitude) *
          real_libm.sin latitude - real_libm.tan declination * real_libm.cos latitude) ≤
      Real.pi ∧
    (equatorial_to_horizontal real_libm right_ascension declination gmst latitude
      longitude).1 =
      (if real_libm.atan2
          (real_libm.sin (local_hour_angle real_libm right_ascension gmst longitude))
          (real_libm.cos (local_hour_angle real_libm right_ascension gmst longitude) *
            real_libm.sin latitude - real_libm.tan declination * real_libm.cos latitude) <
          Real.pi
        then real_libm.atan2
          (real_libm.sin (local_hour_angle real_libm right_ascension gmst longitude))
          (real_libm.cos (local_hour_angle real_libm right_ascension gmst longitude) *
            real_libm.sin latitude - real_libm.tan declination * real_libm.cos latitude) +
          Real.pi
        else 0) ∧
    0 ≤ (equatorial_to_horizontal real_libm right_ascension declination gmst latitude
      longitude).1 ∧
    (equatorial_to_horizontal real_libm right_ascension declination gmst latitude
      longitude).1 < 2 * Real.pi := by
  have two : (2.0 : ℝ) = 2 := by norm_num
  have zero : (0.0 : ℝ) = 0 := by norm_num
  have hrange : ∀ y x : ℝ, -Real.pi < real_libm.atan2 y x ∧ real_libm.atan2 y x ≤ Real.pi :=
    fun y x => ⟨Complex.neg_pi_lt_arg _, Complex.arg_le_pi _⟩
  obtain ⟨h0, h1⟩ := hrange
    (real_libm.sin (local_hour_angle real_libm right_ascension gmst longitude))
    (real_libm.cos (local_hour_angle real_libm right_ascension gmst longitude) *
        real_libm.sin latitude - real_libm.tan declination * real_libm.cos latitude)
  have hM : real_libm.M_PI = Real.pi := rfl
  have hval : (equatorial_to_horizontal real_libm right_ascension declination gmst latitude
      longitude).1 =
      (if real_libm.atan2
          (real_libm.sin (local_hour_angle real_libm right_ascension gmst longitude))
          (real_libm.cos (local_hour_angle real_libm right_ascension gmst longitude) *
            real_libm.sin latitude - real_libm.tan declination * real_libm.cos latitude) <
          Real.pi
        then real_libm.atan2
          (real_libm.sin (local_hour_angle real_libm right_ascension gmst longitude))
          (real_libm.cos (local_hour_angle real_libm right_ascension gmst longitude) *
            real_libm.sin latitude - real_libm.tan declination * real_libm.cos latitude) +
          Real.pi
        else 0) := by
    unfold equatorial_to_horizontal
    simp only [two, zero]
    rw [hM]
    by_cases h : real_libm.atan2
        (real_libm.sin (local_hour_angle real_libm right_ascension gmst longitude))
        (real_libm.cos (local_hour_angle real_libm right_ascension gmst longitude) *
          real_libm.sin latitude - real_libm.tan declination * real_libm.cos latitude) <
        Real.pi
    · rw [if_pos (by linarith), if_pos h]
      ring
    · rw [if_neg (by linarith), if_neg h]
      linarith
  refine ⟨h0, h1, hval, ?_, ?_⟩
  · rw [hval]
    split_ifs <;> linarith
  · rw [hval]
    split_ifs <;> linarith [Real.pi_pos]


/-- C17, counterexample: the argument of the arcsine is not clamped. With the correctly
rounded doubles that `sin` and `cos` return at latitude = declination =
0.13968646713080884 and hour angle 0 (right ascension, sidereal time and longitude 0),
the value handed to `asin` is above 1. -/
theorem altitude_asin_argument_above_one :
    local_hour_angle rounded_libm 0 0 0 = 0 ∧
    1 < altitude_asin_argument rounded_libm sample_latitude sample_latitude
      (local_hour_angle rounded_libm 0 0 0) := by
  have h0 : local_hour_angle rounded_libm 0 0 0 = 0 := by
    unfold local_hour_angle c_fmod c_int
    norm_num [rounded_libm]
  refine ⟨h0, ?_⟩
  rw [h0]
  have hne : sample_latitude ≠ 0 := by
    unfold sample_latitude
    norm_num
  unfold altitude_asin_argument
  simp only [rounded_libm, if_neg hne, if_true]
  norm_num

/-- C17, amended (the arcsine argument in exact arithmetic). `equatorial_to_horizontal`
hands `sin(lat)·sin(dec) + cos(lat)·cos(dec)·cos(H)` to the arcsine as it is, without
clamping; in exact real arithmetic that value lies in `[-1, 1]` for every latitude,
declination and hour angle, and the altitude returned lies in `[-π/2, π/2]`. -/
theorem altitude_asin_argument_real_range (right_ascension declination gmst latitude
    longitude hour_angle : ℝ) :
    (-1 ≤ altitude_asin_argument real_libm latitude declination hour_angle ∧
      altitude_asin_argument real_libm latitude declination hour_angle ≤ 1) ∧
    (equatorial_to_horizontal real_libm right_ascension declination gmst latitude
        longitude).2 =
      Real.arcsin (altitude_asin_argument real_libm latitude declination
        (local_hour_angle real_libm right_ascension gmst longitude)) ∧
    -(Real.pi / 2) ≤ (equatorial_to_horizontal real_libm right_ascension declination gmst
      latitude longitude).2 ∧
    (equatorial_to_horizontal real_libm right_ascension declination gmst latitude
      longitude).2 ≤ Real.pi / 2 := by
  refine ⟨?_, rfl, Real.neg_pi_div_two_le_arcsin _, Real.arcsin_le_pi_div_two _⟩
  show -1 ≤ Real.sin latitude * Real.sin declination +
      Real.cos latitude * Real.cos declination * Real.cos hour_angle ∧
    Real.sin latitude * Real.sin declination +
      Real.cos latitude * Real.cos declination * Real.cos hour_angle ≤ 1
  have hs := Real.cos_sub latitude declination
  have ha := Real.cos_add latitude declination
  have s1 := Real.cos_le_one (latitude - declination)
  have s2 := Real.neg_one_le_cos (latitude - declination)
  have a1 := Real.cos_le_one (latitude + declination)
  have a2 := Real.neg_one_le_cos (latitude + declination)
  have t1 := Real.cos_le_one hour_angle
  have t2 := Real.neg_one_le_cos hour_angle
  have e : Real.sin latitude * Real.sin declination +
      Real.cos latitude * Real.cos declination * Real.cos hour_angle =
      (1 + Real.cos hour_angle) / 2 * Real.cos (latitude - declination) -
        (1 - Real.cos hour_angle) / 2 * Real.cos (latitude + declination) := by
    rw [hs, ha]
    ring
  rw [e]
  constructor <;> nlinarith

/-! ### `render_constellation` -/

/-- The first loop of `render_constellation` stops with `false` when one of the stars it
reaches is dimmer than the threshold, all the array reads being inside their arrays. -/
theorem all_stars_visible_from_false {α : Type} [LinearOrderedField α]
    (config : Conf α) (constellation : Constell) (star_table : List (Star α))
    (remaining : Nat) :
    ∀ i : Nat,
      (∀ k, i ≤ k → k < i + remaining → ∃ n star,
        constellation.star_numbers[k]? = some n ∧ star_at star_table n = some star) →
      (∃ k, i ≤ k ∧ k < i + remaining ∧ ∃ n star,
        constellation.star_numbers[k]? = some n ∧ star_at star_table n = some star ∧
          star.magnitude > config.threshold) →
      all_stars_visible_from config constellation star_table remaining i = some false := by
  induction remaining with
  | zero =>
    intro i _ hdim
    obtain ⟨k, h1, h2, _⟩ := hdim
    omega
  | succ remaining ih =>
    intro i hread hdim
    obtain ⟨n, star, hn, hstar⟩ := hread i (le_refl i) (by omega)
    rw [all_stars_visible_from, hn]
    simp only []
    rw [hstar]
    simp only []
    by_cases hmag : star.magnitude > config.threshold
    · rw [if_pos hmag]
    · rw [if_neg hmag]
      apply ih (i + 1)
      · intro k hk1 hk2
        exact hread k (by omega) (by omega)
      · obtain ⟨k, hk1, hk2, n', star', hn', hstar', hmag'⟩ := hdim
        by_cases hki : k = i
        · subst hki
          rw [hn] at hn'
          have e1 : n = n' := Option.some.inj hn'
          subst e1
          rw [hstar] at hstar'
          have e2 : star = star' := Option.some.inj hstar'
          subst e2
          exact absurd hmag' hmag
        · exact ⟨k, by omega, by omega, n', star', hn', hstar', hmag'⟩

/-- C18 (constellations with a star below the threshold). For a constellation whose
star numbers are all in the star table: when at least one referenced star has a
magnitude greater than the brightness threshold, `render_constellation` returns the
window as it was, with no line cell and no endpoint marker; hence whenever the window
is changed, every star listed in the constellation passes the threshold. -/
theorem render_constellation_all_or_nothing {α : Type} [LinearOrderedField α] [FloorRing α]
    (fuel : Nat) (lib : Libm α) (win : WINDOW) (config : Conf α) (constellation : Constell)
    (star_table : List (Star α))
    (hread : ∀ k, k < constellation.num_segments * 2 → ∃ n star,
      constellation.star_numbers[k]? = some n ∧ star_at star_table n = some star) :
    ((∃ k, k < constellation.num_segments * 2 ∧ ∃ n star,
        constellation.star_numbers[k]? = some n ∧ star_at star_table n = some star ∧
          star.magnitude > config.threshold) →
      render_constellation fuel lib win config constellation star_table = some win) ∧
    (∀ w, render_constellation fuel lib win config constellation star_table = some w →
      w ≠ win →
      ∀ k, k < constellation.num_segments * 2 → ∀ n star,
        constellation.star_numbers[k]? = some n → star_at star_table n = some star →
          star.magnitude ≤ config.threshold) := by
  have hfirst : (∃ k, k < constellation.num_segments * 2 ∧ ∃ n star,
        constellation.star_numbers[k]? = some n ∧ star_at star_table n = some star ∧
          star.magnitude > config.threshold) →
      render_constellation fuel lib win config constellation star_table = some win := by
    intro hdim
    have hfalse := all_stars_visible_from_false config constellation star_table
      (constellation.num_segments * 2) 0
      (fun k _ hk => hread k (by omega))
      (by
        obtain ⟨k, hk, h⟩ := hdim
        exact ⟨k, Nat.zero_le k, by omega, h⟩)
    unfold render_constellation
    rw [hfalse]
  refine ⟨hfirst, ?_⟩
  intro w hw hne k hk n star hn hstar
  by_contra hmag
  have := hfirst ⟨k, hk, n, star, hn, hstar, not_le.mp hmag⟩
  rw [this] at hw
  exact hne (Option.some.inj hw).symm

/-- Witness for `render_constellation_all_or_nothing`: in `sample_star_table` star 1 has
magnitude 6.7, above the threshold 5, so the segment from star 2 (magnitude -1.46) to
star 1 is not drawn. -/
theorem render_constellation_all_or_nothing_witness :
    render_constellation 100 rounded_libm (newwin 24 80) sample_conf_plain sample_constellation
      sample_star_table = some (newwin 24 80) :=
  (render_constellation_all_or_nothing 100 rounded_libm (newwin 24 80) sample_conf_plain
    sample_constellation sample_star_table (by
      intro k hk
      have hk' : k < 2 := hk
      interval_cases k
      · exact ⟨2, sample_star 2 (-146 / 100), rfl, rfl⟩
      · exact ⟨1, sample_star 1 (67 / 10), rfl, rfl⟩)).1
    ⟨1, by decide, 1, sample_star 1 (67 / 10), rfl, rfl, by
      show (67 / 10 : ℚ) > 5
      norm_num⟩


/-- C19 (clipping of a constellation segment). For every segment, with `radius_a`,
`theta_a`, `radius_b`, `theta_b` the stereographic polar coordinates of its two stars:
when both radii are above 1 the segment leaves the window as it was; otherwise the line
is drawn between the two clipped endpoints (an endpoint of radius above 1 replaced by
the point of radius 1 in the same direction), and after it an endpoint marker is
written only at an endpoint whose own radius is at most 1. -/
theorem render_constellation_segment_clipping {α : Type} [LinearOrderedField α]
    [FloorRing α] (fuel : Nat) (lib : Libm α) (win : WINDOW) (config : Conf α)
    (star_a star_b : Star α) :
    (|(horizontal_to_polar lib star_a.base.azimuth star_a.base.altitude).1| > 1 ∧
      |(horizontal_to_polar lib star_b.base.azimuth star_b.base.altitude).1| > 1 →
      render_constellation_segment fuel lib win config star_a star_b = some win) ∧
    (¬ (|(horizontal_to_polar lib star_a.base.azimuth star_a.base.altitude).1| > 1 ∧
        |(horizontal_to_polar lib star_b.base.azimuth star_b.base.altitude).1| > 1) →
      render_constellation_segment fuel lib win config star_a star_b =
        (segment_line fuel config win
          (clipped_endpoint lib win
            (horizontal_to_polar lib star_a.base.azimuth star_a.base.altitude).1
            (horizontal_to_polar lib star_a.base.azimuth star_a.base.altitude).2)
          (clipped_endpoint lib win
            (horizontal_to_polar lib star_b.base.azimuth star_b.base.altitude).1
            (horizontal_to_polar lib star_b.base.azimuth star_b.base.altitude).2)).map
          (fun w =>
            endpoint_marker config
              (horizontal_to_polar lib star_b.base.azimuth star_b.base.altitude).1
              (clipped_endpoint lib win
                (horizontal_to_polar lib star_b.base.azimuth star_b.base.altitude).1
                (horizontal_to_polar lib star_b.base.azimuth star_b.base.altitude).2)
              (endpoint_marker config
                (horizontal_to_polar lib star_a.base.azimuth star_a.base.altitude).1
                (clipped_endpoint lib win
                  (horizontal_to_polar lib star_a.base.azimuth star_a.base.altitude).1
                  (horizontal_to_polar lib star_a.base.azimuth star_a.base.altitude).2)
                w))) := by
  unfold render_constellation_segment segment_line clipped_endpoint endpoint_marker
  simp only []
  generalize horizontal_to_polar lib star_a.base.azimuth star_a.base.altitude = pa
  generalize horizontal_to_polar lib star_b.base.azimuth star_b.base.altitude = pb
  have one : (1.0 : α) = 1 := by norm_num
  rw [one]
  constructor
  · intro h
    rw [if_pos h]
  · intro h
    rw [if_neg h]
    by_cases ha : |pa.1| > 1
    · have hb : ¬ |pb.1| > 1 := fun hb => h ⟨ha, hb⟩
      have ha' : ¬ |pa.1| ≤ 1 := not_le.mpr ha
      have hb' : |pb.1| ≤ 1 := not_lt.mp hb
      simp only [ha, hb, ha', hb', decide_True, decide_False, Bool.not_true, Bool.not_false,
        Bool.false_and, Bool.true_and, if_true, if_false, Bool.false_eq_true]
      cases config.unicode
      · simp only [Bool.false_eq_true, if_false]
        cases draw_line_ASCII fuel win
          (polar_to_win lib 1 pa.2 win.height win.width).1
          (polar_to_win lib 1 pa.2 win.height win.width).2
          (polar_to_win lib pb.1 pb.2 win.height win.width).1
          (polar_to_win lib pb.1 pb.2 win.height win.width).2 <;> rfl
      · simp only [if_true]
        cases draw_line_smooth fuel win
          (polar_to_win lib 1 pa.2 win.height win.width).1
          (polar_to_win lib 1 pa.2 win.height win.width).2
          (polar_to_win lib pb.1 pb.2 win.height win.width).1
          (polar_to_win lib pb.1 pb.2 win.height win.width).2 <;> rfl
    · have ha' : |pa.1| ≤ 1 := not_lt.mp ha
      by_cases hb : |pb.1| > 1
      · have hb' : ¬ |pb.1| ≤ 1 := not_le.mpr hb
        simp only [ha, hb, ha', hb', decide_True, decide_False, Bool.not_true, Bool.not_false,
          Bool.false_and, Bool.true_and, if_true, if_false, Bool.false_eq_true]
        cases config.unicode
        · simp only [Bool.false_eq_true, if_false]
          cases draw_line_ASCII fuel win
            (polar_to_win lib pa.1 pa.2 win.height win.width).1
            (polar_to_win lib pa.1 pa.2 win.height win.width).2
            (polar_to_win lib 1 pb.2 win.height win.width).1
            (polar_to_win lib 1 pb.2 win.height win.width).2 <;> rfl
        · simp only [if_true]
          cases draw_line_smooth fuel win
            (polar_to_win lib pa.1 pa.2 win.height win.width).1
            (polar_to_win lib pa.1 pa.2 win.height win.width).2
            (polar_to_win lib 1 pb.2 win.height win.width).1
            (polar_to_win lib 1 pb.2 win.height win.width).2 <;> rfl
      · have hb' : |pb.1| ≤ 1 := not_lt.mp hb
        simp only [ha, hb, ha', hb', decide_True, decide_False, Bool.not_true, Bool.not_false,
          Bool.false_and, Bool.true_and, if_true, if_false, Bool.false_eq_true]
        cases config.unicode
        · simp only [Bool.false_eq_true, if_false]
          cases draw_line_ASCII fuel win
            (polar_to_win lib pa.1 pa.2 win.height win.width).1
            (polar_to_win lib pa.1 pa.2 win.height win.width).2
            (polar_to_win lib pb.1 pb.2 win.height win.width).1
            (polar_to_win lib pb.1 pb.2 win.height win.width).2 <;> rfl
        · simp only [if_true]
          cases draw_line_smooth fuel win
            (polar_to_win lib pa.1 pa.2 win.height win.width).1
            (polar_to_win lib pa.1 pa.2 win.height win.width).2
            (polar_to_win lib pb.1 pb.2 win.height win.width).1
            (polar_to_win lib pb.1 pb.2 win.height win.width).2 <;> rfl

/-- Witness for `render_constellation_segment_clipping`: a segment between two stars 45°
below the horizon, both of polar radius `tan (3π/8) > 1`, leaves the window blank. -/
theorem render_constellation_segment_clipping_witness :
    render_constellation_segment 100 real_libm (newwin 24 80) sample_conf
      sample_star_below_horizon sample_star_below_horizon = some (newwin 24 80) :=
  have h : |(horizontal_to_polar real_libm sample_star_below_horizon.base.azimuth
      sample_star_below_horizon.base.altitude).1| > 1 := by
    show 1 < |(horizontal_to_polar real_libm sample_object_below_horizon.azimuth
      sample_object_below_horizon.altitude).1|
    rw [sample_object_radius]
    exact lt_of_lt_of_le one_lt_tan_three_pi_div_eight (le_abs_self _)
  (render_constellation_segment_clipping 100 real_libm (newwin 24 80) sample_conf
    sample_star_below_horizon sample_star_below_horizon).1 ⟨h, h⟩

/-! ### `julian_to_gregorian` -/

/-- The `(int)` cut of a quotient of two integers, the dividend non-negative and the
divisor positive, is their integer quotient. -/
theorem c_int_div_of_nonneg (a b : Int) (ha : 0 ≤ a) (hb : 0 < b) :
    c_int ((a : ℚ) / (b : ℚ)) = a / b := by
  have hbq : (0 : ℚ) < (b : ℚ) := by exact_mod_cast hb
  have haq : (0 : ℚ) ≤ (a : ℚ) := by exact_mod_cast ha
  unfold c_int
  rw [if_pos (div_nonneg haq hbq.le), Int.floor_eq_iff]
  have h1 : b * (a / b) ≤ a := Int.mul_ediv_self_le (ne_of_gt hb)
  have h2 : a < b * (a / b) + b := Int.lt_mul_ediv_self_add hb
  have h1q : (b : ℚ) * ((a / b : Int) : ℚ) ≤ (a : ℚ) := by exact_mod_cast h1
  have h2q : (a : ℚ) < (b : ℚ) * ((a / b : Int) : ℚ) + (b : ℚ) := by exact_mod_cast h2
  constructor
  · rw [le_div_iff₀ hbq]
    linarith
  · rw [div_lt_iff₀ hbq]
    linarith

/-- The calendar date that `julian_to_gregorian` computes from a Julian date whose
nearest day number is `J`, the day number written as centuries `C`, year of the century
`r`, March-based month `mm` and day `d`. -/
theorem julian_to_gregorian_eq (jd : ℚ) (J C r mm d : Int)
    (hjd : c_int (jd + 0.5) = J)
    (hJ : J + 68569 = 36524 * C + (C + 3) / 4 + 1461 * r / 4 + 367 * mm / 12 + d - 31)
    (hC : 56 ≤ C) (hr0 : 0 ≤ r) (hr1 : r ≤ 99) (hm0 : 1 ≤ mm) (hm1 : mm ≤ 12)
    (hd0 : 1 ≤ d) (hd1 : d ≤ 31)
    (h30 : mm = 2 ∨ mm = 4 ∨ mm = 7 ∨ mm = 9 → d ≤ 30)
    (hfeb : mm = 12 → d ≤ 29)
    (hleap : mm = 12 → d = 29 → r % 4 = 3 ∧ (r ≠ 99 ∨ C % 4 = 0)) :
    julian_to_gregorian jd = (100 * (C - 49) + r + mm / 11, mm + 2 - 12 * (mm / 11), d) := by
  -- the quotients of doubles, as quotients of integers
  have q1 : ((J : ℚ) - 1867216.25) / 36524.25 =
      ((4 * J - 7468865 : Int) : ℚ) / ((146097 : Int) : ℚ) := by
    push_cast
    norm_num
    ring
  have q2 : ∀ c : Int, ((c : ℚ) - 122.1) / 365.25 =
      ((20 * c - 2442 : Int) : ℚ) / ((7305 : Int) : ℚ) := by
    intro c
    push_cast
    norm_num
    ring
  have q3 : ∀ y : Int, (365.25 : ℚ) * (y : ℚ) = ((1461 * y : Int) : ℚ) / ((4 : Int) : ℚ) := by
    intro y
    push_cast
    norm_num
    ring
  have q4 : ∀ z : Int, (z : ℚ) / 30.6001 = ((10000 * z : Int) : ℚ) / ((306001 : Int) : ℚ) := by
    intro z
    push_cast
    norm_num
    ring
  have q5 : ∀ g : Int, (30.6001 : ℚ) * (g : ℚ) =
      ((306001 * g : Int) : ℚ) / ((10000 : Int) : ℚ) := by
    intro g
    push_cast
    norm_num
    ring
  -- the integer steps
  have s1 : (4 * J - 7468865) / 146097 = C - 53 := by
    rcases (by omega : mm = 1 ∨ mm = 2 ∨ mm = 3 ∨ mm = 4 ∨ mm = 5 ∨ mm = 6 ∨ mm = 7 ∨ mm = 8 ∨
      mm = 9 ∨ mm = 10 ∨ mm = 11 ∨ mm = 12) with h | h | h | h | h | h | h | h | h | h | h | h <;>
    subst h <;> omega
  have s2 : J + 1 + (C - 53) - (C - 53) / 4 + 1524 =
      36525 * C + 1461 * r / 4 + 367 * mm / 12 + d - 67114 := by omega
  have s3 : (20 * (36525 * C + 1461 * r / 4 + 367 * mm / 12 + d - 67114) - 2442) / 7305 =
      100 * C + r - 184 := by
    rcases (by omega : mm = 1 ∨ mm = 2 ∨ mm = 3 ∨ mm = 4 ∨ mm = 5 ∨ mm = 6 ∨ mm = 7 ∨ mm = 8 ∨
      mm = 9 ∨ mm = 10 ∨ mm = 11 ∨ mm = 12) with h | h | h | h | h | h | h | h | h | h | h | h <;>
    subst h <;> omega
  have s4 : 1461 * (100 * C + r - 184) / 4 = 36525 * C + 1461 * r / 4 - 67206 := by omega
  have s5 : 36525 * C + 1461 * r / 4 + 367 * mm / 12 + d - 67114 -
      (36525 * C + 1461 * r / 4 - 67206) = 367 * mm / 12 + d + 92 := by ring
  have s6 : 10000 * (367 * mm / 12 + d + 92) / 306001 = mm + 3 := by
    rcases (by omega : mm = 1 ∨ mm = 2 ∨ mm = 3 ∨ mm = 4 ∨ mm = 5 ∨ mm = 6 ∨ mm = 7 ∨ mm = 8 ∨
      mm = 9 ∨ mm = 10 ∨ mm = 11 ∨ mm = 12) with h | h | h | h | h | h | h | h | h | h | h | h <;>
    subst h <;> omega
  have s7 : 367 * mm / 12 + d + 92 - 306001 * (mm + 3) / 10000 = d := by
    clear s1 s2 s3 s4 s5 s6 hJ hjd
    rcases (by omega : mm = 1 ∨ mm = 2 ∨ mm = 3 ∨ mm = 4 ∨ mm = 5 ∨ mm = 6 ∨ mm = 7 ∨ mm = 8 ∨
      mm = 9 ∨ mm = 10 ∨ mm = 11 ∨ mm = 12) with h | h | h | h | h | h | h | h | h | h | h | h <;>
    subst h <;> omega
  have p1 : 0 ≤ 4 * J - 7468865 := by omega
  have p2 : 0 ≤ C - 53 := by omega
  have p3 : 0 ≤ 20 * (36525 * C + 1461 * r / 4 + 367 * mm / 12 + d - 67114) - 2442 := by omega
  have p4 : 0 ≤ 1461 * (100 * C + r - 184) := by omega
  have p5 : 0 ≤ 10000 * (367 * mm / 12 + d + 92) := by omega
  have p6 : 0 ≤ 306001 * (mm + 3) := by omega
  have hg : ((mm + 3 : Int) : ℚ) < 13.5 ↔ mm + 3 ≤ 13 := by
    constructor
    · intro h
      have h' : ((mm + 3 : Int) : ℚ) < ((14 : Int) : ℚ) := by
        refine lt_trans h ?_
        norm_num
      have := Int.cast_lt.mp h'
      omega
    · intro h
      have h' : ((mm + 3 : Int) : ℚ) ≤ ((13 : Int) : ℚ) := Int.cast_le.mpr h
      refine lt_of_le_of_lt h' ?_
      norm_num
  unfold julian_to_gregorian
  simp only []
  rw [hjd, q1, c_int_div_of_nonneg _ _ p1 (by norm_num), s1, tdiv_of_nonneg p2 (by norm_num),
    s2, q2, c_int_div_of_nonneg _ _ p3 (by norm_num), s3, q3,
    c_int_div_of_nonneg _ _ p4 (by norm_num), s4, s5, q4,
    c_int_div_of_nonneg _ _ p5 (by norm_num), s6, q5, c_int_div_of_nonneg _ _ p6 (by norm_num),
    s7]
  by_cases hmm : mm + 3 ≤ 13
  · rw [if_pos (hg.mpr hmm), if_pos (by omega)]
    simp only [Prod.mk.injEq, and_true]
    constructor <;> omega
  · rw [if_neg (fun h => hmm (hg.mp h)), if_neg (by omega)]
    simp only [Prod.mk.injEq, and_true]
    constructor <;> omega
/-- The day number that `julian_to_gregorian` first extracts, `(int)(jd + 0.5)`, is the
integer day number of the date, whatever the time of day. -/
theorem day_num_of_julian_date (t : tm) (hJ : 0 ≤ julian_day_num_of (t.tm_year + 1900)
      (t.tm_mon + 1) t.tm_mday)
    (hs0 : 0 ≤ t.tm_sec) (hs1 : t.tm_sec ≤ 59) (hm0 : 0 ≤ t.tm_min) (hm1 : t.tm_min ≤ 59)
    (hh0 : 0 ≤ t.tm_hour) (hh1 : t.tm_hour ≤ 23) :
    c_int (datetime_to_julian_date t + 0.5) =
      julian_day_num_of (t.tm_year + 1900) (t.tm_mon + 1) t.tm_mday := by
  have cs0 : (0 : ℚ) ≤ t.tm_sec := by exact_mod_cast hs0
  have cs1 : (t.tm_sec : ℚ) ≤ 59 := by exact_mod_cast hs1
  have cm0 : (0 : ℚ) ≤ t.tm_min := by exact_mod_cast hm0
  have cm1 : (t.tm_min : ℚ) ≤ 59 := by exact_mod_cast hm1
  have ch0 : (0 : ℚ) ≤ t.tm_hour := by exact_mod_cast hh0
  have ch1 : (t.tm_hour : ℚ) ≤ 23 := by exact_mod_cast hh1
  have cJ : (0 : ℚ) ≤ (julian_day_num_of (t.tm_year + 1900) (t.tm_mon + 1) t.tm_mday : ℚ) := by
    exact_mod_cast hJ
  have hsum : datetime_to_julian_date t + 0.5 =
      (julian_day_num_of (t.tm_year + 1900) (t.tm_mon + 1) t.tm_mday : ℚ) +
        ((t.tm_hour : ℚ) / 24 + (t.tm_min : ℚ) / 1440 + (t.tm_sec : ℚ) / 86400) := by
    unfold datetime_to_julian_date
    simp only []
    push_cast
    ring
  have hf0 : (0 : ℚ) ≤ (t.tm_hour : ℚ) / 24 + (t.tm_min : ℚ) / 1440 + (t.tm_sec : ℚ) / 86400 := by
    linarith
  have hf1 : (t.tm_hour : ℚ) / 24 + (t.tm_min : ℚ) / 1440 + (t.tm_sec : ℚ) / 86400 < 1 := by
    linarith
  rw [hsum]
  unfold c_int
  rw [if_pos (by linarith)]
  exact floor_int_add_frac _ _ hf0 hf1

/-- The date that `julian_to_gregorian` computes from the Julian date of a valid instant
of the year 1583 or later is the date of the instant. -/
theorem julian_to_gregorian_of_valid (t : tm) (hv : valid_instant t)
    (hlo : 1583 ≤ t.tm_year + 1900) :
    julian_to_gregorian (datetime_to_julian_date t) =
      (t.tm_year + 1900, t.tm_mon + 1, t.tm_mday) := by
  obtain ⟨hs0, hs1, hm0, hm1, hh0, hh1, hmo0, hmo1, hd0, hd1⟩ := hv
  obtain ⟨a, ha⟩ : ∃ a : Int, (t.tm_mon + 1 ≤ 2 ∧ a = -1) ∨ (3 ≤ t.tm_mon + 1 ∧ a = 0) := by
    by_cases h : t.tm_mon + 1 ≤ 2
    · exact ⟨-1, Or.inl ⟨h, rfl⟩⟩
    · exact ⟨0, Or.inr ⟨by omega, rfl⟩⟩
  have hJ := julian_day_num_of_eq (t.tm_year + 1900) (t.tm_mon + 1) t.tm_mday a (by omega)
    (by omega) (by omega) ha
  have hge := julian_day_num_of_ge (t.tm_year + 1900) (t.tm_mon + 1) t.tm_mday (by omega)
    (by omega) (by omega) hd0
  have hjd := day_num_of_julian_date t (by omega) hs0 hs1 hm0 hm1 hh0 hh1
  have hdim := days_in_month_cases (t.tm_year + 1900) (t.tm_mon + 1 - 1)
  have hmon : t.tm_mon + 1 - 1 = t.tm_mon := by ring
  rw [hmon] at hdim
  rw [julian_to_gregorian_eq _ _ _ _ _ t.tm_mday hjd hJ (by omega) (by omega) (by omega)
    (by omega) (by omega) hd0 (by omega) (by omega) (by omega) (by omega)]
  simp only [Prod.mk.injEq, and_true]
  constructor <;> omega

/-- C20 (`julian_to_gregorian` inverts the day-number formula). For every valid instant
of the Gregorian calendar from the year 1583 on, at any time of day,
`julian_to_gregorian (datetime_to_julian_date t)` is the instant's `(year, month, day)`
and the month lies in 1..12; and `julian_to_gregorian` sends 2451545.0 to 2000-01-01
and 2440587.5 to 1970-01-01. -/
theorem julian_to_gregorian_inverts_day_number (t : tm) (hv : valid_instant t)
    (hlo : 1583 ≤ t.tm_year + 1900) (hhi : t.tm_year + 1900 ≤ 9999) :
    julian_to_gregorian (datetime_to_julian_date t) =
        (t.tm_year + 1900, t.tm_mon + 1, t.tm_mday) ∧
      1 ≤ (julian_to_gregorian (datetime_to_julian_date t)).2.1 ∧
      (julian_to_gregorian (datetime_to_julian_date t)).2.1 ≤ 12 ∧
      julian_to_gregorian 2451545.0 = (2000, 1, 1) ∧
      julian_to_gregorian 2440587.5 = (1970, 1, 1) := by
  have h := julian_to_gregorian_of_valid t hv hlo
  have h2000 := julian_to_gregorian_of_valid
    { tm_sec := 0, tm_min := 0, tm_hour := 12, tm_mday := 1, tm_mon := 0, tm_year := 100 }
    (by unfold valid_instant; decide) (by decide)
  have h1970 := julian_to_gregorian_of_valid
    { tm_sec := 0, tm_min := 0, tm_hour := 0, tm_mday := 1, tm_mon := 0, tm_year := 70 }
    (by unfold valid_instant; decide) (by decide)
  have e2000 : datetime_to_julian_date
      { tm_sec := 0, tm_min := 0, tm_hour := 12, tm_mday := 1, tm_mon := 0, tm_year := 100 } =
        2451545.0 := by
    have h1 : julian_day_num_of (100 + 1900) (0 + 1) 1 = 2451545 := by decide
    unfold datetime_to_julian_date
    simp only []
    rw [h1]
    norm_num
  have e1970 : datetime_to_julian_date
      { tm_sec := 0, tm_min := 0, tm_hour := 0, tm_mday := 1, tm_mon := 0, tm_year := 70 } =
        2440587.5 := by
    have h1 : julian_day_num_of (70 + 1900) (0 + 1) 1 = 2440588 := by decide
    unfold datetime_to_julian_date
    simp only []
    rw [h1]
    norm_num
  rw [e2000] at h2000
  rw [e1970] at h1970
  obtain ⟨_, _, _, _, _, _, hmo0, hmo1, _, _⟩ := hv
  refine ⟨h, ?_, ?_, h2000, h1970⟩
  · rw [h]
    show 1 ≤ t.tm_mon + 1
    omega
  · rw [h]
    show t.tm_mon + 1 ≤ 12
    omega

/-- Witness for `julian_to_gregorian_inverts_day_number`: 2024-02-29 06:30:15, a leap
day at a time before noon. -/
theorem julian_to_gregorian_inverts_day_number_witness :
    valid_instant
        { tm_sec := 15, tm_min := 30, tm_hour := 6, tm_mday := 29, tm_mon := 1, tm_year := 124 } ∧
      julian_to_gregorian (datetime_to_julian_date
        { tm_sec := 15, tm_min := 30, tm_hour := 6, tm_mday := 29, tm_mon := 1, tm_year := 124 }) =
        (2024, 2, 29) :=
  ⟨by unfold valid_instant; decide,
    (julian_to_gregorian_inverts_day_number _ (by unfold valid_instant; decide) (by decide)
      (by decide)).1⟩

/-! ### Rounding and the minor axis of a line -/

/-- C's `round` is monotone. -/
theorem c_round_mono {α : Type} [LinearOrderedField α] [FloorRing α] {a b : α} (h : a ≤ b) :
    c_round a ≤ c_round b := by
  unfold c_round
  by_cases ha : 0 ≤ a
  · rw [if_pos ha, if_pos (le_trans ha h)]
    exact Int.floor_le_floor (by linarith)
  · rw [if_neg ha]
    have ha' : a < 0 := lt_of_not_le ha
    have h1 : ⌈a - 1 / 2⌉ ≤ 0 := by
      rw [Int.ceil_le]
      push_cast
      linarith
    by_cases hb : 0 ≤ b
    · rw [if_pos hb]
      have h2 : (0 : Int) ≤ ⌊b + 1 / 2⌋ := by
        rw [Int.le_floor]
        push_cast
        linarith
      exact le_trans h1 h2
    · rw [if_neg hb]
      exact Int.ceil_le_ceil (by linarith)

/-- C's `round` is odd. -/
theorem c_round_neg {α : Type} [LinearOrderedField α] [FloorRing α] (a : α) :
    c_round (-a) = -c_round a := by
  unfold c_round
  rcases lt_trichotomy a 0 with h | h | h
  · rw [if_pos (by linarith), if_neg (by linarith)]
    have e : -a + 1 / 2 = -(a - 1 / 2) := by ring
    rw [e, Int.floor_neg]
  · subst h
    rw [neg_zero, if_pos (le_refl _)]
    have : ⌊(0 : α) + 1 / 2⌋ = 0 := by
      rw [Int.floor_eq_iff]
      constructor <;> norm_num
    rw [this]
    rfl
  · rw [if_neg (by linarith), if_pos h.le]
    have e : -a - 1 / 2 = -(a + 1 / 2) := by ring
    rw [e, Int.ceil_neg]

/-- From a non-negative value on, one more unit rounds to one more. -/
theorem c_round_add_one {α : Type} [LinearOrderedField α] [FloorRing α] (a : α) (h : 0 ≤ a) :
    c_round (a + 1) = c_round a + 1 := by
  unfold c_round
  rw [if_pos h, if_pos (by linarith)]
  have e : a + 1 + 1 / 2 = a + 1 / 2 + 1 := by ring
  rw [e, Int.floor_add_one]

/-- A step of at most one from a non-negative value moves the rounded value by at most
one. -/
theorem c_round_step {α : Type} [LinearOrderedField α] [FloorRing α] (a s : α) (ha : 0 ≤ a)
    (hs0 : 0 ≤ s) (hs1 : s ≤ 1) : c_round a ≤ c_round (a + s) ∧ c_round (a + s) ≤ c_round a + 1 := by
  constructor
  · exact c_round_mono (by linarith)
  · rw [← c_round_add_one a ha]
    exact c_round_mono (by linarith)

theorem line_minor_zero (d : Int) (n : Nat) : line_minor d n 0 = 0 := by
  unfold line_minor
  have e : ((0 : Nat) : ℚ) * ((d : ℚ) / (n : ℚ)) = ((0 : Int) : ℚ) := by norm_num
  rw [e, c_round_int]

theorem line_minor_last (d : Int) (n : Nat) (hn : 1 ≤ n) : line_minor d n n = d := by
  unfold line_minor
  have hn' : (n : ℚ) ≠ 0 := by
    have : (0 : ℚ) < n := by exact_mod_cast hn
    exact this.ne'
  have e : (n : ℚ) * ((d : ℚ) / (n : ℚ)) = (d : ℚ) := by field_simp
  rw [e, c_round_int]

theorem line_minor_neg (d : Int) (n j : Nat) : line_minor (-d) n j = -line_minor d n j := by
  unfold line_minor
  have e : (j : ℚ) * (((-d : Int) : ℚ) / (n : ℚ)) = -((j : ℚ) * ((d : ℚ) / (n : ℚ))) := by
    push_cast
    ring
  rw [e, c_round_neg]

theorem line_minor_of_zero (n j : Nat) : line_minor 0 n j = 0 := by
  unfold line_minor
  have e : (j : ℚ) * (((0 : Int) : ℚ) / (n : ℚ)) = ((0 : Int) : ℚ) := by norm_num
  rw [e, c_round_int]

/-- On a line that rises on the minor axis by `0 ≤ d ≤ n` over `n` steps, each step
keeps the rounded offset or adds one. -/
theorem line_minor_step_nonneg (d : Int) (n j : Nat) (hd0 : 0 ≤ d) (hd1 : d ≤ n) :
    line_minor d n j ≤ line_minor d n (j + 1) ∧ line_minor d n (j + 1) ≤ line_minor d n j + 1 := by
  unfold line_minor
  have hdq : (0 : ℚ) ≤ (d : ℚ) := by exact_mod_cast hd0
  have hs0 : (0 : ℚ) ≤ (d : ℚ) / (n : ℚ) := div_nonneg hdq (Nat.cast_nonneg n)
  have hs1 : (d : ℚ) / (n : ℚ) ≤ 1 := by
    have hdn : (d : ℚ) ≤ (n : ℚ) := by exact_mod_cast hd1
    exact div_le_one_of_le₀ hdn (Nat.cast_nonneg n)
  have e : ((j + 1 : Nat) : ℚ) * ((d : ℚ) / (n : ℚ)) =
      (j : ℚ) * ((d : ℚ) / (n : ℚ)) + (d : ℚ) / (n : ℚ) := by
    push_cast
    ring
  rw [e]
  exact c_round_step _ _ (mul_nonneg (Nat.cast_nonneg j) hs0) hs0 hs1

/-- Each step moves the rounded minor offset by at most one, toward `d`. -/
theorem line_minor_step (d : Int) (n j : Nat) (hd : |d| ≤ n) :
    (0 ≤ d → line_minor d n j ≤ line_minor d n (j + 1) ∧
      line_minor d n (j + 1) ≤ line_minor d n j + 1) ∧
    (d ≤ 0 → line_minor d n (j + 1) ≤ line_minor d n j ∧
      line_minor d n j - 1 ≤ line_minor d n (j + 1)) := by
  constructor
  · intro h0
    exact line_minor_step_nonneg d n j h0 (by rw [abs_of_nonneg h0] at hd; exact hd)
  · intro h0
    have h := line_minor_step_nonneg (-d) n j (by omega) (by rw [abs_of_nonpos h0] at hd; exact hd)
    rw [line_minor_neg, line_minor_neg] at h
    constructor <;> omega

/-- The rounded minor offset is monotone in the step on a rising line. -/
theorem line_minor_mono_nonneg (d : Int) (n : Nat) (hd0 : 0 ≤ d) {i j : Nat} (hij : i ≤ j) :
    line_minor d n i ≤ line_minor d n j := by
  unfold line_minor
  apply c_round_mono
  have hdq : (0 : ℚ) ≤ (d : ℚ) := by exact_mod_cast hd0
  have hs0 : (0 : ℚ) ≤ (d : ℚ) / (n : ℚ) := div_nonneg hdq (Nat.cast_nonneg n)
  have hq : (i : ℚ) ≤ (j : ℚ) := by exact_mod_cast hij
  exact mul_le_mul_of_nonneg_right hq hs0

/-- Up to step `n` the rounded minor offset lies between 0 and `d`, and once it has
reached `d` it stays there. -/
theorem line_minor_range (d : Int) (n j : Nat) (hn : 1 ≤ n) (hj : j ≤ n) :
    (0 ≤ d → 0 ≤ line_minor d n j ∧ line_minor d n j ≤ d) ∧
    (d ≤ 0 → d ≤ line_minor d n j ∧ line_minor d n j ≤ 0) ∧
    (j < n → line_minor d n j = d → line_minor d n (j + 1) = d) := by
  have key : ∀ e : Int, 0 ≤ e → (0 ≤ line_minor e n j ∧ line_minor e n j ≤ e) ∧
      (j < n → line_minor e n j = e → line_minor e n (j + 1) = e) := by
    intro e he
    have h0 := line_minor_mono_nonneg e n he (Nat.zero_le j)
    have h1 := line_minor_mono_nonneg e n he hj
    rw [line_minor_zero] at h0
    rw [line_minor_last e n hn] at h1
    refine ⟨⟨h0, h1⟩, fun hlt heq => ?_⟩
    have h2 := line_minor_mono_nonneg e n he (Nat.le_add_right j 1)
    have h3 := line_minor_mono_nonneg e n he (by omega : j + 1 ≤ n)
    rw [line_minor_last e n hn] at h3
    omega
  refine ⟨fun h => (key d h).1, fun h => ?_, ?_⟩
  · have := (key (-d) (by omega)).1
    rw [line_minor_neg] at this
    constructor <;> omega
  · intro hlt heq
    rcases le_total 0 d with h | h
    · exact (key d h).2 hlt heq
    · have := (key (-d) (by omega)).2 hlt (by rw [line_minor_neg, heq])
      rw [line_minor_neg] at this
      omega

/-- C21 (zodiac signs). For every month `m` in 1..12 and every day `d`, the index that
`date_to_zodiac` computes lies in 0..11, and `get_zodiac_sign m d` is the sign that
starts in month `m` when `d` is on or after its start day, and the sign that starts in
the month before (December before January) otherwise. -/
theorem get_zodiac_sign_calendar (m d : Int) (hm0 : 1 ≤ m) (hm1 : m ≤ 12) :
    (∃ index, date_to_zodiac m d = some index ∧ 0 ≤ index ∧ index ≤ 11) ∧
      get_zodiac_sign m d =
        some (if (zodiac_calendar m).2 ≤ d then (zodiac_calendar m).1
          else (zodiac_calendar (preceding_month m)).1) := by
  have hcases : m = 1 ∨ m = 2 ∨ m = 3 ∨ m = 4 ∨ m = 5 ∨ m = 6 ∨ m = 7 ∨ m = 8 ∨ m = 9 ∨
      m = 10 ∨ m = 11 ∨ m = 12 := by omega
  rcases hcases with h | h | h | h | h | h | h | h | h | h | h | h <;> subst h <;>
    refine ⟨?_, ?_⟩
  all_goals
    simp [get_zodiac_sign, date_to_zodiac, zodiac_start_days, zodiac_signs,
      zodiac_calendar, preceding_month]
    try (split_ifs <;> first | omega | simp)

/-- Witness for `get_zodiac_sign_calendar`: 20 March, the day before Aries starts, is
still Pisces, and 21 March is Aries. -/
theorem get_zodiac_sign_calendar_witness :
    get_zodiac_sign 3 20 = some "Pisces" ∧ get_zodiac_sign 3 21 = some "Aries" :=
  ⟨(get_zodiac_sign_calendar 3 20 (by decide) (by decide)).2.trans (by decide),
    (get_zodiac_sign_calendar 3 21 (by decide) (by decide)).2.trans (by decide)⟩

/-! ### `map_float_to_int_range` -/

/-- A value of the range of `int` is not changed by the conversion to 32 bits. -/
theorem to_int32_of_fits (x : Int) (h0 : -2 ^ 31 ≤ x) (h1 : x ≤ 2 ^ 31 - 1) : to_int32 x = x := by
  unfold to_int32
  omega

/-- Where `min_int`, `max_int` and their difference lie in the range of `int`, no `int`
operation of `map_float_to_int_range` overflows for an input of `[min_float, max_float]`:
the result is `min_int` plus the rounded share of the difference, which lies between 0
and the difference. -/
theorem map_float_to_int_range_eq {α : Type} [LinearOrderedField α] [FloorRing α]
    (min_float max_float : α) (min_int max_int : Int) (hf : min_float < max_float)
    (hi : min_int ≤ max_int) (hmin : -2 ^ 31 ≤ min_int) (hmax : max_int ≤ 2 ^ 31 - 1)
    (hspan : max_int - min_int ≤ 2 ^ 31 - 1) (input : α) (h0 : min_float ≤ input)
    (h1 : input ≤ max_float) :
    map_float_to_int_range min_float max_float min_int max_int input =
      min_int + c_round (((max_int - min_int : Int) : α) *
        ((input - min_float) / (max_float - min_float))) ∧
    0 ≤ c_round (((max_int - min_int : Int) : α) *
        ((input - min_float) / (max_float - min_float))) ∧
    c_round (((max_int - min_int : Int) : α) *
        ((input - min_float) / (max_float - min_float))) ≤ max_int - min_int := by
  have hpos : 0 < max_float - min_float := sub_pos.mpr hf
  have hspan0 : (0 : α) ≤ ((max_int - min_int : Int) : α) := by
    exact_mod_cast (sub_nonneg.mpr hi)
  have hp0 : 0 ≤ (input - min_float) / (max_float - min_float) :=
    div_nonneg (by linarith) hpos.le
  have hp1 : (input - min_float) / (max_float - min_float) ≤ 1 := by
    rw [div_le_one hpos]
    linarith
  have z : c_round (0 : α) = 0 := by
    have := c_round_int (α := α) 0
    simpa using this
  have r0 : 0 ≤ c_round (((max_int - min_int : Int) : α) *
      ((input - min_float) / (max_float - min_float))) := by
    have := c_round_mono (mul_nonneg hspan0 hp0)
    rw [z] at this
    exact this
  have r1 : c_round (((max_int - min_int : Int) : α) *
      ((input - min_float) / (max_float - min_float))) ≤ max_int - min_int := by
    have h := mul_le_mul_of_nonneg_left hp1 hspan0
    rw [mul_one] at h
    have := c_round_mono h
    rw [c_round_int] at this
    exact this
  refine ⟨?_, r0, r1⟩
  unfold map_float_to_int_range
  simp only []
  rw [to_int32_of_fits (max_int - min_int) (by omega) hspan,
    to_int32_of_fits (c_round (((max_int - min_int : Int) : α) *
      ((input - min_float) / (max_float - min_float)))) (by omega) (by omega),
    to_int32_of_fits _ (by omega) (by omega)]

/-- The glyph index of `generate_star_table`, the map of [-1.46, 7.96] to 0..9, lies in
0..9 for every magnitude in [-1.46, 7.96]. -/
theorem symbol_index_range {α : Type} [LinearOrderedField α] [FloorRing α] (magnitude : α)
    (h0 : -1.46 ≤ magnitude) (h1 : magnitude ≤ 7.96) :
    0 ≤ map_float_to_int_range (-1.46 : α) 7.96 0 9 magnitude ∧
      map_float_to_int_range (-1.46 : α) 7.96 0 9 magnitude ≤ 9 := by
  obtain ⟨e, r0, r1⟩ := map_float_to_int_range_eq (-1.46 : α) 7.96 0 9 (by norm_num)
    (by norm_num) (by norm_num) (by norm_num) (by norm_num) magnitude h0 h1
  rw [e]
  constructor <;> omega

/-- C24, as the code has it (`map_float_to_int_range`). For `min_float < max_float` and
`min_int ≤ max_int` with `min_int`, `max_int` and the difference `max_int - min_int` in
the range of a 32-bit `int`: every input of `[min_float, max_float]` is mapped into
`[min_int, max_int]`, `min_float` to `min_int` and `max_float` to `max_int`, and the
result is non-decreasing in the input over `[min_float, max_float]`; 0.5 in [0, 1] is
mapped to 50 in [0, 100]; and the glyph index of `generate_star_table`, the map of
[-1.46, 7.96] to 0..9, lies in 0..9 for every magnitude in [-1.46, 7.96]. -/
theorem map_float_to_int_range_bounds {α : Type} [LinearOrderedField α] [FloorRing α]
    (min_float max_float : α) (min_int max_int : Int) (hf : min_float < max_float)
    (hi : min_int ≤ max_int) (hmin : -2 ^ 31 ≤ min_int) (hmax : max_int ≤ 2 ^ 31 - 1)
    (hspan : max_int - min_int ≤ 2 ^ 31 - 1) :
    (∀ input, min_float ≤ input → input ≤ max_float →
      min_int ≤ map_float_to_int_range min_float max_float min_int max_int input ∧
        map_float_to_int_range min_float max_float min_int max_int input ≤ max_int) ∧
    map_float_to_int_range min_float max_float min_int max_int min_float = min_int ∧
    map_float_to_int_range min_float max_float min_int max_int max_float = max_int ∧
    (∀ a b, min_float ≤ a → a ≤ b → b ≤ max_float →
      map_float_to_int_range min_float max_float min_int max_int a ≤
        map_float_to_int_range min_float max_float min_int max_int b) ∧
    map_float_to_int_range (0.0 : α) 1.0 0 100 0.5 = 50 ∧
    ∀ magnitude : α, -1.46 ≤ magnitude → magnitude ≤ 7.96 →
      0 ≤ map_float_to_int_range (-1.46 : α) 7.96 0 9 magnitude ∧
        map_float_to_int_range (-1.46 : α) 7.96 0 9 magnitude ≤ 9 := by
  have hpos : 0 < max_float - min_float := sub_pos.mpr hf
  have hspan0 : (0 : α) ≤ ((max_int - min_int : Int) : α) := by
    exact_mod_cast (sub_nonneg.mpr hi)
  refine ⟨?_, ?_, ?_, ?_, ?_, fun magnitude h0 h1 => symbol_index_range magnitude h0 h1⟩
  · intro input h0 h1
    obtain ⟨e, r0, r1⟩ := map_float_to_int_range_eq min_float max_float min_int max_int hf hi
      hmin hmax hspan input h0 h1
    rw [e]
    constructor <;> omega
  · obtain ⟨e, _, _⟩ := map_float_to_int_range_eq min_float max_float min_int max_int hf hi
      hmin hmax hspan min_float (le_refl _) hf.le
    rw [e, sub_self, zero_div, mul_zero]
    have h0 : c_round (0 : α) = 0 := by
      have := c_round_int (α := α) 0
      simpa using this
    rw [h0, add_zero]
  · obtain ⟨e, _, _⟩ := map_float_to_int_range_eq min_float max_float min_int max_int hf hi
      hmin hmax hspan max_float hf.le (le_refl _)
    rw [e, div_self hpos.ne', mul_one, c_round_int]
    ring
  · intro a b ha hab hb
    obtain ⟨ea, _, _⟩ := map_float_to_int_range_eq min_float max_float min_int max_int hf hi
      hmin hmax hspan a ha (le_trans hab hb)
    obtain ⟨eb, _, _⟩ := map_float_to_int_range_eq min_float max_float min_int max_int hf hi
      hmin hmax hspan b (le_trans ha hab) hb
    rw [ea, eb]
    have hpc : (a - min_float) / (max_float - min_float) ≤
        (b - min_float) / (max_float - min_float) :=
      div_le_div_of_nonneg_right (by linarith) hpos.le
    have := c_round_mono (mul_le_mul_of_nonneg_left hpc hspan0)
    omega
  · obtain ⟨e, _, _⟩ := map_float_to_int_range_eq (0.0 : α) 1.0 0 100 (by norm_num)
      (by norm_num) (by norm_num) (by norm_num) (by norm_num) 0.5 (by norm_num) (by norm_num)
    rw [e]
    have e2 : ((100 - 0 : Int) : α) * (((0.5 : α) - 0.0) / (1.0 - 0.0)) = ((50 : Int) : α) := by
      push_cast
      norm_num
    rw [e2, c_round_int]
    norm_num

/-- Witness for `map_float_to_int_range_bounds`: the range [-1, 1] mapped to 0..10, as
in the test of the function. -/
theorem map_float_to_int_range_bounds_witness :
    (-1 : ℚ) < 1 ∧ (0 : Int) ≤ 10 ∧ -2 ^ 31 ≤ (0 : Int) ∧ (10 : Int) ≤ 2 ^ 31 - 1 ∧
    (10 : Int) - 0 ≤ 2 ^ 31 - 1 ∧
    map_float_to_int_range (-1 : ℚ) 1 0 10 (-1) = 0 ∧
      map_float_to_int_range (-1 : ℚ) 1 0 10 1 = 10 :=
  ⟨by norm_num, by norm_num, by norm_num, by norm_num, by norm_num,
    (map_float_to_int_range_bounds (-1 : ℚ) 1 0 10 (by norm_num) (by norm_num) (by norm_num)
      (by norm_num) (by norm_num)).2.1,
    (map_float_to_int_range_bounds (-1 : ℚ) 1 0 10 (by norm_num) (by norm_num) (by norm_num)
      (by norm_num) (by norm_num)).2.2.1⟩

/-- Counterexample to C24 as stated: the range [0, 1] mapped to -2000000000..2000000000.
The difference `max_int - min_int` is 4000000000, which a 32-bit `int` holds as
-294967296, and the input 0.5 is mapped to -2147483648, below `min_int`. -/
theorem map_float_to_int_range_wide_range :
    (0 : ℚ) < 1 ∧ (-2000000000 : Int) ≤ 2000000000 ∧ (0 : ℚ) ≤ 1 / 2 ∧ (1 / 2 : ℚ) ≤ 1 ∧
    to_int32 (2000000000 - -2000000000) = -294967296 ∧
    map_float_to_int_range (0 : ℚ) 1 (-2000000000) 2000000000 (1 / 2) = -2147483648 ∧
    map_float_to_int_range (0 : ℚ) 1 (-2000000000) 2000000000 (1 / 2) < -2000000000 := by
  have e1 : to_int32 (2000000000 - -2000000000) = -294967296 := by decide
  have e2 : c_round ((((-294967296 : Int)) : ℚ) * ((1 / 2 - 0) / (1 - 0))) = -147483648 := by
    have e : (((-294967296 : Int)) : ℚ) * ((1 / 2 - 0) / (1 - 0)) = ((-147483648 : Int) : ℚ) := by
      norm_num
    rw [e, c_round_int]
  have e3 : to_int32 (-147483648) = -147483648 := by decide
  have e4 : to_int32 (-2000000000 + -147483648) = -2147483648 := by decide
  have hval : map_float_to_int_range (0 : ℚ) 1 (-2000000000) 2000000000 (1 / 2) =
      -2147483648 := by
    unfold map_float_to_int_range
    simp only []
    rw [e1, e2, e3, e4]
  refine ⟨by norm_num, by norm_num, by norm_num, by norm_num, e1, hval, ?_⟩
  rw [hval]
  norm_num

/-! ### `decimal_to_dms` -/

/-- The parts of `decimal_to_dms` that hold for every angle: minutes in 0..59, seconds
in [0, 60), degrees not positive for a negative angle and not negative otherwise, and
the angle is `degrees + s * (minutes / 60 + seconds / 3600)` with `s = -1` for a
negative angle and `s = 1` otherwise. -/
theorem decimal_to_dms_parts {α : Type} [LinearOrderedField α] [FloorRing α] (v : α) :
    0 ≤ (decimal_to_dms v).2.1 ∧ (decimal_to_dms v).2.1 ≤ 59 ∧
      0 ≤ (decimal_to_dms v).2.2 ∧ (decimal_to_dms v).2.2 < 60 ∧
      (v < 0 → (decimal_to_dms v).1 ≤ 0) ∧ (0 ≤ v → 0 ≤ (decimal_to_dms v).1) ∧
      v = ((decimal_to_dms v).1 : α) + (if v < 0 then -1 else 1) *
        ((((decimal_to_dms v).2.1 : Int) : α) / 60 + (decimal_to_dms v).2.2 / 3600) := by
  -- the fractional part `f` and the degrees `d` before the sign is set
  obtain ⟨d, f, hd, hf0, hf1, hfv, hsign⟩ : ∃ (d : Int) (f : α), c_int v = d ∧ 0 ≤ f ∧ f < 1 ∧
      |v - (d : α)| = f ∧ ((v < 0 ∧ d ≤ 0 ∧ v = (d : α) - f) ∨ (0 ≤ v ∧ 0 ≤ d ∧ v = (d : α) + f)) := by
    by_cases hv : 0 ≤ v
    · refine ⟨⌊v⌋, Int.fract v, ?_, Int.fract_nonneg v, Int.fract_lt_one v, ?_, Or.inr ⟨hv, ?_, ?_⟩⟩
      · unfold c_int
        rw [if_pos hv]
      · rw [Int.self_sub_floor, abs_of_nonneg (Int.fract_nonneg v)]
      · exact Int.floor_nonneg.mpr hv
      · exact (Int.floor_add_fract v).symm
    · have hv' : v < 0 := lt_of_not_le hv
      have h1 : v ≤ (⌈v⌉ : α) := Int.le_ceil v
      have h2 : (⌈v⌉ : α) < v + 1 := Int.ceil_lt_add_one v
      refine ⟨⌈v⌉, (⌈v⌉ : α) - v, ?_, by linarith, by linarith, ?_, Or.inl ⟨hv', ?_, by ring⟩⟩
      · unfold c_int
        rw [if_neg hv]
      · rw [abs_of_nonpos (by linarith)]
        ring
      · rw [Int.ceil_le]
        push_cast
        exact hv'.le
  have hm0 : (0 : α) ≤ f * 60 := by positivity
  have hmin : c_int (f * 60) = ⌊f * 60⌋ := by
    unfold c_int
    rw [if_pos hm0]
  have hfl0 : 0 ≤ ⌊f * 60⌋ := Int.floor_nonneg.mpr hm0
  have hfl1 : ⌊f * 60⌋ ≤ 59 := by
    have : ⌊f * 60⌋ < 60 := by
      rw [Int.floor_lt]
      push_cast
      linarith
    omega
  have hs0 : 0 ≤ f * 60 - (⌊f * 60⌋ : α) := by
    have := Int.floor_le (f * 60)
    linarith
  have hs1 : f * 60 - (⌊f * 60⌋ : α) < 1 := by
    have := Int.lt_floor_add_one (f * 60)
    linarith
  have hdeg : (decimal_to_dms v).1 = d := by
    unfold decimal_to_dms
    simp only []
    rw [hd]
    rcases hsign with ⟨hv, hd0, _⟩ | ⟨hv, _, _⟩
    · rw [if_pos hv]
      by_cases hneg : d < 0
      · rw [if_pos hneg]
      · rw [if_neg hneg]
        omega
    · rw [if_neg (not_lt.mpr hv)]
  have hminutes : (decimal_to_dms v).2.1 = ⌊f * 60⌋ := by
    unfold decimal_to_dms
    simp only []
    rw [hd, hfv, hmin]
  have hseconds : (decimal_to_dms v).2.2 = (f * 60 - (⌊f * 60⌋ : α)) * 60 := by
    unfold decimal_to_dms
    simp only []
    rw [hd, hfv, hmin]
  rw [hdeg, hminutes, hseconds]
  refine ⟨hfl0, hfl1, by positivity, by linarith, ?_, ?_, ?_⟩
  · intro hv
    rcases hsign with ⟨_, hd0, _⟩ | ⟨hv', _, _⟩
    · exact hd0
    · exact absurd hv (not_lt.mpr hv')
  · intro hv
    rcases hsign with ⟨hv', _, _⟩ | ⟨_, hd0, _⟩
    · exact absurd hv' (not_lt.mpr hv)
    · exact hd0
  · rcases hsign with ⟨hv, _, he⟩ | ⟨hv, _, he⟩
    · rw [if_pos hv]
      nth_rewrite 1 [he]
      ring
    · rw [if_neg (not_lt.mpr hv)]
      nth_rewrite 1 [he]
      ring

/-- Between -1 and 0 the sign of the angle is lost: `decimal_to_dms` returns for `v`
the triple of `-v`. -/
theorem decimal_to_dms_neg_of_small {α : Type} [LinearOrderedField α] [FloorRing α] (v : α)
    (h0 : -1 < v) (h1 : v < 0) : decimal_to_dms v = decimal_to_dms (-v) := by
  have hc : c_int v = 0 := by
    unfold c_int
    rw [if_neg (not_le.mpr h1), Int.ceil_eq_iff]
    push_cast
    constructor <;> linarith
  have hc' : c_int (-v) = 0 := by
    unfold c_int
    rw [if_pos (by linarith), Int.floor_eq_iff]
    push_cast
    constructor <;> linarith
  unfold decimal_to_dms
  simp only []
  rw [hc, hc', if_pos h1, if_neg (lt_irrefl 0), if_neg (by linarith)]
  simp only [Int.cast_zero, sub_zero, neg_zero, abs_neg]

/-- C25 (`decimal_to_dms` between -1 and 0). The angle -0.5° is decomposed into
0° 30′ 0″, with degrees 0 and no sign: the same triple as for +0.5°. -/
theorem decimal_to_dms_sign_lost :
    decimal_to_dms (-1 / 2 : ℚ) = (0, 30, 0) ∧ decimal_to_dms (1 / 2 : ℚ) = (0, 30, 0) := by
  have hpos : decimal_to_dms (1 / 2 : ℚ) = (0, 30, 0) := by
    have hc : c_int (1 / 2 : ℚ) = 0 := by
      unfold c_int
      rw [if_pos (by norm_num), Int.floor_eq_iff]
      constructor <;> norm_num
    have hm : c_int ((30 : Int) : ℚ) = 30 := by
      unfold c_int
      rw [if_pos (by norm_num), Int.floor_intCast]
    unfold decimal_to_dms
    simp only []
    rw [hc]
    have e : |(1 / 2 : ℚ) - ((0 : Int) : ℚ)| * 60 = ((30 : Int) : ℚ) := by
      rw [Int.cast_zero, sub_zero, abs_of_nonneg (by norm_num)]
      norm_num
    rw [e, hm, if_neg (by norm_num)]
    simp
  refine ⟨?_, hpos⟩
  have h := decimal_to_dms_neg_of_small (-1 / 2 : ℚ) (by norm_num) (by norm_num)
  rw [h]
  have e : (-(-1 / 2) : ℚ) = 1 / 2 := by norm_num
  rw [e]
  exact hpos

/-! ### bit.c -/

/-- Bitwise or of a number below `2 ^ k` with a multiple of `2 ^ k` is their sum. -/
theorem lor_shifted (a b : Nat) (k : Nat) (ha : a < 2 ^ k) :
    Int.lor (a : Int) ((b : Int) * 2 ^ k) = (a : Int) + (b : Int) * 2 ^ k := by
  have e : ((b : Int) * 2 ^ k) = ((2 ^ k * b : Nat) : Int) := by
    push_cast
    ring
  rw [e]
  show ((a ||| 2 ^ k * b : Nat) : Int) = _
  rw [Nat.lor_comm, ← Nat.mul_add_lt_is_or ha b]
  push_cast
  ring

/-- The four partial results of the little-endian loops, for bytes `b0 .. b3`. -/
theorem lor_bytes (b0 b1 b2 b3 : Nat) (h0 : b0 < 256) (h1 : b1 < 256) (h2 : b2 < 256) :
    Int.lor 0 ((b0 : Int) * 2 ^ (8 * 0)) = b0 ∧
    Int.lor (b0 : Int) ((b1 : Int) * 2 ^ (8 * (0 + 1))) = (b0 : Int) + b1 * 256 ∧
    Int.lor ((b0 : Int) + b1 * 256) ((b2 : Int) * 2 ^ (8 * (0 + 1 + 1))) =
      (b0 : Int) + b1 * 256 + b2 * 256 ^ 2 ∧
    Int.lor ((b0 : Int) + b1 * 256 + b2 * 256 ^ 2) ((b3 : Int) * 2 ^ (8 * (0 + 1 + 1 + 1))) =
      (b0 : Int) + b1 * 256 + b2 * 256 ^ 2 + b3 * 256 ^ 3 := by
  refine ⟨?_, ?_, ?_, ?_⟩
  · have := lor_shifted 0 b0 0 (by norm_num)
    simpa using this
  · have := lor_shifted b0 b1 8 (by norm_num; omega)
    simpa using this
  · have := lor_shifted (b0 + b1 * 256) b2 16 (by norm_num; omega)
    push_cast at this
    norm_num at this ⊢
    exact this
  · have := lor_shifted (b0 + b1 * 256 + b2 * 256 ^ 2) b3 24 (by norm_num; omega)
    push_cast at this
    norm_num at this ⊢
    exact this

/-- Storing an unsigned 16-bit value into an `int16_t` reads it in two's complement. -/
theorem to_int16_eq (v : Int) (h0 : 0 ≤ v) (h1 : v < 65536) :
    to_int16 v = twos_complement 16 v := by
  unfold to_int16 twos_complement
  by_cases h : v < 32768
  · rw [if_pos (by norm_num; exact h)]
    norm_num
    omega
  · rw [if_neg (by norm_num; omega)]
    norm_num
    omega

/-- Storing an unsigned 32-bit value into an `int32_t` reads it in two's complement. -/
theorem to_int32_eq (v : Int) (h0 : 0 ≤ v) (h1 : v < 4294967296) :
    to_int32 v = twos_complement 32 v := by
  unfold to_int32 twos_complement
  by_cases h : v < 2147483648
  · rw [if_pos (by norm_num; exact h)]
    norm_num
    omega
  · rw [if_neg (by norm_num; omega)]
    norm_num
    omega

/-- The values of the four little-endian decoders on a buffer that starts with the
bytes `b0 b1` (`b0 b1 b2 b3`). -/
theorem bytes_to_int_LE_sum (b0 b1 b2 b3 : Fin 256) (rest : List (Fin 256)) :
    bytes_to_uint16_LE (b0 :: b1 :: rest) = some ((b0.val : Int) + b1.val * 256) ∧
    bytes_to_uint32_LE (b0 :: b1 :: b2 :: b3 :: rest) =
      some ((b0.val : Int) + b1.val * 256 + b2.val * 256 ^ 2 + b3.val * 256 ^ 3) ∧
    bytes_to_int16_LE (b0 :: b1 :: rest) =
      some (twos_complement 16 ((b0.val : Int) + b1.val * 256)) ∧
    bytes_to_int32_LE (b0 :: b1 :: b2 :: b3 :: rest) =
      some (twos_complement 32
        ((b0.val : Int) + b1.val * 256 + b2.val * 256 ^ 2 + b3.val * 256 ^ 3)) := by
  have h0 : (b0.val : Int) < 256 := by exact_mod_cast b0.isLt
  have h1 : (b1.val : Int) < 256 := by exact_mod_cast b1.isLt
  have h2 : (b2.val : Int) < 256 := by exact_mod_cast b2.isLt
  have h3 : (b3.val : Int) < 256 := by exact_mod_cast b3.isLt
  have n0 : (0 : Int) ≤ b0.val := Int.natCast_nonneg _
  have n1 : (0 : Int) ≤ b1.val := Int.natCast_nonneg _
  have n2 : (0 : Int) ≤ b2.val := Int.natCast_nonneg _
  have n3 : (0 : Int) ≤ b3.val := Int.natCast_nonneg _
  obtain ⟨l0, l1, l2, l3⟩ := lor_bytes b0.val b1.val b2.val b3.val b0.isLt b1.isLt b2.isLt
  have m0 : to_uint32 ((b0.val : Int) * 2 ^ (8 * 0)) = (b0.val : Int) * 2 ^ (8 * 0) := by
    unfold to_uint32
    exact Int.emod_eq_of_lt (by omega) (by omega)
  have m1 : to_uint32 ((b1.val : Int) * 2 ^ (8 * (0 + 1))) = (b1.val : Int) * 2 ^ (8 * (0 + 1)) := by
    unfold to_uint32
    exact Int.emod_eq_of_lt (by omega) (by omega)
  have m2 : to_uint32 ((b2.val : Int) * 2 ^ (8 * (0 + 1 + 1))) =
      (b2.val : Int) * 2 ^ (8 * (0 + 1 + 1)) := by
    unfold to_uint32
    exact Int.emod_eq_of_lt (by omega) (by omega)
  have m3 : to_uint32 ((b3.val : Int) * 2 ^ (8 * (0 + 1 + 1 + 1))) =
      (b3.val : Int) * 2 ^ (8 * (0 + 1 + 1 + 1)) := by
    unfold to_uint32
    exact Int.emod_eq_of_lt (by omega) (by omega)
  have h32 : bytes_to_uint32_LE_loop (b0 :: b1 :: b2 :: b3 :: rest) 4 0 0 =
      some ((b0.val : Int) + b1.val * 256 + b2.val * 256 ^ 2 + b3.val * 256 ^ 3) := by
    simp only [bytes_to_uint32_LE_loop, List.getElem?_cons_zero, List.getElem?_cons_succ]
    rw [m0, m1, m2, m3, l0, l1, l2, l3]
  refine ⟨?_, h32, ?_, ?_⟩
  · simp only [bytes_to_uint16_LE, bytes_to_uint16_LE_loop, List.getElem?_cons_zero,
      List.getElem?_cons_succ]
    have u0 : to_uint16 (b0.val : Int) = b0.val := by
      unfold to_uint16
      exact Int.emod_eq_of_lt (by omega) (by omega)
    have u1 : to_uint16 ((b0.val : Int) + b1.val * 256) = (b0.val : Int) + b1.val * 256 := by
      unfold to_uint16
      exact Int.emod_eq_of_lt (by omega) (by omega)
    rw [l0, u0, l1, u1]
  · simp only [bytes_to_int16_LE, bytes_to_int16_LE_loop, List.getElem?_cons_zero,
      List.getElem?_cons_succ]
    have u0 : to_int16 (b0.val : Int) = b0.val := by
      unfold to_int16
      omega
    rw [l0, u0, l1, to_int16_eq _ (by omega) (by omega)]
  · unfold bytes_to_int32_LE
    have e2 : (256 : Int) ^ 2 = 65536 := by norm_num
    have e3 : (256 : Int) ^ 3 = 16777216 := by norm_num
    rw [h32, Option.map_some', to_int32_eq _ (by rw [e2, e3]; omega) (by rw [e2, e3]; omega)]

/-- C26 (little-endian decoding). For every buffer of at least 2 (or 4) bytes,
`bytes_to_uint16_LE` (`bytes_to_uint32_LE`) returns the sum of `buffer[i] * 256 ^ i` over
its 2 (4) bytes, and `bytes_to_int16_LE` (`bytes_to_int32_LE`) returns that value read in
two's complement; the bytes 00 80 give -32768 and 00 00 00 80 give -2147483648. -/
theorem bytes_to_int_LE_value (b0 b1 b2 b3 : Fin 256) (rest : List (Fin 256)) :
    bytes_to_uint16_LE (b0 :: b1 :: rest) = some ((b0.val : Int) + b1.val * 256) ∧
    bytes_to_uint32_LE (b0 :: b1 :: b2 :: b3 :: rest) =
      some ((b0.val : Int) + b1.val * 256 + b2.val * 256 ^ 2 + b3.val * 256 ^ 3) ∧
    bytes_to_int16_LE (b0 :: b1 :: rest) =
      some (twos_complement 16 ((b0.val : Int) + b1.val * 256)) ∧
    bytes_to_int32_LE (b0 :: b1 :: b2 :: b3 :: rest) =
      some (twos_complement 32
        ((b0.val : Int) + b1.val * 256 + b2.val * 256 ^ 2 + b3.val * 256 ^ 3)) ∧
    bytes_to_int16_LE [0x00, 0x80] = some (-32768) ∧
    bytes_to_int32_LE [0x00, 0x00, 0x00, 0x80] = some (-2147483648) := by
  obtain ⟨g1, g2, g3, g4⟩ := bytes_to_int_LE_sum b0 b1 b2 b3 rest
  obtain ⟨_, _, e3, _⟩ := bytes_to_int_LE_sum 0x00 0x80 0 0 []
  obtain ⟨_, _, _, e4⟩ := bytes_to_int_LE_sum 0x00 0x00 0x00 0x80 []
  refine ⟨g1, g2, g3, g4, ?_, ?_⟩
  · rw [e3]
    congr 1
  · rw [e4]
    congr 1

/-! ### The mean anomaly -/

/-- A mean anomaly of at most 180° leaves the reduction loop at once, unchanged. -/
theorem reduce_mean_anomaly_of_le {α : Type} [LinearOrderedField α] [FloorRing α] (fuel : Nat)
    (M : α) (h : M ≤ 180) : reduce_mean_anomaly (fuel + 1) M = some M := by
  rw [reduce_mean_anomaly, if_neg]
  norm_num
  exact h

/-- The reduction loop ends for every mean anomaly: with enough fuel it returns a value
of at most 180°, which is above -180° when the loop was entered above -180°. -/
theorem reduce_mean_anomaly_ends {α : Type} [LinearOrderedField α] [FloorRing α] (n : Nat) :
    ∀ M : α, M ≤ 180 + 360 * (n : α) → ∀ fuel, n + 1 ≤ fuel →
      ∃ M', reduce_mean_anomaly fuel M = some M' ∧ M' ≤ 180 ∧ (-180 < M → -180 < M') := by
  induction n with
  | zero =>
    intro M hM fuel hfuel
    obtain ⟨f, rfl⟩ : ∃ f, fuel = f + 1 := ⟨fuel - 1, by omega⟩
    have hM' : M ≤ 180 := by simpa using hM
    exact ⟨M, reduce_mean_anomaly_of_le f M hM', hM', fun h => h⟩
  | succ n ih =>
    intro M hM fuel hfuel
    obtain ⟨f, rfl⟩ : ∃ f, fuel = f + 1 := ⟨fuel - 1, by omega⟩
    by_cases h : M ≤ 180
    · exact ⟨M, reduce_mean_anomaly_of_le f M h, h, fun h' => h'⟩
    · have hgt : M > 180.0 := by
        norm_num
        exact lt_of_not_le h
      have hstep : M - 360.0 ≤ 180 + 360 * (n : α) := by
        push_cast at hM
        norm_num
        linarith
      obtain ⟨M', hrun, hle, hlow⟩ := ih (M - 360.0) hstep f (by omega)
      refine ⟨M', ?_, hle, fun _ => hlow ?_⟩
      · rw [reduce_mean_anomaly, if_pos hgt]
        exact hrun
      · have : (180 : α) < M := lt_of_not_le h
        norm_num
        linarith

/-- C27 (mean anomaly before the epoch). For an element set with mean anomaly
-2.47311027° and rate 35999.04917617° per century and the Julian date 2415020.0, one
century before J2000, the loop `while (M > 180.0)` of `calc_planet_helio_ICRF` is not
entered and the mean anomaly that seeds the Kepler solve is -36001.52228644°, below
-180°; `calc_moon_geo_ICRF`, which counts days, leaves an even lower value. -/
theorem mean_anomaly_before_epoch_not_reduced :
    planet_mean_anomaly rounded_libm 1 sample_elements sample_rates none 2415020.0 =
        some (-36001.52228644) ∧
      (-36001.52228644 : ℚ) ≤ -180 ∧
      ∃ M, moon_mean_anomaly 1 sample_elements sample_rates 2415020.0 = some M ∧ M ≤ -180 := by
  refine ⟨?_, by norm_num, ?_⟩
  · unfold planet_mean_anomaly
    simp only [sample_elements, sample_rates]
    have e : (-2.47311027 : ℚ) + 35999.04917617 * ((2415020.0 - 2451545.0) / 36525.0) =
        -36001.52228644 := by norm_num
    rw [e]
    exact reduce_mean_anomaly_of_le 0 _ (by norm_num)
  · refine ⟨(-2.47311027 : ℚ) + 35999.04917617 * (2415020.0 - 2451543.5), ?_, by norm_num⟩
    unfold moon_mean_anomaly
    simp only [sample_elements, sample_rates]
    exact reduce_mean_anomaly_of_le 0 _ (by norm_num)

/-! ### `generate_constell_table` -/

/-- Inside a first line without a newline character the loop of
`generate_constell_table` only moves on. -/
theorem generate_constell_table_loop_first_line (allocated : Bool) (line rest : List Char)
    (hline : '\n' ∉ line) (j : Nat) :
    ∀ (i remaining : Nat), i + j = line.length →
      generate_constell_table_loop allocated (line ++ '\n' :: rest) (j + remaining) i 0 0 [] =
        generate_constell_table_loop allocated (line ++ '\n' :: rest) remaining line.length 0
          0 [] := by
  induction j with
  | zero =>
    intro i remaining hi
    have : i = line.length := by omega
    subst this
    rw [Nat.zero_add]
  | succ j ih =>
    intro i remaining hi
    have hlt : i < line.length := by omega
    have hread : ∀ k, k < line.length → (line ++ '\n' :: rest)[k]? ≠ some '\n' := by
      intro k hk h
      rw [List.getElem?_append_left hk] at h
      exact hline (List.getElem?_mem h)
    have hend : ¬(i = (line ++ '\n' :: rest).length - 1 ∨
        (line ++ '\n' :: rest)[i]? = some '\n') := by
      rintro (h | h)
      · simp only [List.length_append, List.length_cons] at h
        omega
      · exact hread i hlt h
    have hstart : (if i = 0 ∨ (line ++ '\n' :: rest)[i - 1]? = some '\n' then i else 0) = 0 := by
      by_cases h0 : i = 0
      · rw [if_pos (Or.inl h0), h0]
      · rw [if_neg]
        rintro (h | h)
        · exact h0 h
        · exact hread (i - 1) (by omega) h
    have e : j + 1 + remaining = (j + remaining) + 1 := by omega
    rw [e, generate_constell_table_loop]
    rw [hstart, if_neg hend]
    exact ih (i + 1) remaining (by omega)

/-- A first line of `MAX_BUF_SIZE - 1` characters or more before its newline overruns
the line buffer of `parse_line`. -/
theorem generate_constell_table_long_line (line rest : List Char) (hline : '\n' ∉ line)
    (hlen : MAX_BUF_SIZE - 1 ≤ line.length) :
    generate_constell_table true (line ++ '\n' :: rest) = Outcome.overrun := by
  have hlen' : 2047 ≤ line.length := hlen
  have hloop : generate_constell_table_loop true (line ++ '\n' :: rest)
      (line ++ '\n' :: rest).length 0 0 0 [] = Outcome.overrun := by
    have e : (line ++ '\n' :: rest).length = line.length + (rest.length + 1) := by
      simp only [List.length_append, List.length_cons]
    rw [e, generate_constell_table_loop_first_line true line rest hline line.length 0
      (rest.length + 1) (by omega), generate_constell_table_loop]
    have hget : (line ++ '\n' :: rest)[line.length]? = some '\n' := by
      rw [List.getElem?_append_right (le_refl _)]
      simp
    rw [if_pos (Or.inr hget)]
    have hparse : ∀ ls, ls = 0 → parse_line true (line ++ '\n' :: rest) [] ls line.length 0 =
        Outcome.overrun := by
      intro ls hls
      subst hls
      unfold parse_line
      rw [if_neg (by omega)]
      simp only []
      rw [if_pos (by unfold MAX_BUF_SIZE; omega)]
    rw [hparse _ (by
      rw [if_neg]
      rintro (h | h)
      · omega
      · rw [List.getElem?_append_left (by omega)] at h
        exact hline (List.getElem?_mem h))]
  unfold generate_constell_table
  rw [if_neg (by simp)]
  simp only [Bool.not_true, Bool.false_eq_true, if_false]
  rw [hloop]

/-- The text of `n` star numbers `1`, each after a blank: `2 * n` characters, none of
them a newline. -/
theorem star_numbers_text (n : Nat) :
    ((List.replicate n [' ', '1']).flatten).length = 2 * n ∧
      '\n' ∉ (List.replicate n [' ', '1']).flatten := by
  induction n with
  | zero => exact ⟨rfl, by simp⟩
  | succ n ih =>
    rw [List.replicate_succ, List.flatten_cons]
    constructor
    · rw [List.length_append, ih.1]
      simp only [List.length_cons, List.length_nil]
      omega
    · rw [List.mem_append, not_or]
      exact ⟨by decide, ih.2⟩

/-- C23 (a long constellation line). The two lines `CVn 1 4915 4785` and
`Tri 2 544 622 622 664` are parsed into two entries in file order, and a line with the
count 0, a line with one star number for one segment and an empty line make the
function return `false`. The single line of the name `A`, the count 512 and 1024 star
numbers `1`, 2054 characters with its newline, is of the same form as the first two,
but does not fit the line buffer of `MAX_BUF_SIZE` characters to which `parse_line`
copies it: the copy writes behind the buffer. -/
theorem generate_constell_table_overruns_line_buffer :
    generate_constell_table true short_constell_text =
        Outcome.returned_true
          ([{ num_segments := 1, star_numbers := [4915, 4785] },
            { num_segments := 2, star_numbers := [544, 622, 622, 664] }], 2) ∧
      generate_constell_table true "CVn 0 4915 4785\n".toList = Outcome.returned_false ∧
      generate_constell_table true "CVn 1 4915\n".toList = Outcome.returned_false ∧
      generate_constell_table true "CVn 1 4915 4785\n\n".toList = Outcome.returned_false ∧
      long_constell_line.length = 2054 ∧
      generate_constell_table true long_constell_line = Outcome.overrun := by
  obtain ⟨hlen, hmem⟩ := star_numbers_text 1024
  refine ⟨rfl, rfl, rfl, rfl, ?_, ?_⟩
  · unfold long_constell_line
    rw [List.length_append, List.length_append, hlen]
    rfl
  · have e : long_constell_line =
        ("A 512".toList ++ (List.replicate 1024 [' ', '1']).flatten) ++ '\n' :: [] := by
      unfold long_constell_line
      rw [List.append_assoc]
    rw [e]
    apply generate_constell_table_long_line
    · rw [List.mem_append, not_or]
      exact ⟨by decide, hmem⟩
    · rw [List.length_append, hlen]
      unfold MAX_BUF_SIZE
      have : "A 512".toList.length = 5 := rfl
      omega

/-! ### Sequences of writes -/

theorem mvwaddch_list_nil (w : WINDOW) : mvwaddch_list w [] = w := rfl

theorem mvwaddch_list_cons (w : WINDOW) (t : (Int × Int) × Char)
    (ws : List ((Int × Int) × Char)) :
    mvwaddch_list w (t :: ws) = mvwaddch_list (mvwaddch w t.1.1 t.1.2 t.2) ws := rfl

theorem mvwaddch_list_append (w : WINDOW) (ws1 ws2 : List ((Int × Int) × Char)) :
    mvwaddch_list w (ws1 ++ ws2) = mvwaddch_list (mvwaddch_list w ws1) ws2 := by
  unfold mvwaddch_list
  rw [List.foldl_append]

/-- The cells that show a character after a sequence of writes that all fit the
window: those that showed one before and those that were written. -/
theorem glyph_at_mvwaddch_list_ne_none (ws : List ((Int × Int) × Char)) :
    ∀ (w : WINDOW),
      (∀ t ∈ ws, 0 ≤ t.1.1 ∧ t.1.1 < w.height ∧ 0 ≤ t.1.2 ∧ t.1.2 < w.width) →
      ∀ r c, glyph_at (mvwaddch_list w ws) r c ≠ none ↔
        (glyph_at w r c ≠ none ∨ (r, c) ∈ ws.map Prod.fst) := by
  induction ws with
  | nil =>
    intro w _ r c
    simp [mvwaddch_list_nil]
  | cons t ws ih =>
    intro w hfit r c
    have hfit_t := hfit t (List.mem_cons_self _ _)
    rw [mvwaddch_list_cons, mvwaddch_of_fits w _ _ _ hfit_t,
      ih (put_cell w t.1.1 t.1.2 t.2) (fun u hu => hfit u (List.mem_cons_of_mem _ hu)) r c,
      glyph_at_put_cell, List.map_cons, List.mem_cons]
    by_cases h : r = t.1.1 ∧ c = t.1.2
    · rw [if_pos h]
      have : (r, c) = t.1 := Prod.ext h.1 h.2
      simp [this]
    · rw [if_neg h]
      have : (r, c) ≠ t.1 := fun e => h ⟨congrArg Prod.fst e, congrArg Prod.snd e⟩
      simp [this]

/-- After a sequence of writes of one character `g` that all fit the window, the
written cells show `g` and the other cells are unchanged. -/
theorem glyph_at_mvwaddch_list_const (g : Char) (ws : List ((Int × Int) × Char)) :
    ∀ (w : WINDOW),
      (∀ t ∈ ws, 0 ≤ t.1.1 ∧ t.1.1 < w.height ∧ 0 ≤ t.1.2 ∧ t.1.2 < w.width) →
      (∀ t ∈ ws, t.2 = g) →
      ∀ r c, glyph_at (mvwaddch_list w ws) r c =
        if (r, c) ∈ ws.map Prod.fst then some g else glyph_at w r c := by
  induction ws with
  | nil =>
    intro w _ _ r c
    simp [mvwaddch_list_nil]
  | cons t ws ih =>
    intro w hfit hg r c
    have hfit_t := hfit t (List.mem_cons_self _ _)
    have hg_t := hg t (List.mem_cons_self _ _)
    rw [mvwaddch_list_cons, mvwaddch_of_fits w _ _ _ hfit_t,
      ih (put_cell w t.1.1 t.1.2 t.2) (fun u hu => hfit u (List.mem_cons_of_mem _ hu))
        (fun u hu => hg u (List.mem_cons_of_mem _ hu)) r c,
      glyph_at_put_cell, List.map_cons]
    by_cases h1 : (r, c) ∈ ws.map Prod.fst
    · rw [if_pos h1, if_pos (List.mem_cons_of_mem _ h1)]
    · rw [if_neg h1]
      by_cases h : r = t.1.1 ∧ c = t.1.2
      · rw [if_pos h, if_pos (List.mem_cons.mpr (Or.inl (Prod.ext h.1 h.2))), hg_t]
      · rw [if_neg h, if_neg]
        intro hmem
        rcases List.mem_cons.mp hmem with e | e
        · exact h ⟨congrArg Prod.fst e, congrArg Prod.snd e⟩
        · exact h1 e

/-- The written cells of a window that was blank before a sequence of writes that all
fit it. -/
theorem written_cells_mvwaddch_list (h w : Int) (ws : List ((Int × Int) × Char))
    (hfit : ∀ t ∈ ws, 0 ≤ t.1.1 ∧ t.1.1 < h ∧ 0 ≤ t.1.2 ∧ t.1.2 < w) (p : Int × Int) :
    p ∈ written_cells (mvwaddch_list (newwin h w) ws) ↔ p ∈ ws.map Prod.fst := by
  obtain ⟨r, c⟩ := p
  rw [mem_written_cells, glyph_at_mvwaddch_list_ne_none ws (newwin h w) hfit r c]
  have : glyph_at (newwin h w) r c = none := rfl
  simp [this]

/-- The write log of a window after a sequence of writes that all fit it: the cells in
the order written. -/
theorem cells_mvwaddch_list (ws : List ((Int × Int) × Char)) :
    ∀ (w : WINDOW),
      (∀ t ∈ ws, 0 ≤ t.1.1 ∧ t.1.1 < w.height ∧ 0 ≤ t.1.2 ∧ t.1.2 < w.width) →
      (mvwaddch_list w ws).cells.reverse.map (fun c => ((c.row, c.col), c.ch)) =
        w.cells.reverse.map (fun c => ((c.row, c.col), c.ch)) ++ ws := by
  induction ws with
  | nil =>
    intro w _
    simp [mvwaddch_list_nil]
  | cons t ws ih =>
    intro w hfit
    have hfit_t := hfit t (List.mem_cons_self _ _)
    rw [mvwaddch_list_cons, mvwaddch_of_fits w _ _ _ hfit_t,
      ih (put_cell w t.1.1 t.1.2 t.2) (fun u hu => hfit u (List.mem_cons_of_mem _ hu))]
    simp [put_cell]

/-- A cell of a line lies in a window that holds both end cells. -/
theorem line_cell_fits (h w ya xa s d v : Int) (n j : Nat) (mr : Bool) (hs : s = 1 ∨ s = -1)
    (hstart : 0 ≤ ya ∧ ya < h ∧ 0 ≤ xa ∧ xa < w)
    (hend : 0 ≤ (line_cell mr ya xa (s * n, d)).1 ∧ (line_cell mr ya xa (s * n, d)).1 < h ∧
      0 ≤ (line_cell mr ya xa (s * n, d)).2 ∧ (line_cell mr ya xa (s * n, d)).2 < w)
    (hj : j ≤ n) (hv0 : 0 ≤ d → 0 ≤ v ∧ v ≤ d) (hv1 : d ≤ 0 → d ≤ v ∧ v ≤ 0) :
    0 ≤ (line_cell mr ya xa (s * j, v)).1 ∧ (line_cell mr ya xa (s * j, v)).1 < h ∧
      0 ≤ (line_cell mr ya xa (s * j, v)).2 ∧ (line_cell mr ya xa (s * j, v)).2 < w := by
  have hj' : (j : Int) ≤ n := by exact_mod_cast hj
  have hj0 : (0 : Int) ≤ j := Int.natCast_nonneg j
  cases mr <;> simp only [line_cell, if_true, Bool.false_eq_true, if_false] at hend ⊢ <;>
    rcases hs with rfl | rfl <;> rcases le_total 0 d with hd | hd <;>
    have := hv0 <;> have := hv1 <;> omega

/-- The branch of a line between two different cells: its major axis with the number
of steps `n ≥ 1`, the direction `s` on it, and the minor span `d` with `|d| ≤ n`. When
the spans are equal the rows are the major axis if `tie_is_row`. -/
theorem line_branch (ya xa yb xb : Int) (tie_is_row : Bool) (hne : ¬(ya = yb ∧ xa = xb)) :
    ∃ (mr : Bool) (s d : Int) (n : Nat), 1 ≤ n ∧ (s = 1 ∨ s = -1) ∧ |d| ≤ n ∧
      (yb, xb) = line_cell mr ya xa (s * n, d) ∧
      (mr = true ↔ (if tie_is_row then |yb - ya| ≥ |xb - xa| else |yb - ya| > |xb - xa|)) ∧
      (mr = true → yb - ya = s * n ∧ xb - xa = d ∧ s = (if yb - ya > 0 then 1 else -1)) ∧
      (mr = false → xb - xa = s * n ∧ yb - ya = d ∧ s = (if xb - xa > 0 then 1 else -1)) ∧
      (n : Int) = max |yb - ya| |xb - xa| := by
  by_cases hrow : (if tie_is_row then |yb - ya| ≥ |xb - xa| else |yb - ya| > |xb - xa|)
  · have hge : |xb - xa| ≤ |yb - ya| := by
      cases tie_is_row
      · simp only [Bool.false_eq_true, if_false] at hrow
        exact hrow.le
      · simpa using hrow
    have hpos : 0 < |yb - ya| := by
      by_contra hcon
      have h1 : |yb - ya| = 0 := le_antisymm (not_lt.mp hcon) (abs_nonneg _)
      have h2 : |xb - xa| = 0 := le_antisymm (h1 ▸ hge) (abs_nonneg _)
      have h3 : yb - ya = 0 := abs_eq_zero.mp h1
      have h4 : xb - xa = 0 := abs_eq_zero.mp h2
      exact hne ⟨by omega, by omega⟩
    refine ⟨true, if yb - ya > 0 then 1 else -1, xb - xa, (|yb - ya|).toNat, ?_, ?_, ?_, ?_, ?_,
      ?_, ?_, ?_⟩
    · omega
    · by_cases h : yb - ya > 0
      · rw [if_pos h]; exact Or.inl rfl
      · rw [if_neg h]; exact Or.inr rfl
    · rw [Int.toNat_of_nonneg (abs_nonneg _)]
      exact hge
    · simp only [line_cell, if_true]
      rw [Int.toNat_of_nonneg (abs_nonneg _)]
      by_cases h : yb - ya > 0
      · rw [if_pos h, abs_of_pos h]
        ext <;> simp
      · rw [if_neg h, abs_of_nonpos (by omega)]
        ext <;> simp
    · simp only [true_iff]
      exact hrow
    · intro _
      rw [Int.toNat_of_nonneg (abs_nonneg _)]
      refine ⟨?_, rfl, rfl⟩
      by_cases h : yb - ya > 0
      · rw [if_pos h, abs_of_pos h]; ring
      · rw [if_neg h, abs_of_nonpos (by omega)]; ring
    · intro h
      exact absurd h (by decide)
    · rw [Int.toNat_of_nonneg (abs_nonneg _), max_eq_left hge]
  · have hlt : |yb - ya| ≤ |xb - xa| := by
      cases tie_is_row
      · simp only [Bool.false_eq_true, if_false] at hrow
        exact not_lt.mp hrow
      · simp only [if_true] at hrow
        exact (not_le.mp hrow).le
    have hpos : 0 < |xb - xa| := by
      by_contra hcon
      have h1 : |xb - xa| = 0 := le_antisymm (not_lt.mp hcon) (abs_nonneg _)
      have h2 : |yb - ya| = 0 := le_antisymm (h1 ▸ hlt) (abs_nonneg _)
      have h3 : xb - xa = 0 := abs_eq_zero.mp h1
      have h4 : yb - ya = 0 := abs_eq_zero.mp h2
      exact hne ⟨by omega, by omega⟩
    refine ⟨false, if xb - xa > 0 then 1 else -1, yb - ya, (|xb - xa|).toNat, ?_, ?_, ?_, ?_, ?_,
      ?_, ?_, ?_⟩
    · omega
    · by_cases h : xb - xa > 0
      · rw [if_pos h]; exact Or.inl rfl
      · rw [if_neg h]; exact Or.inr rfl
    · rw [Int.toNat_of_nonneg (abs_nonneg _)]
      exact hlt
    · simp only [line_cell, Bool.false_eq_true, if_false]
      rw [Int.toNat_of_nonneg (abs_nonneg _)]
      by_cases h : xb - xa > 0
      · rw [if_pos h, abs_of_pos h]
        ext <;> simp
      · rw [if_neg h, abs_of_nonpos (by omega)]
        ext <;> simp
    · constructor
      · intro h
        exact absurd h (by decide)
      · intro h
        exact absurd h hrow
    · intro h
      exact absurd h (by decide)
    · intro _
      rw [Int.toNat_of_nonneg (abs_nonneg _)]
      refine ⟨?_, rfl, rfl⟩
      by_cases h : xb - xa > 0
      · rw [if_pos h, abs_of_pos h]; ring
      · rw [if_neg h, abs_of_nonpos (by omega)]; ring
    · rw [Int.toNat_of_nonneg (abs_nonneg _), max_eq_right hlt]

/-- The direction and the step of a line, as the rasterizers compute them from the
major span `s * n`. -/
theorem line_direction (s : Int) (n : Nat) (hn : 1 ≤ n) (hs : s = 1 ∨ s = -1) (d : Int) :
    (if s * (n : Int) > 0 then (1 : Int) else -1) = s ∧
      (d : ℚ) / (((|s * (n : Int)|) : Int) : ℚ) = (d : ℚ) / (n : ℚ) ∧
      |s * (n : Int)| = n := by
  have hnpos : (0 : Int) < n := by exact_mod_cast hn
  have habs : |s * (n : Int)| = n := by
    rw [natAbs_literal_mul s hs, abs_of_nonneg hnpos.le]
  refine ⟨?_, ?_, habs⟩
  · rcases hs with rfl | rfl
    · rw [if_pos (by omega)]
    · rw [if_neg (by omega)]
  · rw [habs, Int.cast_natCast]


/-- Two different cells are the ends of a line of exactly one shape. -/
theorem is_line_branch_exists (ya xa yb xb : Int) (tie_is_row : Bool)
    (hne : ¬(ya = yb ∧ xa = xb)) :
    ∃ (mr : Bool) (s d : Int) (n : Nat), is_line_branch tie_is_row mr ya xa yb xb s d n ∧
      (yb, xb) = line_cell mr ya xa (s * n, d) ∧
      (mr = true → s = (if yb - ya > 0 then 1 else -1)) ∧
      (mr = false → s = (if xb - xa > 0 then 1 else -1)) ∧
      (n : Int) = max |yb - ya| |xb - xa| := by
  obtain ⟨mr, s, d, n, hn, hs, hd, hend, hmr, hrow, hcol, hmax⟩ :=
    line_branch ya xa yb xb tie_is_row hne
  exact ⟨mr, s, d, n, ⟨hn, hs, hd, hmr, fun h => ⟨(hrow h).1, (hrow h).2.1⟩,
    fun h => ⟨(hcol h).1, (hcol h).2.1⟩⟩, hend, fun h => (hrow h).2.2, fun h => (hcol h).2.2, hmax⟩

/-! ### `draw_line_dotted` -/

/-- The loop of `draw_line_dotted` along the rows, from step `k` on: it ends, and it
has written the dot in the stepped cells `k .. n`, in this order. -/
theorem draw_line_dotted_rows_writes (ya xa s d : Int) (n : Nat) (hs : s = 1 ∨ s = -1)
    (m : Nat) :
    ∀ (k fuel : Nat) (w : WINDOW), n + 1 - k = m → k ≤ n + 1 → n + 2 - k ≤ fuel →
      ∃ ws, draw_line_dotted_rows ya xa (s * n) s ((d : ℚ) / (n : ℚ)) fuel (s * k)
            ((k : ℚ) * ((d : ℚ) / (n : ℚ))) w = some (mvwaddch_list w ws) ∧
        (∀ t ∈ ws, t.2 = '•') ∧
        ws.map Prod.fst = (List.range' k (n + 1 - k)).map
          (fun j : Nat => line_cell true ya xa (s * (j : Int), line_minor d n j)) := by
  induction m with
  | zero =>
    intro k fuel w hm hk hfuel
    have hk' : k = n + 1 := by omega
    subst hk'
    obtain ⟨f, rfl⟩ : ∃ f, fuel = f + 1 := ⟨fuel - 1, by omega⟩
    refine ⟨[], ?_, by simp, ?_⟩
    · rw [draw_line_dotted_rows, if_neg, mvwaddch_list_nil]
      rw [natAbs_literal_mul s hs, natAbs_literal_mul s hs]
      rw [abs_of_nonneg (by positivity), abs_of_nonneg (by positivity)]
      push_cast
      omega
    · rw [Nat.sub_self]
      rfl
  | succ m ih =>
    intro k fuel w hm hk hfuel
    obtain ⟨f, rfl⟩ : ∃ f, fuel = f + 1 := ⟨fuel - 1, by omega⟩
    have hkn : k ≤ n := by omega
    have hcond : |s * (k : Int)| ≤ |s * (n : Int)| := by
      rw [natAbs_literal_mul s hs, natAbs_literal_mul s hs]
      rw [abs_of_nonneg (by positivity), abs_of_nonneg (by positivity)]
      exact_mod_cast hkn
    obtain ⟨ws, hrun, hch, hpos⟩ := ih (k + 1) f
      (mvwaddch w (ya + s * k) (xa + line_minor d n k) '•') (by omega) (by omega) (by omega)
    refine ⟨((ya + s * k, xa + line_minor d n k), '•') :: ws, ?_, ?_, ?_⟩
    · rw [draw_line_dotted_rows, if_pos hcond]
      simp only []
      rw [show "•" = String.singleton '•' from rfl, mvwaddstr_singleton, mvwaddch_list_cons]
      have e1 : s * (k : Int) + s = s * ((k + 1 : Nat) : Int) := by push_cast; ring
      have e2 : (k : ℚ) * ((d : ℚ) / (n : ℚ)) + (d : ℚ) / (n : ℚ) =
          ((k + 1 : Nat) : ℚ) * ((d : ℚ) / (n : ℚ)) := by
        push_cast
        ring
      rw [e1, e2]
      exact hrun
    · intro t ht
      rcases List.mem_cons.mp ht with rfl | ht
      · rfl
      · exact hch t ht
    · rw [List.map_cons, hpos, show n + 1 - k = (n + 1 - (k + 1)) + 1 by omega,
        List.range'_succ, List.map_cons]
      rfl

/-- The loop of `draw_line_dotted` along the columns, from step `k` on. -/
theorem draw_line_dotted_cols_writes (ya xa s d : Int) (n : Nat) (hs : s = 1 ∨ s = -1)
    (m : Nat) :
    ∀ (k fuel : Nat) (w : WINDOW), n + 1 - k = m → k ≤ n + 1 → n + 2 - k ≤ fuel →
      ∃ ws, draw_line_dotted_cols ya xa (s * n) ((d : ℚ) / (n : ℚ)) s fuel
            ((k : ℚ) * ((d : ℚ) / (n : ℚ))) (s * k) w = some (mvwaddch_list w ws) ∧
        (∀ t ∈ ws, t.2 = '•') ∧
        ws.map Prod.fst = (List.range' k (n + 1 - k)).map
          (fun j : Nat => line_cell false ya xa (s * (j : Int), line_minor d n j)) := by
  induction m with
  | zero =>
    intro k fuel w hm hk hfuel
    have hk' : k = n + 1 := by omega
    subst hk'
    obtain ⟨f, rfl⟩ : ∃ f, fuel = f + 1 := ⟨fuel - 1, by omega⟩
    refine ⟨[], ?_, by simp, ?_⟩
    · rw [draw_line_dotted_cols, if_neg, mvwaddch_list_nil]
      rw [natAbs_literal_mul s hs, natAbs_literal_mul s hs]
      rw [abs_of_nonneg (by positivity), abs_of_nonneg (by positivity)]
      push_cast
      omega
    · rw [Nat.sub_self]
      rfl
  | succ m ih =>
    intro k fuel w hm hk hfuel
    obtain ⟨f, rfl⟩ : ∃ f, fuel = f + 1 := ⟨fuel - 1, by omega⟩
    have hkn : k ≤ n := by omega
    have hcond : |s * (k : Int)| ≤ |s * (n : Int)| := by
      rw [natAbs_literal_mul s hs, natAbs_literal_mul s hs]
      rw [abs_of_nonneg (by positivity), abs_of_nonneg (by positivity)]
      exact_mod_cast hkn
    obtain ⟨ws, hrun, hch, hpos⟩ := ih (k + 1) f
      (mvwaddch w (ya + line_minor d n k) (xa + s * k) '•') (by omega) (by omega) (by omega)
    refine ⟨((ya + line_minor d n k, xa + s * k), '•') :: ws, ?_, ?_, ?_⟩
    · rw [draw_line_dotted_cols, if_pos hcond]
      simp only []
      rw [show "•" = String.singleton '•' from rfl, mvwaddstr_singleton, mvwaddch_list_cons]
      have e1 : s * (k : Int) + s = s * ((k + 1 : Nat) : Int) := by push_cast; ring
      have e2 : (k : ℚ) * ((d : ℚ) / (n : ℚ)) + (d : ℚ) / (n : ℚ) =
          ((k + 1 : Nat) : ℚ) * ((d : ℚ) / (n : ℚ)) := by
        push_cast
        ring
      rw [e1, e2]
      exact hrun
    · intro t ht
      rcases List.mem_cons.mp ht with rfl | ht
      · rfl
      · exact hch t ht
    · rw [List.map_cons, hpos, show n + 1 - k = (n + 1 - (k + 1)) + 1 by omega,
        List.range'_succ, List.map_cons]
      rfl
/-- The writes of `draw_line_dotted` along a line of shape `(s, d, n)`: the call ends
and writes the dot in the stepped cells of the line, in the order of the steps. -/
theorem draw_line_dotted_writes (win : WINDOW) (ya xa yb xb s d : Int) (n fuel : Nat)
    (mr : Bool) (hb : is_line_branch true mr ya xa yb xb s d n) (hfuel : n + 2 ≤ fuel) :
    ∃ ws : List ((Int × Int) × Char),
      draw_line_dotted fuel win ya xa yb xb = some (mvwaddch_list win ws) ∧
      (∀ t ∈ ws, t.2 = '•') ∧
      ws.map Prod.fst = (stepped_offsets s d n).map (line_cell mr ya xa) := by
  obtain ⟨hn, hs, hd, hmr, hrow, hcol⟩ := hb
  simp only [if_true] at hmr
  obtain ⟨hsy, hsx, habs⟩ := line_direction s n hn hs d
  have e0 : (0 : Int) = s * ((0 : Nat) : Int) := by simp
  have e0' : (0 : ℚ) = ((0 : Nat) : ℚ) * ((d : ℚ) / (n : ℚ)) := by simp
  cases mr
  · obtain ⟨hdx, hdy⟩ := hcol rfl
    obtain ⟨ws, hrun, hch, hpos⟩ := draw_line_dotted_cols_writes ya xa s d n hs (n + 1) 0 fuel win
      (by omega) (by omega) (by omega)
    refine ⟨ws, ?_, hch, ?_⟩
    · unfold draw_line_dotted
      simp only []
      rw [if_neg (fun h => by simpa using hmr.mpr h), hdx, hdy, hsy, hsx]
      rw [← e0, ← e0'] at hrun
      exact hrun
    · rw [hpos, stepped_offsets, List.range_eq_range', List.map_map]
      rfl
  · obtain ⟨hdy, hdx⟩ := hrow rfl
    obtain ⟨ws, hrun, hch, hpos⟩ := draw_line_dotted_rows_writes ya xa s d n hs (n + 1) 0 fuel win
      (by omega) (by omega) (by omega)
    refine ⟨ws, ?_, hch, ?_⟩
    · unfold draw_line_dotted
      simp only []
      rw [if_pos (hmr.mp rfl), hdy, hdx, hsy, hsx]
      rw [← e0, ← e0'] at hrun
      exact hrun
    · rw [hpos, stepped_offsets, List.range_eq_range', List.map_map]
      rfl

/-- The stepped cells of a line, in the order of the steps: `n + 1` different cells from
the first end cell to the second, each one unit further on the major axis than the
one before and at most one unit away on the minor axis. -/
theorem stepped_cells_chain (mr : Bool) (ya xa s d : Int) (n : Nat) (hn : 1 ≤ n)
    (hs : s = 1 ∨ s = -1) (hd : |d| ≤ n) :
    ((stepped_offsets s d n).map (line_cell mr ya xa)).length = n + 1 ∧
    ((stepped_offsets s d n).map (line_cell mr ya xa)).head? = some (ya, xa) ∧
    ((stepped_offsets s d n).map (line_cell mr ya xa)).getLast? =
      some (line_cell mr ya xa (s * n, d)) ∧
    ((stepped_offsets s d n).map (line_cell mr ya xa)).Nodup ∧
    ((stepped_offsets s d n).map (line_cell mr ya xa)).Chain'
      (fun p q => if mr then q.1 = p.1 + s ∧ |q.2 - p.2| ≤ 1 else q.2 = p.2 + s ∧ |q.1 - p.1| ≤ 1) := by
  have hmap : (stepped_offsets s d n).map (line_cell mr ya xa) =
      (List.range (n + 1)).map (fun j : Nat => line_cell mr ya xa (s * (j : Int), line_minor d n j)) := by
    rw [stepped_offsets, List.map_map]
    rfl
  rw [hmap]
  refine ⟨by simp, ?_, ?_, ?_, ?_⟩
  · rw [List.head?_map, List.head?_range, if_neg (by omega)]
    simp only [Option.map_some', line_minor_zero]
    cases mr <;> simp [line_cell]
  · rw [List.getLast?_map, List.getLast?_range, if_neg (by omega)]
    simp only [Option.map_some', Nat.add_sub_cancel, line_minor_last d n hn]
  · apply List.Nodup.map_on _ (List.nodup_range _)
    intro i _ j _ hij
    have : s * (i : Int) = s * (j : Int) := by
      cases mr
      · simp only [line_cell, Bool.false_eq_true, if_false, Prod.mk.injEq] at hij
        omega
      · simp only [line_cell, if_true, Prod.mk.injEq] at hij
        omega
    rcases hs with rfl | rfl <;> omega
  · rw [List.chain'_map, List.chain'_range_succ]
    intro j _
    have hstep := line_minor_step d n j hd
    have habs : |line_minor d n (j + 1) - line_minor d n j| ≤ 1 := by
      rw [abs_le]
      rcases le_total 0 d with h | h
      · have := hstep.1 h
        constructor <;> omega
      · have := hstep.2 h
        constructor <;> omega
    cases mr
    · simp only [line_cell, Bool.false_eq_true, if_false, Nat.succ_eq_add_one]
      refine ⟨by push_cast; ring, ?_⟩
      have e : ya + line_minor d n (j + 1) - (ya + line_minor d n j) =
          line_minor d n (j + 1) - line_minor d n j := by ring
      rw [e]
      exact habs
    · simp only [line_cell, if_true, Nat.succ_eq_add_one]
      refine ⟨by push_cast; ring, ?_⟩
      have e : xa + line_minor d n (j + 1) - (xa + line_minor d n j) =
          line_minor d n (j + 1) - line_minor d n j := by ring
      rw [e]
      exact habs
/-- The stepped cells of a line lie in a window that holds both end cells. -/
theorem stepped_cells_fit (h w : Int) (mr : Bool) (ya xa s d : Int) (n : Nat) (hn : 1 ≤ n)
    (hs : s = 1 ∨ s = -1)
    (hstart : 0 ≤ ya ∧ ya < h ∧ 0 ≤ xa ∧ xa < w)
    (hend : 0 ≤ (line_cell mr ya xa (s * n, d)).1 ∧ (line_cell mr ya xa (s * n, d)).1 < h ∧
      0 ≤ (line_cell mr ya xa (s * n, d)).2 ∧ (line_cell mr ya xa (s * n, d)).2 < w) :
    ∀ p ∈ (stepped_offsets s d n).map (line_cell mr ya xa),
      0 ≤ p.1 ∧ p.1 < h ∧ 0 ≤ p.2 ∧ p.2 < w := by
  intro p hp
  rw [stepped_offsets, List.map_map, List.mem_map] at hp
  obtain ⟨j, hj, rfl⟩ := hp
  rw [List.mem_range] at hj
  have hr := line_minor_range d n j hn (by omega)
  exact line_cell_fits h w ya xa s d _ n j mr hs hstart hend (by omega) hr.1 hr.2.1

/-- C28 (the dotted line). Between two different cells of a blank window,
`draw_line_dotted` ends and writes the dot in exactly `max(|Δrow|, |Δcol|) + 1` cells,
all different. In the order written, the first cell is `p0` and the last is `p1`, and
each cell is one unit further than the one before on the major axis (the rows when
`|Δcol| ≤ |Δrow|`, the columns otherwise) and at most one unit away on the minor
axis. -/
theorem draw_line_dotted_chain (h w ya xa yb xb : Int) (fuel : Nat)
    (hne : ¬(ya = yb ∧ xa = xb))
    (hstart : 0 ≤ ya ∧ ya < h ∧ 0 ≤ xa ∧ xa < w) (hend : 0 ≤ yb ∧ yb < h ∧ 0 ≤ xb ∧ xb < w)
    (hfuel : max |yb - ya| |xb - xa| + 2 ≤ fuel) :
    ∃ win, draw_line_dotted fuel (newwin h w) ya xa yb xb = some win ∧
      (∀ c ∈ win.cells, c.ch = '•') ∧
      ((win.cells.reverse.map (fun c => (c.row, c.col))).length : Int) =
        max |yb - ya| |xb - xa| + 1 ∧
      (win.cells.reverse.map (fun c => (c.row, c.col))).Nodup ∧
      ((written_cells win).card : Int) = max |yb - ya| |xb - xa| + 1 ∧
      (win.cells.reverse.map (fun c => (c.row, c.col))).head? = some (ya, xa) ∧
      (win.cells.reverse.map (fun c => (c.row, c.col))).getLast? = some (yb, xb) ∧
      (win.cells.reverse.map (fun c => (c.row, c.col))).Chain' (fun p q =>
        if |xb - xa| ≤ |yb - ya| then
          q.1 = p.1 + (if yb - ya > 0 then 1 else -1) ∧ |q.2 - p.2| ≤ 1
        else q.2 = p.2 + (if xb - xa > 0 then 1 else -1) ∧ |q.1 - p.1| ≤ 1) := by
  obtain ⟨mr, s, d, n, hb, hp1, hsrow, hscol, hmax⟩ := is_line_branch_exists ya xa yb xb true hne
  obtain ⟨ws, hrun, hch, hpos⟩ := draw_line_dotted_writes (newwin h w) ya xa yb xb s d n fuel mr hb
    (by have : (n : Int) + 2 ≤ fuel := by rw [hmax]; exact hfuel
        omega)
  obtain ⟨hn, hs, hd, hmr, -, -⟩ := hb
  simp only [if_true] at hmr
  have hend' : 0 ≤ (line_cell mr ya xa (s * n, d)).1 ∧ (line_cell mr ya xa (s * n, d)).1 < h ∧
      0 ≤ (line_cell mr ya xa (s * n, d)).2 ∧ (line_cell mr ya xa (s * n, d)).2 < w := by
    rw [← hp1]
    exact hend
  have hfit : ∀ t ∈ ws, 0 ≤ t.1.1 ∧ t.1.1 < (newwin h w).height ∧ 0 ≤ t.1.2 ∧
      t.1.2 < (newwin h w).width := by
    intro t ht
    exact stepped_cells_fit h w mr ya xa s d n hn hs hstart hend' t.1
      (hpos ▸ List.mem_map_of_mem Prod.fst ht)
  have hlog := cells_mvwaddch_list ws (newwin h w) hfit
  have hnil : (newwin h w).cells.reverse.map (fun c => ((c.row, c.col), c.ch)) = [] := rfl
  rw [hnil, List.nil_append] at hlog
  have hcells : (mvwaddch_list (newwin h w) ws).cells.reverse.map (fun c => (c.row, c.col)) =
      (stepped_offsets s d n).map (line_cell mr ya xa) := by
    have e : (mvwaddch_list (newwin h w) ws).cells.reverse.map (fun c => (c.row, c.col)) =
        ((mvwaddch_list (newwin h w) ws).cells.reverse.map
          (fun c => ((c.row, c.col), c.ch))).map Prod.fst := by
      rw [List.map_map]
      rfl
    rw [e, hlog, hpos]
  obtain ⟨hlen, hhead, hlast, hnodup, hchain⟩ := stepped_cells_chain mr ya xa s d n hn hs hd
  refine ⟨mvwaddch_list (newwin h w) ws, hrun, ?_, ?_, ?_, ?_, ?_, ?_, ?_⟩
  · intro c hc
    have hmem : ((c.row, c.col), c.ch) ∈
        (mvwaddch_list (newwin h w) ws).cells.reverse.map (fun c => ((c.row, c.col), c.ch)) :=
      List.mem_map_of_mem _ (List.mem_reverse.mpr hc)
    rw [hlog] at hmem
    exact hch _ hmem
  · rw [hcells, hlen, ← hmax]
    push_cast
    ring
  · rw [hcells]
    exact hnodup
  · have hperm : (written_cells (mvwaddch_list (newwin h w) ws)).card =
        ((stepped_offsets s d n).map (line_cell mr ya xa)).length := by
      unfold written_cells
      rw [← List.toFinset_reverse, ← List.map_reverse, hcells, List.toFinset_card_of_nodup hnodup]
    rw [hperm, hlen, ← hmax]
    push_cast
    ring
  · rw [hcells]
    exact hhead
  · rw [hcells, hlast, hp1]
  · rw [hcells]
    refine List.Chain'.imp ?_ hchain
    intro p q hpq
    cases mr
    · have hlt : ¬(|xb - xa| ≤ |yb - ya|) := fun hle => by
        have := hmr.mpr hle
        exact absurd this (by decide)
      rw [if_neg hlt, ← hscol rfl]
      simpa using hpq
    · rw [if_pos (hmr.mp rfl), ← hsrow rfl]
      simpa using hpq

/-- Witness for `draw_line_dotted_chain`: the line from `(2, 3)` to `(5, 10)` in a
window of 20 × 20 cells, 8 cells along the columns. -/
theorem draw_line_dotted_chain_witness :
    ∃ win, draw_line_dotted 9 (newwin 20 20) 2 3 5 10 = some win ∧
      (∀ c ∈ win.cells, c.ch = '•') ∧
      ((win.cells.reverse.map (fun c => (c.row, c.col))).length : Int) =
        max |(5 : Int) - 2| |(10 : Int) - 3| + 1 ∧
      (win.cells.reverse.map (fun c => (c.row, c.col))).Nodup ∧
      ((written_cells win).card : Int) = max |(5 : Int) - 2| |(10 : Int) - 3| + 1 ∧
      (win.cells.reverse.map (fun c => (c.row, c.col))).head? = some (2, 3) ∧
      (win.cells.reverse.map (fun c => (c.row, c.col))).getLast? = some (5, 10) ∧
      (win.cells.reverse.map (fun c => (c.row, c.col))).Chain' (fun p q =>
        if |(10 : Int) - 3| ≤ |(5 : Int) - 2| then
          q.1 = p.1 + (if (5 : Int) - 2 > 0 then 1 else -1) ∧ |q.2 - p.2| ≤ 1
        else q.2 = p.2 + (if (10 : Int) - 3 > 0 then 1 else -1) ∧ |q.1 - p.1| ≤ 1) :=
  draw_line_dotted_chain 20 20 2 3 5 10 9 (by decide) (by decide) (by decide) (by decide)

/-! ### `draw_line_ASCII` -/

/-- The rounded minor offset of the next step, from the loop state of step `k`. -/
theorem line_minor_next (d : Int) (n k : Nat) :
    c_round ((k : ℚ) * ((d : ℚ) / (n : ℚ)) + (d : ℚ) / (n : ℚ)) = line_minor d n (k + 1) := by
  unfold line_minor
  have e : (k : ℚ) * ((d : ℚ) / (n : ℚ)) + (d : ℚ) / (n : ℚ) =
      ((k + 1 : Nat) : ℚ) * ((d : ℚ) / (n : ℚ)) := by
    push_cast
    ring
  rw [e]

/-- The loop of `draw_line_ASCII` along the rows, from step `k` on: it ends, and it has
written in the stepped cells `k .. n` and nowhere else; every character written is
`|` unless the line leaves its column. -/
theorem draw_line_ASCII_rows_writes (ya xa s d : Int) (n : Nat) (slope : Char)
    (hs : s = 1 ∨ s = -1) (m : Nat) :
    ∀ (k fuel : Nat) (w : WINDOW), n + 1 - k = m → k ≤ n + 1 → n + 2 - k ≤ fuel →
      ∃ ws, draw_line_ASCII_rows ya xa (s * n) s ((d : ℚ) / (n : ℚ)) slope fuel (s * k)
            ((k : ℚ) * ((d : ℚ) / (n : ℚ))) w = some (mvwaddch_list w ws) ∧
        (∀ t ∈ ws, t.2 = '|' ∨ d ≠ 0) ∧
        ∀ p, p ∈ ws.map Prod.fst ↔
          ∃ j : Nat, k ≤ j ∧ j ≤ n ∧ p = line_cell true ya xa (s * (j : Int), line_minor d n j) := by
  induction m with
  | zero =>
    intro k fuel w hm hk hfuel
    have hk' : k = n + 1 := by omega
    subst hk'
    obtain ⟨f, rfl⟩ : ∃ f, fuel = f + 1 := ⟨fuel - 1, by omega⟩
    refine ⟨[], ?_, by simp, ?_⟩
    · rw [draw_line_ASCII_rows, if_neg, mvwaddch_list_nil]
      rw [natAbs_literal_mul s hs, natAbs_literal_mul s hs]
      rw [abs_of_nonneg (by positivity), abs_of_nonneg (by positivity)]
      push_cast
      omega
    · intro p
      simp only [List.map_nil, List.not_mem_nil, false_iff, not_exists, not_and]
      intro j h1 h2
      omega
  | succ m ih =>
    intro k fuel w hm hk hfuel
    obtain ⟨f, rfl⟩ : ∃ f, fuel = f + 1 := ⟨fuel - 1, by omega⟩
    have hkn : k ≤ n := by omega
    have hcond : |s * (k : Int)| ≤ |s * (n : Int)| := by
      rw [natAbs_literal_mul s hs, natAbs_literal_mul s hs]
      rw [abs_of_nonneg (by positivity), abs_of_nonneg (by positivity)]
      exact_mod_cast hkn
    have e1 : s * (k : Int) + s = s * ((k + 1 : Nat) : Int) := by push_cast; ring
    have e2 : (k : ℚ) * ((d : ℚ) / (n : ℚ)) + (d : ℚ) / (n : ℚ) =
        ((k + 1 : Nat) : ℚ) * ((d : ℚ) / (n : ℚ)) := by
      push_cast
      ring
    have hcur : c_round ((k : ℚ) * ((d : ℚ) / (n : ℚ))) = line_minor d n k := rfl
    have hmem : ∀ (p : Int × Int) (P : Prop),
        (P ↔ ∃ j : Nat, k + 1 ≤ j ∧ j ≤ n ∧
          p = line_cell true ya xa (s * (j : Int), line_minor d n j)) →
        ((p = (ya + s * k, xa + line_minor d n k) ∨ P) ↔
          ∃ j : Nat, k ≤ j ∧ j ≤ n ∧ p = line_cell true ya xa (s * (j : Int), line_minor d n j)) := by
      intro p P hP
      rw [hP]
      constructor
      · rintro (h | ⟨j, h1, h2, h3⟩)
        · exact ⟨k, le_refl _, hkn, by simpa [line_cell] using h⟩
        · exact ⟨j, by omega, h2, h3⟩
      · rintro ⟨j, h1, h2, h3⟩
        by_cases hjk : j = k
        · subst hjk
          exact Or.inl (by simpa [line_cell] using h3)
        · exact Or.inr ⟨j, by omega, h2, h3⟩
    by_cases hjump : xa + line_minor d n (k + 1) ≠ xa + line_minor d n k
    · have hd : d ≠ 0 := by
        rintro rfl
        rw [line_minor_of_zero, line_minor_of_zero] at hjump
        exact hjump rfl
      obtain ⟨ws, hrun, hch, hpos⟩ := ih (k + 1) f
        (mvwaddch (mvwaddch w (ya + s * k) (xa + line_minor d n k) '|') (ya + s * k)
          (xa + line_minor d n k) slope) (by omega) (by omega) (by omega)
      refine ⟨((ya + s * k, xa + line_minor d n k), '|') ::
        ((ya + s * k, xa + line_minor d n k), slope) :: ws, ?_, ?_, ?_⟩
      · rw [draw_line_ASCII_rows, if_pos hcond]
        simp only []
        rw [line_minor_next, hcur, if_pos hjump, mvwaddch_list_cons, mvwaddch_list_cons, e1, e2]
        exact hrun
      · intro t _
        exact Or.inr hd
      · intro p
        rw [List.map_cons, List.map_cons, List.mem_cons, List.mem_cons, ← or_assoc, or_self]
        exact hmem p _ (hpos p)
    · obtain ⟨ws, hrun, hch, hpos⟩ := ih (k + 1) f
        (mvwaddch w (ya + s * k) (xa + line_minor d n k) '|') (by omega) (by omega) (by omega)
      refine ⟨((ya + s * k, xa + line_minor d n k), '|') :: ws, ?_, ?_, ?_⟩
      · rw [draw_line_ASCII_rows, if_pos hcond]
        simp only []
        rw [line_minor_next, hcur, if_neg hjump, mvwaddch_list_cons, e1, e2]
        exact hrun
      · intro t ht
        rcases List.mem_cons.mp ht with rfl | ht
        · exact Or.inl rfl
        · exact hch t ht
      · intro p
        rw [List.map_cons, List.mem_cons]
        exact hmem p _ (hpos p)

/-- The loop of `draw_line_ASCII` along the columns, from step `k` on: it ends, and it
has written in the stepped cells `k .. n` and nowhere else, also where it writes the
joint in the next cell and skips one step; every character written is the one chosen
for the line (`-` or `_`) unless the line leaves its row. -/
theorem draw_line_ASCII_cols_writes (ya xa yb s d : Int) (n : Nat) (slope : Char)
    (hs : s = 1 ∨ s = -1) (hn : 1 ≤ n) (hyb : yb = ya + d) (m : Nat) :
    ∀ (k fuel : Nat) (w : WINDOW), n + 1 - k ≤ m → k ≤ n + 1 → n + 2 - k ≤ fuel →
      ∃ ws, draw_line_ASCII_cols ya xa yb d (s * n) ((d : ℚ) / (n : ℚ)) s slope fuel
            ((k : ℚ) * ((d : ℚ) / (n : ℚ))) (s * k) w = some (mvwaddch_list w ws) ∧
        (∀ t ∈ ws, t.2 = (if ya = yb then '-' else '_') ∨ d ≠ 0) ∧
        ∀ p, p ∈ ws.map Prod.fst ↔
          ∃ j : Nat, k ≤ j ∧ j ≤ n ∧ p = line_cell false ya xa (s * (j : Int), line_minor d n j) := by
  induction m with
  | zero =>
    intro k fuel w hm hk hfuel
    have hk' : k = n + 1 := by omega
    subst hk'
    obtain ⟨f, rfl⟩ : ∃ f, fuel = f + 1 := ⟨fuel - 1, by omega⟩
    refine ⟨[], ?_, by simp, ?_⟩
    · rw [draw_line_ASCII_cols, if_neg, mvwaddch_list_nil]
      rw [natAbs_literal_mul s hs, natAbs_literal_mul s hs]
      rw [abs_of_nonneg (by positivity), abs_of_nonneg (by positivity)]
      push_cast
      omega
    · intro p
      simp only [List.map_nil, List.not_mem_nil, false_iff, not_exists, not_and]
      intro j h1 h2
      omega
  | succ m ih =>
    intro k fuel w hm hk hfuel
    obtain ⟨f, rfl⟩ : ∃ f, fuel = f + 1 := ⟨fuel - 1, by omega⟩
    by_cases hend : k = n + 1
    · subst hend
      refine ⟨[], ?_, by simp, ?_⟩
      · rw [draw_line_ASCII_cols, if_neg, mvwaddch_list_nil]
        rw [natAbs_literal_mul s hs, natAbs_literal_mul s hs]
        rw [abs_of_nonneg (by positivity), abs_of_nonneg (by positivity)]
        push_cast
        omega
      · intro p
        simp only [List.map_nil, List.not_mem_nil, false_iff, not_exists, not_and]
        intro j h1 h2
        omega
    have hkn : k ≤ n := by omega
    have hcond : |s * (k : Int)| ≤ |s * (n : Int)| := by
      rw [natAbs_literal_mul s hs, natAbs_literal_mul s hs]
      rw [abs_of_nonneg (by positivity), abs_of_nonneg (by positivity)]
      exact_mod_cast hkn
    have e1 : s * (k : Int) + s = s * ((k + 1 : Nat) : Int) := by push_cast; ring
    have e2 : (k : ℚ) * ((d : ℚ) / (n : ℚ)) + (d : ℚ) / (n : ℚ) =
        ((k + 1 : Nat) : ℚ) * ((d : ℚ) / (n : ℚ)) := by
      push_cast
      ring
    have e1' : s * (k : Int) + s + s = s * ((k + 2 : Nat) : Int) := by push_cast; ring
    have e2' : (k : ℚ) * ((d : ℚ) / (n : ℚ)) + (d : ℚ) / (n : ℚ) + (d : ℚ) / (n : ℚ) =
        ((k + 2 : Nat) : ℚ) * ((d : ℚ) / (n : ℚ)) := by
      push_cast
      ring
    have hcur : c_round ((k : ℚ) * ((d : ℚ) / (n : ℚ))) = line_minor d n k := rfl
    have hmem : ∀ (p : Int × Int) (P : Prop),
        (P ↔ ∃ j : Nat, k + 1 ≤ j ∧ j ≤ n ∧
          p = line_cell false ya xa (s * (j : Int), line_minor d n j)) →
        ((p = (ya + line_minor d n k, xa + s * k) ∨ P) ↔
          ∃ j : Nat, k ≤ j ∧ j ≤ n ∧ p = line_cell false ya xa (s * (j : Int), line_minor d n j)) := by
      intro p P hP
      rw [hP]
      constructor
      · rintro (h | ⟨j, h1, h2, h3⟩)
        · exact ⟨k, le_refl _, hkn, by simpa [line_cell] using h⟩
        · exact ⟨j, by omega, h2, h3⟩
      · rintro ⟨j, h1, h2, h3⟩
        by_cases hjk : j = k
        · subst hjk
          exact Or.inl (by simpa [line_cell] using h3)
        · exact Or.inr ⟨j, by omega, h2, h3⟩
    -- one plain step: the cell of step `k` gets the writes `here`, then step `k + 1`
    have plain : ∀ here : List ((Int × Int) × Char),
        (∀ t ∈ here, t.1 = (ya + line_minor d n k, xa + s * k) ∧
          (t.2 = (if ya = yb then '-' else '_') ∨ d ≠ 0)) → here ≠ [] →
        ∃ ws, draw_line_ASCII_cols ya xa yb d (s * n) ((d : ℚ) / (n : ℚ)) s slope f
              (((k + 1 : Nat) : ℚ) * ((d : ℚ) / (n : ℚ))) (s * ((k + 1 : Nat) : Int))
              (mvwaddch_list w here) = some (mvwaddch_list w (here ++ ws)) ∧
          (∀ t ∈ here ++ ws, t.2 = (if ya = yb then '-' else '_') ∨ d ≠ 0) ∧
          ∀ p, p ∈ (here ++ ws).map Prod.fst ↔
            ∃ j : Nat, k ≤ j ∧ j ≤ n ∧
              p = line_cell false ya xa (s * (j : Int), line_minor d n j) := by
      intro here hhere hne
      obtain ⟨ws, hrun, hch, hpos⟩ := ih (k + 1) f (mvwaddch_list w here) (by omega) (by omega)
        (by omega)
      refine ⟨ws, ?_, ?_, ?_⟩
      · rw [mvwaddch_list_append]
        exact hrun
      · intro t ht
        rcases List.mem_append.mp ht with ht | ht
        · exact (hhere t ht).2
        · exact hch t ht
      · intro p
        rw [List.map_append, List.mem_append, ← hmem p _ (hpos p)]
        constructor
        · rintro (h | h)
          · obtain ⟨t, ht, rfl⟩ := List.mem_map.mp h
            exact Or.inl (hhere t ht).1
          · exact Or.inr h
        · rintro (h | h)
          · obtain ⟨t, ht⟩ := List.exists_mem_of_ne_nil here hne
            exact Or.inl (List.mem_map.mpr ⟨t, ht, by rw [(hhere t ht).1, h]⟩)
          · exact Or.inr h
    rw [draw_line_ASCII_cols, if_pos hcond]
    simp only []
    rw [line_minor_next, hcur]
    by_cases hjump : ya + line_minor d n (k + 1) ≠ ya + line_minor d n k
    · have hd : d ≠ 0 := by
        rintro rfl
        rw [line_minor_of_zero, line_minor_of_zero] at hjump
        exact hjump rfl
      rw [if_pos hjump]
      by_cases hdown : d > 0
      · rw [if_pos hdown]
        by_cases hlast : ya + line_minor d n k ≠ yb
        · rw [if_pos hlast]
          have hk1 : k + 1 ≤ n := by
            by_contra hcon
            have : k = n := by omega
            subst this
            rw [line_minor_last d k hn] at hlast
            exact hlast hyb.symm
          obtain ⟨ws, hrun, hch, hpos⟩ := ih (k + 2) f
            (mvwaddch (mvwaddch w (ya + line_minor d n k) (xa + s * k)
              (if ya = yb then '-' else '_')) (ya + line_minor d n (k + 1)) (xa + s * k + s) slope)
            (by omega) (by omega) (by omega)
          refine ⟨((ya + line_minor d n k, xa + s * k), (if ya = yb then '-' else '_')) ::
            ((ya + line_minor d n (k + 1), xa + s * k + s), slope) :: ws, ?_, ?_, ?_⟩
          · rw [mvwaddch_list_cons, mvwaddch_list_cons, e1', e2']
            exact hrun
          · intro t _
            exact Or.inr hd
          · intro p
            rw [List.map_cons, List.map_cons, List.mem_cons, List.mem_cons, hpos p]
            constructor
            · rintro (h | h | ⟨j, h1, h2, h3⟩)
              · exact ⟨k, le_refl _, hkn, by simpa [line_cell] using h⟩
              · refine ⟨k + 1, by omega, hk1, ?_⟩
                rw [h]
                simp only [line_cell, Bool.false_eq_true, if_false, Prod.mk.injEq, true_and]
                push_cast
                ring
              · exact ⟨j, by omega, h2, h3⟩
            · rintro ⟨j, h1, h2, h3⟩
              by_cases hjk : j = k
              · subst hjk
                exact Or.inl (by simpa [line_cell] using h3)
              · by_cases hjk1 : j = k + 1
                · subst hjk1
                  refine Or.inr (Or.inl ?_)
                  rw [h3]
                  simp only [line_cell, Bool.false_eq_true, if_false, Prod.mk.injEq, true_and]
                  push_cast
                  ring
                · exact Or.inr (Or.inr ⟨j, by omega, h2, h3⟩)
        · rw [if_neg hlast, e1, e2]
          obtain ⟨ws, hrun, hch, hpos⟩ :=
            plain [((ya + line_minor d n k, xa + s * k), (if ya = yb then '-' else '_'))]
              (by
                intro t ht
                rw [List.mem_singleton] at ht
                subst ht
                exact ⟨rfl, Or.inl rfl⟩) (by simp)
          exact ⟨_, hrun, hch, hpos⟩
      · rw [if_neg hdown, e1, e2]
        obtain ⟨ws, hrun, hch, hpos⟩ :=
          plain [((ya + line_minor d n k, xa + s * k), (if ya = yb then '-' else '_')),
              ((ya + line_minor d n k, xa + s * k), slope)]
            (by
              intro t ht
              rcases List.mem_cons.mp ht with rfl | ht
              · exact ⟨rfl, Or.inl rfl⟩
              · rw [List.mem_singleton] at ht
                subst ht
                exact ⟨rfl, Or.inr hd⟩) (by simp)
        exact ⟨_, hrun, hch, hpos⟩
    · rw [if_neg hjump, e1, e2]
      obtain ⟨ws, hrun, hch, hpos⟩ :=
        plain [((ya + line_minor d n k, xa + s * k), (if ya = yb then '-' else '_'))]
          (by
            intro t ht
            rw [List.mem_singleton] at ht
            subst ht
            exact ⟨rfl, Or.inl rfl⟩) (by simp)
      exact ⟨_, hrun, hch, hpos⟩

/-- The stepped cells of a line, as a set. -/
theorem mem_stepped_cells (mr : Bool) (ya xa s d : Int) (n : Nat) (p : Int × Int) :
    p ∈ (stepped_offsets s d n).map (line_cell mr ya xa) ↔
      ∃ j : Nat, 0 ≤ j ∧ j ≤ n ∧ p = line_cell mr ya xa (s * (j : Int), line_minor d n j) := by
  rw [stepped_offsets, List.map_map, List.mem_map]
  constructor
  · rintro ⟨j, hj, rfl⟩
    rw [List.mem_range] at hj
    exact ⟨j, Nat.zero_le j, by omega, rfl⟩
  · rintro ⟨j, _, hj, rfl⟩
    exact ⟨j, List.mem_range.mpr (by omega), rfl⟩

/-- The writes of `draw_line_ASCII` along a line of shape `(s, d, n)`: the call ends
and writes in the stepped cells of the line and nowhere else; every character written
is `|` (along the rows) or the `-` or `_` chosen for the line (along the columns)
unless the minor span is not zero. -/
theorem draw_line_ASCII_writes (win : WINDOW) (ya xa yb xb s d : Int) (n fuel : Nat)
    (mr : Bool) (hb : is_line_branch true mr ya xa yb xb s d n) (hfuel : n + 2 ≤ fuel) :
    ∃ ws : List ((Int × Int) × Char),
      draw_line_ASCII fuel win ya xa yb xb = some (mvwaddch_list win ws) ∧
      (∀ t ∈ ws, t.2 = (if mr then '|' else (if ya = yb then '-' else '_')) ∨ d ≠ 0) ∧
      ∀ p, p ∈ ws.map Prod.fst ↔ p ∈ (stepped_offsets s d n).map (line_cell mr ya xa) := by
  obtain ⟨hn, hs, hd, hmr, hrow, hcol⟩ := hb
  simp only [if_true] at hmr
  obtain ⟨hsy, hsx, habs⟩ := line_direction s n hn hs d
  have e0 : (0 : Int) = s * ((0 : Nat) : Int) := by simp
  have e0' : (0 : ℚ) = ((0 : Nat) : ℚ) * ((d : ℚ) / (n : ℚ)) := by simp
  cases mr
  · obtain ⟨hdx, hdy⟩ := hcol rfl
    obtain ⟨ws, hrun, hch, hpos⟩ := draw_line_ASCII_cols_writes ya xa yb s d n
      (if s * (n : Int) > 0 then (if d > 0 then '\\' else '/') else (if d > 0 then '/' else '\\'))
      hs hn (by omega) (n + 1) 0 fuel win (by omega) (by omega) (by omega)
    refine ⟨ws, ?_, ?_, ?_⟩
    · unfold draw_line_ASCII
      simp only []
      rw [if_neg (fun h => by simpa using hmr.mpr h), hdx, hdy, hsy, hsx]
      rw [← e0, ← e0'] at hrun
      exact hrun
    · simpa using hch
    · intro p
      rw [hpos p, mem_stepped_cells]
  · obtain ⟨hdy, hdx⟩ := hrow rfl
    obtain ⟨ws, hrun, hch, hpos⟩ := draw_line_ASCII_rows_writes ya xa s d n
      (if d > 0 then (if s * (n : Int) > 0 then '\\' else '/')
        else (if s * (n : Int) > 0 then '/' else '\\'))
      hs (n + 1) 0 fuel win (by omega) (by omega) (by omega)
    refine ⟨ws, ?_, ?_, ?_⟩
    · unfold draw_line_ASCII
      simp only []
      rw [if_pos (hmr.mp rfl), hdy, hdx, hsy, hsx]
      rw [← e0, ← e0'] at hrun
      exact hrun
    · simpa using hch
    · intro p
      rw [hpos p, mem_stepped_cells]


/-- C30 (one stepping algorithm). Between two different cells of a blank window that
holds both, `draw_line_ASCII` and `draw_line_dotted` end and write to exactly the same
set of cells, the stepped cells of the line; this includes the lines that descend
along the columns, where `draw_line_ASCII` writes the joint in the next cell and skips
one step of the loop. -/
theorem draw_line_ASCII_dotted_same_cells (h w ya xa yb xb : Int) (fuel : Nat)
    (hne : ¬(ya = yb ∧ xa = xb))
    (hstart : 0 ≤ ya ∧ ya < h ∧ 0 ≤ xa ∧ xa < w) (hend : 0 ≤ yb ∧ yb < h ∧ 0 ≤ xb ∧ xb < w)
    (hfuel : max |yb - ya| |xb - xa| + 2 ≤ fuel) :
    ∃ win_ASCII win_dotted,
      draw_line_ASCII fuel (newwin h w) ya xa yb xb = some win_ASCII ∧
      draw_line_dotted fuel (newwin h w) ya xa yb xb = some win_dotted ∧
      written_cells win_ASCII = written_cells win_dotted ∧
      (ya, xa) ∈ written_cells win_ASCII ∧ (yb, xb) ∈ written_cells win_ASCII := by
  obtain ⟨mr, s, d, n, hb, hp1, -, -, hmax⟩ := is_line_branch_exists ya xa yb xb true hne
  have hf : n + 2 ≤ fuel := by
    have : (n : Int) + 2 ≤ fuel := by rw [hmax]; exact hfuel
    omega
  obtain ⟨wa, hrunA, -, hposA⟩ := draw_line_ASCII_writes (newwin h w) ya xa yb xb s d n fuel mr hb hf
  obtain ⟨wd, hrunD, -, hposD⟩ := draw_line_dotted_writes (newwin h w) ya xa yb xb s d n fuel mr hb hf
  obtain ⟨hn, hs, hd, -, -, -⟩ := hb
  have hend' : 0 ≤ (line_cell mr ya xa (s * n, d)).1 ∧ (line_cell mr ya xa (s * n, d)).1 < h ∧
      0 ≤ (line_cell mr ya xa (s * n, d)).2 ∧ (line_cell mr ya xa (s * n, d)).2 < w := by
    rw [← hp1]
    exact hend
  have hfits := stepped_cells_fit h w mr ya xa s d n hn hs hstart hend'
  have hfitA : ∀ t ∈ wa, 0 ≤ t.1.1 ∧ t.1.1 < h ∧ 0 ≤ t.1.2 ∧ t.1.2 < w := fun t ht =>
    hfits t.1 ((hposA t.1).mp (List.mem_map_of_mem Prod.fst ht))
  have hfitD : ∀ t ∈ wd, 0 ≤ t.1.1 ∧ t.1.1 < h ∧ 0 ≤ t.1.2 ∧ t.1.2 < w := fun t ht =>
    hfits t.1 (hposD ▸ List.mem_map_of_mem Prod.fst ht)
  have hA : ∀ p, p ∈ written_cells (mvwaddch_list (newwin h w) wa) ↔
      p ∈ (stepped_offsets s d n).map (line_cell mr ya xa) := fun p => by
    rw [written_cells_mvwaddch_list h w wa hfitA p, hposA p]
  have hD : ∀ p, p ∈ written_cells (mvwaddch_list (newwin h w) wd) ↔
      p ∈ (stepped_offsets s d n).map (line_cell mr ya xa) := fun p => by
    rw [written_cells_mvwaddch_list h w wd hfitD p, hposD]
  obtain ⟨-, hhead, hlast, -, -⟩ := stepped_cells_chain mr ya xa s d n hn hs hd
  refine ⟨_, _, hrunA, hrunD, ?_, ?_, ?_⟩
  · ext p
    rw [hA p, hD p]
  · rw [hA]
    exact List.mem_of_mem_head? hhead
  · rw [hA, hp1]
    exact List.mem_of_mem_getLast? hlast

/-- Witness for `draw_line_ASCII_dotted_same_cells`: the line from `(2, 3)` to `(5, 10)`,
which descends along the columns. -/
theorem draw_line_ASCII_dotted_same_cells_witness :
    ∃ win_ASCII win_dotted,
      draw_line_ASCII 9 (newwin 20 20) 2 3 5 10 = some win_ASCII ∧
      draw_line_dotted 9 (newwin 20 20) 2 3 5 10 = some win_dotted ∧
      written_cells win_ASCII = written_cells win_dotted ∧
      (2, 3) ∈ written_cells win_ASCII ∧ (5, 10) ∈ written_cells win_ASCII :=
  draw_line_ASCII_dotted_same_cells 20 20 2 3 5 10 9 (by decide) (by decide) (by decide)
    (by decide)

/-! ### `draw_line_smooth` -/

/-- The loop of `draw_line_smooth` along the rows, from step `k` on: it ends, and it
has written in the stepped cells `k .. n` and, where the rounded column changes with
the next step before the last column is reached, in the cell beside the stepped cell
in the next column, and nowhere else; every character written is `│` unless the line
leaves its column. -/
theorem draw_line_smooth_rows_writes (ya xa xb s d : Int) (n : Nat) (ca cb : Char)
    (hs : s = 1 ∨ s = -1) (hxb : xb = xa + d) (m : Nat) :
    ∀ (k fuel : Nat) (w : WINDOW), n + 1 - k = m → k ≤ n + 1 → n + 2 - k ≤ fuel →
      ∃ ws, draw_line_smooth_rows ya xa xb (s * n) s ((d : ℚ) / (n : ℚ)) (String.singleton ca)
            (String.singleton cb) fuel (s * k) ((k : ℚ) * ((d : ℚ) / (n : ℚ))) w =
          some (mvwaddch_list w ws) ∧
        (∀ t ∈ ws, t.2 = '│' ∨ d ≠ 0) ∧
        ∀ p, p ∈ ws.map Prod.fst ↔
          ∃ j : Nat, k ≤ j ∧ j ≤ n ∧
            (p = line_cell true ya xa (s * (j : Int), line_minor d n j) ∨
              (line_minor d n j ≠ line_minor d n (j + 1) ∧ line_minor d n j ≠ d ∧
                p = line_cell true ya xa (s * (j : Int), line_minor d n (j + 1)))) := by
  induction m with
  | zero =>
    intro k fuel w hm hk hfuel
    have hk' : k = n + 1 := by omega
    subst hk'
    obtain ⟨f, rfl⟩ : ∃ f, fuel = f + 1 := ⟨fuel - 1, by omega⟩
    refine ⟨[], ?_, by simp, ?_⟩
    · rw [draw_line_smooth_rows, if_neg, mvwaddch_list_nil]
      rw [natAbs_literal_mul s hs, natAbs_literal_mul s hs]
      rw [abs_of_nonneg (by positivity), abs_of_nonneg (by positivity)]
      push_cast
      omega
    · intro p
      simp only [List.map_nil, List.not_mem_nil, false_iff, not_exists, not_and]
      intro j h1 h2
      omega
  | succ m ih =>
    intro k fuel w hm hk hfuel
    obtain ⟨f, rfl⟩ : ∃ f, fuel = f + 1 := ⟨fuel - 1, by omega⟩
    have hkn : k ≤ n := by omega
    have hcond : |s * (k : Int)| ≤ |s * (n : Int)| := by
      rw [natAbs_literal_mul s hs, natAbs_literal_mul s hs]
      rw [abs_of_nonneg (by positivity), abs_of_nonneg (by positivity)]
      exact_mod_cast hkn
    have e1 : s * (k : Int) + s = s * ((k + 1 : Nat) : Int) := by push_cast; ring
    have e2 : (k : ℚ) * ((d : ℚ) / (n : ℚ)) + (d : ℚ) / (n : ℚ) =
        ((k + 1 : Nat) : ℚ) * ((d : ℚ) / (n : ℚ)) := by
      push_cast
      ring
    have hcur : c_round ((k : ℚ) * ((d : ℚ) / (n : ℚ))) = line_minor d n k := rfl
    rw [draw_line_smooth_rows, if_pos hcond]
    simp only []
    rw [line_minor_next, hcur, show "│" = String.singleton '│' from rfl, mvwaddstr_singleton,
      mvwaddstr_singleton, mvwaddstr_singleton, e1, e2]
    by_cases hjump : xa + line_minor d n k ≠ xa + line_minor d n (k + 1) ∧
        xa + line_minor d n k ≠ xb
    · have hj1 : line_minor d n k ≠ line_minor d n (k + 1) := fun h => hjump.1 (by rw [h])
      have hj2 : line_minor d n k ≠ d := fun h => hjump.2 (by rw [h, hxb])
      have hd : d ≠ 0 := by
        rintro rfl
        rw [line_minor_of_zero] at hj2
        exact hj2 rfl
      rw [if_pos hjump]
      obtain ⟨ws, hrun, hch, hpos⟩ := ih (k + 1) f
        (mvwaddch (mvwaddch (mvwaddch w (ya + s * k) (xa + line_minor d n k) '│') (ya + s * k)
          (xa + line_minor d n k) ca) (ya + s * k) (xa + line_minor d n (k + 1)) cb)
        (by omega) (by omega) (by omega)
      refine ⟨((ya + s * k, xa + line_minor d n k), '│') ::
        ((ya + s * k, xa + line_minor d n k), ca) ::
        ((ya + s * k, xa + line_minor d n (k + 1)), cb) :: ws, ?_, ?_, ?_⟩
      · rw [mvwaddch_list_cons, mvwaddch_list_cons, mvwaddch_list_cons]
        exact hrun
      · intro t _
        exact Or.inr hd
      · intro p
        rw [List.map_cons, List.map_cons, List.map_cons, List.mem_cons, List.mem_cons,
          List.mem_cons, hpos p]
        constructor
        · rintro (h | h | h | ⟨j, h1, h2, h3⟩)
          · exact ⟨k, le_refl _, hkn, Or.inl (by simpa [line_cell] using h)⟩
          · exact ⟨k, le_refl _, hkn, Or.inl (by simpa [line_cell] using h)⟩
          · exact ⟨k, le_refl _, hkn, Or.inr ⟨hj1, hj2, by simpa [line_cell] using h⟩⟩
          · exact ⟨j, by omega, h2, h3⟩
        · rintro ⟨j, h1, h2, h3⟩
          by_cases hjk : j = k
          · subst hjk
            rcases h3 with h3 | ⟨_, _, h3⟩
            · exact Or.inl (by simpa [line_cell] using h3)
            · exact Or.inr (Or.inr (Or.inl (by simpa [line_cell] using h3)))
          · exact Or.inr (Or.inr (Or.inr ⟨j, by omega, h2, h3⟩))
    · rw [if_neg hjump]
      obtain ⟨ws, hrun, hch, hpos⟩ := ih (k + 1) f
        (mvwaddch w (ya + s * k) (xa + line_minor d n k) '│') (by omega) (by omega) (by omega)
      refine ⟨((ya + s * k, xa + line_minor d n k), '│') :: ws, ?_, ?_, ?_⟩
      · rw [mvwaddch_list_cons]
        exact hrun
      · intro t ht
        rcases List.mem_cons.mp ht with rfl | ht
        · exact Or.inl rfl
        · exact hch t ht
      · intro p
        rw [List.map_cons, List.mem_cons, hpos p]
        constructor
        · rintro (h | ⟨j, h1, h2, h3⟩)
          · exact ⟨k, le_refl _, hkn, Or.inl (by simpa [line_cell] using h)⟩
          · exact ⟨j, by omega, h2, h3⟩
        · rintro ⟨j, h1, h2, h3⟩
          by_cases hjk : j = k
          · subst hjk
            rcases h3 with h3 | ⟨g1, g2, _⟩
            · exact Or.inl (by simpa [line_cell] using h3)
            · exact absurd ⟨fun h => g1 (by omega), fun h => g2 (by omega)⟩ hjump
          · exact Or.inr ⟨j, by omega, h2, h3⟩
/-- The loop of `draw_line_smooth` along the columns, from step `k` on: it ends, and it
has written in the stepped cells `k .. n` and, where the rounded row changes with the
next step before the last row is reached, in the cell beside the stepped cell in the
next row, and nowhere else; every character written is `─` unless the line leaves
its row. -/
theorem draw_line_smooth_cols_writes (ya xa yb s d : Int) (n : Nat) (ca cb : Char)
    (hs : s = 1 ∨ s = -1) (hyb : yb = ya + d) (m : Nat) :
    ∀ (k fuel : Nat) (w : WINDOW), n + 1 - k = m → k ≤ n + 1 → n + 2 - k ≤ fuel →
      ∃ ws, draw_line_smooth_cols ya xa yb (s * n) ((d : ℚ) / (n : ℚ)) s (String.singleton ca)
            (String.singleton cb) fuel ((k : ℚ) * ((d : ℚ) / (n : ℚ))) (s * k) w =
          some (mvwaddch_list w ws) ∧
        (∀ t ∈ ws, t.2 = '─' ∨ d ≠ 0) ∧
        ∀ p, p ∈ ws.map Prod.fst ↔
          ∃ j : Nat, k ≤ j ∧ j ≤ n ∧
            (p = line_cell false ya xa (s * (j : Int), line_minor d n j) ∨
              (line_minor d n j ≠ line_minor d n (j + 1) ∧ line_minor d n j ≠ d ∧
                p = line_cell false ya xa (s * (j : Int), line_minor d n (j + 1)))) := by
  induction m with
  | zero =>
    intro k fuel w hm hk hfuel
    have hk' : k = n + 1 := by omega
    subst hk'
    obtain ⟨f, rfl⟩ : ∃ f, fuel = f + 1 := ⟨fuel - 1, by omega⟩
    refine ⟨[], ?_, by simp, ?_⟩
    · rw [draw_line_smooth_cols, if_neg, mvwaddch_list_nil]
      rw [natAbs_literal_mul s hs, natAbs_literal_mul s hs]
      rw [abs_of_nonneg (by positivity), abs_of_nonneg (by positivity)]
      push_cast
      omega
    · intro p
      simp only [List.map_nil, List.not_mem_nil, false_iff, not_exists, not_and]
      intro j h1 h2
      omega
  | succ m ih =>
    intro k fuel w hm hk hfuel
    obtain ⟨f, rfl⟩ : ∃ f, fuel = f + 1 := ⟨fuel - 1, by omega⟩
    have hkn : k ≤ n := by omega
    have hcond : |s * (k : Int)| ≤ |s * (n : Int)| := by
      rw [natAbs_literal_mul s hs, natAbs_literal_mul s hs]
      rw [abs_of_nonneg (by positivity), abs_of_nonneg (by positivity)]
      exact_mod_cast hkn
    have e1 : s * (k : Int) + s = s * ((k + 1 : Nat) : Int) := by push_cast; ring
    have e2 : (k : ℚ) * ((d : ℚ) / (n : ℚ)) + (d : ℚ) / (n : ℚ) =
        ((k + 1 : Nat) : ℚ) * ((d : ℚ) / (n : ℚ)) := by
      push_cast
      ring
    have hcur : c_round ((k : ℚ) * ((d : ℚ) / (n : ℚ))) = line_minor d n k := rfl
    rw [draw_line_smooth_cols, if_pos hcond]
    simp only []
    rw [line_minor_next, hcur, show "─" = String.singleton '─' from rfl, mvwaddstr_singleton,
      mvwaddstr_singleton, mvwaddstr_singleton, e1, e2]
    by_cases hjump : ya + line_minor d n k ≠ ya + line_minor d n (k + 1) ∧
        ya + line_minor d n k ≠ yb
    · have hj1 : line_minor d n k ≠ line_minor d n (k + 1) := fun h => hjump.1 (by rw [h])
      have hj2 : line_minor d n k ≠ d := fun h => hjump.2 (by rw [h, hyb])
      have hd : d ≠ 0 := by
        rintro rfl
        rw [line_minor_of_zero] at hj2
        exact hj2 rfl
      rw [if_pos hjump]
      obtain ⟨ws, hrun, hch, hpos⟩ := ih (k + 1) f
        (mvwaddch (mvwaddch (mvwaddch w (ya + line_minor d n k) (xa + s * k) '─') (ya + line_minor d n k)
          (xa + s * k) ca) (ya + line_minor d n (k + 1)) (xa + s * k) cb)
        (by omega) (by omega) (by omega)
      refine ⟨((ya + line_minor d n k, xa + s * k), '─') ::
        ((ya + line_minor d n k, xa + s * k), ca) ::
        ((ya + line_minor d n (k + 1), xa + s * k), cb) :: ws, ?_, ?_, ?_⟩
      · rw [mvwaddch_list_cons, mvwaddch_list_cons, mvwaddch_list_cons]
        exact hrun
      · intro t _
        exact Or.inr hd
      · intro p
        rw [List.map_cons, List.map_cons, List.map_cons, List.mem_cons, List.mem_cons,
          List.mem_cons, hpos p]
        constructor
        · rintro (h | h | h | ⟨j, h1, h2, h3⟩)
          · exact ⟨k, le_refl _, hkn, Or.inl (by simpa [line_cell] using h)⟩
          · exact ⟨k, le_refl _, hkn, Or.inl (by simpa [line_cell] using h)⟩
          · exact ⟨k, le_refl _, hkn, Or.inr ⟨hj1, hj2, by simpa [line_cell] using h⟩⟩
          · exact ⟨j, by omega, h2, h3⟩
        · rintro ⟨j, h1, h2, h3⟩
          by_cases hjk : j = k
          · subst hjk
            rcases h3 with h3 | ⟨_, _, h3⟩
            · exact Or.inl (by simpa [line_cell] using h3)
            · exact Or.inr (Or.inr (Or.inl (by simpa [line_cell] using h3)))
          · exact Or.inr (Or.inr (Or.inr ⟨j, by omega, h2, h3⟩))
    · rw [if_neg hjump]
      obtain ⟨ws, hrun, hch, hpos⟩ := ih (k + 1) f
        (mvwaddch w (ya + line_minor d n k) (xa + s * k) '─') (by omega) (by omega) (by omega)
      refine ⟨((ya + line_minor d n k, xa + s * k), '─') :: ws, ?_, ?_, ?_⟩
      · rw [mvwaddch_list_cons]
        exact hrun
      · intro t ht
        rcases List.mem_cons.mp ht with rfl | ht
        · exact Or.inl rfl
        · exact hch t ht
      · intro p
        rw [List.map_cons, List.mem_cons, hpos p]
        constructor
        · rintro (h | ⟨j, h1, h2, h3⟩)
          · exact ⟨k, le_refl _, hkn, Or.inl (by simpa [line_cell] using h)⟩
          · exact ⟨j, by omega, h2, h3⟩
        · rintro ⟨j, h1, h2, h3⟩
          by_cases hjk : j = k
          · subst hjk
            rcases h3 with h3 | ⟨g1, g2, _⟩
            · exact Or.inl (by simpa [line_cell] using h3)
            · exact absurd ⟨fun h => g1 (by omega), fun h => g2 (by omega)⟩ hjump
          · exact Or.inr ⟨j, by omega, h2, h3⟩
/-- The cells of a smooth line, as a set. -/
theorem mem_smooth_cells (mr : Bool) (ya xa s d : Int) (n : Nat) (p : Int × Int) :
    p ∈ (smooth_offsets s d n).map (line_cell mr ya xa) ↔
      ∃ j : Nat, 0 ≤ j ∧ j ≤ n ∧
        (p = line_cell mr ya xa (s * (j : Int), line_minor d n j) ∨
          (line_minor d n j ≠ line_minor d n (j + 1) ∧ line_minor d n j ≠ d ∧
            p = line_cell mr ya xa (s * (j : Int), line_minor d n (j + 1)))) := by
  rw [smooth_offsets, List.mem_map]
  constructor
  · rintro ⟨q, hq, rfl⟩
    rw [List.mem_flatMap] at hq
    obtain ⟨j, hj, hq⟩ := hq
    rw [List.mem_range] at hj
    rcases List.mem_cons.mp hq with rfl | hq
    · exact ⟨j, Nat.zero_le j, by omega, Or.inl rfl⟩
    · by_cases hc : line_minor d n j ≠ line_minor d n (j + 1) ∧ line_minor d n j ≠ d
      · rw [if_pos hc, List.mem_singleton] at hq
        subst hq
        exact ⟨j, Nat.zero_le j, by omega, Or.inr ⟨hc.1, hc.2, rfl⟩⟩
      · rw [if_neg hc] at hq
        exact absurd hq (List.not_mem_nil _)
  · rintro ⟨j, _, hj, h⟩
    rcases h with rfl | ⟨h1, h2, rfl⟩
    · exact ⟨_, List.mem_flatMap.mpr ⟨j, List.mem_range.mpr (by omega), List.mem_cons_self _ _⟩,
        rfl⟩
    · refine ⟨_, List.mem_flatMap.mpr ⟨j, List.mem_range.mpr (by omega), ?_⟩, rfl⟩
      rw [if_pos ⟨h1, h2⟩]
      exact List.mem_cons_of_mem _ (List.mem_singleton.mpr rfl)

/-- The writes of `draw_line_smooth` along a line of shape `(s, d, n)`: the call ends
and writes in the cells of the smooth line and nowhere else; every character written
is `│` (along the rows) or `─` (along the columns) unless the minor span is not
zero. -/
theorem draw_line_smooth_writes (win : WINDOW) (ya xa yb xb s d : Int) (n fuel : Nat)
    (mr : Bool) (hb : is_line_branch false mr ya xa yb xb s d n) (hfuel : n + 2 ≤ fuel) :
    ∃ ws : List ((Int × Int) × Char),
      draw_line_smooth fuel win ya xa yb xb = some (mvwaddch_list win ws) ∧
      (∀ t ∈ ws, t.2 = (if mr then '│' else '─') ∨ d ≠ 0) ∧
      ∀ p, p ∈ ws.map Prod.fst ↔ p ∈ (smooth_offsets s d n).map (line_cell mr ya xa) := by
  obtain ⟨hn, hs, hd, hmr, hrow, hcol⟩ := hb
  simp only [Bool.false_eq_true, if_false] at hmr
  obtain ⟨hsy, hsx, habs⟩ := line_direction s n hn hs d
  have e0 : (0 : Int) = s * ((0 : Nat) : Int) := by simp
  have e0' : (0 : ℚ) = ((0 : Nat) : ℚ) * ((d : ℚ) / (n : ℚ)) := by simp
  cases mr
  · obtain ⟨hdx, hdy⟩ := hcol rfl
    have hja : (if d > 0 then (if s * (n : Int) > 0 then "╮" else "╭")
        else (if s * (n : Int) > 0 then "╯" else "╰")) =
        String.singleton (if d > 0 then (if s * (n : Int) > 0 then '╮' else '╭')
          else (if s * (n : Int) > 0 then '╯' else '╰')) := by
      split_ifs <;> rfl
    have hjb : (if d > 0 then (if s * (n : Int) > 0 then "╰" else "╯")
        else (if s * (n : Int) > 0 then "╭" else "╮")) =
        String.singleton (if d > 0 then (if s * (n : Int) > 0 then '╰' else '╯')
          else (if s * (n : Int) > 0 then '╭' else '╮')) := by
      split_ifs <;> rfl
    obtain ⟨ws, hrun, hch, hpos⟩ := draw_line_smooth_cols_writes ya xa yb s d n
      (if d > 0 then (if s * (n : Int) > 0 then '╮' else '╭')
          else (if s * (n : Int) > 0 then '╯' else '╰'))
      (if d > 0 then (if s * (n : Int) > 0 then '╰' else '╯')
          else (if s * (n : Int) > 0 then '╭' else '╮'))
      hs (by omega) (n + 1) 0 fuel win (by omega) (by omega) (by omega)
    refine ⟨ws, ?_, ?_, ?_⟩
    · unfold draw_line_smooth
      simp only []
      rw [if_neg (fun h => by simpa using hmr.mpr h), hdx, hdy, hsy, hsx, hja, hjb]
      rw [← e0, ← e0'] at hrun
      exact hrun
    · simpa using hch
    · intro p
      rw [hpos p, mem_smooth_cells]
  · obtain ⟨hdy, hdx⟩ := hrow rfl
    have hja : (if d > 0 then (if s * (n : Int) > 0 then "╰" else "╭")
        else (if s * (n : Int) > 0 then "╯" else "╮")) =
        String.singleton (if d > 0 then (if s * (n : Int) > 0 then '╰' else '╭')
          else (if s * (n : Int) > 0 then '╯' else '╮')) := by
      split_ifs <;> rfl
    have hjb : (if d > 0 then (if s * (n : Int) > 0 then "╮" else "╯")
        else (if s * (n : Int) > 0 then "╭" else "╰")) =
        String.singleton (if d > 0 then (if s * (n : Int) > 0 then '╮' else '╯')
          else (if s * (n : Int) > 0 then '╭' else '╰')) := by
      split_ifs <;> rfl
    obtain ⟨ws, hrun, hch, hpos⟩ := draw_line_smooth_rows_writes ya xa xb s d n
      (if d > 0 then (if s * (n : Int) > 0 then '╰' else '╭')
          else (if s * (n : Int) > 0 then '╯' else '╮'))
      (if d > 0 then (if s * (n : Int) > 0 then '╮' else '╯')
          else (if s * (n : Int) > 0 then '╭' else '╰'))
      hs (by omega) (n + 1) 0 fuel win (by omega) (by omega) (by omega)
    refine ⟨ws, ?_, ?_, ?_⟩
    · unfold draw_line_smooth
      simp only []
      rw [if_pos (hmr.mp rfl), hdy, hdx, hsy, hsx, hja, hjb]
      rw [← e0, ← e0'] at hrun
      exact hrun
    · simpa using hch
    · intro p
      rw [hpos p, mem_smooth_cells]

/-! ### Axis-aligned lines -/

/-- With minor span 0 the smooth line has the cells of the stepped line. -/
theorem mem_smooth_cells_of_zero (mr : Bool) (ya xa s : Int) (n : Nat) (p : Int × Int) :
    p ∈ (smooth_offsets s 0 n).map (line_cell mr ya xa) ↔
      p ∈ (stepped_offsets s 0 n).map (line_cell mr ya xa) := by
  rw [mem_smooth_cells, mem_stepped_cells]
  constructor
  · rintro ⟨j, h1, h2, h3 | ⟨h3, _, _⟩⟩
    · exact ⟨j, h1, h2, h3⟩
    · rw [line_minor_of_zero, line_minor_of_zero] at h3
      exact absurd rfl h3
  · rintro ⟨j, h1, h2, h3⟩
    exact ⟨j, h1, h2, Or.inl h3⟩

/-- The glyphs of a blank window after the writes of an axis-aligned line: the one
character of the line in its stepped cells, nothing elsewhere. -/
theorem axis_line_glyphs (h w ya xa s : Int) (n : Nat) (mr : Bool) (g : Char)
    (ws : List ((Int × Int) × Char)) (hn : 1 ≤ n) (hs : s = 1 ∨ s = -1)
    (hstart : 0 ≤ ya ∧ ya < h ∧ 0 ≤ xa ∧ xa < w)
    (hend : 0 ≤ (line_cell mr ya xa (s * n, 0)).1 ∧ (line_cell mr ya xa (s * n, 0)).1 < h ∧
      0 ≤ (line_cell mr ya xa (s * n, 0)).2 ∧ (line_cell mr ya xa (s * n, 0)).2 < w)
    (hch : ∀ t ∈ ws, t.2 = g ∨ (0 : Int) ≠ 0)
    (hpos : ∀ p, p ∈ ws.map Prod.fst ↔ p ∈ (stepped_offsets s 0 n).map (line_cell mr ya xa)) :
    ∀ r c, glyph_at (mvwaddch_list (newwin h w) ws) r c =
      if ∃ j : Nat, j ≤ n ∧ (r, c) = line_cell mr ya xa (s * (j : Int), 0) then some g
      else none := by
  intro r c
  have hfits := stepped_cells_fit h w mr ya xa s 0 n hn hs hstart hend
  have hfit : ∀ t ∈ ws, 0 ≤ t.1.1 ∧ t.1.1 < (newwin h w).height ∧ 0 ≤ t.1.2 ∧
      t.1.2 < (newwin h w).width := fun t ht =>
    hfits t.1 ((hpos t.1).mp (List.mem_map_of_mem Prod.fst ht))
  have hg : ∀ t ∈ ws, t.2 = g := fun t ht => (hch t ht).resolve_right (fun h0 => h0 rfl)
  rw [glyph_at_mvwaddch_list_const g ws (newwin h w) hfit hg r c]
  have hiff : (r, c) ∈ ws.map Prod.fst ↔
      ∃ j : Nat, j ≤ n ∧ (r, c) = line_cell mr ya xa (s * (j : Int), 0) := by
    rw [hpos, mem_stepped_cells]
    constructor
    · rintro ⟨j, _, h2, h3⟩
      rw [line_minor_of_zero] at h3
      exact ⟨j, h2, h3⟩
    · rintro ⟨j, h2, h3⟩
      exact ⟨j, Nat.zero_le j, h2, by rw [line_minor_of_zero]; exact h3⟩
  by_cases hm : (r, c) ∈ ws.map Prod.fst
  · rw [if_pos hm, if_pos (hiff.mp hm)]
  · rw [if_neg hm, if_neg (fun h' => hm (hiff.mpr h'))]
    rfl

/-- The cells `s * j`, `0 ≤ j ≤ n`, from `a` are the cells between `a` and `a + s * n`. -/
theorem between_iff_step (a b s r : Int) (n : Nat) (hs : s = 1 ∨ s = -1) (hb : b - a = s * n) :
    (∃ j : Nat, j ≤ n ∧ r = a + s * (j : Int)) ↔ (a ≤ r ∧ r ≤ b) ∨ (b ≤ r ∧ r ≤ a) := by
  constructor
  · rintro ⟨j, hj, rfl⟩
    rcases hs with rfl | rfl
    · left; constructor <;> omega
    · right; constructor <;> omega
  · intro hr
    rcases hs with rfl | rfl
    · refine ⟨(r - a).toNat, ?_, ?_⟩ <;> omega
    · refine ⟨(a - r).toNat, ?_, ?_⟩ <;> omega
/-- The shape of a vertical line: the rows are the major axis, the minor span is 0. -/
theorem vertical_branch (tie_is_row : Bool) (ya xa yb : Int) (hne : ya ≠ yb) :
    ∃ (s : Int) (n : Nat), is_line_branch tie_is_row true ya xa yb xa s 0 n ∧
      (n : Int) = |yb - ya| := by
  obtain ⟨mr, s, d, n, hb, -, -, -, hmax⟩ :=
    is_line_branch_exists ya xa yb xa tie_is_row (fun h => hne h.1)
  obtain ⟨hn, hs, hd, hmr, hrow, hcol⟩ := hb
  have hpos : 0 < |yb - ya| := abs_pos.mpr (fun h0 => hne (by omega))
  have hmr' : mr = true := by
    rw [hmr, sub_self, abs_zero]
    cases tie_is_row
    · simpa using hpos
    · simp
  subst hmr'
  obtain ⟨hdy, hdx⟩ := hrow rfl
  have hd0 : d = 0 := by omega
  subst hd0
  refine ⟨s, n, ⟨hn, hs, hd, hmr, fun _ => ⟨hdy, hdx⟩, fun h0 => absurd h0 (by decide)⟩, ?_⟩
  rw [hmax, sub_self, abs_zero, max_eq_left (abs_nonneg _)]

/-- The shape of a horizontal line: the columns are the major axis, the minor span
is 0. -/
theorem horizontal_branch (tie_is_row : Bool) (ya xa xb : Int) (hne : xa ≠ xb) :
    ∃ (s : Int) (n : Nat), is_line_branch tie_is_row false ya xa ya xb s 0 n ∧
      (n : Int) = |xb - xa| := by
  obtain ⟨mr, s, d, n, hb, -, -, -, hmax⟩ :=
    is_line_branch_exists ya xa ya xb tie_is_row (fun h => hne h.2)
  obtain ⟨hn, hs, hd, hmr, hrow, hcol⟩ := hb
  have hpos : 0 < |xb - xa| := abs_pos.mpr (fun h0 => hne (by omega))
  have hmr' : mr = false := by
    cases mr
    · rfl
    · have := hmr.mp rfl
      rw [sub_self, abs_zero] at this
      cases tie_is_row
      · simp only [Bool.false_eq_true, if_false] at this
        exact absurd this (not_lt.mpr hpos.le)
      · simp only [if_true] at this
        exact absurd this (not_le.mpr hpos)
  subst hmr'
  obtain ⟨hdx, hdy⟩ := hcol rfl
  have hd0 : d = 0 := by omega
  subst hd0
  refine ⟨s, n, ⟨hn, hs, hd, hmr, fun h0 => absurd h0 (by decide), fun _ => ⟨hdx, hdy⟩⟩, ?_⟩
  rw [hmax, sub_self, abs_zero, max_eq_right (abs_nonneg _)]

/-- C22 (axis-aligned segments). On a blank window that holds both end cells: for a
vertical segment (same column, different rows) `draw_line_ASCII` ends and leaves `|`,
and `draw_line_smooth` ends and leaves `│`, in exactly the cells of that column
between the two rows inclusive; for a horizontal segment (same row, different columns)
they leave `-` and `─` in exactly the cells of that row between the two columns
inclusive. Every other cell is blank, and the end cells may come in either order. -/
theorem draw_line_axis_aligned (h w ya xa yb xb : Int) (fuel : Nat)
    (hstart : 0 ≤ ya ∧ ya < h ∧ 0 ≤ xa ∧ xa < w) (hend : 0 ≤ yb ∧ yb < h ∧ 0 ≤ xb ∧ xb < w)
    (hfuel : max |yb - ya| |xb - xa| + 2 ≤ fuel) :
    (xa = xb → ya ≠ yb →
      (∃ win, draw_line_ASCII fuel (newwin h w) ya xa yb xb = some win ∧
        ∀ r c, glyph_at win r c =
          if c = xa ∧ ((ya ≤ r ∧ r ≤ yb) ∨ (yb ≤ r ∧ r ≤ ya)) then some '|' else none) ∧
      (∃ win, draw_line_smooth fuel (newwin h w) ya xa yb xb = some win ∧
        ∀ r c, glyph_at win r c =
          if c = xa ∧ ((ya ≤ r ∧ r ≤ yb) ∨ (yb ≤ r ∧ r ≤ ya)) then some '│' else none)) ∧
    (ya = yb → xa ≠ xb →
      (∃ win, draw_line_ASCII fuel (newwin h w) ya xa yb xb = some win ∧
        ∀ r c, glyph_at win r c =
          if r = ya ∧ ((xa ≤ c ∧ c ≤ xb) ∨ (xb ≤ c ∧ c ≤ xa)) then some '-' else none) ∧
      (∃ win, draw_line_smooth fuel (newwin h w) ya xa yb xb = some win ∧
        ∀ r c, glyph_at win r c =
          if r = ya ∧ ((xa ≤ c ∧ c ≤ xb) ∨ (xb ≤ c ∧ c ≤ xa)) then some '─' else none)) := by
  have hfy : |yb - ya| + 2 ≤ fuel := le_trans (by linarith [le_max_left |yb - ya| |xb - xa|]) hfuel
  have hfx : |xb - xa| + 2 ≤ fuel := le_trans (by linarith [le_max_right |yb - ya| |xb - xa|]) hfuel
  constructor
  · intro hx hy
    subst hx
    -- a vertical line, for either rule on ties
    have key : ∀ (tie : Bool) (g : Char) (ws : List ((Int × Int) × Char)) (s : Int) (n : Nat),
        is_line_branch tie true ya xa yb xa s 0 n →
        (∀ t ∈ ws, t.2 = g ∨ (0 : Int) ≠ 0) →
        (∀ p, p ∈ ws.map Prod.fst ↔ p ∈ (stepped_offsets s 0 n).map (line_cell true ya xa)) →
        ∀ r c, glyph_at (mvwaddch_list (newwin h w) ws) r c =
          if c = xa ∧ ((ya ≤ r ∧ r ≤ yb) ∨ (yb ≤ r ∧ r ≤ ya)) then some g else none := by
      intro tie g ws s n hb hch hpos r c
      obtain ⟨hn, hs, -, -, hrow, -⟩ := hb
      obtain ⟨hdy, -⟩ := hrow rfl
      have hend' : 0 ≤ (line_cell true ya xa (s * n, 0)).1 ∧
          (line_cell true ya xa (s * n, 0)).1 < h ∧
          0 ≤ (line_cell true ya xa (s * n, 0)).2 ∧ (line_cell true ya xa (s * n, 0)).2 < w := by
        simp only [line_cell, if_true, add_zero]
        rw [← hdy]
        refine ⟨by omega, by omega, hstart.2.2.1, hstart.2.2.2⟩
      rw [axis_line_glyphs h w ya xa s n true g ws hn hs hstart hend' hch hpos r c]
      have hiff : (∃ j : Nat, j ≤ n ∧ (r, c) = line_cell true ya xa (s * (j : Int), 0)) ↔
          (c = xa ∧ ((ya ≤ r ∧ r ≤ yb) ∨ (yb ≤ r ∧ r ≤ ya))) := by
        rw [← between_iff_step ya yb s r n hs hdy]
        simp only [line_cell, if_true, add_zero, Prod.mk.injEq]
        constructor
        · rintro ⟨j, hj, h1, h2⟩
          exact ⟨h2, j, hj, h1⟩
        · rintro ⟨h2, j, hj, h1⟩
          exact ⟨j, hj, h1, h2⟩
      by_cases hc : c = xa ∧ ((ya ≤ r ∧ r ≤ yb) ∨ (yb ≤ r ∧ r ≤ ya))
      · rw [if_pos hc, if_pos (hiff.mpr hc)]
      · rw [if_neg hc, if_neg (fun h' => hc (hiff.mp h'))]
    constructor
    · obtain ⟨s, n, hb, hnabs⟩ := vertical_branch true ya xa yb hy
      obtain ⟨ws, hrun, hch, hpos⟩ := draw_line_ASCII_writes (newwin h w) ya xa yb xa s 0 n fuel
        true hb (by omega)
      exact ⟨_, hrun, key true '|' ws s n hb (by simpa using hch) hpos⟩
    · obtain ⟨s, n, hb, hnabs⟩ := vertical_branch false ya xa yb hy
      obtain ⟨ws, hrun, hch, hpos⟩ := draw_line_smooth_writes (newwin h w) ya xa yb xa s 0 n fuel
        true hb (by omega)
      exact ⟨_, hrun, key false '│' ws s n hb (by simpa using hch)
        (fun p => by rw [hpos p, mem_smooth_cells_of_zero])⟩
  · intro hy hx
    subst hy
    have key : ∀ (tie : Bool) (g : Char) (ws : List ((Int × Int) × Char)) (s : Int) (n : Nat),
        is_line_branch tie false ya xa ya xb s 0 n →
        (∀ t ∈ ws, t.2 = g ∨ (0 : Int) ≠ 0) →
        (∀ p, p ∈ ws.map Prod.fst ↔ p ∈ (stepped_offsets s 0 n).map (line_cell false ya xa)) →
        ∀ r c, glyph_at (mvwaddch_list (newwin h w) ws) r c =
          if r = ya ∧ ((xa ≤ c ∧ c ≤ xb) ∨ (xb ≤ c ∧ c ≤ xa)) then some g else none := by
      intro tie g ws s n hb hch hpos r c
      obtain ⟨hn, hs, -, -, -, hcol⟩ := hb
      obtain ⟨hdx, -⟩ := hcol rfl
      have hend' : 0 ≤ (line_cell false ya xa (s * n, 0)).1 ∧
          (line_cell false ya xa (s * n, 0)).1 < h ∧
          0 ≤ (line_cell false ya xa (s * n, 0)).2 ∧ (line_cell false ya xa (s * n, 0)).2 < w := by
        simp only [line_cell, Bool.false_eq_true, if_false, add_zero]
        rw [← hdx]
        refine ⟨hstart.1, hstart.2.1, by omega, by omega⟩
      rw [axis_line_glyphs h w ya xa s n false g ws hn hs hstart hend' hch hpos r c]
      have hiff : (∃ j : Nat, j ≤ n ∧ (r, c) = line_cell false ya xa (s * (j : Int), 0)) ↔
          (r = ya ∧ ((xa ≤ c ∧ c ≤ xb) ∨ (xb ≤ c ∧ c ≤ xa))) := by
        rw [← between_iff_step xa xb s c n hs hdx]
        simp only [line_cell, Bool.false_eq_true, if_false, add_zero, Prod.mk.injEq]
        constructor
        · rintro ⟨j, hj, h1, h2⟩
          exact ⟨h1, j, hj, h2⟩
        · rintro ⟨h1, j, hj, h2⟩
          exact ⟨j, hj, h1, h2⟩
      by_cases hc : r = ya ∧ ((xa ≤ c ∧ c ≤ xb) ∨ (xb ≤ c ∧ c ≤ xa))
      · rw [if_pos hc, if_pos (hiff.mpr hc)]
      · rw [if_neg hc, if_neg (fun h' => hc (hiff.mp h'))]
    constructor
    · obtain ⟨s, n, hb, hnabs⟩ := horizontal_branch true ya xa xb hx
      obtain ⟨ws, hrun, hch, hpos⟩ := draw_line_ASCII_writes (newwin h w) ya xa ya xb s 0 n fuel
        false hb (by omega)
      exact ⟨_, hrun, key true '-' ws s n hb (by simpa using hch) hpos⟩
    · obtain ⟨s, n, hb, hnabs⟩ := horizontal_branch false ya xa xb hx
      obtain ⟨ws, hrun, hch, hpos⟩ := draw_line_smooth_writes (newwin h w) ya xa ya xb s 0 n fuel
        false hb (by omega)
      exact ⟨_, hrun, key false '─' ws s n hb (by simpa using hch)
        (fun p => by rw [hpos p, mem_smooth_cells_of_zero])⟩

/-- Witness for `draw_line_axis_aligned`: the column 5 and the row 5 of a window of
11 × 11 cells, each drawn from its far end to its near end. -/
theorem draw_line_axis_aligned_witness :
    ((∃ win, draw_line_ASCII 12 (newwin 11 11) 10 5 0 5 = some win ∧
        ∀ r c, glyph_at win r c =
          if c = 5 ∧ ((10 ≤ r ∧ r ≤ 0) ∨ (0 ≤ r ∧ r ≤ 10)) then some '|' else none) ∧
      (∃ win, draw_line_smooth 12 (newwin 11 11) 10 5 0 5 = some win ∧
        ∀ r c, glyph_at win r c =
          if c = 5 ∧ ((10 ≤ r ∧ r ≤ 0) ∨ (0 ≤ r ∧ r ≤ 10)) then some '│' else none)) ∧
    ((∃ win, draw_line_ASCII 12 (newwin 11 11) 5 10 5 0 = some win ∧
        ∀ r c, glyph_at win r c =
          if r = 5 ∧ ((10 ≤ c ∧ c ≤ 0) ∨ (0 ≤ c ∧ c ≤ 10)) then some '-' else none) ∧
      (∃ win, draw_line_smooth 12 (newwin 11 11) 5 10 5 0 = some win ∧
        ∀ r c, glyph_at win r c =
          if r = 5 ∧ ((10 ≤ c ∧ c ≤ 0) ∨ (0 ≤ c ∧ c ≤ 10)) then some '─' else none)) :=
  ⟨(draw_line_axis_aligned 11 11 10 5 0 5 12 (by decide) (by decide) (by decide)).1 rfl
      (by decide),
    (draw_line_axis_aligned 11 11 5 10 5 0 12 (by decide) (by decide) (by decide)).2 rfl
      (by decide)⟩

/-! ### The path of a smooth line -/

/-- The offsets of a smooth line from step `k` on, `m` steps: they are all different,
each shares an edge with the next, they start at the stepped cell of step `k` and end
at the last stepped cell. -/
theorem smooth_offsets_from (s d : Int) (n : Nat) (hn : 1 ≤ n) (hs : s = 1 ∨ s = -1)
    (hd : |d| ≤ n) (m : Nat) :
    ∀ k : Nat, k + m = n + 1 →
      (∀ p ∈ (List.range' k m).flatMap (fun j : Nat =>
          (s * (j : Int), line_minor d n j) ::
            (if line_minor d n j ≠ line_minor d n (j + 1) ∧ line_minor d n j ≠ d
              then [(s * (j : Int), line_minor d n (j + 1))] else [])),
        ∃ j : Nat, k ≤ j ∧ j ≤ n ∧ p.1 = s * (j : Int)) ∧
      ((List.range' k m).flatMap (fun j : Nat =>
          (s * (j : Int), line_minor d n j) ::
            (if line_minor d n j ≠ line_minor d n (j + 1) ∧ line_minor d n j ≠ d
              then [(s * (j : Int), line_minor d n (j + 1))] else []))).Nodup ∧
      ((List.range' k m).flatMap (fun j : Nat =>
          (s * (j : Int), line_minor d n j) ::
            (if line_minor d n j ≠ line_minor d n (j + 1) ∧ line_minor d n j ≠ d
              then [(s * (j : Int), line_minor d n (j + 1))] else []))).Chain' edge_adjacent ∧
      (1 ≤ m →
        ((List.range' k m).flatMap (fun j : Nat =>
          (s * (j : Int), line_minor d n j) ::
            (if line_minor d n j ≠ line_minor d n (j + 1) ∧ line_minor d n j ≠ d
              then [(s * (j : Int), line_minor d n (j + 1))] else []))).head? =
          some (s * (k : Int), line_minor d n k) ∧
        ((List.range' k m).flatMap (fun j : Nat =>
          (s * (j : Int), line_minor d n j) ::
            (if line_minor d n j ≠ line_minor d n (j + 1) ∧ line_minor d n j ≠ d
              then [(s * (j : Int), line_minor d n (j + 1))] else []))).getLast? =
          some (s * (n : Int), d)) := by
  induction m with
  | zero =>
    intro k _
    refine ⟨by simp, by simp, by simp, fun h => absurd h (by omega)⟩
  | succ m ih =>
    intro k hk
    obtain ⟨ihmem, ihnodup, ihchain, ihends⟩ := ih (k + 1) (by omega)
    rw [List.range'_succ, List.flatMap_cons]
    have hstep := line_minor_step d n k hd
    have hrange := line_minor_range d n k hn (by omega)
    -- the cells of step `k`
    have hmemk : ∀ p ∈ ((s * (k : Int), line_minor d n k) ::
        (if line_minor d n k ≠ line_minor d n (k + 1) ∧ line_minor d n k ≠ d
          then [(s * (k : Int), line_minor d n (k + 1))] else [])), p.1 = s * (k : Int) := by
      intro p hp
      rcases List.mem_cons.mp hp with rfl | hp
      · rfl
      · by_cases hc : line_minor d n k ≠ line_minor d n (k + 1) ∧ line_minor d n k ≠ d
        · rw [if_pos hc, List.mem_singleton] at hp
          rw [hp]
        · rw [if_neg hc] at hp
          exact absurd hp (List.not_mem_nil _)
    have hadj_next : ∀ v : Int, v = line_minor d n (k + 1) →
        edge_adjacent (s * (k : Int), v) (s * ((k + 1 : Nat) : Int), line_minor d n (k + 1)) := by
      intro v hv
      subst hv
      unfold edge_adjacent
      simp only [sub_self, abs_zero, add_zero]
      have e : s * (k : Int) - s * ((k + 1 : Nat) : Int) = -s := by push_cast; ring
      rw [e, abs_neg]
      rcases hs with rfl | rfl <;> simp
    refine ⟨?_, ?_, ?_, fun _ => ⟨?_, ?_⟩⟩
    · intro p hp
      rcases List.mem_append.mp hp with hp | hp
      · exact ⟨k, le_refl _, by omega, hmemk p hp⟩
      · obtain ⟨j, h1, h2, h3⟩ := ihmem p hp
        exact ⟨j, by omega, h2, h3⟩
    · refine List.Nodup.append ?_ ihnodup ?_
      · by_cases hc : line_minor d n k ≠ line_minor d n (k + 1) ∧ line_minor d n k ≠ d
        · rw [if_pos hc]
          refine List.nodup_cons.mpr ⟨?_, List.nodup_singleton _⟩
          rw [List.mem_singleton, Prod.mk.injEq]
          exact fun h => hc.1 h.2
        · rw [if_neg hc]
          exact List.nodup_singleton _
      · intro p hp1 hp2
        have h1 := hmemk p hp1
        obtain ⟨j, h2, _, h3⟩ := ihmem p hp2
        rw [h1] at h3
        rcases hs with rfl | rfl <;> omega
    · refine List.Chain'.append ?_ ihchain ?_
      · by_cases hc : line_minor d n k ≠ line_minor d n (k + 1) ∧ line_minor d n k ≠ d
        · rw [if_pos hc, List.chain'_pair]
          unfold edge_adjacent
          simp only [sub_self, abs_zero, zero_add]
          have h1 := hc.1
          rcases le_total 0 d with h0 | h0
          · have := hstep.1 h0
            rw [abs_of_nonpos (by omega)]
            omega
          · have := hstep.2 h0
            rw [abs_of_nonneg (by omega)]
            omega
        · rw [if_neg hc]
          exact List.chain'_singleton _
      · intro x hx y hy
        by_cases hm : 1 ≤ m
        · rw [(ihends hm).1, Option.mem_def, Option.some.injEq] at hy
          subst hy
          by_cases hc : line_minor d n k ≠ line_minor d n (k + 1) ∧ line_minor d n k ≠ d
          · rw [if_pos hc] at hx
            simp only [List.getLast?_cons_cons, List.getLast?_singleton, Option.mem_def,
              Option.some.injEq] at hx
            subst hx
            exact hadj_next _ rfl
          · rw [if_neg hc] at hx
            simp only [List.getLast?_singleton, Option.mem_def, Option.some.injEq] at hx
            subst hx
            apply hadj_next
            by_cases he : line_minor d n k = line_minor d n (k + 1)
            · exact he
            · have hkd : line_minor d n k = d := by
                by_contra hne
                exact hc ⟨he, hne⟩
              rw [hrange.2.2 (by omega) hkd, hkd]
        · have hm0 : m = 0 := by omega
          subst hm0
          simp at hy
    · rw [List.head?_append, List.head?_cons]
      rfl
    · by_cases hm : 1 ≤ m
      · rw [List.getLast?_append, (ihends hm).2]
        rfl
      · have hm0 : m = 0 := by omega
        subst hm0
        have hkn : k = n := by omega
        subst hkn
        have hlast := line_minor_last d k hn
        rw [List.range'_zero, List.flatMap_nil, List.append_nil, if_neg (fun h => h.2 hlast), hlast]
        rfl

/-- The cells of a smooth line lie in a window that holds both end cells. -/
theorem smooth_cells_fit (h w : Int) (mr : Bool) (ya xa s d : Int) (n : Nat) (hn : 1 ≤ n)
    (hs : s = 1 ∨ s = -1)
    (hstart : 0 ≤ ya ∧ ya < h ∧ 0 ≤ xa ∧ xa < w)
    (hend : 0 ≤ (line_cell mr ya xa (s * n, d)).1 ∧ (line_cell mr ya xa (s * n, d)).1 < h ∧
      0 ≤ (line_cell mr ya xa (s * n, d)).2 ∧ (line_cell mr ya xa (s * n, d)).2 < w) :
    ∀ p ∈ (smooth_offsets s d n).map (line_cell mr ya xa),
      0 ≤ p.1 ∧ p.1 < h ∧ 0 ≤ p.2 ∧ p.2 < w := by
  intro p hp
  rw [mem_smooth_cells] at hp
  obtain ⟨j, _, hj, hp | ⟨_, hjd, hp⟩⟩ := hp
  · subst hp
    have hr := line_minor_range d n j hn hj
    exact line_cell_fits h w ya xa s d _ n j mr hs hstart hend hj hr.1 hr.2.1
  · subst hp
    have hjn : j + 1 ≤ n := by
      by_contra hcon
      have : j = n := by omega
      subst this
      exact hjd (line_minor_last d j hn)
    have hr := line_minor_range d n (j + 1) hn hjn
    exact line_cell_fits h w ya xa s d _ n j mr hs hstart hend hj hr.1 hr.2.1

/-- Moving the offsets of a line to its cells keeps different offsets different and
neighbours neighbours. -/
theorem line_cell_injective (mr : Bool) (ya xa : Int) :
    Function.Injective (line_cell mr ya xa) ∧
      ∀ p q, edge_adjacent (line_cell mr ya xa p) (line_cell mr ya xa q) ↔ edge_adjacent p q := by
  constructor
  · intro p q hpq
    cases mr
    · simp only [line_cell, Bool.false_eq_true, if_false, Prod.mk.injEq] at hpq
      exact Prod.ext (by omega) (by omega)
    · simp only [line_cell, if_true, Prod.mk.injEq] at hpq
      exact Prod.ext (by omega) (by omega)
  · intro p q
    cases mr
    · simp only [line_cell, Bool.false_eq_true, if_false, edge_adjacent]
      rw [add_sub_add_left_eq_sub, add_sub_add_left_eq_sub, add_comm]
    · simp only [line_cell, if_true, edge_adjacent]
      rw [add_sub_add_left_eq_sub, add_sub_add_left_eq_sub]

/-- C29 (the smooth line is one path). Between two different cells of a blank window
that holds both, `draw_line_smooth` ends, and the cells it has written are exactly the
cells of a list without repetition that starts with `p0`, ends with `p1`, and in which
each cell shares an edge with the next: wherever the rounded minor coordinate changes,
the cell beside the stepped cell is written too and bridges the change. -/
theorem draw_line_smooth_connected (h w ya xa yb xb : Int) (fuel : Nat)
    (hne : ¬(ya = yb ∧ xa = xb))
    (hstart : 0 ≤ ya ∧ ya < h ∧ 0 ≤ xa ∧ xa < w) (hend : 0 ≤ yb ∧ yb < h ∧ 0 ≤ xb ∧ xb < w)
    (hfuel : max |yb - ya| |xb - xa| + 2 ≤ fuel) :
    ∃ (win : WINDOW) (path : List (Int × Int)),
      draw_line_smooth fuel (newwin h w) ya xa yb xb = some win ∧
      (∀ p, p ∈ written_cells win ↔ p ∈ path) ∧
      path.Nodup ∧
      path.head? = some (ya, xa) ∧
      path.getLast? = some (yb, xb) ∧
      path.Chain' edge_adjacent := by
  obtain ⟨mr, s, d, n, hb, hp1, -, -, hmax⟩ := is_line_branch_exists ya xa yb xb false hne
  have hf : n + 2 ≤ fuel := by
    have : (n : Int) + 2 ≤ fuel := by rw [hmax]; exact hfuel
    omega
  obtain ⟨ws, hrun, -, hpos⟩ := draw_line_smooth_writes (newwin h w) ya xa yb xb s d n fuel mr hb hf
  obtain ⟨hn, hs, hd, -, -, -⟩ := hb
  have hend' : 0 ≤ (line_cell mr ya xa (s * n, d)).1 ∧ (line_cell mr ya xa (s * n, d)).1 < h ∧
      0 ≤ (line_cell mr ya xa (s * n, d)).2 ∧ (line_cell mr ya xa (s * n, d)).2 < w := by
    rw [← hp1]
    exact hend
  have hfits := smooth_cells_fit h w mr ya xa s d n hn hs hstart hend'
  have hfit : ∀ t ∈ ws, 0 ≤ t.1.1 ∧ t.1.1 < h ∧ 0 ≤ t.1.2 ∧ t.1.2 < w := fun t ht =>
    hfits t.1 ((hpos t.1).mp (List.mem_map_of_mem Prod.fst ht))
  obtain ⟨-, hnodup, hchain, hends⟩ := smooth_offsets_from s d n hn hs hd (n + 1) 0 (by omega)
  obtain ⟨hhead, hlast⟩ := hends (by omega)
  have hoff : smooth_offsets s d n = (List.range' 0 (n + 1)).flatMap (fun j : Nat =>
      (s * (j : Int), line_minor d n j) ::
        (if line_minor d n j ≠ line_minor d n (j + 1) ∧ line_minor d n j ≠ d
          then [(s * (j : Int), line_minor d n (j + 1))] else [])) := by
    rw [smooth_offsets, List.range_eq_range']
  rw [← hoff] at hnodup hchain hhead hlast
  obtain ⟨hinj, hadj⟩ := line_cell_injective mr ya xa
  refine ⟨mvwaddch_list (newwin h w) ws, (smooth_offsets s d n).map (line_cell mr ya xa), hrun,
    ?_, ?_, ?_, ?_, ?_⟩
  · intro p
    rw [written_cells_mvwaddch_list h w ws hfit p, hpos p]
  · exact List.Nodup.map hinj hnodup
  · rw [List.head?_map, hhead, Option.map_some', line_minor_zero]
    cases mr <;> simp [line_cell]
  · rw [List.getLast?_map, hlast, Option.map_some', hp1]
  · rw [List.chain'_map]
    exact List.Chain'.imp (fun p q hpq => (hadj p q).mpr hpq) hchain

/-- Witness for `draw_line_smooth_connected`: the line from `(2, 3)` to `(5, 10)` in a
window of 20 × 20 cells. -/
theorem draw_line_smooth_connected_witness :
    ∃ (win : WINDOW) (path : List (Int × Int)),
      draw_line_smooth 9 (newwin 20 20) 2 3 5 10 = some win ∧
      (∀ p, p ∈ written_cells win ↔ p ∈ path) ∧
      path.Nodup ∧
      path.head? = some (2, 3) ∧
      path.getLast? = some (5, 10) ∧
      path.Chain' edge_adjacent :=
  draw_line_smooth_connected 20 20 2 3 5 10 9 (by decide) (by decide) (by decide) (by decide)

/-! ### The ellipse -/

/-- C31 (the error term of `draw_ellipse`). On the ellipse with `rad_y = 2` and
`rad_x = 3` the boundary point `(y, x) = (0, 3)` is a zero of the implicit ellipse
function `rad_y² x² + rad_x² y² - rad_x² rad_y²`, but `ellipse_error` returns `-14`
there, and at the other vertex `(2, 0)` it returns `-19`: the code adds the squares
that the implicit function multiplies. -/
theorem ellipse_error_not_implicit :
    ellipse_error 0 3 2 3 = -14 ∧ implicit_ellipse 0 3 2 3 = 0 ∧
    ellipse_error 2 0 2 3 = -19 ∧ implicit_ellipse 2 0 2 3 = 0 := by
  decide

/-- The value `(int)sqrt(q)` is never negative. -/
theorem c_int_sqrt_nonneg (q : ℚ) : 0 ≤ c_int_sqrt q :=
  Int.ofNat_nonneg _

/-- The first loop of `draw_ellipse` is left at once when `magicY` is not negative. -/
theorem draw_ellipse_first_skipped (center_y center_x rad_y rad_x magicY : Int)
    (no_unicode : Bool) (hm : 0 ≤ magicY) (fuel : Nat) (x : Int) (win : WINDOW) :
    draw_ellipse_first center_y center_x rad_y rad_x magicY no_unicode (fuel + 1) 0 x 0 x win =
      some (0, x, 0, x, win) := by
  rw [draw_ellipse_first, if_neg (by omega)]

/-- With fuel, `draw_ellipse` is its second loop started at `(0, rad_x)`. -/
theorem draw_ellipse_eq_second (fuel : Nat) (win : WINDOW) (center_y center_x rad_y rad_x : Int)
    (no_unicode : Bool) :
    draw_ellipse (fuel + 1) win center_y center_x rad_y rad_x no_unicode =
      draw_ellipse_second center_y center_x rad_y rad_x no_unicode (fuel + 1) 0 rad_x 0 rad_x
        win := by
  unfold draw_ellipse
  simp only []
  rw [draw_ellipse_first_skipped _ _ _ _ _ _ (c_int_sqrt_nonneg _)]

set_option maxRecDepth 8000 in
theorem draw_ellipse_second_sample (fuel : Nat) :
    ∃ w, draw_ellipse_second 10 10 2 4 true (fuel + 5) 0 4 0 4 (newwin 24 80) = some w ∧
      glyph_at w 7 11 = some '\\' := by
  exact ⟨_, rfl, rfl⟩

/-- C39 (the ellipse and its radii). `draw_ellipse` with centre `(10, 10)`, `rad_y = 2`
and `rad_x = 4` on a blank 24 × 80 window, in ASCII mode, ends with any fuel of 5 or more
and has written a `\` in cell `(7, 11)`, whose row is 3 away from the centre row: more
than `rad_y`. -/
theorem draw_ellipse_leaves_its_radii (fuel : Nat) :
    ∃ w, draw_ellipse (fuel + 5) (newwin 24 80) 10 10 2 4 true = some w ∧
      glyph_at w 7 11 = some '\\' ∧ (2 : Int) < |7 - 10| := by
  obtain ⟨w, hw, hg⟩ := draw_ellipse_second_sample fuel
  refine ⟨w, ?_, hg, by decide⟩
  rw [draw_ellipse_eq_second (fuel + 4)]
  exact hw

/-! ### The step of the azimuthal grid -/

/-- A value of at least 9.5 does not round below 10. -/
theorem c_round_ge_ten {x : ℝ} (h : 9.5 ≤ x) : ¬ c_round x < 10 := by
  have h1 := c_round_mono h
  have e : c_round (9.5 : ℝ) = 10 := by
    unfold c_round
    rw [if_pos (by norm_num), Int.floor_eq_iff]
    constructor <;> norm_num
  omega

/-- A value below 9.5 rounds below 10. -/
theorem c_round_lt_ten {x : ℝ} (h : x < 9.5) : c_round x < 10 := by
  unfold c_round
  split_ifs with h0
  · rw [Int.floor_lt]
    norm_num at h ⊢
    linarith
  · have : ⌈x - 1 / 2⌉ ≤ 0 := by
      rw [Int.ceil_le]
      push_neg at h0
      norm_num
      linarith
    omega

/-- The sine of 15° is above 0.2573. -/
theorem sin_fifteen_degrees : (0.2573 : ℝ) < Real.sin (15 * (Real.pi / 180)) := by
  have h1 := Real.pi_gt_d4
  have h2 := Real.pi_lt_d4
  have hx0 : 0 < 15 * (Real.pi / 180) := by positivity
  have hx1 : 15 * (Real.pi / 180) ≤ 1 := by linarith
  have h := Real.sin_gt_sub_cube hx0 hx1
  have lo : (0.26179 : ℝ) < 15 * (Real.pi / 180) := by linarith
  have hi : 15 * (Real.pi / 180) < (0.2618 : ℝ) := by linarith
  have cube : (15 * (Real.pi / 180)) ^ 3 < (0.2618 : ℝ) ^ 3 :=
    pow_lt_pow_left₀ hi hx0.le (by norm_num)
  norm_num at cube ⊢
  linarith

/-- The sine of a step of 15° to 90° is above 0.2573. -/
theorem sin_step_ge (inc : ℝ) (h0 : 15 ≤ inc) (h1 : inc ≤ 90) :
    (0.2573 : ℝ) < Real.sin (inc * (Real.pi / 180)) := by
  have hpi := Real.pi_pos
  refine lt_of_lt_of_le sin_fifteen_degrees ?_
  apply Real.sin_le_sin_of_le_of_le_pi_div_two
  · linarith
  · nlinarith
  · nlinarith

/-- The sine of 10° is below 0.17454. -/
theorem sin_ten_degrees : Real.sin (10 * (Real.pi / 180)) < (0.17454 : ℝ) := by
  have h2 := Real.pi_lt_d4
  have hx0 : 0 < 10 * (Real.pi / 180) := by positivity
  have h := Real.sin_lt hx0
  linarith

/-- The loop that sets the step size reads `step_sizes[-1]` for every vertical radius
from 37 to 54: the steps of 90°, 45°, 30° and 15° reach 10 rows, the step of 10° does
not, and the index 0 is decremented. -/
theorem grid_increment_loop_outside (rad_vertical : Int) (h0 : 37 ≤ rad_vertical)
    (h1 : rad_vertical ≤ 54) (inc : Int) :
    grid_increment_loop real_libm rad_vertical 5 inc = none := by
  have r0 : (37 : ℝ) ≤ (rad_vertical : ℝ) := by exact_mod_cast h0
  have r1 : (rad_vertical : ℝ) ≤ 54 := by exact_mod_cast h1
  have big : ∀ s : ℝ, 15 ≤ s → s ≤ 90 →
      ¬ c_round ((rad_vertical : ℝ) * Real.sin (s * (Real.pi / 180.0))) < 10 := by
    intro s hs0 hs1
    apply c_round_ge_ten
    have hs := sin_step_ge s hs0 hs1
    norm_num at hs ⊢
    nlinarith
  have small : c_round ((rad_vertical : ℝ) * Real.sin (10 * (Real.pi / 180.0))) < 10 := by
    apply c_round_lt_ten
    have hs := sin_ten_degrees
    have hp : 0 < Real.sin (10 * (Real.pi / 180)) :=
      Real.sin_pos_of_pos_of_lt_pi (by positivity) (by linarith [Real.pi_pos])
    norm_num at hs hp ⊢
    nlinarith
  have a4 : step_sizes_at ((4 : Nat) : Int) = some 90 := rfl
  have a3 : step_sizes_at ((3 : Nat) : Int) = some 45 := rfl
  have a2 : step_sizes_at ((2 : Nat) : Int) = some 30 := rfl
  have a1 : step_sizes_at ((1 : Nat) : Int) = some 15 := rfl
  have a0 : step_sizes_at ((0 : Nat) : Int) = some 10 := rfl
  have am : step_sizes_at (((0 : Nat) : Int) - 1) = none := rfl
  rw [grid_increment_loop, a4]
  simp only [real_libm]
  rw [if_neg (by have := big 90 (by norm_num) (by norm_num); exact_mod_cast this)]
  rw [grid_increment_loop, a3]
  simp only []
  rw [if_neg (by have := big 45 (by norm_num) (by norm_num); exact_mod_cast this)]
  rw [grid_increment_loop, a2]
  simp only []
  rw [if_neg (by have := big 30 (by norm_num) (by norm_num); exact_mod_cast this)]
  rw [grid_increment_loop, a1]
  simp only []
  rw [if_neg (by have := big 15 (by norm_num) (by norm_num); exact_mod_cast this)]
  rw [grid_increment_loop, a0]
  simp only []
  rw [if_pos (by exact_mod_cast small), am]

/-- C40 (the reads of `step_sizes`). In a window of 81 rows the vertical radius is 40;
the step of 15° spans `round (40 sin 15°) = 10` rows and the step of 10° only
`round (40 sin 10°) = 7`, so the loop decrements the index 0 and reads `step_sizes[-1]`,
outside the array: no increment of the table is chosen. -/
theorem grid_increment_reads_outside_step_sizes (width : Int) :
    c_round ((((newwin 81 width).height - 1 : Int) : ℝ) / 2.0) = 40 ∧
    c_round ((40 : ℝ) * Real.sin (15 * (Real.pi / 180))) = 10 ∧
    c_round ((40 : ℝ) * Real.sin (10 * (Real.pi / 180))) = 7 ∧
    step_sizes_at (0 - 1) = none ∧
    grid_increment real_libm (newwin 81 width) = none := by
  have e40 : c_round ((((newwin 81 width).height - 1 : Int) : ℝ) / 2.0) = 40 := by
    have e : (((newwin 81 width).height - 1 : Int) : ℝ) / 2.0 = ((40 : Int) : ℝ) := by
      simp only [newwin]
      norm_num
    rw [e, c_round_int]
  refine ⟨e40, ?_, ?_, rfl, ?_⟩
  · have lo := sin_fifteen_degrees
    have hi : Real.sin (15 * (Real.pi / 180)) < 0.2618 := by
      have h2 := Real.pi_lt_d4
      have h := Real.sin_lt (x := 15 * (Real.pi / 180)) (by positivity)
      linarith
    unfold c_round
    rw [if_pos (by norm_num at lo ⊢; nlinarith), Int.floor_eq_iff]
    norm_num at lo hi ⊢
    constructor <;> linarith
  · have hi := sin_ten_degrees
    have lo : (0.17 : ℝ) < Real.sin (10 * (Real.pi / 180)) := by
      have h1 := Real.pi_gt_d4
      have h2 := Real.pi_lt_d4
      have hx0 : 0 < 10 * (Real.pi / 180) := by positivity
      have h := Real.sin_gt_sub_cube hx0 (by linarith)
      have hx : 10 * (Real.pi / 180) < (0.17454 : ℝ) := by linarith
      have cube : (10 * (Real.pi / 180)) ^ 3 < (0.17454 : ℝ) ^ 3 :=
        pow_lt_pow_left₀ hx hx0.le (by norm_num)
      norm_num at cube ⊢
      linarith
    unfold c_round
    rw [if_pos (by norm_num at lo ⊢; nlinarith), Int.floor_eq_iff]
    norm_num at lo hi ⊢
    constructor <;> linarith
  · unfold grid_increment
    simp only []
    rw [e40]
    exact grid_increment_loop_outside 40 (by norm_num) (by norm_num) 0

/-! ### The Earth rotation angle and the reference form -/

/-- C32 (the Earth rotation angle and the IERS reference form). For every Julian date
`jd`, whatever the value of `M_PI`: the angle before normalisation, built from the day
fraction `jd - floor jd` and the rate `0.00273781191135448`, differs from the reference
`2π (0.7790572732640 + 1.00273781191135448 (jd - 2451545.0))` by the whole number
`2451545 - floor jd` of turns, and the result of `earth_rotation_angle_rad` differs from
the reference by a whole number of turns. -/
theorem earth_rotation_angle_rad_reference {α : Type} [LinearOrderedField α] [FloorRing α]
    (lib : Libm α) (jd : α) :
    2.0 * lib.M_PI * (jd - (c_floor jd : α) + 0.7790572732640 +
        0.00273781191135448 * (jd - 2451545.0)) =
      2 * lib.M_PI * (0.7790572732640 + 1.00273781191135448 * (jd - 2451545.0)) +
        ((2451545 - c_floor jd : Int) : α) * (2 * lib.M_PI) ∧
    ∃ k : Int, earth_rotation_angle_rad lib jd =
      2 * lib.M_PI * (0.7790572732640 + 1.00273781191135448 * (jd - 2451545.0)) +
        (k : α) * (2 * lib.M_PI) := by
  have split : 2.0 * lib.M_PI * (jd - (c_floor jd : α) + 0.7790572732640 +
        0.00273781191135448 * (jd - 2451545.0)) =
      2 * lib.M_PI * (0.7790572732640 + 1.00273781191135448 * (jd - 2451545.0)) +
        ((2451545 - c_floor jd : Int) : α) * (2 * lib.M_PI) := by
    push_cast
    ring
  refine ⟨split, ?_⟩
  unfold earth_rotation_angle_rad norm_rad
  simp only []
  obtain ⟨n, hn⟩ := c_fmod_eq_sub_mul (2.0 * lib.M_PI * (jd - (c_floor jd : α) +
    0.7790572732640 + 0.00273781191135448 * (jd - 2451545.0))) (2 * lib.M_PI)
  rw [hn, split]
  split_ifs with h
  · refine ⟨2451545 - c_floor jd - n + 1, ?_⟩
    push_cast
    ring
  · refine ⟨2451545 - c_floor jd - n, ?_⟩
    push_cast
    ring

/-! ### The day number is a continuous day count -/

/-- The day before the first of a month from February to December is the last day of
the month before. -/
theorem julian_day_num_of_month_start (y m : Int) (hy : -4712 ≤ y) (hm0 : 2 ≤ m)
    (hm1 : m ≤ 12) :
    julian_day_num_of y m 1 - 1 = julian_day_num_of y (m - 1) (days_in_month y (m - 2)) := by
  have hp := days_in_month_pos y (m - 2)
  have hdim := days_in_month_cases y (m - 2)
  obtain ⟨a, ha⟩ : ∃ a : Int, (m ≤ 2 ∧ a = -1) ∨ (3 ≤ m ∧ a = 0) := by
    by_cases h : m ≤ 2
    · exact ⟨-1, Or.inl ⟨h, rfl⟩⟩
    · exact ⟨0, Or.inr ⟨by omega, rfl⟩⟩
  obtain ⟨b, hb⟩ : ∃ b : Int, (m - 1 ≤ 2 ∧ b = -1) ∨ (3 ≤ m - 1 ∧ b = 0) := by
    by_cases h : m - 1 ≤ 2
    · exact ⟨-1, Or.inl ⟨h, rfl⟩⟩
    · exact ⟨0, Or.inr ⟨by omega, rfl⟩⟩
  have h1 := julian_day_num_of_eq y m 1 a (by omega) (by omega) hm1 ha
  have h2 := julian_day_num_of_eq y (m - 1) (days_in_month y (m - 2)) b (by omega)
    (by omega) (by omega) hb
  rcases (by omega : m = 2 ∨ m = 3 ∨ m = 4 ∨ m = 5 ∨ m = 6 ∨ m = 7 ∨ m = 8 ∨
    m = 9 ∨ m = 10 ∨ m = 11 ∨ m = 12) with h | h | h | h | h | h | h | h | h | h | h <;>
  subst h <;> rcases ha with ⟨ha1, rfl⟩ | ⟨ha1, rfl⟩ <;>
  rcases hb with ⟨hb1, rfl⟩ | ⟨hb1, rfl⟩ <;>
  first
  | omega
  | exact march_first_aux y _ _ _ h1 h2 (by
      rcases hdim with ⟨_, hl, hD⟩ | ⟨_, hl, hD⟩ | ⟨hc, _⟩ | ⟨hc, _⟩
      · exact Or.inl ⟨hl, hD⟩
      · exact Or.inr ⟨hl, hD⟩
      · omega
      · omega)

/-- The day before 1 January is 31 December of the year before. -/
theorem julian_day_num_of_year_start (y : Int) (hy : -4711 ≤ y) :
    julian_day_num_of y 1 1 - 1 = julian_day_num_of (y - 1) 12 31 := by
  have h1 := julian_day_num_of_eq y 1 1 (-1) (by omega) (by omega) (by omega)
    (Or.inl ⟨by omega, rfl⟩)
  have h2 := julian_day_num_of_eq (y - 1) 12 31 0 (by omega) (by omega) (by omega)
    (Or.inr ⟨by omega, rfl⟩)
  rw [show y - 1 + 4900 + 0 = y + 4900 + -1 by ring] at h2
  omega

/-- The day number of the next calendar day is one more, and the next calendar day is a
valid date. -/
theorem next_calendar_day_spec (y m d : Int) (hy : -4712 ≤ y) (hm0 : 1 ≤ m) (hm1 : m ≤ 12)
    (hd0 : 1 ≤ d) (hd1 : d ≤ days_in_month y (m - 1)) :
    ∃ y' m' d', next_calendar_day y m d = (y', m', d') ∧
      julian_day_num_of y' m' d' = julian_day_num_of y m d + 1 ∧
      y ≤ y' ∧ 1 ≤ m' ∧ m' ≤ 12 ∧ 1 ≤ d' ∧ d' ≤ days_in_month y' (m' - 1) ∧
      (y < y' ∨ (y = y' ∧ (m < m' ∨ (m = m' ∧ d < d')))) := by
  unfold next_calendar_day
  by_cases h : d < days_in_month y (m - 1)
  · rw [if_pos h]
    refine ⟨y, m, d + 1, rfl, ?_, le_refl _, hm0, hm1, by omega, by omega, by omega⟩
    unfold julian_day_num_of
    simp only []
    ring
  · rw [if_neg h]
    have hd : d = days_in_month y (m - 1) := by omega
    by_cases hm : m < 12
    · rw [if_pos hm]
      have hp := days_in_month_pos y (m + 1 - 1)
      refine ⟨y, m + 1, 1, rfl, ?_, le_refl _, by omega, by omega, by omega, by omega, by omega⟩
      have e := julian_day_num_of_month_start y (m + 1) hy (by omega) (by omega)
      rw [show m + 1 - 1 = m by ring, show m + 1 - 2 = m - 1 by ring, ← hd] at e
      omega
    · rw [if_neg hm]
      have hm' : m = 12 := by omega
      subst hm'
      have hdim := days_in_month_cases y (12 - 1)
      have hp := days_in_month_pos (y + 1) (1 - 1)
      refine ⟨y + 1, 1, 1, rfl, ?_, by omega, by omega, by omega, by omega, by omega, by omega⟩
      have e := julian_day_num_of_year_start (y + 1) (by omega)
      rw [show y + 1 - 1 = y by ring] at e
      have hd' : d = 31 := by omega
      subst hd'
      omega

/-- Every later day number is the day number of a valid date that is not earlier in the
calendar. -/
theorem later_day_numbers (k : Nat) :
    ∀ y m d : Int, -4712 ≤ y → 1 ≤ m → m ≤ 12 → 1 ≤ d → d ≤ days_in_month y (m - 1) →
      ∃ y' m' d', julian_day_num_of y' m' d' = julian_day_num_of y m d + k ∧
        -4712 ≤ y' ∧ 1 ≤ m' ∧ m' ≤ 12 ∧ 1 ≤ d' ∧ d' ≤ days_in_month y' (m' - 1) ∧
        (y < y' ∨ (y = y' ∧ (m < m' ∨ (m = m' ∧ d ≤ d')))) := by
  induction k with
  | zero =>
    intro y m d hy hm0 hm1 hd0 hd1
    exact ⟨y, m, d, by simp, hy, hm0, hm1, hd0, hd1, by omega⟩
  | succ k ih =>
    intro y m d hy hm0 hm1 hd0 hd1
    obtain ⟨y1, m1, d1, _, e1, hy1, a1, a2, a3, a4, o1⟩ :=
      next_calendar_day_spec y m d hy hm0 hm1 hd0 hd1
    obtain ⟨y2, m2, d2, e2, hy2, b1, b2, b3, b4, o2⟩ := ih y1 m1 d1 (by omega) a1 a2 a3 a4
    refine ⟨y2, m2, d2, ?_, hy2, b1, b2, b3, b4, by omega⟩
    rw [e2, e1]
    push_cast
    ring

/-- The day number is strictly increasing in the calendar date. -/
theorem julian_day_num_of_strict_mono (y m d y' m' d' : Int) (hy : -4712 ≤ y)
    (hm0 : 1 ≤ m) (hm1 : m ≤ 12) (hd0 : 1 ≤ d) (hd1 : d ≤ days_in_month y (m - 1))
    (hy' : -4712 ≤ y') (hm0' : 1 ≤ m') (hm1' : m' ≤ 12) (hd0' : 1 ≤ d')
    (hd1' : d' ≤ days_in_month y' (m' - 1))
    (hlt : y < y' ∨ (y = y' ∧ (m < m' ∨ (m = m' ∧ d < d')))) :
    julian_day_num_of y m d < julian_day_num_of y' m' d' := by
  by_contra hge
  obtain ⟨k, hk⟩ : ∃ k : Nat, julian_day_num_of y m d = julian_day_num_of y' m' d' + k :=
    ⟨(julian_day_num_of y m d - julian_day_num_of y' m' d').toNat, by omega⟩
  obtain ⟨y2, m2, d2, e2, hy2, b1, b2, b3, b4, o2⟩ :=
    later_day_numbers k y' m' d' hy' hm0' hm1' hd0' hd1'
  have g1 := gregorian_of_julian_day_num y m d (by omega) hm0 hm1 hd0 hd1
  have g2 := gregorian_of_julian_day_num y2 m2 d2 (by omega) b1 b2 b3 b4
  rw [e2, ← hk, g1] at g2
  simp only [Prod.mk.injEq] at g2
  omega

/-- C37 (the day number is a continuous day count). For every valid date of the
Gregorian calendar from year 1 to year 9999, the day number that
`datetime_to_julian_date` computes for the next calendar day is exactly one more; and
of two valid calendar instants of these years, the earlier has the smaller Julian
date. -/
theorem julian_day_number_continuous :
    (∀ y m d : Int, 1 ≤ y → y ≤ 9999 → 1 ≤ m → m ≤ 12 → 1 ≤ d → d ≤ days_in_month y (m - 1) →
      julian_day_num_of (next_calendar_day y m d).1 (next_calendar_day y m d).2.1
        (next_calendar_day y m d).2.2 = julian_day_num_of y m d + 1) ∧
    (∀ s t : tm, valid_instant s → valid_instant t →
      1 ≤ s.tm_year + 1900 → s.tm_year + 1900 ≤ 9999 →
      1 ≤ t.tm_year + 1900 → t.tm_year + 1900 ≤ 9999 → earlier_instant s t →
      datetime_to_julian_date s < datetime_to_julian_date t) := by
  constructor
  · intro y m d hy0 _ hm0 hm1 hd0 hd1
    obtain ⟨y1, m1, d1, e, h, _⟩ := next_calendar_day_spec y m d (by omega) hm0 hm1 hd0 hd1
    rw [e]
    exact h
  · intro s t hs ht hs0 _ ht0 _ hlt
    obtain ⟨s1, s2, s3, s4, s5, s6, s7, s8, s9, s10⟩ := hs
    obtain ⟨t1, t2, t3, t4, t5, t6, t7, t8, t9, t10⟩ := ht
    unfold earlier_instant at hlt
    unfold datetime_to_julian_date
    simp only []
    by_cases hday : s.tm_year < t.tm_year ∨ (s.tm_year = t.tm_year ∧ (s.tm_mon < t.tm_mon ∨
        (s.tm_mon = t.tm_mon ∧ s.tm_mday < t.tm_mday)))
    · have hJ := julian_day_num_of_strict_mono (s.tm_year + 1900) (s.tm_mon + 1) s.tm_mday
        (t.tm_year + 1900) (t.tm_mon + 1) t.tm_mday (by omega) (by omega) (by omega) s9
        (by rw [show s.tm_mon + 1 - 1 = s.tm_mon by ring]; exact s10)
        (by omega) (by omega) (by omega) t9
        (by rw [show t.tm_mon + 1 - 1 = t.tm_mon by ring]; exact t10) (by omega)
      have hJ' : ((julian_day_num_of (s.tm_year + 1900) (s.tm_mon + 1) s.tm_mday : Int) : ℚ) + 1 ≤
          ((julian_day_num_of (t.tm_year + 1900) (t.tm_mon + 1) t.tm_mday : Int) : ℚ) := by
        exact_mod_cast hJ
      have c1 : (s.tm_sec : ℚ) ≤ 59 := by exact_mod_cast s2
      have c2 : (s.tm_min : ℚ) ≤ 59 := by exact_mod_cast s4
      have c3 : (s.tm_hour : ℚ) ≤ 23 := by exact_mod_cast s6
      have c4 : (0 : ℚ) ≤ (t.tm_sec : ℚ) := by exact_mod_cast t1
      have c5 : (0 : ℚ) ≤ (t.tm_min : ℚ) := by exact_mod_cast t3
      have c6 : (0 : ℚ) ≤ (t.tm_hour : ℚ) := by exact_mod_cast t5
      push_cast
      linarith
    · have hd : s.tm_year = t.tm_year ∧ s.tm_mon = t.tm_mon ∧ s.tm_mday = t.tm_mday := by
        omega
      obtain ⟨e1, e2, e3⟩ := hd
      rw [e1, e2, e3]
      have hsec : 3600 * s.tm_hour + 60 * s.tm_min + s.tm_sec + 1 ≤
          3600 * t.tm_hour + 60 * t.tm_min + t.tm_sec := by omega
      have hsec' : 3600 * (s.tm_hour : ℚ) + 60 * (s.tm_min : ℚ) + (s.tm_sec : ℚ) + 1 ≤
          3600 * (t.tm_hour : ℚ) + 60 * (t.tm_min : ℚ) + (t.tm_sec : ℚ) := by
        exact_mod_cast hsec
      push_cast
      linarith

/-- Witness for `julian_day_number_continuous`: 28 February 1900 (not a leap year) is
followed by 1 March 1900, 28 February 2000 by 29 February 2000, and 31 December 1999 by
1 January 2000, each with the next day number; and 1999-12-31 23:59:59 has a smaller
Julian date than 2000-01-01 00:00:00. -/
theorem julian_day_number_continuous_witness :
    julian_day_num_of 1900 3 1 = julian_day_num_of 1900 2 28 + 1 ∧
    julian_day_num_of 2000 2 29 = julian_day_num_of 2000 2 28 + 1 ∧
    julian_day_num_of 2000 1 1 = julian_day_num_of 1999 12 31 + 1 ∧
    datetime_to_julian_date
        { tm_sec := 59, tm_min := 59, tm_hour := 23, tm_mday := 31, tm_mon := 11, tm_year := 99 } <
      datetime_to_julian_date
        { tm_sec := 0, tm_min := 0, tm_hour := 0, tm_mday := 1, tm_mon := 0, tm_year := 100 } :=
  ⟨julian_day_number_continuous.1 1900 2 28 (by decide) (by decide) (by decide) (by decide)
      (by decide) (by decide),
    julian_day_number_continuous.1 2000 2 28 (by decide) (by decide) (by decide) (by decide)
      (by decide) (by decide),
    julian_day_number_continuous.1 1999 12 31 (by decide) (by decide) (by decide) (by decide)
      (by decide) (by decide),
    julian_day_number_continuous.2 _ _ (by unfold valid_instant; decide)
      (by unfold valid_instant; decide) (by decide) (by decide) (by decide) (by decide)
      (Or.inl (by decide))⟩

/-! ### The distance of a planet from the Sun -/

/-- The rotation by the argument of periapsis `w`, the inclination `I` and the node `O`
keeps the length of a vector of the orbital plane: an identity between the sines and
cosines of the three angles. -/
theorem orbit_rotation_length (xp yp sw cw sO cO sI cI : ℝ) (hw : sw ^ 2 + cw ^ 2 = 1)
    (hO : sO ^ 2 + cO ^ 2 = 1) (hI : sI ^ 2 + cI ^ 2 = 1) :
    ((cw * cO - sw * sO * cI) * xp + (-sw * cO - cw * sO * cI) * yp) ^ 2 +
      ((cw * sO + sw * cO * cI) * xp + (-sw * sO + cw * cO * cI) * yp) ^ 2 +
      ((sw * sI) * xp + (cw * sI) * yp) ^ 2 = xp ^ 2 + yp ^ 2 := by
  linear_combination (xp ^ 2 + yp ^ 2) * hw +
    (xp ^ 2 * sw ^ 2 + yp ^ 2 * cw ^ 2 + 2 * xp * yp * sw * cw) * hI +
    (xp ^ 2 * (cw ^ 2 + sw ^ 2 * cI ^ 2) + yp ^ 2 * (sw ^ 2 + cw ^ 2 * cI ^ 2) +
      2 * xp * yp * sw * cw * (cI ^ 2 - 1)) * hO

/-- The rotation by the obliquity keeps the length. -/
theorem obliquity_rotation_length (x y z se ce : ℝ) (he : se ^ 2 + ce ^ 2 = 1) :
    x ^ 2 + (ce * y - se * z) ^ 2 + (se * y + ce * z) ^ 2 = x ^ 2 + y ^ 2 + z ^ 2 := by
  linear_combination (y ^ 2 + z ^ 2) * he

/-- The length of the position in the orbital plane. -/
theorem orbital_plane_length (a e sE cE : ℝ) (he0 : 0 ≤ e) (he1 : e < 1)
    (hE : sE ^ 2 + cE ^ 2 = 1) :
    (a * (cE - e)) ^ 2 + (a * Real.sqrt (1.0 - e * e) * sE) ^ 2 = (a * (1 - e * cE)) ^ 2 := by
  have h1 : (0 : ℝ) ≤ 1.0 - e * e := by
    norm_num
    nlinarith
  have hs : Real.sqrt (1.0 - e * e) ^ 2 = 1.0 - e * e := Real.sq_sqrt h1
  have e1 : (a * Real.sqrt (1.0 - e * e) * sE) ^ 2 = a ^ 2 * (1.0 - e * e) * sE ^ 2 := by
    rw [mul_pow, mul_pow, hs]
  rw [e1]
  norm_num
  linear_combination (a ^ 2 * (1 - e * e)) * hE

/-- The reduction loop of the mean anomaly ends for every mean anomaly, with enough
fuel. -/
theorem reduce_mean_anomaly_total (M : ℝ) :
    ∃ n : Nat, ∀ fuel, n ≤ fuel → ∃ M', reduce_mean_anomaly fuel M = some M' := by
  refine ⟨⌈(M - 180) / 360⌉₊ + 1, fun fuel hfuel => ?_⟩
  have h := Nat.le_ceil ((M - 180) / 360)
  have hM : M ≤ 180 + 360 * ((⌈(M - 180) / 360⌉₊ : Nat) : ℝ) := by
    have := (div_le_iff₀ (by norm_num : (0 : ℝ) < 360)).mp h
    linarith
  obtain ⟨M', hM', _⟩ := reduce_mean_anomaly_ends _ M hM fuel hfuel
  exact ⟨M', hM'⟩

/-- C36 (the distance of a planet from the Sun). In exact real arithmetic, for every
date and element set whose values `a` and `e` at the date satisfy `a > 0` and
`0 ≤ e < 1`: with enough fuel for the reduction of the mean anomaly,
`calc_planet_helio_ICRF` returns a position `(xh, yh, zh)` whose Euclidean norm is
`a (1 - e cos E)` for the eccentric anomaly `E` (in degrees) with which the Newton loop
was left, whether it converged or not, and the norm lies between `a (1 - e)` and
`a (1 + e)`. -/
theorem calc_planet_helio_ICRF_distance (elements : KepElems ℝ) (rates : KepRates ℝ)
    (extras : Option (KepExtra ℝ)) (julian_date : ℝ)
    (ha : 0 < elements.a + rates.da * ((julian_date - 2451545.0) / 36525.0))
    (he0 : 0 ≤ elements.e + rates.de * ((julian_date - 2451545.0) / 36525.0))
    (he1 : elements.e + rates.de * ((julian_date - 2451545.0) / 36525.0) < 1) :
    ∃ n : Nat, ∀ fuel, n ≤ fuel → ∃ M xh yh zh,
      planet_mean_anomaly real_libm fuel elements rates extras julian_date = some M ∧
      calc_planet_helio_ICRF real_libm fuel elements rates extras julian_date =
        some (xh, yh, zh) ∧
      Real.sqrt (xh ^ 2 + yh ^ 2 + zh ^ 2) =
        (elements.a + rates.da * ((julian_date - 2451545.0) / 36525.0)) *
          (1 - (elements.e + rates.de * ((julian_date - 2451545.0) / 36525.0)) *
            Real.cos ((planet_eccentric_anomaly real_libm M
              (elements.e + rates.de * ((julian_date - 2451545.0) / 36525.0))).1 *
                TO_RAD real_libm)) ∧
      (elements.a + rates.da * ((julian_date - 2451545.0) / 36525.0)) *
          (1 - (elements.e + rates.de * ((julian_date - 2451545.0) / 36525.0))) ≤
        Real.sqrt (xh ^ 2 + yh ^ 2 + zh ^ 2) ∧
      Real.sqrt (xh ^ 2 + yh ^ 2 + zh ^ 2) ≤
        (elements.a + rates.da * ((julian_date - 2451545.0) / 36525.0)) *
          (1 + (elements.e + rates.de * ((julian_date - 2451545.0) / 36525.0))) := by
  have hred : ∃ n : Nat, ∀ fuel, n ≤ fuel → ∃ M,
      planet_mean_anomaly real_libm fuel elements rates extras julian_date = some M := by
    unfold planet_mean_anomaly
    exact reduce_mean_anomaly_total _
  obtain ⟨n, hn⟩ := hred
  refine ⟨n, fun fuel hfuel => ?_⟩
  obtain ⟨M, hM⟩ := hn fuel hfuel
  generalize ha' : elements.a + rates.da * ((julian_date - 2451545.0) / 36525.0) = a at ha ⊢
  generalize he' : elements.e + rates.de * ((julian_date - 2451545.0) / 36525.0) = e
    at he0 he1 ⊢
  have hval : ∃ xh yh zh, calc_planet_helio_ICRF real_libm fuel elements rates extras
      julian_date = some (xh, yh, zh) ∧
      xh ^ 2 + yh ^ 2 + zh ^ 2 = (a * (1 - e * Real.cos ((planet_eccentric_anomaly real_libm M
        e).1 * TO_RAD real_libm))) ^ 2 := by
    unfold calc_planet_helio_ICRF
    simp only [hM, ha', he']
    refine ⟨_, _, _, rfl, ?_⟩
    simp only [real_libm]
    rw [obliquity_rotation_length _ _ _ _ _ (Real.sin_sq_add_cos_sq _),
      orbit_rotation_length _ _ _ _ _ _ _ _ (Real.sin_sq_add_cos_sq _)
        (Real.sin_sq_add_cos_sq _) (Real.sin_sq_add_cos_sq _),
      orbital_plane_length a e _ _ he0 he1 (Real.sin_sq_add_cos_sq _)]
  obtain ⟨xh, yh, zh, hcalc, hsq⟩ := hval
  have hc1 := Real.cos_le_one ((planet_eccentric_anomaly real_libm M e).1 * TO_RAD real_libm)
  have hc2 := Real.neg_one_le_cos
    ((planet_eccentric_anomaly real_libm M e).1 * TO_RAD real_libm)
  have h1 : e * Real.cos ((planet_eccentric_anomaly real_libm M e).1 * TO_RAD real_libm) ≤ e := by
    nlinarith
  have h2 : -e ≤ e * Real.cos ((planet_eccentric_anomaly real_libm M e).1 * TO_RAD real_libm) := by
    nlinarith
  have hpos : 0 ≤ a * (1 - e * Real.cos ((planet_eccentric_anomaly real_libm M e).1 *
      TO_RAD real_libm)) :=
    mul_nonneg ha.le (by linarith)
  have hnorm : Real.sqrt (xh ^ 2 + yh ^ 2 + zh ^ 2) =
      a * (1 - e * Real.cos ((planet_eccentric_anomaly real_libm M e).1 * TO_RAD real_libm)) := by
    rw [hsq, Real.sqrt_sq hpos]
  refine ⟨M, xh, yh, zh, hM, hcalc, hnorm, ?_, ?_⟩
  · rw [hnorm]
    exact mul_le_mul_of_nonneg_left (by linarith) ha.le
  · rw [hnorm]
    exact mul_le_mul_of_nonneg_left (by linarith) ha.le

/-- Witness for `calc_planet_helio_ICRF_distance`: the sample elements at the Julian date
2455197.5 (1 January 2010), where `a` is about 1.0000032 and `e` about 0.0167068. -/
theorem calc_planet_helio_ICRF_distance_witness :
    0 < sample_elements_real.a + sample_rates_real.da * (((2455197.5 : ℝ) - 2451545.0) / 36525.0) ∧
    0 ≤ sample_elements_real.e + sample_rates_real.de * (((2455197.5 : ℝ) - 2451545.0) / 36525.0) ∧
    sample_elements_real.e + sample_rates_real.de * (((2455197.5 : ℝ) - 2451545.0) / 36525.0) < 1 ∧
    ∃ n : Nat, ∀ fuel, n ≤ fuel → ∃ xh yh zh,
      calc_planet_helio_ICRF real_libm fuel sample_elements_real sample_rates_real none
        2455197.5 = some (xh, yh, zh) ∧
      (sample_elements_real.a + sample_rates_real.da *
          (((2455197.5 : ℝ) - 2451545.0) / 36525.0)) *
        (1 - (sample_elements_real.e + sample_rates_real.de *
          (((2455197.5 : ℝ) - 2451545.0) / 36525.0))) ≤ Real.sqrt (xh ^ 2 + yh ^ 2 + zh ^ 2) ∧
      Real.sqrt (xh ^ 2 + yh ^ 2 + zh ^ 2) ≤
        (sample_elements_real.a + sample_rates_real.da *
          (((2455197.5 : ℝ) - 2451545.0) / 36525.0)) *
        (1 + (sample_elements_real.e + sample_rates_real.de *
          (((2455197.5 : ℝ) - 2451545.0) / 36525.0))) :=
  have h1 : 0 < sample_elements_real.a + sample_rates_real.da *
      (((2455197.5 : ℝ) - 2451545.0) / 36525.0) := by
    simp only [sample_elements_real, sample_rates_real]
    norm_num
  have h2 : 0 ≤ sample_elements_real.e + sample_rates_real.de *
      (((2455197.5 : ℝ) - 2451545.0) / 36525.0) := by
    simp only [sample_elements_real, sample_rates_real]
    norm_num
  have h3 : sample_elements_real.e + sample_rates_real.de *
      (((2455197.5 : ℝ) - 2451545.0) / 36525.0) < 1 := by
    simp only [sample_elements_real, sample_rates_real]
    norm_num
  ⟨h1, h2, h3,
    (calc_planet_helio_ICRF_distance sample_elements_real sample_rates_real none 2455197.5
      h1 h2 h3).imp (fun _ hn fuel hfuel =>
        (hn fuel hfuel).elim (fun _ hM => hM.imp (fun _ hx => hx.imp (fun _ hy =>
          hy.imp (fun _ hz => ⟨hz.2.1, hz.2.2.2.1, hz.2.2.2.2⟩)))))⟩

/-! ### Writes keep what was written -/

theorem put_cell_cells (w : WINDOW) (y x : Int) (ch : Char) :
    (put_cell w y x ch).cells =
      { row := y, col := x, ch := ch, color_pair := w.color_pair } :: w.cells := rfl

/-- A string write puts its cells in front of the cells written before. -/
theorem waddstr_chars_cells (s : List Char) :
    ∀ (w : WINDOW) (y x : Int), ∃ l, (waddstr_chars s w y x).cells = l ++ w.cells := by
  induction s with
  | nil => intro w y x; exact ⟨[], rfl⟩
  | cons c rest ih =>
    intro w y x
    unfold waddstr_chars
    split_ifs with h1 h2
    · obtain ⟨l, hl⟩ := ih (put_cell w y x c) y (x + 1)
      exact ⟨l ++ [{ row := y, col := x, ch := c, color_pair := w.color_pair }], by
        rw [hl, put_cell_cells, List.append_assoc]; rfl⟩
    · obtain ⟨l, hl⟩ := ih (put_cell w y x c) (y + 1) 0
      exact ⟨l ++ [{ row := y, col := x, ch := c, color_pair := w.color_pair }], by
        rw [hl, put_cell_cells, List.append_assoc]; rfl⟩
    · exact ⟨[], rfl⟩

theorem mvwaddstr_cells (w : WINDOW) (y x : Int) (str : String) :
    ∃ l, (mvwaddstr w y x str).cells = l ++ w.cells := by
  unfold mvwaddstr
  split_ifs
  · exact waddstr_chars_cells _ w y x
  · exact ⟨[], rfl⟩

theorem mvwaddstr_truncate_cells (w : WINDOW) (y x : Int) (str : String) :
    ∃ l, (mvwaddstr_truncate w y x str).cells = l ++ w.cells := by
  unfold mvwaddstr_truncate
  simp only []
  split_ifs
  · exact mvwaddstr_cells _ _ _ _
  · exact ⟨[], rfl⟩

/-- A string that is not empty, written at a cell of the window, puts its first
character there. -/
theorem mvwaddstr_first_cell (w : WINDOW) (y x : Int) (str : String) (hs : str ≠ "")
    (hin : in_window w y x = true) :
    ∃ l c, (mvwaddstr w y x str).cells =
      l ++ ({ row := y, col := x, ch := c, color_pair := w.color_pair } :: w.cells) := by
  unfold mvwaddstr
  rw [if_pos hin]
  have hne : str.toList ≠ [] := by
    intro h
    apply hs
    apply String.ext
    exact h
  obtain ⟨c, rest, hc⟩ : ∃ c rest, str.toList = c :: rest := by
    cases hl : str.toList with
    | nil => exact absurd hl hne
    | cons c rest => exact ⟨c, rest, rfl⟩
  rw [hc]
  unfold waddstr_chars
  rw [if_pos hin]
  split_ifs
  · obtain ⟨l, hl⟩ := waddstr_chars_cells rest (put_cell w y x c) y (x + 1)
    exact ⟨l, c, by rw [hl, put_cell_cells]⟩
  · obtain ⟨l, hl⟩ := waddstr_chars_cells rest (put_cell w y x c) (y + 1) 0
    exact ⟨l, c, by rw [hl, put_cell_cells]⟩

/-- The glyph of `render_object_stereo`: for an object inside the unit disk whose cell
lies in the window, and a Unicode glyph that is not empty, the call puts a cell at the
position of the object in front of the cells of the window (and possibly cells of the
label in front of it). -/
theorem render_object_stereo_cells {α : Type} [LinearOrderedField α] [FloorRing α]
    (lib : Libm α) (win : WINDOW) (object : ObjectBase α) (config : Conf α)
    (hr : |(horizontal_to_polar lib object.azimuth object.altitude).1| ≤ 1)
    (hin : in_window win
      (polar_to_win lib (horizontal_to_polar lib object.azimuth object.altitude).1
        (horizontal_to_polar lib object.azimuth object.altitude).2 win.height win.width).1
      (polar_to_win lib (horizontal_to_polar lib object.azimuth object.altitude).1
        (horizontal_to_polar lib object.azimuth object.altitude).2 win.height win.width).2 = true)
    (hs : config.unicode = true → object.symbol_unicode ≠ "") :
    ∃ l c p, (render_object_stereo lib win object config).cells =
      l ++ ({ row := (polar_to_win lib (horizontal_to_polar lib object.azimuth object.altitude).1
                (horizontal_to_polar lib object.azimuth object.altitude).2 win.height
                win.width).1,
              col := (polar_to_win lib (horizontal_to_polar lib object.azimuth object.altitude).1
                (horizontal_to_polar lib object.azimuth object.altitude).2 win.height
                win.width).2,
              ch := c, color_pair := p } :: win.cells) := by
  unfold render_object_stereo
  simp only []
  rw [if_neg (not_lt.mpr hr)]
  generalize hy : (polar_to_win lib (horizontal_to_polar lib object.azimuth object.altitude).1
    (horizontal_to_polar lib object.azimuth object.altitude).2 win.height win.width).1 = y at hin ⊢
  generalize hx : (polar_to_win lib (horizontal_to_polar lib object.azimuth object.altitude).1
    (horizontal_to_polar lib object.azimuth object.altitude).2 win.height win.width).2 = x at hin ⊢
  generalize hw0 : (if (config.color && decide (object.color_pair ≠ 0)) = true then
    wattron_color win object.color_pair else win) = w0
  have hw0c : w0.cells = win.cells := by
    rw [← hw0]
    split_ifs <;> rfl
  have hw0in : in_window w0 y x = true := by
    rw [← hw0]
    split_ifs
    · exact hin
    · exact hin
  have glyph : ∃ l c p, (if config.unicode = true then mvwaddstr w0 y x object.symbol_unicode
      else mvwaddch w0 y x object.symbol_ASCII).cells =
        l ++ ({ row := y, col := x, ch := c, color_pair := p } :: win.cells) := by
    by_cases hu : config.unicode = true
    · rw [if_pos hu]
      obtain ⟨l, c, hl⟩ := mvwaddstr_first_cell w0 y x object.symbol_unicode (hs hu) hw0in
      exact ⟨l, c, w0.color_pair, by rw [hl, hw0c]⟩
    · rw [if_neg hu]
      unfold mvwaddch
      rw [if_pos hw0in, put_cell_cells, hw0c]
      exact ⟨[], _, _, rfl⟩
  generalize (if config.unicode = true then mvwaddstr w0 y x object.symbol_unicode
      else mvwaddch w0 y x object.symbol_ASCII) = w1 at glyph ⊢
  obtain ⟨l, c, p, hl⟩ := glyph
  have tail : ∀ w2 : WINDOW, (∃ l2, w2.cells = l2 ++ w1.cells) →
      ∃ l c p, (if (config.color && decide (object.color_pair ≠ 0)) = true then
        wattroff_color w2 object.color_pair else w2).cells =
          l ++ ({ row := y, col := x, ch := c, color_pair := p } :: win.cells) := by
    rintro w2 ⟨l2, hl2⟩
    refine ⟨l2 ++ l, c, p, ?_⟩
    have e : (if (config.color && decide (object.color_pair ≠ 0)) = true then
        wattroff_color w2 object.color_pair else w2).cells = w2.cells := by
      split_ifs <;> rfl
    rw [e, hl2, hl, List.append_assoc]
  cases object.label with
  | none => exact tail w1 ⟨[], rfl⟩
  | some label => exact tail _ (mvwaddstr_truncate_cells _ _ _ _)

/-! ### The unit disk and the window -/

/-- In exact real arithmetic a point of the unit disk is mapped to a cell of the
window. -/
theorem polar_to_win_range (h w : Int) (hh : 1 ≤ h) (hw : 1 ≤ w) (r theta : ℝ) (hr : |r| ≤ 1) :
    0 ≤ (polar_to_win real_libm r theta h w).1 ∧ (polar_to_win real_libm r theta h w).1 ≤ h - 1 ∧
    0 ≤ (polar_to_win real_libm r theta h w).2 ∧ (polar_to_win real_libm r theta h w).2 ≤ w - 1 := by
  have hs : |r * Real.sin theta| ≤ 1 := by
    rw [abs_mul]
    exact mul_le_one₀ hr (abs_nonneg _) (Real.abs_sin_le_one theta)
  have hc : |r * Real.cos theta| ≤ 1 := by
    rw [abs_mul]
    exact mul_le_one₀ hr (abs_nonneg _) (Real.abs_cos_le_one theta)
  obtain ⟨hs1, hs2⟩ := abs_le.mp hs
  obtain ⟨hc1, hc2⟩ := abs_le.mp hc
  have hy : (0 : ℝ) ≤ ((h - 1 : Int) : ℝ) / 2.0 := by
    have : (0 : ℝ) ≤ ((h - 1 : Int) : ℝ) := by exact_mod_cast (by omega : 0 ≤ h - 1)
    positivity
  have hx : (0 : ℝ) ≤ ((w - 1 : Int) : ℝ) / 2.0 := by
    have : (0 : ℝ) ≤ ((w - 1 : Int) : ℝ) := by exact_mod_cast (by omega : 0 ≤ w - 1)
    positivity
  have z : c_round (0 : ℝ) = 0 := by
    have := c_round_int (α := ℝ) 0
    simpa using this
  have row : ∀ R : ℝ, 0 ≤ R → 0 ≤ r * -R * Real.sin theta + R ∧
      r * -R * Real.sin theta + R ≤ 2 * R := by
    intro R hR
    have e : r * -R * Real.sin theta + R = R * (1 - r * Real.sin theta) := by ring
    rw [e]
    constructor
    · exact mul_nonneg hR (by linarith)
    · have := mul_le_mul_of_nonneg_left (by linarith : 1 - r * Real.sin theta ≤ 2) hR
      linarith
  have col : ∀ R : ℝ, 0 ≤ R → 0 ≤ r * R * Real.cos theta + R ∧
      r * R * Real.cos theta + R ≤ 2 * R := by
    intro R hR
    have e : r * R * Real.cos theta + R = R * (1 + r * Real.cos theta) := by ring
    rw [e]
    constructor
    · exact mul_nonneg hR (by linarith)
    · have := mul_le_mul_of_nonneg_left (by linarith : 1 + r * Real.cos theta ≤ 2) hR
      linarith
  have top : ∀ k : Int, c_round (2 * (((k : Int) : ℝ) / 2.0)) = k := by
    intro k
    have e : 2 * (((k : Int) : ℝ) / 2.0) = ((k : Int) : ℝ) := by
      norm_num
      ring
    rw [e, c_round_int]
  simp only [polar_to_win, real_libm]
  refine ⟨?_, ?_, ?_, ?_⟩
  · have := c_round_mono (row _ hy).1
    rw [z] at this
    exact this
  · have := c_round_mono (row _ hy).2
    rw [top] at this
    exact this
  · have := c_round_mono (col _ hx).1
    rw [z] at this
    exact this
  · have := c_round_mono (col _ hx).2
    rw [top] at this
    exact this

/-- The cell of a point of the unit disk lies in the window. -/
theorem polar_to_win_in_window (win : WINDOW) (hh : 1 ≤ win.height) (hw : 1 ≤ win.width)
    (r theta : ℝ) (hr : |r| ≤ 1) :
    in_window win (polar_to_win real_libm r theta win.height win.width).1
      (polar_to_win real_libm r theta win.height win.width).2 = true := by
  obtain ⟨h1, h2, h3, h4⟩ := polar_to_win_range win.height win.width hh hw r theta hr
  unfold in_window
  rw [decide_eq_true_iff]
  omega


/-! ### Above the horizon -/

/-- In exact real arithmetic the polar radius of a point of altitude at most `π/2` is
`tan ((π/2 - altitude) / 2)`. -/
theorem horizontal_to_polar_radius (azimuth altitude : ℝ) (h : altitude ≤ Real.pi / 2) :
    (horizontal_to_polar real_libm azimuth altitude).1 =
      Real.tan ((Real.pi / 2 - altitude) / 2) := by
  simp only [horizontal_to_polar, horizontal_to_spherical, project_stereographic_north, real_libm]
  have e : |(0.0 : ℝ) - (Real.pi / 2 - altitude)| / 2.0 = (Real.pi / 2 - altitude) / 2 := by
    rw [abs_of_nonpos (by norm_num; linarith)]
    norm_num
  rw [e]
  norm_num

/-- The polar radius is at most 1 exactly from the horizon up, and never negative. -/
theorem horizontal_to_polar_radius_le_one (azimuth altitude : ℝ)
    (h0 : -(Real.pi / 2) < altitude) (h1 : altitude ≤ Real.pi / 2) :
    0 ≤ (horizontal_to_polar real_libm azimuth altitude).1 ∧
    ((horizontal_to_polar real_libm azimuth altitude).1 ≤ 1 ↔ 0 ≤ altitude) := by
  rw [horizontal_to_polar_radius azimuth altitude h1]
  have hpi := Real.pi_pos
  have hu0 : 0 ≤ (Real.pi / 2 - altitude) / 2 := by linarith
  have hu1 : (Real.pi / 2 - altitude) / 2 < Real.pi / 2 := by linarith
  refine ⟨Real.tan_nonneg_of_nonneg_of_le_pi_div_two hu0 hu1.le, ?_⟩
  have hmem : (Real.pi / 2 - altitude) / 2 ∈ Set.Ioo (-(Real.pi / 2)) (Real.pi / 2) :=
    ⟨by linarith, hu1⟩
  have hmem4 : Real.pi / 4 ∈ Set.Ioo (-(Real.pi / 2)) (Real.pi / 2) :=
    ⟨by linarith, by linarith⟩
  rw [← Real.tan_pi_div_four, Real.strictMonoOn_tan.le_iff_le hmem hmem4]
  constructor <;> intro h <;> linarith

/-- C34 (visibility is "above the horizon"). In exact real arithmetic, for every object
with any azimuth and an altitude in `(-π/2, π/2]`: the polar radius returned by
`horizontal_to_polar` is `tan ((π/2 - altitude) / 2)`, which is at most 1 exactly when
the altitude is not negative; and in a window of at least one row and one column
`render_object_stereo` changes the window (draws the body; its Unicode glyph, where
used, is not empty) exactly when the altitude is not negative. -/
theorem render_object_stereo_above_horizon (win : WINDOW) (object : ObjectBase ℝ)
    (config : Conf ℝ) (hh : 1 ≤ win.height) (hw : 1 ≤ win.width)
    (h0 : -(Real.pi / 2) < object.altitude) (h1 : object.altitude ≤ Real.pi / 2)
    (hs : config.unicode = true → object.symbol_unicode ≠ "") :
    (horizontal_to_polar real_libm object.azimuth object.altitude).1 =
      Real.tan ((Real.pi / 2 - object.altitude) / 2) ∧
    ((horizontal_to_polar real_libm object.azimuth object.altitude).1 ≤ 1 ↔
      0 ≤ object.altitude) ∧
    (render_object_stereo real_libm win object config ≠ win ↔ 0 ≤ object.altitude) := by
  obtain ⟨hpos, hiff⟩ := horizontal_to_polar_radius_le_one object.azimuth object.altitude h0 h1
  refine ⟨horizontal_to_polar_radius _ _ h1, hiff, ?_⟩
  constructor
  · intro hne
    by_contra hneg
    apply hne
    have hgt : 1 < |(horizontal_to_polar real_libm object.azimuth object.altitude).1| := by
      rw [abs_of_nonneg hpos]
      by_contra hle
      exact hneg (hiff.mp (not_lt.mp hle))
    unfold render_object_stereo
    simp only []
    rw [if_pos hgt]
  · intro halt heq
    have hr : |(horizontal_to_polar real_libm object.azimuth object.altitude).1| ≤ 1 := by
      rw [abs_of_nonneg hpos]
      exact hiff.mpr halt
    have hin := polar_to_win_in_window win hh hw _
      (horizontal_to_polar real_libm object.azimuth object.altitude).2 hr
    obtain ⟨l, c, p, hl⟩ := render_object_stereo_cells real_libm win object config hr hin hs
    rw [heq] at hl
    have := congrArg List.length hl
    simp at this
    omega

/-- Witness for `render_object_stereo_above_horizon`: the sample object on the horizon
in a blank window of 24 rows and 80 columns is drawn. -/
theorem render_object_stereo_above_horizon_witness :
    (1 : Int) ≤ (newwin 24 80).height ∧ (1 : Int) ≤ (newwin 24 80).width ∧
    -(Real.pi / 2) < sample_object_on_horizon.altitude ∧
    sample_object_on_horizon.altitude ≤ Real.pi / 2 ∧
    (sample_conf.unicode = true → sample_object_on_horizon.symbol_unicode ≠ "") ∧
    (render_object_stereo real_libm (newwin 24 80) sample_object_on_horizon sample_conf ≠
      newwin 24 80 ↔ 0 ≤ sample_object_on_horizon.altitude) :=
  have a0 : -(Real.pi / 2) < sample_object_on_horizon.altitude := by
    have := Real.pi_pos
    simp only [sample_object_on_horizon]
    linarith
  have a1 : sample_object_on_horizon.altitude ≤ Real.pi / 2 := by
    have := Real.pi_pos
    simp only [sample_object_on_horizon]
    linarith
  have hs : sample_conf.unicode = true → sample_object_on_horizon.symbol_unicode ≠ "" := by
    intro _
    simp only [sample_object_on_horizon]
    decide
  ⟨by decide, by decide, a0, a1, hs,
    (render_object_stereo_above_horizon (newwin 24 80) sample_object_on_horizon sample_conf
      (by decide) (by decide) a0 a1 hs).2.2⟩

/-! ### The horizon and its labels -/

/-- A body on the horizon has polar radius 1 and polar angle `π/2 + azimuth`. -/
theorem horizontal_to_polar_horizon (azimuth : ℝ) :
    horizontal_to_polar real_libm azimuth 0 = (1, Real.pi / 2 + azimuth) := by
  have hpi := Real.pi_pos
  have h := horizontal_to_polar_radius azimuth 0 (by linarith)
  have e : (Real.pi / 2 - 0) / 2 = Real.pi / 4 := by ring
  rw [e, Real.tan_pi_div_four] at h
  refine Prod.ext h ?_
  simp only [horizontal_to_polar, horizontal_to_spherical, project_stereographic_north, real_libm]
  ring

/-- The mathematical values are within 0 of themselves: exact real arithmetic is a case
of `horizon_values_within`. -/
theorem real_libm_horizon_values : horizon_values_within real_libm 0 := by
  have hM : real_libm.M_PI = Real.pi := rfl
  unfold horizon_values_within
  simp only [horizontal_to_polar_horizon, hM]
  have a2 : Real.pi / 2 + Real.pi / 2 = Real.pi := by ring
  have a3 : Real.pi / 2 + Real.pi = Real.pi + Real.pi / 2 := by ring
  have a4 : Real.pi / 2 + 3 * Real.pi / 2 = 2 * Real.pi := by ring
  rw [a2, a3, a4]
  simp only [real_libm, add_zero, Real.sin_pi_div_two, Real.cos_pi_div_two, Real.sin_pi,
    Real.cos_pi, Real.sin_add_pi_div_two, Real.cos_add_pi_div_two, Real.sin_two_pi,
    Real.cos_two_pi]
  norm_num

/-- C35 (the unit disk lands inside the window). In exact real arithmetic, for a window
of height `h ≥ 1` and width `w ≥ 1`: every radius `r` with `|r| ≤ 1` and every angle are
mapped by `polar_to_win` to a row in `[0, h - 1]` and a column in `[0, w - 1]`; the cell
at which `render_object_stereo` writes the glyph of an object inside the unit disk is a
cell of the window and is written (the Unicode glyph, where used, being not empty); and
both endpoints of a constellation line after clipping are cells of the window. -/
theorem polar_to_win_inside_window (win : WINDOW) (hh : 1 ≤ win.height) (hw : 1 ≤ win.width) :
    (∀ r theta : ℝ, |r| ≤ 1 →
      0 ≤ (polar_to_win real_libm r theta win.height win.width).1 ∧
      (polar_to_win real_libm r theta win.height win.width).1 ≤ win.height - 1 ∧
      0 ≤ (polar_to_win real_libm r theta win.height win.width).2 ∧
      (polar_to_win real_libm r theta win.height win.width).2 ≤ win.width - 1) ∧
    (∀ (object : ObjectBase ℝ) (config : Conf ℝ),
      |(horizontal_to_polar real_libm object.azimuth object.altitude).1| ≤ 1 →
      (config.unicode = true → object.symbol_unicode ≠ "") →
      in_window win
        (polar_to_win real_libm (horizontal_to_polar real_libm object.azimuth object.altitude).1
          (horizontal_to_polar real_libm object.azimuth object.altitude).2 win.height
          win.width).1
        (polar_to_win real_libm (horizontal_to_polar real_libm object.azimuth object.altitude).1
          (horizontal_to_polar real_libm object.azimuth object.altitude).2 win.height
          win.width).2 = true ∧
      polar_to_win real_libm (horizontal_to_polar real_libm object.azimuth object.altitude).1
          (horizontal_to_polar real_libm object.azimuth object.altitude).2 win.height win.width ∈
        written_cells (render_object_stereo real_libm win object config)) ∧
    (∀ radius theta : ℝ,
      in_window win (clipped_endpoint real_libm win radius theta).1
        (clipped_endpoint real_libm win radius theta).2 = true) := by
  refine ⟨fun r theta hr => polar_to_win_range _ _ hh hw r theta hr, ?_, ?_⟩
  · intro object config hr hs
    have hin := polar_to_win_in_window win hh hw _
      (horizontal_to_polar real_libm object.azimuth object.altitude).2 hr
    refine ⟨hin, ?_⟩
    obtain ⟨l, c, p, hl⟩ := render_object_stereo_cells real_libm win object config hr hin hs
    unfold written_cells
    rw [hl]
    simp
  · intro radius theta
    unfold clipped_endpoint
    apply polar_to_win_in_window win hh hw
    split_ifs with h
    · simp
    · exact not_lt.mp h

/-- Witness for `polar_to_win_inside_window`: a blank window of 24 rows and 80 columns;
the point of radius 1 at angle `π/2` lands in row 0, and the cell of the sample object on
the horizon, which has polar radius 1, is written. -/
theorem polar_to_win_inside_window_witness :
    (1 : Int) ≤ (newwin 24 80).height ∧ (1 : Int) ≤ (newwin 24 80).width ∧
    0 ≤ (polar_to_win real_libm 1 (Real.pi / 2) (newwin 24 80).height (newwin 24 80).width).1 ∧
    (polar_to_win real_libm 1 (Real.pi / 2) (newwin 24 80).height (newwin 24 80).width).2 ≤
      (newwin 24 80).width - 1 ∧
    |(horizontal_to_polar real_libm sample_object_on_horizon.azimuth
      sample_object_on_horizon.altitude).1| ≤ 1 ∧
    polar_to_win real_libm
        (horizontal_to_polar real_libm sample_object_on_horizon.azimuth
          sample_object_on_horizon.altitude).1
        (horizontal_to_polar real_libm sample_object_on_horizon.azimuth
          sample_object_on_horizon.altitude).2 (newwin 24 80).height (newwin 24 80).width ∈
      written_cells (render_object_stereo real_libm (newwin 24 80) sample_object_on_horizon
        sample_conf) :=
  have hr : |(horizontal_to_polar real_libm sample_object_on_horizon.azimuth
      sample_object_on_horizon.altitude).1| ≤ 1 := by
    simp only [sample_object_on_horizon]
    rw [horizontal_to_polar_horizon]
    norm_num
  have hs : sample_conf.unicode = true → sample_object_on_horizon.symbol_unicode ≠ "" := by
    intro _
    simp only [sample_object_on_horizon]
    decide
  ⟨by decide, by decide,
    ((polar_to_win_inside_window (newwin 24 80) (by decide) (by decide)).1 1 (Real.pi / 2)
      (by norm_num)).1,
    ((polar_to_win_inside_window (newwin 24 80) (by decide) (by decide)).1 1 (Real.pi / 2)
      (by norm_num)).2.2.2, hr,
    ((polar_to_win_inside_window (newwin 24 80) (by decide) (by decide)).2.1
      sample_object_on_horizon sample_conf hr hs).2⟩

/-! ### The star table in the draw phase -/

theorem without_label_idem {α : Type} (star : Star α) :
    star.without_label.without_label = star.without_label := rfl

theorem without_label_magnitude {α : Type} (star : Star α) :
    star.without_label.magnitude = star.magnitude := rfl

/-- The loop of `render_stars_stereo` with all its reads inside the arrays: it ends, the
table keeps its length, and each star is left as it was or without its label: without
it exactly when the loop came to the star and its magnitude is at most the threshold and
above the label threshold. -/
theorem render_stars_stereo_loop_spec {α : Type} [LinearOrderedField α] [FloorRing α]
    (lib : Libm α) (config : Conf α) (num_by_mag : List Int) (len : Nat)
    (hcat : ∀ c ∈ num_by_mag, 1 ≤ c ∧ c ≤ len) (remaining : Nat) :
    ∀ (i : Nat) (win : WINDOW) (star_table : List (Star α)), star_table.length = len →
      i + remaining ≤ num_by_mag.length →
      ∃ win1 table1, render_stars_stereo_loop lib config num_by_mag remaining i win star_table =
          some (win1, table1) ∧ table1.length = len ∧
        ∀ (j : Nat) (star : Star α), star_table[j]? = some star →
          table1[j]? = some
            (if ((j : Int) + 1) ∈ (num_by_mag.drop i).take remaining ∧
                star.magnitude ≤ config.threshold ∧ config.label_thresh < star.magnitude
              then star.without_label else star) := by
  induction remaining with
  | zero =>
    intro i win star_table hlen _
    refine ⟨win, star_table, rfl, hlen, fun j star hj => ?_⟩
    simp [hj]
  | succ remaining ih =>
    intro i win star_table hlen hi
    have hi' : i < num_by_mag.length := by omega
    have hread : num_by_mag[i]? = some num_by_mag[i] := List.getElem?_eq_getElem hi'
    obtain ⟨hc0, hc1⟩ := hcat num_by_mag[i] (List.getElem_mem hi')
    generalize hcn : num_by_mag[i] = c at hread hc0 hc1
    have hidx : (c - 1).toNat < star_table.length := by omega
    have hstar : star_at star_table c = some star_table[(c - 1).toNat] := by
      unfold star_at
      simp only []
      rw [if_pos (by omega), List.getElem?_eq_getElem hidx]
    generalize hs0 : star_table[(c - 1).toNat] = star0 at hstar
    have hget : star_table[(c - 1).toNat]? = some star0 := by
      rw [List.getElem?_eq_getElem hidx, hs0]
    have hdrop : (num_by_mag.drop i).take (remaining + 1) =
        c :: (num_by_mag.drop (i + 1)).take remaining := by
      rw [List.drop_eq_getElem_cons hi', List.take_succ_cons, hcn]
    have hmem : ∀ j : Nat, ((j : Int) + 1) ∈ (num_by_mag.drop i).take (remaining + 1) ↔
        (j = (c - 1).toNat ∨ ((j : Int) + 1) ∈ (num_by_mag.drop (i + 1)).take remaining) := by
      intro j
      rw [hdrop, List.mem_cons]
      constructor
      · rintro (h | h)
        · left; omega
        · right; exact h
      · rintro (h | h)
        · left; omega
        · right; exact h
    rw [render_stars_stereo_loop, hread]
    simp only [hstar]
    by_cases hthr : star0.magnitude > config.threshold
    · rw [if_pos hthr]
      obtain ⟨win1, table1, hrun, hlen1, hspec⟩ := ih (i + 1) win star_table hlen (by omega)
      refine ⟨win1, table1, hrun, hlen1, fun j star hj => ?_⟩
      rw [hspec j star hj]
      by_cases hjc : j = (c - 1).toNat
      · have hst : star = star0 := by
          rw [hjc, hget] at hj
          exact (Option.some.inj hj).symm
        have hno : ¬ star.magnitude ≤ config.threshold := by
          rw [hst]
          exact not_le.mpr hthr
        rw [if_neg (fun h => hno h.2.1), if_neg (fun h => hno h.2.1)]
      · have := hmem j
        simp only [hjc, false_or] at this
        simp only [this]
    · rw [if_neg hthr]
      by_cases hlab : star0.magnitude > config.label_thresh
      · simp only [if_pos hlab]
        obtain ⟨win1, table1, hrun, hlen1, hspec⟩ := ih (i + 1)
          (render_object_stereo lib win star0.without_label.base config)
          (star_table.set (c - 1).toNat star0.without_label)
          (by rw [List.length_set]; exact hlen) (by omega)
        refine ⟨win1, table1, hrun, hlen1, fun j star hj => ?_⟩
        by_cases hjc : j = (c - 1).toNat
        · have hst : star = star0 := by
            rw [hjc, hget] at hj
            exact (Option.some.inj hj).symm
          have hj1 : (star_table.set (c - 1).toNat star0.without_label)[j]? =
              some star0.without_label := by
            rw [hjc, List.getElem?_set_self hidx]
          have hpos : ((j : Int) + 1) ∈ (num_by_mag.drop i).take (remaining + 1) ∧
              star0.magnitude ≤ config.threshold ∧ config.label_thresh < star0.magnitude :=
            ⟨(hmem j).mpr (Or.inl hjc), not_lt.mp hthr, hlab⟩
          rw [hspec j _ hj1, hst, without_label_idem, ite_self, if_pos hpos]
        · have hj1 : (star_table.set (c - 1).toNat star0.without_label)[j]? = some star := by
            rw [List.getElem?_set_ne (fun h => hjc h.symm)]
            exact hj
          rw [hspec j _ hj1]
          have := hmem j
          simp only [hjc, false_or] at this
          simp only [this]
      · simp only [if_neg hlab]
        obtain ⟨win1, table1, hrun, hlen1, hspec⟩ := ih (i + 1)
          (render_object_stereo lib win star0.base config) star_table hlen (by omega)
        refine ⟨win1, table1, hrun, hlen1, fun j star hj => ?_⟩
        rw [hspec j star hj]
        by_cases hjc : j = (c - 1).toNat
        · have hst : star = star0 := by
            rw [hjc, hget] at hj
            exact (Option.some.inj hj).symm
          have hno : ¬ config.label_thresh < star.magnitude := by
            rw [hst]
            exact hlab
          rw [if_neg (fun h => hno h.2.2), if_neg (fun h => hno h.2.2)]
        · have := hmem j
          simp only [hjc, false_or] at this
          simp only [this]

/-- C33, as the code has it (the star table in the draw phase). For every star table,
configuration and window, with the catalogue numbers read by the loop inside the table:
`render_stars_stereo` ends, the table keeps its length, and every star is left as it
was in every field except the label; the label is set to `NULL` exactly for the stars
that the loop comes to with a magnitude at most the threshold and above the label
threshold. -/
theorem render_stars_stereo_changes_only_labels {α : Type} [LinearOrderedField α]
    [FloorRing α] (lib : Libm α) (win : WINDOW) (config : Conf α) (star_table : List (Star α))
    (num_stars : Int) (num_by_mag : List Int) (hnum : num_stars.toNat ≤ num_by_mag.length)
    (hcat : ∀ c ∈ num_by_mag, 1 ≤ c ∧ c ≤ star_table.length) :
    ∃ win1 table1, render_stars_stereo lib win config star_table num_stars num_by_mag =
        some (win1, table1) ∧ table1.length = star_table.length ∧
      ∀ (j : Nat) (star : Star α), star_table[j]? = some star →
        table1[j]? = some
          (if ((j : Int) + 1) ∈ num_by_mag.take num_stars.toNat ∧
              star.magnitude ≤ config.threshold ∧ config.label_thresh < star.magnitude
            then star.without_label else star) := by
  have h := render_stars_stereo_loop_spec lib config num_by_mag star_table.length hcat
    num_stars.toNat 0 win star_table rfl (by omega)
  rw [List.drop_zero] at h
  exact h

/-- Witness for `render_stars_stereo_changes_only_labels`: the table of the one labelled
sample star, drawn with the plain sample configuration. -/
theorem render_stars_stereo_changes_only_labels_witness :
    (1 : Int).toNat ≤ [(1 : Int)].length ∧
    (∀ c ∈ [(1 : Int)], 1 ≤ c ∧ c ≤ [sample_labelled_star].length) ∧
    ∃ win1 table1, render_stars_stereo rounded_libm (newwin 24 80) sample_conf_plain
        [sample_labelled_star] 1 [1] = some (win1, table1) ∧ table1.length = 1 :=
  have h1 : (1 : Int).toNat ≤ [(1 : Int)].length := by decide
  have h2 : ∀ c ∈ [(1 : Int)], 1 ≤ c ∧ c ≤ [sample_labelled_star].length := by
    intro c hc
    rw [List.mem_singleton] at hc
    subst hc
    decide
  ⟨h1, h2,
    (render_stars_stereo_changes_only_labels rounded_libm (newwin 24 80) sample_conf_plain
      [sample_labelled_star] 1 [1] h1 h2).imp (fun _ h => h.imp (fun _ h' => ⟨h'.1, h'.2.1⟩))⟩

/-- Counterexample to C33 as stated: drawing the table of the one sample star of
magnitude 3, labelled "Sirius", with threshold 5 and label threshold 2 leaves the star
without its label. -/
theorem render_stars_stereo_removes_label :
    (render_stars_stereo rounded_libm (newwin 24 80) sample_conf_plain [sample_labelled_star] 1
      [1]).map Prod.snd = some [sample_labelled_star.without_label] ∧
    sample_labelled_star.base.label = some "Sirius" ∧
    sample_labelled_star.without_label.base.label = none ∧
    [sample_labelled_star.without_label] ≠ [sample_labelled_star] := by
  refine ⟨?_, rfl, rfl, ?_⟩
  · have e1 : ([(1 : Int)] : List Int)[0]? = some 1 := rfl
    have e2 : star_at [sample_labelled_star] 1 = some sample_labelled_star := rfl
    have e3 : ¬ sample_labelled_star.magnitude > sample_conf_plain.threshold := by
      simp only [sample_labelled_star, sample_conf_plain]
      norm_num
    have e4 : sample_labelled_star.magnitude > sample_conf_plain.label_thresh := by
      simp only [sample_labelled_star, sample_conf_plain]
      norm_num
    unfold render_stars_stereo
    rw [show (1 : Int).toNat = 1 from rfl, render_stars_stereo_loop, e1]
    simp only [e2]
    rw [if_neg e3]
    simp only [if_pos e4]
    rw [render_stars_stereo_loop]
    rfl
  · intro h
    have h' := congrArg (fun t => t.map (fun s => s.base.label)) h
    simp [Star.without_label, sample_labelled_star] at h'

/-! ### The star table in catalogue order -/

/-- An entry whose magnitude lies in [-1.46, 7.96] makes a star, with the number of the
entry. -/
theorem star_of_entry_some {α : Type} [LinearOrderedField α] [FloorRing α] (entry : Entry α)
    (name : Option String) (h0 : -1.46 ≤ entry.MAG / 100.0) (h1 : entry.MAG / 100.0 ≤ 7.96) :
    ∃ star, star_of_entry entry name = some star ∧ star.catalog_number = c_int entry.XNO := by
  obtain ⟨i0, i1⟩ := symbol_index_range (entry.MAG / 100.0) h0 h1
  have hlt : (map_float_to_int_range (-1.46 : α) 7.96 0 9 (entry.MAG / 100.0)).toNat < 10 := by
    omega
  obtain ⟨ca, hca⟩ : ∃ c, mag_map_round_ASCII[(map_float_to_int_range (-1.46 : α) 7.96 0 9
      (entry.MAG / 100.0)).toNat]? = some c :=
    ⟨_, List.getElem?_eq_getElem (by simpa [mag_map_round_ASCII] using hlt)⟩
  obtain ⟨cu, hcu⟩ : ∃ c, mag_map_unicode_round[(map_float_to_int_range (-1.46 : α) 7.96 0 9
      (entry.MAG / 100.0)).toNat]? = some c :=
    ⟨_, List.getElem?_eq_getElem (by simpa [mag_map_unicode_round] using hlt)⟩
  unfold star_of_entry
  simp only []
  rw [if_pos i0, hca, hcu]
  exact ⟨_, rfl, rfl⟩

/-- With enough entries and names, and magnitudes in [-1.46, 7.96], the loop of
`generate_star_table` makes a table of as many stars as it is asked for. -/
theorem generate_star_table_from_some {α : Type} [LinearOrderedField α] [FloorRing α]
    (entries : List (Entry α)) (name_table : List (Option String))
    (hmag : ∀ e ∈ entries, -1.46 ≤ e.MAG / 100.0 ∧ e.MAG / 100.0 ≤ 7.96) (remaining : Nat) :
    ∀ i : Nat, i + remaining ≤ entries.length → i + remaining ≤ name_table.length →
      ∃ table, generate_star_table_from entries name_table remaining i = some table ∧
        table.length = remaining := by
  induction remaining with
  | zero =>
    intro i _ _
    exact ⟨[], rfl, rfl⟩
  | succ remaining ih =>
    intro i he hn
    have hi : i < entries.length := by omega
    have hi' : i < name_table.length := by omega
    obtain ⟨m0, m1⟩ := hmag entries[i] (List.getElem_mem hi)
    obtain ⟨star, hstar, _⟩ := star_of_entry_some entries[i] name_table[i] m0 m1
    obtain ⟨rest, hrest, hlen⟩ := ih (i + 1) (by omega) (by omega)
    refine ⟨star :: rest, ?_, by rw [List.length_cons, hlen]⟩
    rw [generate_star_table_from, List.getElem?_eq_getElem hi, List.getElem?_eq_getElem hi']
    simp only [hstar, hrest]

/-- C13, as the code has it (catalogue number and table index). For every list of
catalogue entries in catalogue order (entry `i` carries the number `i + 1`, as the
entries of the BSC5 file do), with magnitudes in [-1.46, 7.96] and a name for every
entry: `generate_star_table` produces a table of `num_stars` stars in which
`table[i].catalog_number = i + 1`, so the lookup `table[n - 1]` reaches the star that
carries the number `n`, for every `n` from 1 to `num_stars`. -/
theorem generate_star_table_catalogue_order {α : Type} [LinearOrderedField α] [FloorRing α]
    (entries : List (Entry α)) (name_table : List (Option String)) (num_stars : Nat)
    (hlen : num_stars ≤ entries.length) (hnames : num_stars ≤ name_table.length)
    (hmag : ∀ e ∈ entries, -1.46 ≤ e.MAG / 100.0 ∧ e.MAG / 100.0 ≤ 7.96)
    (horder : ∀ (i : Nat) (e : Entry α), entries[i]? = some e → c_int e.XNO = i + 1) :
    ∃ table, generate_star_table true entries name_table num_stars = some table ∧
      table.length = num_stars ∧
      (∀ (i : Nat) (star : Star α), table[i]? = some star → star.catalog_number = i + 1) ∧
      (∀ n : Int, 1 ≤ n → n ≤ num_stars →
        ∃ star, star_at table n = some star ∧ star.catalog_number = n) := by
  obtain ⟨table, hrun, hl⟩ := generate_star_table_from_some entries name_table hmag num_stars 0
    (by omega) (by omega)
  have hmap := generate_star_table_from_numbers entries name_table num_stars 0 table hrun
  rw [List.drop_zero] at hmap
  have hnum : ∀ (i : Nat) (star : Star α), table[i]? = some star →
      star.catalog_number = i + 1 := by
    intro i star hi
    have hlt : i < table.length := by
      by_contra hge
      rw [List.getElem?_eq_none (not_lt.mp hge)] at hi
      exact absurd hi (by simp)
    have h1 : (table.map (fun s => s.catalog_number))[i]? = some star.catalog_number := by
      rw [List.getElem?_map, hi]
      rfl
    rw [hmap, List.getElem?_map, List.getElem?_take_of_lt (by omega)] at h1
    have hie : i < entries.length := by omega
    rw [List.getElem?_eq_getElem hie] at h1
    have h2 := horder i entries[i] (List.getElem?_eq_getElem hie)
    simp only [Option.map_some', Option.some.injEq] at h1
    rw [← h1, h2]
  refine ⟨table, ?_, hl, hnum, ?_⟩
  · unfold generate_star_table
    simp only [Bool.not_true, Bool.false_eq_true, if_false]
    exact hrun
  · intro n hn0 hn1
    have hidx : (n - 1).toNat < table.length := by omega
    refine ⟨table[(n - 1).toNat], ?_, ?_⟩
    · unfold star_at
      simp only []
      rw [if_pos (by omega), List.getElem?_eq_getElem hidx]
    · have := hnum (n - 1).toNat _ (List.getElem?_eq_getElem hidx)
      rw [this]
      omega

/-- Witness for `generate_star_table_catalogue_order`: the two sample entries numbered 1
and 2, in that order, without names. -/
theorem generate_star_table_catalogue_order_witness :
    (2 : Nat) ≤ ordered_entries.length ∧ (2 : Nat) ≤ [(none : Option String), none].length ∧
    (∀ e ∈ ordered_entries, -1.46 ≤ e.MAG / 100.0 ∧ e.MAG / 100.0 ≤ 7.96) ∧
    (∀ (i : Nat) (e : Entry ℚ), ordered_entries[i]? = some e → c_int e.XNO = i + 1) ∧
    ∃ table, generate_star_table true ordered_entries [none, none] 2 = some table ∧
      table.length = 2 ∧
      ∀ n : Int, 1 ≤ n → n ≤ (2 : Nat) →
        ∃ star, star_at table n = some star ∧ star.catalog_number = n :=
  have hmag : ∀ e ∈ ordered_entries, -1.46 ≤ e.MAG / 100.0 ∧ e.MAG / 100.0 ≤ 7.96 := by
    intro e he
    simp only [ordered_entries, List.mem_cons, List.mem_singleton, List.not_mem_nil,
      or_false] at he
    rcases he with rfl | rfl <;> simp only [sample_entry] <;> norm_num
  have horder : ∀ (i : Nat) (e : Entry ℚ), ordered_entries[i]? = some e →
      c_int e.XNO = i + 1 := by
    intro i e he
    have c1 : c_int (1 : ℚ) = 1 := by
      unfold c_int
      rw [if_pos (by norm_num)]
      exact Int.floor_intCast 1
    have c2 : c_int (2 : ℚ) = 2 := by
      unfold c_int
      rw [if_pos (by norm_num)]
      exact Int.floor_intCast 2
    match i, he with
    | 0, he =>
      simp only [ordered_entries, List.getElem?_cons_zero, Option.some.injEq] at he
      rw [← he]
      simpa [sample_entry] using c1
    | 1, he =>
      simp only [ordered_entries, List.getElem?_cons_succ, List.getElem?_cons_zero,
        Option.some.injEq] at he
      rw [← he]
      simpa [sample_entry] using c2
    | k + 2, he =>
      simp [ordered_entries] at he
  ⟨by decide, by decide, hmag, horder,
    (generate_star_table_catalogue_order ordered_entries [none, none] 2 (by decide) (by decide)
      hmag horder).imp (fun _ h => ⟨h.1, h.2.1, h.2.2.2⟩)⟩

end Celestial
